import Mathlib

/-!
# Coriolis: Tramontana extractor (tiles, union-find, sweep line), Katabatic/Kite sessions,
auto segments and power rails

A shallow embedding of `tramontana/src/Tile.cpp`, `tramontana/src/SweepLine.cpp`,
`katabatic/src/Session.cpp`, `katabatic/src/katabatic/Session.h`,
`katabatic/src/AutoSegment.cpp`, `kite/src/Session.cpp` and
`kite/src/BuildPowerRails.cpp`.

Pointers are natural numbers: a `Tile*` is the index of the tile in `Tile::_allocateds`
(equal to its `_id`, both grow together in the constructor), the null pointer is `none`.
Loops that follow parent pointers take a `fuel` argument; running out of fuel
(`none`) stands for a loop that does not terminate.
-/

namespace Tramontana

/-! ## Data model -/

/-- Hurricane box, four database-unit coordinates. -/
structure Box where
  xMin : Int
  yMin : Int
  xMax : Int
  yMax : Int
deriving DecidableEq, Repr

/-- Bounding union of two boxes (`Box::merge`). -/
def Box.merge (a b : Box) : Box :=
  { xMin := min a.xMin b.xMin, yMin := min a.yMin b.yMin
  , xMax := max a.xMax b.xMax, yMax := max a.yMax b.yMax }

/-- Box `a` lies inside box `b`. -/
def Box.inside (a b : Box) : Prop :=
  b.xMin ≤ a.xMin ∧ b.yMin ≤ a.yMin ∧ a.xMax ≤ b.xMax ∧ a.yMax ≤ b.yMax

instance (a b : Box) : Decidable (a.inside b) := by
  unfold Box.inside; infer_instance

/-- The fields of `Tramontana::Tile` set by the constructor of `Tile.cpp`
(the `_id` is the address of the tile in the heap below). The bit `OccMerged` of
`_flags` is the only flag bit `Tile.cpp` reads or writes on a tile. -/
structure Tile where
  occurrence : Nat
  layer : Nat
  boundingBox : Box
  equipotential : Option Nat
  occMerged : Bool
  parent : Option Nat
  rank : Nat
  timeStamp : Nat
deriving DecidableEq, Repr

/-- Modelled from the spec: `Equipotential.cpp` is missing; an equipotential carries a
set of component occurrences, a bounding box (the union of the boxes folded into it,
`none` while empty) and the `Merged` flag of `Equipotential.h`. -/
structure Equipotential where
  components : List Nat
  boundingBox : Option Box
  merged : Bool
deriving DecidableEq, Repr

/-- Modelled from the spec: `Equipotential::create`, a fresh empty equipotential. -/
def Equipotential.create : Equipotential :=
  { components := [], boundingBox := none, merged := false }

/-- Modelled from the spec: `Equipotential::add(occurrence, box)` inserts the occurrence in
the component set and extends the bounding box by `box`. -/
def Equipotential.add (e : Equipotential) (occ : Nat) (bb : Box) : Equipotential :=
  { e with components := if occ ∈ e.components then e.components else occ :: e.components
         , boundingBox := match e.boundingBox with
                          | none => some bb
                          | some b => some (b.merge bb) }

/-- Modelled from the spec: what `Equipotential::merge(other)` leaves in the receiver, the
components and the bounding box of `other` folded in. -/
def Equipotential.absorb (e other : Equipotential) : Equipotential :=
  { e with components := e.components ++ other.components.filter (fun o => decide (o ∉ e.components))
         , boundingBox := match e.boundingBox, other.boundingBox with
                          | b, none => b
                          | none, some o => some o
                          | some b, some o => some (b.merge o) }

/-- Modelled from the spec: what `Equipotential::merge(other)` leaves in `other`, emptied
and flagged `Merged`. -/
def Equipotential.drained (_other : Equipotential) : Equipotential :=
  { components := [], boundingBox := none, merged := true }

/-- The extractor heap: the allocated tiles (`Tile::_allocateds`, `Tile::_idCounter`),
the epoch counter `Tile::_time`, and the equipotentials created so far. -/
structure State where
  tile : Nat → Tile
  idCounter : Nat
  time : Nat
  equi : Nat → Equipotential
  equiCount : Nat

/-- Parent pointer of a tile (`Tile::getParent`). -/
def State.parent (s : State) (t : Nat) : Option Nat := (s.tile t).parent

/-- Rank of a tile (`Tile::getRank`). -/
def State.rank (s : State) (t : Nat) : Nat := (s.tile t).rank

/-- Update one tile of the heap. -/
def State.modifyTile (s : State) (t : Nat) (f : Tile → Tile) : State :=
  { s with tile := fun u => if u = t then f (s.tile u) else s.tile u }

/-- Update one equipotential of the heap. -/
def State.modifyEqui (s : State) (e : Nat) (f : Equipotential → Equipotential) : State :=
  { s with equi := fun u => if u = e then f (s.equi u) else s.equi u }

/-- The function `Tile::setParent`. -/
def State.setParent (s : State) (t : Nat) (p : Option Nat) : State :=
  s.modifyTile t (fun x => { x with parent := p })

/-- Modelled from the spec: `Tile::incRank` (declared in the missing `Tile.h`), the rank
goes up by one. A root of rank `r` heads at least `2^r` tiles, so a machine counter
cannot wrap here. -/
def State.incRank (s : State) (t : Nat) : State :=
  s.modifyTile t (fun x => { x with rank := x.rank + 1 })

/-- Modelled from the spec: `Tile::isUpToDate` (declared in the missing `Tile.h`), the time
stamp of the tile has caught up with the epoch counter. -/
def State.isUpToDate (s : State) (t : Nat) : Bool := decide (s.time ≤ (s.tile t).timeStamp)

/-- Modelled from the spec: `Tile::syncTime` (declared in the missing `Tile.h`). -/
def State.syncTime (s : State) (t : Nat) : State :=
  s.modifyTile t (fun x => { x with timeStamp := s.time })

/-- Modelled from the spec: `Tile::timeTick` (declared in the missing `Tile.h`), the epoch
counter advances. -/
def State.timeTick (s : State) : State := { s with time := s.time + 1 }

/-- The function `Tile::setOccMerged`. -/
def State.setOccMerged (s : State) (t : Nat) (b : Bool) : State :=
  s.modifyTile t (fun x => { x with occMerged := b })

/-- The flags `Tile::getRoot` and `Tile::create` test (`flags & Compress`, ...). The bit
values live in the missing `Tile.h`; a flag set is the record of which bits are set. -/
structure Flags where
  compress : Bool
  mergeEqui : Bool
  makeLeafEqui : Bool
  forceLayer : Bool
deriving DecidableEq, Repr

/-- The function `Tile::newEquipotential`: returns the equipotential of the tile, creating it (with the
occurrence and bounding box of the tile) when there is none. -/
def newEquipotential (s : State) (t : Nat) : Nat × State :=
  match (s.tile t).equipotential with
  | some e => (e, s)
  | none =>
    let e := s.equiCount
    let s1 : State := { s with equiCount := e + 1
                             , equi := fun u => if u = e then Equipotential.create else s.equi u }
    let s2 := s1.modifyTile t (fun x => { x with equipotential := some e })
    (e, s2.modifyEqui e (fun q => q.add (s.tile t).occurrence (s.tile t).boundingBox))

/-- First loop of `Tile::getRoot`: `while (root->getParent()) root = root->getParent()`. -/
def climb (par : Nat → Option Nat) : Nat → Nat → Option Nat
  | 0, _ => none
  | fuel + 1, t =>
    match par t with
    | none => some t
    | some p => climb par fuel p

/-- Body of the `MergeEqui` loop of `Tile::getRoot` for the tile `current`, in a call
started on tile `self` (the body reads `_boundingBox`, the box of `self`):
a tile not yet occurrence-merged has its equipotential merged into the root equipotential,
or, when it owns none, its occurrence added; it is then flagged and time-stamped. -/
def mergeVisit (self rootEqui : Nat) (s : State) (current : Nat) : State :=
  if (s.tile current).occMerged then s
  else
    let s2 :=
      match (s.tile current).equipotential with
      | some e =>
        if e ≠ rootEqui then
          (s.modifyEqui rootEqui (fun q => q.absorb (s.equi e))).modifyEqui e
            Equipotential.drained
        else s
      | none =>
        s.modifyEqui rootEqui
          (fun q => q.add (s.tile current).occurrence (s.tile self).boundingBox)
    (s2.setOccMerged current true).syncTime current

/-- The `MergeEqui` loop of `Tile::getRoot`, started by tile `self`, climbing from
`current` towards `root`: `while ((current != root) and current)`, leaving at the first
up-to-date tile. -/
def mergeLoop (self root rootEqui : Nat) : Nat → State → Option Nat → Option State
  | 0, _, _ => none
  | _ + 1, s, none => some s
  | fuel + 1, s, some current =>
    if current = root then some s
    else if s.isUpToDate current then some s
    else
      let s1 := mergeVisit self rootEqui s current
      mergeLoop self root rootEqui fuel s1 (s1.parent current)

/-- The `Compress` loop of `Tile::getRoot`. Reading the parent of a null `current` is a
crash, rendered as `none`. -/
def compressLoop (root : Nat) : Nat → State → Option Nat → Option State
  | 0, _, _ => none
  | _ + 1, _, none => none
  | fuel + 1, s, some current =>
    if current = root then some s
    else compressLoop root fuel (s.setParent current (some root)) (s.parent current)

/-- The function `Tile::getRoot(flags)` called on tile `t`; returns the root and the new heap. -/
def getRoot (fuel : Nat) (s : State) (t : Nat) (flags : Flags) : Option (Nat × State) :=
  match s.parent t with
  | none =>
    if flags.makeLeafEqui ∧ (s.tile t).equipotential = none then
      some (t, (newEquipotential s t).2)
    else some (t, s)
  | some _ =>
    match climb s.parent fuel t with
    | none => none
    | some root =>
      let merged : Option State :=
        if flags.mergeEqui then
          let re := newEquipotential s root
          mergeLoop t root re.1 fuel re.2 (some t)
        else some s
      match merged with
      | none => none
      | some s1 =>
        if flags.compress then
          match compressLoop root fuel s1 (some t) with
          | none => none
          | some s2 => some (root, s2)
        else some (root, s1)

/-- The function `Tile::merge(other)` called on tile `a` with `other = b`. -/
def merge (fuel : Nat) (s : State) (a b : Nat) : Option (Nat × State) :=
  let fl : Flags := { compress := true, mergeEqui := true, makeLeafEqui := false, forceLayer := false }
  match getRoot fuel s a fl with
  | none => none
  | some (root1, s1) =>
    match getRoot fuel s1 b fl with
    | none => none
    | some (root2, s2) =>
      if root1 = root2 then some (root1, s2)
      else
        let r1 := if s2.rank root1 < s2.rank root2 then root2 else root1
        let r2 := if s2.rank root1 < s2.rank root2 then root1 else root2
        let s3 := if s2.rank r1 = s2.rank r2 then s2.incRank r1 else s2
        some (r1, s3.setParent r2 (some r1))

/-! ## The parent forest -/

/-- Tile `t` reaches the parentless tile `r` after `n` parent links. -/
inductive RootAt (par : Nat → Option Nat) : Nat → Nat → Nat → Prop
  | root {t : Nat} : par t = none → RootAt par 0 t t
  | step {n t p r : Nat} : par t = some p → RootAt par n p r → RootAt par (n + 1) t r

/-- Tile `r` is the root of tile `t`: following parent links from `t` ends at `r`,
which has no parent. -/
def HasRoot (par : Nat → Option Nat) (t r : Nat) : Prop := ∃ n, RootAt par n t r

/-- Tile `a` is `t` or one of its ancestors. -/
def Ancestor (par : Nat → Option Nat) (t a : Nat) : Prop :=
  Relation.ReflTransGen (fun x y => par x = some y) t a

/-- The parent pointers form a forest: every tile has a root (no cycle). -/
def Acyclic (s : State) : Prop := ∀ t, ∃ r, HasRoot s.parent t r

/-- Two tiles are in the same union-find class. -/
def SameRoot (s : State) (a b : Nat) : Prop := ∃ r, HasRoot s.parent a r ∧ HasRoot s.parent b r

/-! ## Frames: what an operation leaves alone -/

/-- Heap `s'` has the tiles of `s` up to equipotential pointers, occurrence-merged flags and
time stamps: same parents, ranks, occurrences, layers and boxes, same number of tiles. -/
def TileFrame (s s' : State) : Prop :=
  s'.idCounter = s.idCounter ∧ s'.time = s.time ∧ ∀ u,
    (s'.tile u).parent = (s.tile u).parent ∧ (s'.tile u).rank = (s.tile u).rank ∧
    (s'.tile u).occurrence = (s.tile u).occurrence ∧ (s'.tile u).layer = (s.tile u).layer ∧
    (s'.tile u).boundingBox = (s.tile u).boundingBox

/-- Heap `s'` differs from `s` in parent pointers only. -/
def ParentFrame (s s' : State) : Prop :=
  s'.idCounter = s.idCounter ∧ s'.time = s.time ∧ s'.equi = s.equi ∧
  s'.equiCount = s.equiCount ∧ ∀ u, { s'.tile u with parent := none } = { s.tile u with parent := none }

/-- Heap `s'` has the tiles of `s` up to parents, equipotential pointers, flags and time
stamps: same number of tiles, same ranks, occurrences, layers and boxes. -/
def DataFrame (s s' : State) : Prop :=
  s'.idCounter = s.idCounter ∧ ∀ u,
    (s'.tile u).rank = (s.tile u).rank ∧
    (s'.tile u).occurrence = (s.tile u).occurrence ∧ (s'.tile u).layer = (s.tile u).layer ∧
    (s'.tile u).boundingBox = (s.tile u).boundingBox

/-- What a call of `getRoot` on `t` (root `r`) leaves behind. -/
structure GetRootPost (s : State) (t r : Nat) (flags : Flags) (s' : State) : Prop where
  data : DataFrame s s'
  time : s'.time = s.time
  onPath : flags.compress = true → ∀ u, Ancestor s.parent t u → u ≠ r → s'.parent u = some r
  offPath : flags.compress = true →
    ∀ u, ¬ (Ancestor s.parent t u ∧ u ≠ r) → s'.parent u = s.parent u
  noCompress : flags.compress = false → s'.parent = s.parent
  roots : ∀ u x, HasRoot s.parent u x → HasRoot s'.parent u x
  links : ∀ u p, s'.parent u = some p → s.parent u = some p ∨ HasRoot s.parent u p
  rootsBack : ∀ u, s'.parent u = none → s.parent u = none

/-! ## Tile allocation and example heaps -/

/-- Unallocated memory. -/
def Tile.blank : Tile :=
  { occurrence := 0, layer := 0, boundingBox := ⟨0, 0, 0, 0⟩, equipotential := none
  , occMerged := false, parent := none, rank := 0, timeStamp := 0 }

/-- The heap before any tile is allocated (`_idCounter = 0`, `_time = 0`). -/
def State.empty : State :=
  { tile := fun _ => Tile.blank, idCounter := 0, time := 0
  , equi := fun _ => Equipotential.create, equiCount := 0 }

/-- The constructor `Tile::Tile(occurrence, layer, boundingBox, parent)`: the tile gets
the next id, no equipotential, no flag, rank 0, time stamp 0, and is pushed on
`_allocateds`. Returns the address of the tile. -/
def State.newTile (s : State) (occ layer : Nat) (bb : Box) (parent : Option Nat) : Nat × State :=
  (s.idCounter,
   { s with idCounter := s.idCounter + 1
          , tile := fun u => if u = s.idCounter then
              { occurrence := occ, layer := layer, boundingBox := bb, equipotential := none
              , occMerged := false, parent := parent, rank := 0, timeStamp := 0 }
            else s.tile u })

/-- Three tiles in a chain: tile 2 has parent 1, tile 1 has parent 0, tile 0 is the root. -/
def chainHeap : State :=
  let s0 := (State.empty.newTile 10 1 ⟨0, 0, 4, 4⟩ none).2
  let s1 := (s0.newTile 11 1 ⟨10, 10, 14, 14⟩ (some 0)).2
  (s1.newTile 12 1 ⟨20, 20, 24, 24⟩ (some 1)).2

/-- The flag set `Compress`. -/
def Flags.onlyCompress : Flags :=
  { compress := true, mergeEqui := false, makeLeafEqui := false, forceLayer := false }

/-- The flag set `Compress|MergeEqui` that `Tile::merge` passes to `getRoot`. -/
def Flags.forMerge : Flags :=
  { compress := true, mergeEqui := true, makeLeafEqui := false, forceLayer := false }

/-- What `Tile::merge(a, b)` leaves behind, `ra` and `rb` being the roots of `a` and `b`
before the call, `r` the returned tile and `s'` the new heap. -/
structure MergePost (s : State) (ra rb r : Nat) (s' : State) : Prop where
  idCounter : s'.idCounter = s.idCounter
  time : s'.time = s.time
  fixed : ∀ u, (s'.tile u).occurrence = (s.tile u).occurrence ∧
    (s'.tile u).layer = (s.tile u).layer ∧ (s'.tile u).boundingBox = (s.tile u).boundingBox
  winner : r = if ra = rb then ra else if s.rank ra < s.rank rb then rb else ra
  rootR : s'.parent r = none
  loser : ra ≠ rb → s'.parent (if s.rank ra < s.rank rb then ra else rb) = some r
  rank : ∀ u, s'.rank u =
    if ra ≠ rb ∧ u = ra ∧ s.rank ra = s.rank rb then s.rank u + 1 else s.rank u
  roots : ∀ u x, HasRoot s.parent u x → HasRoot s'.parent u (if x = ra ∨ x = rb then r else x)
  links : ∀ u p, s'.parent u = some p →
    s.parent u = some p ∨ HasRoot s.parent u p ∨ (u = ra ∧ p = rb) ∨ (u = rb ∧ p = ra)

/-- Two parentless tiles of rank 0 on layer 1, with boxes that overlap. -/
def pairHeap : State :=
  let s0 := (State.empty.newTile 10 1 ⟨0, 0, 100, 20⟩ none).2
  (s0.newTile 11 1 ⟨80, 0, 100, 60⟩ none).2

/-- The flag set `MergeEqui`. -/
def Flags.onlyMergeEqui : Flags :=
  { compress := false, mergeEqui := true, makeLeafEqui := false, forceLayer := false }

/-- The flag set `MakeLeafEqui`. -/
def Flags.onlyMakeLeafEqui : Flags :=
  { compress := false, mergeEqui := false, makeLeafEqui := true, forceLayer := false }

/-- Three tiles in a chain 2 → 1 → 0 after one tick of the epoch counter (no tile is up
to date, none is occurrence-merged, none owns an equipotential). The box of tile 1 is far
from the boxes of tiles 0 and 2. -/
def foldHeap : State :=
  let s0 := (State.empty.newTile 10 1 ⟨0, 0, 4, 4⟩ none).2
  let s1 := (s0.newTile 11 1 ⟨50, 50, 60, 60⟩ (some 0)).2
  ((s1.newTile 12 1 ⟨2, 2, 6, 6⟩ (some 1)).2).timeTick

/-! ## Loading tiles: `Tile::create` -/

/-- One entry of `SweepLine::_tiles`: a tile and which of its edges (`LeftEdge` or
`RightEdge`) the entry stands for. -/
structure Element where
  tile : Nat
  isLeftEdge : Bool
deriving DecidableEq, Repr

/-- One entry of an interval tree: a tile and the interval `[yMin, yMax]` it was stored
with (`TileIntv(tile, tile->getYMin(), tile->getYMax())`). -/
structure TileIntv where
  tile : Nat
  vMin : Int
  vMax : Int
deriving DecidableEq, Repr

/-- The sweep line: the event list `_tiles` and one interval tree per basic-layer mask
(`_intervalTrees`, `none` where the map has no tree). A tree is rendered as the list of
its entries. -/
structure SweepLine where
  tiles : List Element
  intervalTrees : Nat → Option (List TileIntv)

/-- Modelled from the spec: `SweepLine::add(tile)` (declared in the missing `SweepLine.h`),
"for every tile emit two events", the left edge and the right edge. -/
def SweepLine.add (sl : SweepLine) (tile : Nat) : SweepLine :=
  { sl with tiles := sl.tiles ++ [⟨tile, true⟩, ⟨tile, false⟩] }

/-- The dynamic type of a component, as far as `Tile::create` looks at it: `Polygon`,
`Diagonal`, `Rectilinear` (with the answer of `isRectilinear()` and the boxes that
`getAsRectangles()` delivers), or any other component (`Horizontal`, `Vertical`,
`Contact`, `Pad`, ...). -/
inductive Shape where
  | polygon
  | diagonal
  | rectilinear (isRectilinear : Bool) (rectangles : List Box)
  | plain
deriving DecidableEq, Repr

/-- A Hurricane component seen through the calls of `Tile::create`:
`getLayer()->contains(layer)` and `getBoundingBox(layer)`. -/
structure Component where
  shape : Shape
  layerContains : Nat → Bool
  boundingBox : Nat → Box

/-- The entity of an occurrence: a component, or something `dynamic_cast<Component*>`
rejects (null included). -/
inductive Entity where
  | component (c : Component)
  | notComponent

/-- An occurrence seen through the calls of `Tile::create`: its identity, its entity,
whether its path is empty, the child equipotential occurrence
`Equipotential::getChildEqui(occurrence)` and the transformation of its path. -/
structure Occurrence where
  id : Nat
  entity : Entity
  pathIsEmpty : Bool
  childEqui : Nat
  transformation : Box → Box

/-- The loop of `Tile::create` over the rectangles of a `Rectilinear`: one tile per box,
each added to the sweep line, the first one becoming `rootTile` when none was given.
Returns `rootTile`. -/
def createRectangles (occ layer : Nat) (tr : Box → Box) :
    List Box → State → SweepLine → Option Nat → Option Nat × State × SweepLine
  | [], s, sl, rootTile => (rootTile, s, sl)
  | bb :: rest, s, sl, rootTile =>
    let r := s.newTile occ layer (tr bb) rootTile
    createRectangles occ layer tr rest r.2 (sl.add r.1)
      (match rootTile with
       | none => some r.1
       | some t => some t)

/-- The function `Tile::create(occurrence, layer, rootTile, sweepLine, flags)`: the returned tile
(`none` is the null pointer), the heap and the sweep line after the call. -/
def Tile.create (s : State) (sl : SweepLine) (occurrence : Occurrence) (layer : Nat)
    (rootTile : Option Nat) (flags : Flags) : Option Nat × State × SweepLine :=
  match occurrence.entity with
  | Entity.notComponent => (none, s, sl)
  | Entity.component component =>
    if !flags.forceLayer && !component.layerContains layer then (none, s, sl)
    else
      let childEqui := if occurrence.pathIsEmpty then occurrence.id else occurrence.childEqui
      match component.shape with
      | Shape.polygon => (none, s, sl)
      | Shape.diagonal => (none, s, sl)
      | Shape.rectilinear isRectilinear boxes =>
        if !isRectilinear then (none, s, sl)
        else createRectangles childEqui layer occurrence.transformation boxes s sl rootTile
      | Shape.plain =>
        let r := s.newTile childEqui layer
          (occurrence.transformation (component.boundingBox layer)) rootTile
        (some r.1, r.2, sl.add r.1)

/-- The shapes the claim lists as refused: the entity is not a component, is a `Polygon`,
a `Diagonal`, a `Rectilinear` with a 45 or 135 degree edge, or `ForceLayer` is not set and
the layer of the component does not contain the requested basic layer. -/
def unsupported (occurrence : Occurrence) (layer : Nat) (flags : Flags) : Bool :=
  match occurrence.entity with
  | Entity.notComponent => true
  | Entity.component c =>
    (!flags.forceLayer && !c.layerContains layer) ||
    (match c.shape with
     | Shape.polygon => true
     | Shape.diagonal => true
     | Shape.rectilinear isRect _ => !isRect
     | Shape.plain => false)

/-- The shape is a `Rectilinear` whose decomposition delivers no rectangle. -/
def emptyRectilinear (occurrence : Occurrence) : Bool :=
  match occurrence.entity with
  | Entity.component c =>
    (match c.shape with
     | Shape.rectilinear _ boxes => boxes.isEmpty
     | _ => false)
  | Entity.notComponent => false

/-- The events of the tiles with ids `first, ..., first + count - 1`, in allocation
order. -/
def eventsOf (first count : Nat) : List Element :=
  (List.range' first count).flatMap (fun t => [⟨t, true⟩, ⟨t, false⟩])

/-- A sweep line without event, with an (empty) interval tree for layer mask 1 only. -/
def SweepLine.start : SweepLine :=
  { tiles := [], intervalTrees := fun m => if m = 1 then some [] else none }

/-- An occurrence of a Manhattan `Rectilinear` on layer 1 whose decomposition delivers no
rectangle. -/
def degenerateRectilinear : Occurrence :=
  { id := 7, pathIsEmpty := true, childEqui := 0, transformation := id
  , entity := Entity.component
      { shape := Shape.rectilinear true [], layerContains := fun l => decide (l = 1)
      , boundingBox := fun _ => ⟨0, 0, 0, 0⟩ } }

/-- An occurrence of a horizontal wire on layer 1. -/
def wireOccurrence : Occurrence :=
  { id := 8, pathIsEmpty := true, childEqui := 0, transformation := id
  , entity := Entity.component
      { shape := Shape.plain, layerContains := fun l => decide (l = 1)
      , boundingBox := fun _ => ⟨0, 0, 100, 20⟩ } }

/-- The empty flag set. -/
def Flags.none : Flags :=
  { compress := false, mergeEqui := false, makeLeafEqui := false, forceLayer := false }

/-! ## The sweep: `SweepLine::run` -/

/-- Modelled from the spec: `Interval::intersect` (Hurricane, not under `src/`), closed on
both ends: the stored interval of the entry meets `[vMin, vMax]`. -/
def TileIntv.intersects (e : TileIntv) (vMin vMax : Int) : Bool :=
  decide (e.vMin ≤ vMax ∧ vMin ≤ e.vMax)

/-- Modelled from the spec: `IntervalTree::getOverlaps(interval)` (Hurricane, not under
`src/`) "returns every stored element whose stored interval intersects the query". -/
def getOverlaps (tree : List TileIntv) (vMin vMax : Int) : List TileIntv :=
  tree.filter (fun e => e.intersects vMin vMax)

/-- Replace the interval tree of one layer mask. -/
def setTree (trees : Nat → Option (List TileIntv)) (mask : Nat) (tree : List TileIntv) :
    Nat → Option (List TileIntv) :=
  fun m => if m = mask then some tree else trees m

/-- Modelled from the spec: `Element::getX()` (declared in the missing `SweepLine.h`), "left
edge at `x = bb.xmin`, right edge at `x = bb.xmax`". -/
def Element.getX (s : State) (e : Element) : Int :=
  if e.isLeftEdge then (s.tile e.tile).boundingBox.xMin else (s.tile e.tile).boundingBox.xMax

/-- Modelled from the spec: the order of the event list (`Element::operator<`, declared in
the missing `SweepLine.h`), as far as the claims use it: "by x ascending, LeftEdge before
RightEdge at equal x". `e1` may stand before `e2`. -/
def Element.mayPrecede (s : State) (e1 e2 : Element) : Prop :=
  e1.getX s < e2.getX s ∨ (e1.getX s = e2.getX s ∧ (e1.isLeftEdge = true ∨ e2.isLeftEdge = false))

/-- The loop `for (overlap : getOverlaps(...)) tile->merge(overlap.getData())`. -/
def mergeOverlaps (fuel : Nat) (tile : Nat) : List TileIntv → State → Option State
  | [], s => some s
  | ov :: rest, s =>
    match merge fuel s tile ov.tile with
    | none => none
    | some r => mergeOverlaps fuel tile rest r.2

/-- One turn of the loop of `SweepLine::run` over `_tiles`. An element whose layer mask has
no interval tree is skipped. A left edge merges the tile with every overlap the tree of its
layer reports, then inserts the tile; a right edge removes it. (`decRefCount` only moves a
counter that `Tile.cpp` never reads.) -/
def sweepStep (fuel : Nat) (s : State) (trees : Nat → Option (List TileIntv))
    (element : Element) : Option (State × (Nat → Option (List TileIntv))) :=
  let tile := element.tile
  let yMin := (s.tile tile).boundingBox.yMin
  let yMax := (s.tile tile).boundingBox.yMax
  let tileIntv : TileIntv := ⟨tile, yMin, yMax⟩
  let mask := (s.tile tile).layer
  match trees mask with
  | none => some (s, trees)
  | some tree =>
    if element.isLeftEdge then
      match mergeOverlaps fuel tile (getOverlaps tree yMin yMax) s with
      | none => none
      | some s' => some (s', setTree trees mask (tree ++ [tileIntv]))
    else some (s, setTree trees mask (tree.erase tileIntv))

/-- The loop of `SweepLine::run` over the event list. -/
def sweepLoop (fuel : Nat) :
    List Element → State × (Nat → Option (List TileIntv)) →
      Option (State × (Nat → Option (List TileIntv)))
  | [], st => some st
  | element :: rest, st =>
    match sweepStep fuel st.1 st.2 element with
    | none => none
    | some st' => sweepLoop fuel rest st'

/-- The flag set `Compress|MergeEqui|MakeLeafEqui` of `SweepLine::mergeEquipotentials`. -/
def Flags.forEquipotentials : Flags :=
  { compress := true, mergeEqui := true, makeLeafEqui := true, forceLayer := false }

/-- The function `SweepLine::mergeEquipotentials`: the epoch counter ticks, then
`getRoot(Compress|MergeEqui|MakeLeafEqui)` on every allocated tile, in allocation order. -/
def mergeEquipotentialsFrom (fuel : Nat) : List Nat → State → Option State
  | [], s => some s
  | t :: rest, s =>
    match getRoot fuel s t Flags.forEquipotentials with
    | none => none
    | some r => mergeEquipotentialsFrom fuel rest r.2

/-- The function `SweepLine::mergeEquipotentials`. (`Tile::destroyQueued` has nothing to destroy: no code
under `src/` queues a tile.) -/
def mergeEquipotentials (fuel : Nat) (s : State) : Option State :=
  mergeEquipotentialsFrom fuel (List.range s.idCounter) s.timeTick

/-- The function `SweepLine::run` after `loadTiles` and up to (excluding) `deleteTiles`: the loop over
the events, then `mergeEquipotentials`. -/
def SweepLine.run (fuel : Nat) (s : State) (sl : SweepLine) : Option State :=
  match sweepLoop fuel sl.tiles (s, sl.intervalTrees) with
  | none => none
  | some st => mergeEquipotentials fuel st.1

/-- The bounding boxes overlap on both axes (closed intervals: touching boxes overlap). -/
def Box.overlaps (a b : Box) : Prop :=
  a.xMin ≤ b.xMax ∧ b.xMin ≤ a.xMax ∧ a.yMin ≤ b.yMax ∧ b.yMin ≤ a.yMax

instance (a b : Box) : Decidable (a.overlaps b) := by
  unfold Box.overlaps; infer_instance

/-- Two tiles are on the same basic layer and their bounding boxes overlap on both axes. -/
def Touch (s : State) (a b : Nat) : Prop :=
  (s.tile a).layer = (s.tile b).layer ∧ (s.tile a).boundingBox.overlaps (s.tile b).boundingBox

/-- Two tiles are joined by a chain in which each consecutive pair is on the same layer
with overlapping boxes, or is a tile and the parent it was created with. -/
def Linked (s : State) : Nat → Nat → Prop :=
  Relation.EqvGen (fun a b => Touch s a b ∨ s.parent a = some b)

/-- Two tiles are joined by a chain in which each consecutive pair is on the same layer
with overlapping boxes. -/
def OverlapChain (s : State) : Nat → Nat → Prop :=
  Relation.EqvGen (fun a b => Touch s a b)

/-- Every parent link joins two tiles that the relation `R` relates. -/
def LinksWithin (R : Nat → Nat → Prop) (s : State) : Prop :=
  ∀ u p, s.parent u = some p → R u p

/-- Heap `s'` has the tiles of `s` with the same occurrences, layers and boxes, and as
many of them. -/
def SameTiles (s s' : State) : Prop :=
  s'.idCounter = s.idCounter ∧ ∀ u,
    (s'.tile u).occurrence = (s.tile u).occurrence ∧ (s'.tile u).layer = (s.tile u).layer ∧
    (s'.tile u).boundingBox = (s.tile u).boundingBox

/-- The interval-tree entry of a tile. -/
def entryOf (s : State) (t : Nat) : TileIntv :=
  ⟨t, (s.tile t).boundingBox.yMin, (s.tile t).boundingBox.yMax⟩

/-- What holds after the sweep has processed the events `pre`, starting from heap `s0` and
trees `trees0`: the forest is still a forest over the same tiles; a tile whose left edge
has been processed and whose right edge has not is stored in the tree of its layer; two
loaded tiles of the same layer with overlapping boxes, both left edges processed, are in
the same union-find class. -/
structure JoinInv (s0 : State) (trees0 : Nat → Option (List TileIntv)) (pre : List Element)
    (s : State) (trees : Nat → Option (List TileIntv)) : Prop where
  acyclic : Acyclic s
  tiles : SameTiles s0 s
  present : ∀ m, trees m = none ↔ trees0 m = none
  stored : ∀ t, (⟨t, true⟩ : Element) ∈ pre → (⟨t, false⟩ : Element) ∉ pre →
    ∀ tree, trees (s0.tile t).layer = some tree → entryOf s0 t ∈ tree
  joined : ∀ a b, (⟨a, true⟩ : Element) ∈ pre → (⟨b, true⟩ : Element) ∈ pre →
    trees0 (s0.tile a).layer ≠ none → Touch s0 a b → SameRoot s a b

/-! ## Invariant of the equipotential merge -/

/-- The state of the equipotentials during `mergeEquipotentials`, `s0` being the heap at
its start (after the tick) and `frontier` the tile a running `MergeEqui` climb is about to
visit. A tile is *done* when it is flagged occurrence-merged.
* `roots`, `occs`: roots and occurrences are those of `s0`;
* `stamp`: the done tiles are the up-to-date ones;
* `valid`, `inj`: equipotential pointers are allocated and no two tiles share one;
* `doneUp`: the parent of a done tile is a root, is done, or is the frontier;
* `doneNonRoot`: a done tile is not a root;
* `doneIn`: the occurrence of a done tile is in the equipotential of its root;
* `own`: an equipotential holds the occurrence of its owner while the owner is not done;
* `only`: it holds only occurrences of tiles of the class of its owner. -/
structure EquiInv (s0 : State) (frontier : Option Nat) (s : State) : Prop where
  roots : ∀ u x, HasRoot s.parent u x ↔ HasRoot s0.parent u x
  occs : ∀ t, (s.tile t).occurrence = (s0.tile t).occurrence
  stamp : ∀ c, (s.tile c).occMerged = true ↔ s.time ≤ (s.tile c).timeStamp
  valid : ∀ c e, (s.tile c).equipotential = some e → e < s.equiCount
  inj : ∀ c c' e, (s.tile c).equipotential = some e → (s.tile c').equipotential = some e →
    c = c'
  doneUp : ∀ c p, s.parent c = some p → (s.tile c).occMerged = true → s0.parent p ≠ none →
    (s.tile p).occMerged = true ∨ frontier = some p
  doneNonRoot : ∀ c, (s.tile c).occMerged = true → s0.parent c ≠ none
  doneIn : ∀ c r, (s.tile c).occMerged = true → HasRoot s0.parent c r →
    ∃ e, (s.tile r).equipotential = some e ∧ (s0.tile c).occurrence ∈ (s.equi e).components
  own : ∀ c e, (s.tile c).equipotential = some e → (s.tile c).occMerged = false →
    (s0.tile c).occurrence ∈ (s.equi e).components
  only : ∀ c e, (s.tile c).equipotential = some e → (s.tile c).occMerged = false →
    ∀ o, o ∈ (s.equi e).components →
      ∃ t r, (s0.tile t).occurrence = o ∧ HasRoot s0.parent t r ∧ HasRoot s0.parent c r

/-- The heap as the sweep leaves it, before `mergeEquipotentials`: no tile is flagged
occurrence-merged and no time stamp is ahead of the epoch counter; equipotential pointers
are allocated and not shared; an equipotential holds the occurrence of its owner, and only
occurrences of tiles of the class of its owner. -/
structure Swept (s : State) : Prop where
  fresh : ∀ c, (s.tile c).occMerged = false ∧ (s.tile c).timeStamp ≤ s.time
  valid : ∀ c e, (s.tile c).equipotential = some e → e < s.equiCount
  inj : ∀ c c' e, (s.tile c).equipotential = some e → (s.tile c').equipotential = some e →
    c = c'
  own : ∀ c e, (s.tile c).equipotential = some e →
    (s.tile c).occurrence ∈ (s.equi e).components
  only : ∀ c e, (s.tile c).equipotential = some e → ∀ o, o ∈ (s.equi e).components →
    ∃ t, (s.tile t).occurrence = o ∧ SameRoot s t c

/-- The heap during the sweep: as `Swept`, and every time stamp has caught up with the
epoch counter (the sweep runs before the first tick). -/
structure Quiet (s : State) : Prop where
  swept : Swept s
  upToDate : ∀ c, s.time ≤ (s.tile c).timeStamp

/-- The heap as the tile constructor leaves it: epoch counter 0, no tile with an
equipotential, a flag or a time stamp. -/
structure Loaded (s : State) : Prop where
  time : s.time = 0
  blank : ∀ c, (s.tile c).equipotential = none ∧ (s.tile c).occMerged = false ∧
    (s.tile c).timeStamp = 0

/-- Heap `s'` has the equipotentials of `s` and tiles with the same occurrences,
equipotential pointers, flags and time stamps (parents and ranks may differ). -/
def EquiFrame (s s' : State) : Prop :=
  s'.time = s.time ∧ s'.equi = s.equi ∧ s'.equiCount = s.equiCount ∧ ∀ u,
    (s'.tile u).occurrence = (s.tile u).occurrence ∧
    (s'.tile u).equipotential = (s.tile u).equipotential ∧
    (s'.tile u).occMerged = (s.tile u).occMerged ∧
    (s'.tile u).timeStamp = (s.tile u).timeStamp

/-- The sweep line of `pairHeap` after `loadTiles`: the four edges sorted by x (left
edges first at equal x) and an empty interval tree for layer 1. -/
def pairSweepLine : SweepLine :=
  { tiles := [⟨0, true⟩, ⟨1, true⟩, ⟨0, false⟩, ⟨1, false⟩]
  , intervalTrees := fun m => if m = 1 then some [] else none }

/-- The event list the sweep receives from `loadTiles`: sorted by x with the left edge
before the right edge at equal x, no edge twice, each left edge with its right edge, and
boxes with `xMin ≤ xMax`. -/
structure SortedEvents (s0 : State) (events : List Element) : Prop where
  sorted : events.Pairwise (Element.mayPrecede s0)
  nodup : events.Nodup
  paired : ∀ t, (⟨t, true⟩ : Element) ∈ events → (⟨t, false⟩ : Element) ∈ events
  boxes : ∀ t, (⟨t, true⟩ : Element) ∈ events →
    (s0.tile t).boundingBox.xMin ≤ (s0.tile t).boundingBox.xMax

/-- What holds after the sweep has processed the events `pre`: the forest is a forest over
the same tiles; the interval trees hold no entry twice, and only entries of tiles of their
layer whose left edge has been processed and whose right edge has not; every parent link
joins two tiles that are `Linked` in the heap `s0` the sweep started from. -/
structure LinkInv (s0 : State) (pre : List Element) (s : State)
    (trees : Nat → Option (List TileIntv)) : Prop where
  acyclic : Acyclic s
  tiles : SameTiles s0 s
  nodup : ∀ m tree, trees m = some tree → tree.Nodup
  mem : ∀ m tree, trees m = some tree → ∀ e, e ∈ tree →
    e = entryOf s0 e.tile ∧ (s0.tile e.tile).layer = m ∧
    (⟨e.tile, true⟩ : Element) ∈ pre ∧ (⟨e.tile, false⟩ : Element) ∉ pre
  links : LinksWithin (Linked s0) s

/-- An occurrence of a contact whose layer contains the basic layers 1 and 2. -/
def contactOccurrence : Occurrence :=
  { id := 9, pathIsEmpty := true, childEqui := 0, transformation := id
  , entity := Entity.component
      { shape := Shape.plain, layerContains := fun l => decide (l = 1 ∨ l = 2)
      , boundingBox := fun _ => ⟨40, 0, 60, 20⟩ } }

/-- The heap after loading the contact on layer 1 and then on layer 2 with the first tile
as `rootTile`: tile 1 (layer 2) is created with tile 0 (layer 1) as parent. -/
def viaHeap : State :=
  let r1 := Tile.create State.empty SweepLine.start contactOccurrence 1 none Flags.none
  (Tile.create r1.2.1 r1.2.2 contactOccurrence 2 r1.1 Flags.none).2.1

/-- The sweep line for `viaHeap`: the four edges sorted, an empty tree for each of the
layers 1 and 2. -/
def viaSweepLine : SweepLine :=
  { tiles := [⟨0, true⟩, ⟨1, true⟩, ⟨0, false⟩, ⟨1, false⟩]
  , intervalTrees := fun m => if m = 1 ∨ m = 2 then some [] else none }

/-- Five rectangles on layer 1, loaded in this order: A `(0,0)-(10,10)`,
B `(5,0)-(15,10)`, C `(0,50)-(10,60)`, D `(5,50)-(15,70)` and E `(12,0)-(20,60)`, which
overlaps B and D. -/
def fiveHeap : State :=
  let s0 := (State.empty.newTile 10 1 ⟨0, 0, 10, 10⟩ none).2
  let s1 := (s0.newTile 11 1 ⟨5, 0, 15, 10⟩ none).2
  let s2 := (s1.newTile 12 1 ⟨0, 50, 10, 60⟩ none).2
  let s3 := (s2.newTile 13 1 ⟨5, 50, 15, 70⟩ none).2
  (s3.newTile 14 1 ⟨12, 0, 20, 60⟩ none).2

/-- The sweep line of `fiveHeap` after `loadTiles`: the ten edges sorted by x, left edges
first at equal x, and an empty interval tree for layer 1. -/
def fiveSweepLine : SweepLine :=
  { tiles := [⟨0, true⟩, ⟨2, true⟩, ⟨1, true⟩, ⟨3, true⟩, ⟨0, false⟩, ⟨2, false⟩,
              ⟨4, true⟩, ⟨1, false⟩, ⟨3, false⟩, ⟨4, false⟩]
  , intervalTrees := fun m => if m = 1 then some [] else none }

/-! ## Heaps built by the constructor, `getRoot` and `merge` -/

/-- Four parentless tiles of rank 0 on layer 1. -/
def quadHeap : State :=
  let s0 := (State.empty.newTile 10 1 ⟨0, 0, 10, 10⟩ none).2
  let s1 := (s0.newTile 11 1 ⟨10, 0, 20, 10⟩ none).2
  let s2 := (s1.newTile 12 1 ⟨40, 0, 50, 10⟩ none).2
  (s2.newTile 13 1 ⟨50, 0, 60, 10⟩ none).2

/-- The heap `quadHeap` after `merge(0, 1)`, `merge(2, 3)` and `merge(3, 2)`: two classes
with roots 0 and 2; the last call, on two tiles of the same class, has given the root 2 an
equipotential. -/
def twoClassesHeap : Option State :=
  (merge 5 quadHeap 0 1).bind (fun x1 =>
    (merge 5 x1.2 2 3).bind (fun x2 =>
      (merge 5 x2.2 3 2).map (fun x3 => x3.2)))

/-- The heaps reached from the empty heap by the constructor (a tile is created without
parent or with an allocated tile as parent) and by calls of `getRoot` and `merge` on
allocated tiles that return. -/
inductive Built : State → Prop
  | empty : Built State.empty
  | newTile {s : State} (occ layer : Nat) (bb : Box) (parent : Option Nat) :
      Built s → (∀ p, parent = some p → p < s.idCounter) →
      Built (s.newTile occ layer bb parent).2
  | getRoot {s : State} (fuel t : Nat) (flags : Flags) (x : Nat × State) :
      Built s → t < s.idCounter → getRoot fuel s t flags = some x → Built x.2
  | merge {s : State} (fuel a b : Nat) (x : Nat × State) :
      Built s → a < s.idCounter → b < s.idCounter → merge fuel s a b = some x → Built x.2

/-- The invariant of built heaps: the parent links form a forest, a slot that is not
allocated has no parent, and parents are allocated tiles. -/
def Forest (s : State) : Prop :=
  Acyclic s ∧ (∀ u, s.idCounter ≤ u → s.parent u = none) ∧
  ∀ u p, s.parent u = some p → p < s.idCounter

/-! ## The books of the equipotentials -/

/-- The heap of two overlapping wires when the epoch counter is 1, as in a second run of
the extractor in one process. -/
def secondRunHeap : State :=
  { pairHeap with time := 1 }

end Tramontana -- definitions

/-! # Katabatic and Kite sessions -/

namespace Katabatic

/-- The two errors of `Session.cpp`: `reopenSession` ("Session already open for ...") and
`openSessionError` ("... Session has not been opened"), with the name of the engine or
the message they carry. -/
inductive Error where
  | reopenSession (engine : Nat)
  | openSessionError (message : String)
deriving DecidableEq, Repr

/-- A session object: its dynamic type (`Kite::Session` derives from `Katabatic::Session`),
the engine that owns it and the pending collections of `Session.h`; the three event
collections are those of `Kite::Session` (empty in a plain Katabatic session). Contacts,
segments, nets and tracks are named by their ids. -/
structure Session where
  isKite : Bool
  katabatic : Nat
  autoContacts : List Nat
  doglegs : List Nat
  segmentInvalidateds : List Nat
  segmentRevalidateds : List Nat
  netInvalidateds : List Nat
  netRevalidateds : List Nat
  destroyedSegments : List Nat
  insertEvents : List Nat
  removeEvents : List Nat
  sortEvents : List Nat
deriving DecidableEq, Repr

/-- What a session does to the world outside its own collections, in order. -/
inductive Call where
  | newSession (engine : Nat) (isKite : Bool)
  | deleteSession (engine : Nat)
  | updateSessionOpen
  | updateSessionClose
  | isEmpty (result : Bool)
  | revalidate (engine : Nat) (count : Nat)
  | updateDensity (engine : Nat)
deriving DecidableEq, Repr

/-- The process-wide state: the static pointer `Session::_session`, for every engine the
answer of `getState() <= EngineActive` and of `getGCellGrid()`, and the calls made so far. -/
structure World where
  session : Option Session
  atMostActive : Nat → Bool
  hasGCellGrid : Nat → Bool
  trace : List Call

/-- The constructor `Session::Session(ktbt)`: every collection empty. -/
def Session.create (isKite : Bool) (ktbt : Nat) : Session :=
  { isKite := isKite, katabatic := ktbt, autoContacts := [], doglegs := []
  , segmentInvalidateds := [], segmentRevalidateds := [], netInvalidateds := []
  , netRevalidateds := [], destroyedSegments := [], insertEvents := [], removeEvents := []
  , sortEvents := [] }

/-- The function `Session::get(message)`: the open session, or `openSessionError` when there is none and
a message was given. -/
def Session.get (w : World) (message : Option String) : Except Error (Option Session) :=
  match w.session, message with
  | none, some m => Except.error (Error.openSessionError m)
  | s, _ => Except.ok s

/-- The function `Session::_postCreate`: `UpdateSession::open()` and `_session = this`. -/
def Session._postCreate (w : World) (s : Session) : World :=
  { w with session := some s, trace := w.trace ++ [Call.updateSessionOpen] }

/-- The function `Session::open(ktbt)`: joins the open session of the same engine, fails on the open
session of another engine, otherwise creates a session. -/
def Session.open (w : World) (ktbt : Nat) : Except Error (Session × World) :=
  match w.session with
  | some s =>
    if s.katabatic ≠ ktbt then Except.error (Error.reopenSession s.katabatic)
    else Except.ok (s, w)
  | none =>
    let session := Session.create false ktbt
    Except.ok (session,
      Session._postCreate { w with trace := w.trace ++ [Call.newSession ktbt false] } session)

/-- The function `Session::_revalidateTopology` on the collections of the session: the invalidated nets
become the revalidated nets. The calls on the engine and on the segments it makes act on
objects outside the session. -/
def Session._revalidateTopology (s : Session) : Session :=
  { s with netRevalidateds := s.netInvalidateds, netInvalidateds := [] }

/-- The function `Session::_revalidate` on the collections of the session: returns the number of
contacts and segments processed; the revalidated segments are the invalidated ones that are
not queued for destruction; the pending collections are emptied. -/
def Session._revalidate (s : Session) : Nat × Session :=
  let s1 := if s.netInvalidateds ≠ [] then s._revalidateTopology else s
  (s1.autoContacts.length + s1.segmentInvalidateds.length,
   { s1 with autoContacts := []
           , segmentRevalidateds :=
               s1.segmentInvalidateds.filter (fun x => decide (x ∉ s1.destroyedSegments))
           , segmentInvalidateds := []
           , destroyedSegments := [] })

/-- The function `Kite::Session::_isEmpty`. -/
def Session._isEmpty (s : Session) : Bool :=
  s.insertEvents.isEmpty && s.removeEvents.isEmpty && s.sortEvents.isEmpty

/-- The function `Katabatic::Session::_preDestroy`: revalidation and density update while the engine
state is at most `EngineActive`, then `UpdateSession::close()`. -/
def Session.katabaticPreDestroy (w : World) (s : Session) : World :=
  let w1 :=
    if w.atMostActive s.katabatic then
      let r := s._revalidate
      let w2 := { w with session := some r.2
                       , trace := w.trace ++ [Call.revalidate s.katabatic r.1] }
      if w.hasGCellGrid s.katabatic then
        { w2 with trace := w2.trace ++ [Call.updateDensity s.katabatic] }
      else w2
    else w
  { w1 with trace := w1.trace ++ [Call.updateSessionClose] }

/-- The virtual `_preDestroy`: `Kite::Session::_preDestroy` calls `_isEmpty()` and then the
Katabatic one. -/
def Session._preDestroy (w : World) (s : Session) : World :=
  if s.isKite then
    Session.katabaticPreDestroy { w with trace := w.trace ++ [Call.isEmpty s._isEmpty] } s
  else Session.katabaticPreDestroy w s

/-- The function `Session::close()`: fails when no session is open; otherwise `_preDestroy`, delete,
`_session = NULL`. -/
def Session.close (w : World) : Except Error World :=
  match w.session with
  | none => Except.error (Error.openSessionError "Session::Close()")
  | some s =>
    let w1 := Session._preDestroy w s
    Except.ok { w1 with session := none
                      , trace := w1.trace ++ [Call.deleteSession s.katabatic] }

/-- A world without session, all engines active and with a grid. -/
def World.init : World :=
  { session := none, atMostActive := fun _ => true, hasGCellGrid := fun _ => true, trace := [] }

/-- The static `Session::invalidate(Net*)`: `get("invalidate(Net*)")->_invalidate(net)`,
the net is inserted in the set `_netInvalidateds`. -/
def Session.invalidateNet (w : World) (net : Nat) : Except Error World :=
  match w.session with
  | none => Except.error (Error.openSessionError "invalidate(Net*)")
  | some s =>
    let s1 : Session :=
      { s with netInvalidateds :=
          if net ∈ s.netInvalidateds then s.netInvalidateds else s.netInvalidateds ++ [net] }
    Except.ok { w with session := some s1 }

/-- The world of a result, the argument world when the call failed. -/
def worldOf {α : Type} (w : World) (r : Except Error (α × World)) : World :=
  match r with
  | Except.ok x => x.2
  | Except.error _ => w

/-- The world after `Katabatic::Session::open(1)` and `Session::invalidate(net 5)`. -/
def katabaticSessionWorld : World :=
  match Session.invalidateNet (worldOf World.init (Session.open World.init 1)) 5 with
  | Except.ok w => w
  | Except.error _ => World.init

/-- The error a call ended with, if any. -/
def errorOf {α : Type} (r : Except Error α) : Option Error :=
  match r with
  | Except.error e => some e
  | Except.ok _ => none

/-- Number of sessions constructed so far. -/
def World.sessionsCreated (w : World) : Nat :=
  (w.trace.filter (fun c => match c with
    | Call.newSession _ _ => true
    | _ => false)).length

/-! ## The static operations of `Session` -/

/-- What a static operation of `Session` hands back to its caller: nothing, a size, a
collection of the session, or a value that the session fetches from its engine, its gauges
or its configuration (named by the engine and the member called). -/
inductive Answer where
  | unit
  | size (n : Nat)
  | collection (l : List Nat)
  | engine (e : Nat) (member : String)
deriving DecidableEq, Repr

/-- The static member functions of `Session.h` and `Session.cpp` that work on the open
session (all but `open` and `get`); overloads on a layer are named `...OfLayer`, overloads
on a contact, segment or net carry the kind in their name. `getExtensionCap()` and
`setInvalidateMask` are declared in the header and defined nowhere in the sources. -/
inductive StaticOp where
  | doDestroyBaseContact | doDestroyBaseSegment | doDestroyTool
  | isInDemoMode | doWarnGCellOverload
  | getTechnology | getKatabatic | getConfiguration
  | getSaturateRatio | getSaturateRp | getAllowedDepth
  | getCellGauge | getSliceHeight | getSliceStep
  | getRoutingGauge | getLayerGauge (depth : Nat) | getDepth
  | getViaDepth (layer : Nat) | getLayerDepth (layer : Nat)
  | getRoutingLayer (depth : Nat) | getContactLayer (depth : Nat)
  | getDirection (depth : Nat) | getPitch (depth : Nat) (flags : Nat)
  | getOffset (depth : Nat) | getWireWidth (depth : Nat) | getViaWidth (depth : Nat)
  | getDirectionOfLayer (layer : Nat) | getPitchOfLayer (layer : Nat) (flags : Nat)
  | getOffsetOfLayer (layer : Nat) | getWireWidthOfLayer (layer : Nat)
  | getViaWidthOfLayer (layer : Nat) | getExtensionCapOfLayer (layer : Nat)
  | getSegmentStackSize | getContactStackSize
  | getInvalidateds | getRevalidateds | getDestroyeds | getDoglegs | getNetsModificateds
  | close
  | setKatabaticFlags (flags : Nat)
  | dogleg (segment : Nat) | doglegReset
  | revalidateTopology
  | invalidateNet (net : Nat) | invalidateContact (contact : Nat)
  | invalidateSegment (segment : Nat)
  | revalidate
  | linkContact (contact : Nat) | linkSegment (segment : Nat)
  | unlinkContact (contact : Nat) | unlinkSegment (segment : Nat)
  | lookupContact (contact : Nat) | lookupSegment (segment : Nat)
  | destroyRequest (segment : Nat)

/-- The message of the first `get(...)` a static operation reaches (for `close`, of its own
test of `_session`): the literal of `Session.h` (lines 177-219) or `Session.cpp`
(lines 299, 310-389). An operation written through another static one reaches the `get` of
that one: `getAllowedDepth` and `getExtensionCap(layer)` go through `getConfiguration()`,
the slice accessors through `getCellGauge()`, the gauge accessors and every overload on a
layer through `getRoutingGauge()`. -/
def StaticOp.message : StaticOp → String
  | doDestroyBaseContact => "doDestroyBaseContact()"
  | doDestroyBaseSegment => "doDestroyBaseSegment()"
  | doDestroyTool => "doDestroyTool()"
  | isInDemoMode => "isInDemoMode()"
  | doWarnGCellOverload => "doWarnGCellOverload()"
  | getTechnology => "getTechnology()"
  | getKatabatic => "getKatabatic()"
  | getConfiguration => "getConfiguration()"
  | getSaturateRatio => "getSaturateRatio()"
  | getSaturateRp => "getSaturateRp()"
  | getAllowedDepth => "getConfiguration()"
  | getCellGauge => "getCellGauge()"
  | getSliceHeight => "getCellGauge()"
  | getSliceStep => "getCellGauge()"
  | getRoutingGauge => "getRoutingGauge()"
  | getLayerGauge _ => "getRoutingGauge()"
  | getDepth => "getRoutingGauge()"
  | getViaDepth _ => "getRoutingGauge()"
  | getLayerDepth _ => "getRoutingGauge()"
  | getRoutingLayer _ => "getRoutingGauge()"
  | getContactLayer _ => "getRoutingGauge()"
  | getDirection _ => "getDirection()"
  | getPitch _ _ => "getPitch(depth,flags)"
  | getOffset _ => "getRoutingGauge()"
  | getWireWidth _ => "getRoutingGauge()"
  | getViaWidth _ => "getRoutingGauge()"
  | getDirectionOfLayer _ => "getRoutingGauge()"
  | getPitchOfLayer _ _ => "getRoutingGauge()"
  | getOffsetOfLayer _ => "getRoutingGauge()"
  | getWireWidthOfLayer _ => "getRoutingGauge()"
  | getViaWidthOfLayer _ => "getRoutingGauge()"
  | getExtensionCapOfLayer _ => "getConfiguration()"
  | getSegmentStackSize => "getSegmentStackSize()"
  | getContactStackSize => "getContactStackSize()"
  | getInvalidateds => "getInvalidateds()"
  | getRevalidateds => "getRevalidateds()"
  | getDestroyeds => "getDestroyeds()"
  | getDoglegs => "getDoglegs()"
  | getNetsModificateds => "getNetsModificateds()"
  | close => "Session::Close()"
  | setKatabaticFlags _ => "setKabaticFlags()"
  | dogleg _ => "dogleg(AutoSegment*)"
  | doglegReset => "doglegReset()"
  | revalidateTopology => "revalidateTopology()"
  | invalidateNet _ => "invalidate(Net*)"
  | invalidateContact _ => "invalidate(AutoContact*)"
  | invalidateSegment _ => "invalidate(AutoSegment*)"
  | revalidate => "revalidate()"
  | linkContact _ => "link(AutoContact*)"
  | linkSegment _ => "link(AutoSegment*)"
  | unlinkContact _ => "unlink(AutoContact*)"
  | unlinkSegment _ => "unlink(AutoSegment*)"
  | lookupContact _ => "lookup(Contact*)"
  | lookupSegment _ => "lookup(Segment*)"
  | destroyRequest _ => "destroyRequest(AutoSegment*)"

/-- Insertion in a `std::set`, kept here in order of first insertion. -/
def setInsert (l : List Nat) (x : Nat) : List Nat :=
  if x ∈ l then l else l ++ [x]

/-- What a static operation does on the session `get(...)` returned: the answer, the
session afterwards and the calls made. The inline members of `Session.h` lines 222-226
push on `_doglegs`, `_autoContacts`, `_segmentInvalidateds`, insert in
`_destroyedSegments`; `_invalidate(Net*)` inserts in `_netInvalidateds`; the accessors read
a collection; everything else is forwarded to the engine, its gauges or its
configuration. `close` is not handled here. -/
def StaticOp.body (op : StaticOp) (s : Session) : Answer × Session × List Call :=
  match op with
  | getSegmentStackSize => (Answer.size s.segmentInvalidateds.length, s, [])
  | getContactStackSize => (Answer.size s.autoContacts.length, s, [])
  | getInvalidateds => (Answer.collection s.segmentInvalidateds, s, [])
  | getRevalidateds => (Answer.collection s.segmentRevalidateds, s, [])
  | getDestroyeds => (Answer.collection s.destroyedSegments, s, [])
  | getDoglegs => (Answer.collection s.doglegs, s, [])
  | getNetsModificateds => (Answer.collection s.netRevalidateds, s, [])
  | dogleg segment => (Answer.unit, { s with doglegs := s.doglegs ++ [segment] }, [])
  | doglegReset => (Answer.unit, { s with doglegs := [] }, [])
  | revalidateTopology => (Answer.unit, s._revalidateTopology, [])
  | invalidateNet net =>
    (Answer.unit, { s with netInvalidateds := setInsert s.netInvalidateds net }, [])
  | invalidateContact contact =>
    (Answer.unit, { s with autoContacts := s.autoContacts ++ [contact] }, [])
  | invalidateSegment segment =>
    (Answer.unit, { s with segmentInvalidateds := s.segmentInvalidateds ++ [segment] }, [])
  | revalidate =>
    (Answer.size s._revalidate.1, s._revalidate.2, [Call.revalidate s.katabatic s._revalidate.1])
  | destroyRequest segment =>
    (Answer.unit, { s with destroyedSegments := setInsert s.destroyedSegments segment }, [])
  | _ => (Answer.engine s.katabatic op.message, s, [])

/-- A static operation of `Session` on the process state: `close()`, or
`get("...")->member(...)`. A `get` with a message never returns null, it throws. -/
def Session.static (w : World) (op : StaticOp) : Except Error (Answer × World) :=
  match op with
  | StaticOp.close =>
    match Session.close w with
    | Except.error e => Except.error e
    | Except.ok w1 => Except.ok (Answer.unit, w1)
  | _ =>
    match Session.get w (some op.message) with
    | Except.error e => Except.error e
    | Except.ok none => Except.error (Error.openSessionError op.message)
    | Except.ok (some s) =>
      Except.ok ((op.body s).1,
        { w with session := some (op.body s).2.1, trace := w.trace ++ (op.body s).2.2 })

/-- Number of revalidation passes run so far. -/
def World.revalidations (w : World) : Nat :=
  (w.trace.filter (fun c => match c with
    | Call.revalidate _ _ => true
    | _ => false)).length

/-- A session of engine 1 with segment 7 invalidated, the engine past `EngineActive`
(`getState() <= EngineActive` is false, as for an engine being gutted or destroyed). -/
def lateEngineWorld : World :=
  { session := some { Session.create false 1 with segmentInvalidateds := [7] }
  , atMostActive := fun _ => false
  , hasGCellGrid := fun _ => true
  , trace := [] }

/-- The session of `katabaticSessionWorld`: engine 1, net 5 invalidated. -/
def pendingNetSession : Session :=
  { Session.create false 1 with netInvalidateds := [5] }

/-! ## Auto segments and the routing database -/

/-- The bits of the `Kb...` flags of `katabatic/Constants.h` (not in the sources) that the
functions below test or return; the value 0 has every bit off. -/
structure KbFlags where
  realignate : Bool
  propagate : Bool
  noCheckLayer : Bool
  useAboveLayer : Bool
  useBelowLayer : Bool
  source : Bool
  target : Bool
  topology : Bool
  withNeighbors : Bool
deriving DecidableEq, Repr

/-- The flags value 0. -/
def KbFlags.none : KbFlags :=
  { realignate := false, propagate := false, noCheckLayer := false
  , useAboveLayer := false, useBelowLayer := false
  , source := false, target := false, topology := false, withNeighbors := false }

/-- The flags `KbRealignate|KbPropagate` that `Session::_canonize` passes. -/
def KbFlags.realignatePropagate : KbFlags :=
  { KbFlags.none with realignate := true, propagate := true }

/-- A `Hurricane::Interval` of `DbU`. -/
structure Interval where
  vMin : Int
  vMax : Int
deriving DecidableEq, Repr

/-- Modelled from the spec: `Interval::isEmpty` of Hurricane (not in the sources), an interval
whose upper bound is below its lower bound. -/
def Interval.isEmpty (i : Interval) : Bool :=
  decide (i.vMax < i.vMin)

/-- Modelled from the spec: `Interval::intersect` of Hurricane (not in the sources): two
non-empty closed intervals that share a point; the spec's "outside the segment's span" is its
negation. -/
def Interval.intersect (i j : Interval) : Bool :=
  !i.isEmpty && !j.isEmpty && decide (j.vMin ≤ i.vMax) && decide (i.vMin ≤ j.vMax)

/-- Modelled from the spec: `Interval::getHalfSize` of Hurricane (not in the sources). -/
def Interval.getHalfSize (i : Interval) : Int :=
  (i.vMax - i.vMin) / 2

/-- What the functions below ask of the `CRL::RoutingGauge` of the session (crlcore is not
in the sources): the number of layers `getDepth()`, and for every argument the answers of
`getLayerDepth(layer)`, `getLayerPitch(depth)` and `getRoutingLayer(depth)`, also for a
depth that is no layer of the gauge. -/
structure RoutingGauge where
  depth : Nat
  layerDepth : Nat → Nat
  layerPitch : Nat → Int
  routingLayer : Nat → Nat

/-- An `AutoContact` as the functions below see it: `isTurn()`, its layer, its gcell and
the number of segments still attached to it. -/
structure AutoContact where
  isTurn : Bool
  layer : Nat
  gcell : Nat
  slaves : Nat
deriving DecidableEq, Repr

/-- A `GCell` as `makeDogleg` sees it: `isUnderIoPad()` and its two sides,
`getSide(KbHorizontal)` and `getSide(KbVertical)`. -/
structure GCell where
  isUnderIoPad : Bool
  hSide : Interval
  vSide : Interval
deriving DecidableEq, Repr

/-- An `AutoSegment`: the members `_id`, `_depth`, `_reduceds`, `_optimalMin`,
`_optimalMax` of the constructor (lines 311-322), one boolean for each `Seg...` bit of
`_flags` that the functions below read or write, and the answers of the accessors that read
the underlying Hurricane segment or are virtual (`getNet`, `getLayer`, `getAxis`,
`getSourceU`, `getLength`, `getSpanU`, `getAutoSource`, `getAutoTarget`,
`getConstraints`). The accessors `isFixed()`, `isGlobal()`, `isCanonical()`,
`isInvalidated()`, `isReduced()`, `isDogleg()`, `isHorizontal()` of `AutoSegment.h` (not in
the sources) read the bit of their name, `isUnsetAxis()` the absence of `SegAxisSet`. -/
structure AutoSegment where
  id : Nat
  net : Nat
  layer : Nat
  depth : Nat
  axis : Int
  sourceU : Int
  length : Int
  spanU : Interval
  source : Nat
  target : Nat
  reduceds : Nat
  optimalMin : Int
  optimalMax : Int
  constraintMin : Int
  constraintMax : Int
  segHorizontal : Bool
  segFixed : Bool
  segGlobal : Bool
  segWeakGlobal : Bool
  segCanonical : Bool
  segNotSourceAligned : Bool
  segNotTargetAligned : Bool
  segInvalidated : Bool
  segInvalidatedSource : Bool
  segInvalidatedTarget : Bool
  segInvalidatedLayer : Bool
  segCreated : Bool
  segSourceTop : Bool
  segSourceBottom : Bool
  segTargetTop : Bool
  segTargetBottom : Bool
  segIsReduced : Bool
  segAxisSet : Bool
  segDogleg : Bool
  segStrongTerminal : Bool
deriving DecidableEq, Repr

/-- A local horizontal segment with every flag off and every measure 0. -/
def AutoSegment.blank : AutoSegment :=
  { id := 0, net := 0, layer := 0, depth := 0, axis := 0, sourceU := 0, length := 0
  , spanU := { vMin := 0, vMax := 0 }, source := 0, target := 0, reduceds := 0
  , optimalMin := 0, optimalMax := 0, constraintMin := 0, constraintMax := 0
  , segHorizontal := true, segFixed := false, segGlobal := false, segWeakGlobal := false
  , segCanonical := false, segNotSourceAligned := false, segNotTargetAligned := false
  , segInvalidated := false, segInvalidatedSource := false, segInvalidatedTarget := false
  , segInvalidatedLayer := false, segCreated := false, segSourceTop := false
  , segSourceBottom := false, segTargetTop := false, segTargetBottom := false
  , segIsReduced := false, segAxisSet := false, segDogleg := false
  , segStrongTerminal := false }

/-- Modelled from the spec: the accessor `isNotAligned()` of `AutoSegment.h` (not in the
sources): the segment is aligned with no other one, on its source side and on its target
side (`SegNotAligned` covers `SegNotSourceAligned` and `SegNotTargetAligned`). -/
def AutoSegment.isNotAligned (seg : AutoSegment) : Bool :=
  seg.segNotSourceAligned && seg.segNotTargetAligned

/-- Modelled from the spec: the accessor `isSpinTop()` of `AutoSegment.h` (not in the
sources): both ends carry the top flag that `revalidate` sets (`SegSpinTop`, the mask
`getPPitch` tests, covers `SegSourceTop` and `SegTargetTop`). -/
def AutoSegment.isSpinTop (seg : AutoSegment) : Bool :=
  seg.segSourceTop && seg.segTargetTop

/-- Modelled from the spec: the accessor `isSpinBottom()` of `AutoSegment.h` (not in the
sources): both ends carry the bottom flag. -/
def AutoSegment.isSpinBottom (seg : AutoSegment) : Bool :=
  seg.segSourceBottom && seg.segTargetBottom

/-- Modelled from the spec: the accessor `isSpinTopOrBottom()` of `AutoSegment.h` (not in
the sources). -/
def AutoSegment.isSpinTopOrBottom (seg : AutoSegment) : Bool :=
  seg.isSpinTop || seg.isSpinBottom

/-- The functor `AutoSegment::CompareByDepthLength` (lines 246-276), on the answers of the
gauge for the layers of the two segments. Depths are taken below 2^31 and `DbU` differences
inside 64 bits, so the subtractions are those of the integers. -/
def AutoSegment.CompareByDepthLength (rg : RoutingGauge) (lhs rhs : AutoSegment) : Bool :=
  let deltaDepth : Int := (rg.layerDepth lhs.layer : Int) - (rg.layerDepth rhs.layer : Int)
  if deltaDepth < 0 then true
  else if deltaDepth > 0 then false
  else if lhs.sourceU - rhs.sourceU < 0 then true
  else if lhs.sourceU - rhs.sourceU > 0 then false
  else if lhs.length - rhs.length > 0 then true
  else if lhs.length - rhs.length < 0 then true
  else if lhs.axis - rhs.axis < 0 then true
  else if lhs.axis - rhs.axis > 0 then false
  else decide (lhs.id < rhs.id)

/-- The order the specification gives for that comparison, in its words: lexicographic on
(layer depth ascending, source-u ascending, length descending, axis ascending, id
ascending), `lhs` strictly before `rhs`. -/
def AutoSegment.lexicographicBefore (rg : RoutingGauge) (lhs rhs : AutoSegment) : Bool :=
  decide (rg.layerDepth lhs.layer < rg.layerDepth rhs.layer) ||
  (decide (rg.layerDepth lhs.layer = rg.layerDepth rhs.layer) &&
    (decide (lhs.sourceU < rhs.sourceU) ||
     (decide (lhs.sourceU = rhs.sourceU) &&
       (decide (lhs.length > rhs.length) ||
        (decide (lhs.length = rhs.length) &&
          (decide (lhs.axis < rhs.axis) ||
           (decide (lhs.axis = rhs.axis) && decide (lhs.id < rhs.id))))))))

/-- A gauge of three layers, layer `n` at depth `n`, every pitch 10. -/
def threeLayerGauge : RoutingGauge :=
  { depth := 3, layerDepth := fun layer => layer, layerPitch := fun _ => 10
  , routingLayer := fun depth => depth }

/-- A segment of length 10, id 1, on layer 1 from source-u 0. -/
def shortSegment : AutoSegment :=
  { AutoSegment.blank with id := 1, layer := 1, depth := 1, length := 10 }

/-- A segment of length 20, id 2, on the same layer from the same source-u. -/
def longSegment : AutoSegment :=
  { AutoSegment.blank with id := 2, layer := 1, depth := 1, length := 20 }

/-- What the routing functions do to objects this model does not carry, in order: the four
passes of the engine on a net, the geometry update of a contact, the notification of the
observers of a segment (`Revalidate`, with `RevalidatePPitch` or not), the destruction
of a segment or contact, the notification `Invalidate` of the observers of a segment,
`AutoContact::invalidate` and `GCell::invalidate`. -/
inductive Event where
  | updateNetTopology (net : Nat)
  | computeNetConstraints (net : Nat)
  | computeNetOptimals (net : Nat)
  | computeNetTerminals (net : Nat)
  | updateGeometry (contact : Nat)
  | revalidate (segment : Nat) (ppitch : Bool)
  | destroySegment (segment : Nat)
  | destroyContact (contact : Nat)
  | notifyInvalidate (segment : Nat)
  | invalidateContact (contact : Nat)
  | invalidateGCell (gcell : Nat)
deriving DecidableEq, Repr

/-- The messages the routing functions write on `cerr`. -/
inductive Diagnostic where
  | noLongerCanonical (segment : Nat)
  | doglegUnderPad (segment : Nat) (gcell : Nat)
  | doglegOnFixed (segment : Nat)
  | cannotMakeDogleg (segment : Nat) (gcell : Nat)
deriving DecidableEq, Repr

/-- The routing database of the engine of the open session: segments, contacts and gcells
by address, and what is asked of code outside the sources: the collection
`getAligneds()` of a segment (`AutoSegments_Aligneds`), `AutoContact::getPerpandicular`,
`Layer::getTop`, the routing gauge, whether the state of the engine is
`EngineGlobalLoaded`; then the number of segments and contacts allocated so far, the events
and the messages; then the answer of `doDestroyTool()` of the engine, the collections
`getAligneds(KbNoCheckLayer)`, `getCachedOnSourceContact(KbDirectionMask)` and
`getCachedOnTargetContact(KbDirectionMask)` of a segment, and the gcells `getGCells` gives
for it; last the collection `getAligneds(flags)` of a segment for any other flags. -/
structure Db where
  segment : Nat → AutoSegment
  contact : Nat → AutoContact
  gcell : Nat → GCell
  aligneds : Nat → List Nat
  perpandicular : Nat → Nat → Nat
  layerTop : Nat → Nat
  routingGauge : RoutingGauge
  engineGlobalLoaded : Bool
  segmentCount : Nat
  contactCount : Nat
  events : List Event
  cerr : List Diagnostic
  doDestroyTool : Bool
  alignedsNoCheckLayer : Nat → List Nat
  cachedOnSource : Nat → List Nat
  cachedOnTarget : Nat → List Nat
  gcellsOf : Nat → List Nat
  alignedsFor : Nat → KbFlags → List Nat

/-- Update of the segment at `p`. -/
def Db.modifySegment (db : Db) (p : Nat) (f : AutoSegment → AutoSegment) : Db :=
  { db with segment := fun q => if q = p then f (db.segment q) else db.segment q }

/-- Update of the contact at `c`. -/
def Db.modifyContact (db : Db) (c : Nat) (f : AutoContact → AutoContact) : Db :=
  { db with contact := fun q => if q = c then f (db.contact q) else db.contact q }

/-- The segments `getAligneds()` is walked for: none when the segment says it is not
aligned (every loop on `getAligneds()` is guarded by `not isNotAligned()`). -/
def Db.alignedsOf (db : Db) (p : Nat) : List Nat :=
  if (db.segment p).isNotAligned then [] else db.aligneds p

/-- The flags `KbNoCheckLayer`. -/
def KbFlags.noCheckLayerOnly : KbFlags :=
  { KbFlags.none with noCheckLayer := true }

/-- The collection `getAligneds(flags)` of a segment (`AutoSegments_Aligneds`, not in the
sources), which depends on the flags: for the flags 0 it is the collection `getAligneds()`,
for `KbNoCheckLayer` the collection `getAligneds(KbNoCheckLayer)`, for any other flags
what the database answers for them. -/
def Db.getAligneds (db : Db) (p : Nat) (flags : KbFlags) : List Nat :=
  if flags = KbFlags.none then db.aligneds p
  else if flags = KbFlags.noCheckLayerOnly then db.alignedsNoCheckLayer p
  else db.alignedsFor p flags

/-- The segments `getAligneds(flags)` is walked for by `makeDogleg`: none when the segment
says it is not aligned (the loop is guarded by `not isNotAligned()`). -/
def Db.alignedsWith (db : Db) (p : Nat) (flags : KbFlags) : List Nat :=
  if (db.segment p).isNotAligned then [] else db.getAligneds p flags

/-- The function `AutoSegment::canReduce` (lines 1193-1215) on the segment at `p`.
`perpandicularDepth` is an `unsigned int`: decrement and increment are modulo 2^32;
`Session::getDepth()` and `Session::getPitch(depth)` answer from the gauge of the session. -/
def AutoSegment.canReduce (db : Db) (p : Nat) : Bool :=
  let seg := db.segment p
  if seg.segGlobal then false
  else if !seg.isSpinTopOrBottom then false
  else if seg.reduceds ≠ 0 then false
  else if !(db.contact seg.source).isTurn || !(db.contact seg.target).isTurn then false
  else if seg.isSpinBottom then
    !decide (seg.length ≥ db.routingGauge.layerPitch ((seg.depth + (2 ^ 32 - 1)) % 2 ^ 32) * 2)
  else if seg.isSpinTop then
    if (seg.depth + 1) % 2 ^ 32 ≥ db.routingGauge.depth then false
    else !decide (seg.length ≥ db.routingGauge.layerPitch ((seg.depth + 1) % 2 ^ 32) * 2)
  else false

/-- The perpendicular depth in the words of the specification: `depth - 1` for
spin-bottom, `depth + 1` for spin-top. -/
def AutoSegment.perpandicularDepth (seg : AutoSegment) : Int :=
  if seg.isSpinBottom then (seg.depth : Int) - 1 else (seg.depth : Int) + 1

/-- The condition the specification gives for `canReduce`, in its words: not global, spin
top or bottom, no reduced perpendicular, source and target contacts are turns, the
perpendicular depth is a depth of the gauge, the length is below twice the pitch there. -/
def AutoSegment.reduceCondition (db : Db) (p : Nat) : Bool :=
  let seg := db.segment p
  !seg.segGlobal && (seg.isSpinTop || seg.isSpinBottom) && decide (seg.reduceds = 0) &&
  (db.contact seg.source).isTurn && (db.contact seg.target).isTurn &&
  decide (0 ≤ seg.perpandicularDepth) &&
  decide (seg.perpandicularDepth < (db.routingGauge.depth : Int)) &&
  decide (seg.length < 2 * db.routingGauge.layerPitch seg.perpandicularDepth.toNat)

/-- A database with blank segments, turn contacts on layer 0, the three-layer gauge and
nothing else. -/
def Db.blank : Db :=
  { segment := fun _ => AutoSegment.blank
  , contact := fun _ => { isTurn := true, layer := 0, gcell := 0, slaves := 0 }
  , gcell := fun _ => { isUnderIoPad := false, hSide := { vMin := 0, vMax := 0 }
                      , vSide := { vMin := 0, vMax := 0 } }
  , aligneds := fun _ => []
  , perpandicular := fun _ p => p
  , layerTop := fun layer => layer
  , routingGauge := threeLayerGauge
  , engineGlobalLoaded := false
  , segmentCount := 0
  , contactCount := 0
  , events := []
  , cerr := []
  , doDestroyTool := false
  , alignedsNoCheckLayer := fun _ => []
  , cachedOnSource := fun _ => []
  , cachedOnTarget := fun _ => []
  , gcellsOf := fun _ => []
  , alignedsFor := fun _ _ => [] }

/-- The blank database where segment 0 is a local segment of length 0 at depth 0 between two
turn contacts, both ends connected downwards (spin bottom). -/
def bottomSpinDb : Db :=
  Db.blank.modifySegment 0 (fun seg =>
    { seg with segSourceBottom := true, segTargetBottom := true, source := 0, target := 1 })

/-! ## Axis of a segment -/

/-- The function `GCell::getSide(direction)`: the horizontal side for `KbHorizontal`, the vertical one
for `KbVertical`. -/
def GCell.getSide (g : GCell) (horizontal : Bool) : Interval :=
  if horizontal then g.hSide else g.vSide

/-- Modelled from the spec: the virtual `_setAxis` of `AutoHorizontal` and `AutoVertical`
(not in the sources): the segment takes the axis, which from then on is set (the spec
distinguishes a canonical whose axis is unset from one whose axis is set). -/
def AutoSegment._setAxis (db : Db) (p : Nat) (axis : Int) : Db :=
  db.modifySegment p (fun seg => { seg with axis := axis, segAxisSet := true })

/-- The function `AutoSegment::setAxis` (lines 837-859): nothing on a segment that is not canonical,
nothing when the axis is the current one and `KbRealignate` is not given; otherwise the
segment and every segment aligned with it take the axis. -/
def AutoSegment.setAxis (db : Db) (p : Nat) (axis : Int) (flags : KbFlags) : Db :=
  if !(db.segment p).segCanonical then db
  else if axis = (db.segment p).axis ∧ !flags.realignate then db
  else
    (db.alignedsOf p).foldl (fun d q => AutoSegment._setAxis d q (d.segment p).axis)
      (AutoSegment._setAxis db p axis)

/-- The function `AutoSegment::toConstraintAxis` (lines 766-801): the canonical segment is brought
back inside its constraints (widened by half the side of the gcell for a dogleg); returns
whether the axis was moved. -/
def AutoSegment.toConstraintAxis (db : Db) (p : Nat) (flags : KbFlags) : Bool × Db :=
  let seg := db.segment p
  if !seg.segCanonical then (false, db)
  else if seg.constraintMin > seg.constraintMax then (false, db)
  else
    let halfSideLength : Int :=
      if seg.segDogleg then
        ((db.gcell (db.contact seg.source).gcell).getSide (!seg.segHorizontal)).getHalfSize
      else 0
    let constraintMin := seg.constraintMin - halfSideLength
    let constraintMax := seg.constraintMax + halfSideLength
    if seg.axis < constraintMin then (true, AutoSegment.setAxis db p constraintMin flags)
    else if seg.axis > constraintMax then (true, AutoSegment.setAxis db p constraintMax flags)
    else (false, db)

/-- The function `AutoSegment::toOptimalAxis` (lines 804-834): the canonical segment is brought inside
its optimal interval, itself clamped to the constraints; with `KbRealignate` the aligned
segments are realigned even when the axis stays. -/
def AutoSegment.toOptimalAxis (db : Db) (p : Nat) (flags : KbFlags) : Bool × Db :=
  let seg := db.segment p
  if !seg.segCanonical then (false, db)
  else
    let optimalMin := max (min seg.optimalMin seg.constraintMax) seg.constraintMin
    let optimalMax := min (max seg.optimalMax seg.constraintMin) seg.constraintMax
    if seg.axis < optimalMin then (true, AutoSegment.setAxis db p optimalMin flags)
    else if seg.axis > optimalMax then (true, AutoSegment.setAxis db p optimalMax flags)
    else if flags.realignate then (false, AutoSegment.setAxis db p seg.axis flags)
    else (false, db)

/-! ## `Session::_canonize` -/

/-- Modelled from the spec: the functor `AutoSegment::CompareId` of `AutoSegment.h` (not
in the sources): the canonical is "the one with smallest entity id", so the functor
compares the ids. -/
def AutoSegment.CompareId (lhs rhs : AutoSegment) : Bool :=
  decide (lhs.id < rhs.id)

/-- The segment elected over a seed and its aligned segments (lines 145-161): an aligned
segment replaces the candidate when `CompareId` puts it first. -/
def canonicalOf (db : Db) (seed : Nat) : Nat :=
  (db.alignedsOf seed).foldl
    (fun canonical aligned =>
      if AutoSegment.CompareId (db.segment aligned) (db.segment canonical) then aligned
      else canonical)
    seed

/-- The variable `isWeakGlobal` of `_canonize` (lines 151-158): the seed or one of its
aligned segments is global. -/
def isWeakGlobalOf (db : Db) (seed : Nat) : Bool :=
  (db.alignedsOf seed).foldl (fun g aligned => g || (db.segment aligned).segGlobal)
    (db.segment seed).segGlobal

/-- Body of the loop on `aligneds` (lines 169-181): the weak-global flag, then for every
segment but the canonical one a message if it was canonical and the canonical flag off. -/
def canonizeMember (canonical : Nat) (isWeakGlobal : Bool) (db : Db) (a : Nat) : Db :=
  let db1 := db.modifySegment a
    (fun seg => { seg with segWeakGlobal := isWeakGlobal && !seg.segGlobal })
  if a = canonical then db1
  else
    let db2 : Db :=
      if (db1.segment a).segCanonical then
        { db1 with cerr := db1.cerr ++ [Diagnostic.noLongerCanonical a] }
      else db1
    db2.modifySegment a (fun seg => { seg with segCanonical := false })

/-- One chunk of `_canonize` (lines 148-191) from a seed that was not explored: election,
flags, then the axis of the canonical segment given to the chain with
`KbRealignate|KbPropagate`. The vector `aligneds` holds the seed, so the test
`aligneds.empty()` of line 182 never holds. -/
def canonizeChain (db : Db) (seed : Nat) : Db :=
  let canonical := canonicalOf db seed
  let db1 := db.modifySegment canonical (fun seg => { seg with segCanonical := true })
  let db2 := (seed :: db.alignedsOf seed).foldl
    (canonizeMember canonical (isWeakGlobalOf db seed)) db1
  if !(db2.segment canonical).segAxisSet then
    (AutoSegment.toOptimalAxis db2 canonical KbFlags.realignatePropagate).2
  else
    AutoSegment.setAxis db2 canonical (db2.segment canonical).axis KbFlags.realignatePropagate

/-- The database and the set `exploredSegments` while `_canonize` runs. -/
structure CanonizeState where
  db : Db
  exploredSegments : List Nat

/-- One turn of the loop of `_canonize` on the invalidated segments (lines 143-193): a seed
that an earlier chunk explored is skipped; the aligned segments of a seed are explored, the
seed itself is not. -/
def canonizeSeed (st : CanonizeState) (seed : Nat) : CanonizeState :=
  if seed ∈ st.exploredSegments then st
  else
    { db := canonizeChain st.db seed
    , exploredSegments := (st.db.alignedsOf seed).foldl setInsert st.exploredSegments }

/-- The function `Session::_canonize` (lines 127-196) of the session `this` on the database. -/
def Db._canonize (db : Db) (this : Session) : Db :=
  if this.segmentInvalidateds = [] then db
  else (this.segmentInvalidateds.foldl canonizeSeed { db := db, exploredSegments := [] }).db

/-- The function `Session::_revalidateTopology` (lines 199-225) of the session `this` on the database:
the four passes of the engine on every invalidated net, `_canonize`, then every invalidated
segment that is canonical is brought to its optimal axis (axis unset) or inside its
constraints (axis set). `axisFlags` is the default argument of `toOptimalAxis` and
`toConstraintAxis`, declared in `AutoSegment.h` (not in the sources). The nets move from
invalidated to revalidated as in `Session._revalidateTopology`. -/
def Db._revalidateTopology (db : Db) (this : Session) (axisFlags : KbFlags) : Session × Db :=
  let db1 : Db :=
    { db with events := db.events ++ (this.netInvalidateds.map (fun net =>
        [Event.updateNetTopology net, Event.computeNetConstraints net,
         Event.computeNetOptimals net, Event.computeNetTerminals net])).flatten }
  let db2 := db1._canonize this
  let db3 := this.segmentInvalidateds.foldl
    (fun d p =>
      if (d.segment p).segCanonical then
        if !(d.segment p).segAxisSet then (AutoSegment.toOptimalAxis d p axisFlags).2
        else (AutoSegment.toConstraintAxis d p axisFlags).2
      else d)
    db2
  (this._revalidateTopology, db3)

/-! ## `Session::_revalidate` -/

/-- The function `AutoSegment::revalidate` (lines 457-510): nothing on a segment that is not
invalidated; otherwise the spin flags of an invalidated (or created) end are refreshed from
the layer of the contact, a reduced perpendicular across a turn is counted, the
invalidation flags are cleared and the observers are notified. `updateOrient` and
`updatePositions` refresh cached positions this model does not carry. -/
def AutoSegment.revalidate (db : Db) (p : Nat) : Db :=
  let seg := db.segment p
  if !seg.segInvalidated then db
  else
    let db1 : Db :=
      if seg.segInvalidatedSource || seg.segCreated then
        let contactLayer := (db.contact seg.source).layer
        let db2 := db.modifySegment p (fun x =>
          { x with segSourceTop := decide (contactLayer ≠ seg.layer)
                                    && !decide (seg.layer = db.layerTop contactLayer)
                 , segSourceBottom := decide (contactLayer ≠ seg.layer)
                                    && decide (seg.layer = db.layerTop contactLayer) })
        if (db.contact seg.source).isTurn
            && (db.segment (db.perpandicular seg.source p)).segIsReduced then
          db2.modifySegment p (fun x => { x with reduceds := x.reduceds + 1 })
        else db2
      else db
    let db3 : Db :=
      if seg.segInvalidatedTarget || seg.segCreated then
        let contactLayer := (db.contact seg.target).layer
        let db4 := db1.modifySegment p (fun x =>
          { x with segTargetTop := decide (contactLayer ≠ seg.layer)
                                    && !decide (seg.layer = db.layerTop contactLayer)
                 , segTargetBottom := decide (contactLayer ≠ seg.layer)
                                    && decide (seg.layer = db.layerTop contactLayer) })
        if (db.contact seg.target).isTurn
            && (db1.segment (db.perpandicular seg.target p)).segIsReduced then
          db4.modifySegment p (fun x => { x with reduceds := x.reduceds + 1 })
        else db4
      else db1
    let now := db3.segment p
    let ppitch : Bool :=
      seg.segCreated ||
      decide ((seg.segSourceTop, seg.segTargetTop, seg.segSourceBottom, seg.segTargetBottom)
        ≠ (now.segSourceTop, now.segTargetTop, now.segSourceBottom, now.segTargetBottom))
    let db5 := db3.modifySegment p (fun x =>
      { x with segInvalidated := false, segInvalidatedSource := false
             , segInvalidatedTarget := false, segInvalidatedLayer := false
             , segCreated := false })
    { db5 with events := db5.events ++ [Event.revalidate p ppitch] }

/-- Modelled from the spec: `AutoSegment::destroy` (lines 2181-2185) runs `_preDestroy`
(observers, `Session::unlink`) and the destructors of `AutoHorizontal` and `AutoVertical`
(not in the sources): the segment is destroyed and detached from its two contacts. -/
def AutoSegment.destroy (db : Db) (p : Nat) : Db :=
  let seg := db.segment p
  let db1 := db.modifyContact seg.source (fun c => { c with slaves := c.slaves - 1 })
  let db2 := db1.modifyContact seg.target (fun c => { c with slaves := c.slaves - 1 })
  { db2 with events := db2.events ++ [Event.destroySegment p] }

/-- Modelled from the spec: `AutoContact::canDestroy(true)` (not in the sources): "destroy
contacts whose last slave segment was removed". -/
def AutoContact.canDestroy (db : Db) (c : Nat) : Bool :=
  decide ((db.contact c).slaves = 0)

/-- Modelled from the spec: `AutoContact::destroy` (not in the sources). -/
def AutoContact.destroy (db : Db) (c : Nat) : Db :=
  { db with events := db.events ++ [Event.destroyContact c] }

/-- Body of the loop on `_destroyedSegments` (lines 261-267): the segment is destroyed,
then its source and its target contact when they can be. -/
def destroyQueued (db : Db) (p : Nat) : Db :=
  let source := (db.segment p).source
  let target := (db.segment p).target
  let db1 := AutoSegment.destroy db p
  let db2 := if AutoContact.canDestroy db1 source then AutoContact.destroy db1 source else db1
  if AutoContact.canDestroy db2 target then AutoContact.destroy db2 target else db2

/-- The function `Session::_revalidate` (lines 228-274) of the session `this` on the database: the
topology when a net is invalidated; the geometry of the invalidated contacts; the
revalidation of every invalidated segment, those not queued for destruction going to the
revalidated list; then the destruction of the queued segments. Returns the count, the
session and the database afterwards. The engine flags `EngineDestroyMask` set around the
destructions are not carried. -/
def Db._revalidate (db : Db) (this : Session) (axisFlags : KbFlags) : Nat × Session × Db :=
  let r1 : Session × Db :=
    if this.netInvalidateds ≠ [] then db._revalidateTopology this axisFlags else (this, db)
  let s1 := r1.1
  let db2 : Db :=
    { r1.2 with events := r1.2.events ++ s1.autoContacts.map Event.updateGeometry }
  let db3 := s1.segmentInvalidateds.foldl AutoSegment.revalidate db2
  let db4 := s1.destroyedSegments.foldl destroyQueued db3
  (s1.autoContacts.length + s1.segmentInvalidateds.length,
   { s1 with autoContacts := []
           , segmentRevalidateds :=
               s1.segmentInvalidateds.filter (fun x => decide (x ∉ s1.destroyedSegments))
           , segmentInvalidateds := []
           , destroyedSegments := [] },
   db4)

/-! ## `AutoSegment::makeDogleg` -/

/-- Modelled from the spec: the virtual `_makeDogleg` of `AutoHorizontal` and
`AutoVertical` (not in the sources): the segment is split at the gcell "by inserting two
orthogonal sub-segments joined by two new contacts", the middle one on "the layer
immediately above or below"; afterwards `Session::getDoglegs()` holds "the three produced
segments in the order (head, middle, tail)". The head is the segment itself; the new
contacts and segments take the next free addresses. Returns `KbUseAboveLayer` or
`KbUseBelowLayer`. `Session::dogleg` throws when no session is open. -/
def AutoSegment._makeDogleg (w : World) (db : Db) (p : Nat) (doglegGCell : Nat)
    (_flags : KbFlags) : Except Error (KbFlags × World × Db) :=
  match w.session with
  | none => Except.error (Error.openSessionError "dogleg(AutoSegment*)")
  | some s =>
    let seg := db.segment p
    let above : Bool := decide (seg.depth + 1 < db.routingGauge.depth)
    let middleDepth : Nat := if above then seg.depth + 1 else seg.depth - 1
    let c1 := db.contactCount
    let c2 := db.contactCount + 1
    let middle := db.segmentCount
    let tail := db.segmentCount + 1
    let turn : AutoContact :=
      { isTurn := true, layer := min seg.depth middleDepth, gcell := doglegGCell, slaves := 2 }
    let db1 : Db :=
      { db with
          contactCount := db.contactCount + 2
        , segmentCount := db.segmentCount + 2
        , contact := fun c => if c = c1 ∨ c = c2 then turn else db.contact c
        , segment := fun q =>
            if q = p then { seg with target := c1, segInvalidated := true }
            else if q = middle then
              { seg with id := middle, segHorizontal := !seg.segHorizontal
                       , depth := middleDepth, layer := middleDepth
                       , source := c1, target := c2, segCanonical := false
                       , segInvalidated := true, segCreated := true, segDogleg := true }
            else if q = tail then
              { seg with id := tail, source := c2, segCanonical := false
                       , segInvalidated := true, segCreated := true }
            else db.segment q }
    Except.ok
      ({ KbFlags.none with useAboveLayer := above, useBelowLayer := !above },
       { w with session := some { s with doglegs := s.doglegs ++ [p, middle, tail] } },
       db1)

/-- The function `AutoSegment::makeDogleg(GCell*, unsigned int)` (lines 1875-1920) on the segment at
`p`. A gcell under a pad is reported unless the engine state is `EngineGlobalLoaded`
(`Session::getKatabatic()` throws when no session is open); a fixed segment is reported and
0 returned; the dogleg is made in the segment when the side of the gcell intersects its
span, otherwise in the first segment of `getAligneds(flags)` whose span the side intersects,
and then 0 is returned; when there is none, the failure is reported and 0 returned. -/
def AutoSegment.makeDogleg (w : World) (db : Db) (p : Nat) (doglegGCell : Nat)
    (flags : KbFlags) : Except Error (KbFlags × World × Db) :=
  let seg := db.segment p
  let side := (db.gcell doglegGCell).getSide seg.segHorizontal
  let padTest : Except Error Db :=
    if (db.gcell doglegGCell).isUnderIoPad then
      match Session.get w (some "getKatabatic()") with
      | Except.error e => Except.error e
      | Except.ok _ =>
        if !db.engineGlobalLoaded then
          Except.ok { db with cerr := db.cerr ++ [Diagnostic.doglegUnderPad p doglegGCell] }
        else Except.ok db
    else Except.ok db
  match padTest with
  | Except.error e => Except.error e
  | Except.ok db1 =>
    if seg.segFixed then
      Except.ok (KbFlags.none, w, { db1 with cerr := db1.cerr ++ [Diagnostic.doglegOnFixed p] })
    else if side.intersect seg.spanU then
      AutoSegment._makeDogleg w db1 p doglegGCell flags
    else
      match (db1.alignedsWith p flags).find?
          (fun a => side.intersect (db1.segment a).spanU) with
      | some aligned =>
        match AutoSegment._makeDogleg w db1 aligned doglegGCell flags with
        | Except.error e => Except.error e
        | Except.ok r => Except.ok (KbFlags.none, r.2.1, r.2.2)
      | none =>
        Except.ok (KbFlags.none, w,
          { db1 with cerr := db1.cerr ++ [Diagnostic.cannotMakeDogleg p doglegGCell] })

/-- Scenario E of the specification: horizontal segments 0 (canonical, x in [0,50]) and 1
(x in [50,100]) on y = 100, aligned with each other through contact 1; gcell 3 spans x in
[60,70]. Two segments and three contacts are allocated. -/
def scenarioEDb : Db :=
  { Db.blank with
      segment := fun q =>
        if q = 0 then
          { AutoSegment.blank with id := 0, layer := 1, depth := 1, axis := 100
                                 , spanU := { vMin := 0, vMax := 50 }, length := 50
                                 , source := 0, target := 1, segCanonical := true
                                 , segAxisSet := true }
        else if q = 1 then
          { AutoSegment.blank with id := 1, layer := 1, depth := 1, axis := 100
                                 , spanU := { vMin := 50, vMax := 100 }, sourceU := 50
                                 , length := 50, source := 1, target := 2
                                 , segAxisSet := true }
        else AutoSegment.blank
    , aligneds := fun q => if q = 0 then [1] else if q = 1 then [0] else []
    , gcell := fun g =>
        if g = 3 then { isUnderIoPad := false, hSide := { vMin := 60, vMax := 70 }
                      , vSide := { vMin := 90, vMax := 110 } }
        else (Db.blank.gcell g)
    , segmentCount := 2
    , contactCount := 3 }

/-- A session of engine 1 just opened on the initial world. -/
def openedWorld : World :=
  worldOf World.init (Session.open World.init 1)

/-- The messages `makeDogleg` has written once the pad test is over: the report of a gcell
under a pad, unless the engine state is `EngineGlobalLoaded`. -/
def padReport (db : Db) (p doglegGCell : Nat) : List Diagnostic :=
  if (db.gcell doglegGCell).isUnderIoPad && !db.engineGlobalLoaded then
    [Diagnostic.doglegUnderPad p doglegGCell]
  else []

/-- Scenario E with segment 0 fixed. -/
def fixedSegmentDb : Db :=
  scenarioEDb.modifySegment 0 (fun seg => { seg with segFixed := true })

/-- Scenario E with a gcell 4 that spans x in [200,210], beyond the spans of both
segments. -/
def farGCellDb : Db :=
  { scenarioEDb with
      gcell := fun g =>
        if g = 4 then { isUnderIoPad := false, hSide := { vMin := 200, vMax := 210 }
                      , vSide := { vMin := 90, vMax := 110 } }
        else scenarioEDb.gcell g }

/-! ## Chains of aligned segments -/

/-- A seed with the segments `_canonize` walks from it. -/
def Db.chainOf (db : Db) (seed : Nat) : List Nat :=
  seed :: db.alignedsOf seed

/-- A segment without its axis. -/
def AutoSegment.noAxis (seg : AutoSegment) : AutoSegment :=
  { seg with axis := 0, segAxisSet := false }

/-- A segment without what `_canonize` writes: axis, canonical and weak-global flags. -/
def AutoSegment.core (seg : AutoSegment) : AutoSegment :=
  { seg with axis := 0, segAxisSet := false, segCanonical := false, segWeakGlobal := false }

/-- From `d` to `e` only axes have changed. -/
def AxisFrame (d e : Db) : Prop :=
  e.aligneds = d.aligneds ∧ ∀ q, (e.segment q).noAxis = (d.segment q).noAxis

/-- From `d` to `e` only axes, canonical and weak-global flags have changed. -/
def CanonFrame (d e : Db) : Prop :=
  e.aligneds = d.aligneds ∧ ∀ q, (e.segment q).core = (d.segment q).core

/-- Scenario E after segment 1 was moved and wrongly left canonical: segment 1 carries the
canonical flag on axis 90, segment 0 (the smaller id) does not and is on axis 100. -/
def staleCanonicalDb : Db :=
  (scenarioEDb.modifySegment 0 (fun seg => { seg with segCanonical := false })).modifySegment 1
    (fun seg => { seg with segCanonical := true, axis := 90 })

/-- A session of engine 1 where segment 1 and net 5 are invalidated. -/
def invalidatedSession : Session :=
  { Session.create false 1 with segmentInvalidateds := [1], netInvalidateds := [5] }

/-- The default `KbRealignate` of the axis functions. -/
def KbFlags.realignateOnly : KbFlags :=
  { KbFlags.none with realignate := true }

/-- The database without its segments and messages. -/
def Db.rest (db : Db) : Db :=
  { db with segment := fun _ => AutoSegment.blank, cerr := [] }

/-- The events of the four passes of the engine on the invalidated nets. -/
def netEvents (this : Session) : List Event :=
  (this.netInvalidateds.map (fun net =>
    [Event.updateNetTopology net, Event.computeNetConstraints net,
     Event.computeNetOptimals net, Event.computeNetTerminals net])).flatten

/-- An event is the destruction of a segment or contact. -/
def Event.isDestroy : Event → Bool
  | Event.destroySegment _ => true
  | Event.destroyContact _ => true
  | _ => false

/-- An event is the revalidation of a segment. -/
def Event.isRevalidate : Event → Bool
  | Event.revalidate _ _ => true
  | _ => false

/-- Scenario E where segment 1 is invalidated, with a session of engine 1 where it is
pending. -/
def pendingSegmentDb : Db :=
  scenarioEDb.modifySegment 1 (fun seg => { seg with segInvalidated := true })

/-- A session of engine 1 where segment 1 is the only pending object. -/
def pendingSegmentSession : Session :=
  { Session.create false 1 with segmentInvalidateds := [1] }

/-- The opened world where segment 1 is pending in the session. -/
def pendingSegmentWorld : World :=
  { openedWorld with session := some pendingSegmentSession }

/-- The blank database where segment 0 is canonical on axis 5, with constraints [10, 20] and
optimal interval [12, 15]. -/
def constrainedDb : Db :=
  Db.blank.modifySegment 0 (fun seg =>
    { seg with segCanonical := true, axis := 5, constraintMin := 10, constraintMax := 20
             , optimalMin := 12, optimalMax := 15 })

/-! ## `AutoSegment::reduce`, `mustRaise` and `raise` -/

/-- Modelled from the spec: the inline `incReduceds()` of `AutoSegment.h` (not in the
sources): one more reduced perpendicular is counted on the segment (`canReduce` tests
`_reduceds` as the count of reduced perpendiculars). -/
def AutoSegment.incReduceds (db : Db) (p : Nat) : Db :=
  db.modifySegment p (fun seg => { seg with reduceds := seg.reduceds + 1 })

/-- Modelled from the spec: the inline `decReduceds()` of `AutoSegment.h` (not in the
sources): one reduced perpendicular less is counted on the segment. -/
def AutoSegment.decReduceds (db : Db) (p : Nat) : Db :=
  db.modifySegment p (fun seg => { seg with reduceds := seg.reduceds - 1 })

/-- The function `AutoSegment::reduce` (lines 1218-1230): nothing when `canReduce()` is
false; otherwise the segment takes `SegIsReduced` and the perpendiculars at its two
contacts count one more reduced segment. -/
def AutoSegment.reduce (db : Db) (p : Nat) : Bool × Db :=
  if !AutoSegment.canReduce db p then (false, db)
  else
    let source := (db.segment p).source
    let target := (db.segment p).target
    let db1 := db.modifySegment p (fun seg => { seg with segIsReduced := true })
    let db2 := AutoSegment.incReduceds db1 (db1.perpandicular source p)
    let db3 := AutoSegment.incReduceds db2 (db2.perpandicular target p)
    (true, db3)

/-- The test `mustRaise` makes once the segment is known to be reduced (lines 1237-1242):
true without spin; with a spin, whether the length reaches twice the pitch of the
perpendicular depth (`unsigned int`, modulo 2^32). -/
def AutoSegment.raiseCondition (db : Db) (p : Nat) : Bool :=
  let seg := db.segment p
  if seg.isSpinBottom then
    decide (seg.length ≥ db.routingGauge.layerPitch ((seg.depth + (2 ^ 32 - 1)) % 2 ^ 32) * 2)
  else if seg.isSpinTop then
    decide (seg.length ≥ db.routingGauge.layerPitch ((seg.depth + 1) % 2 ^ 32) * 2)
  else true

/-- The function `AutoSegment::mustRaise` (lines 1233-1243). -/
def AutoSegment.mustRaise (db : Db) (p : Nat) : Bool :=
  if !(db.segment p).segIsReduced then false
  else AutoSegment.raiseCondition db p

/-- The function `AutoSegment::raise` (lines 1246-1258): nothing on a segment that is not
reduced; otherwise `SegIsReduced` is cleared and the perpendiculars at the two contacts
count one reduced segment less. -/
def AutoSegment.raise (db : Db) (p : Nat) : Bool × Db :=
  if !(db.segment p).segIsReduced then (false, db)
  else
    let source := (db.segment p).source
    let target := (db.segment p).target
    let db1 := db.modifySegment p (fun seg => { seg with segIsReduced := false })
    let db2 := AutoSegment.decReduceds db1 (db1.perpandicular source p)
    let db3 := AutoSegment.decReduceds db2 (db2.perpandicular target p)
    (true, db3)

/-- The blank database where segment 0 is a local segment of length 0 at depth 1 between two
turn contacts, both ends connected upwards (spin top); the perpendiculars at its contacts
are segments 1 and 2. -/
def topSpinDb : Db :=
  { Db.blank.modifySegment 0 (fun seg =>
      { seg with segSourceTop := true, segTargetTop := true, depth := 1, layer := 1
               , source := 0, target := 1 }) with
    perpandicular := fun c _ => c + 1 }

/-! ## `AutoSegment::invalidate` and the changes of depth

The functions of this section work on the open session `this` and the database: the static
operations of `Session` they call reach the session through `get`, which throws without a
session (`Session.static`). -/

/-- The function `AutoSegment::_invalidate` (lines 437-446): nothing on an invalidated
segment; otherwise the segment takes `SegInvalidated`, `Session::invalidate(this)` pushes
it on the invalidated segments of the session, and the observers are notified. -/
def AutoSegment._invalidate (st : Session × Db) (p : Nat) : Session × Db :=
  if (st.2.segment p).segInvalidated then st
  else
    (((StaticOp.invalidateSegment p).body st.1).2.1,
     { st.2.modifySegment p (fun seg => { seg with segInvalidated := true }) with
       events := st.2.events ++ [Event.notifyInvalidate p] })

/-- Lines 419-420 of `AutoSegment::invalidate(flags)`: `KbSource` sets
`SegInvalidatedSource` and `KbTarget` sets `SegInvalidatedTarget`. -/
def invalidateEnds (db : Db) (p : Nat) (flags : KbFlags) : Db :=
  let db1 : Db :=
    if flags.source then
      db.modifySegment p (fun seg => { seg with segInvalidatedSource := true })
    else db
  if flags.target then
    db1.modifySegment p (fun seg => { seg with segInvalidatedTarget := true })
  else db1

/-- The function `AutoSegment::invalidate(flags)` (lines 416-434): nothing while the tool
is being destroyed; `KbSource` and `KbTarget` set `SegInvalidatedSource` and
`SegInvalidatedTarget`; then, unless the segment is already invalidated, `_invalidate()` on
it and, with `KbPropagate` on a segment that is aligned, on every segment of
`getAligneds()`. -/
def AutoSegment.invalidate (st : Session × Db) (p : Nat) (flags : KbFlags) : Session × Db :=
  if st.2.doDestroyTool then st
  else
    let db2 : Db := invalidateEnds st.2 p flags
    if (db2.segment p).segInvalidated then (st.1, db2)
    else
      let st1 := AutoSegment._invalidate (st.1, db2) p
      if flags.propagate && !(st1.2.segment p).isNotAligned then
        (st1.2.aligneds p).foldl AutoSegment._invalidate st1
      else st1

/-- The pending list of the session agrees with the flags: every segment of the list
carries `SegInvalidated` and appears once. -/
def PendingOk (st : Session × Db) : Prop :=
  st.1.segmentInvalidateds.Nodup ∧
  ∀ q ∈ st.1.segmentInvalidateds, (st.2.segment q).segInvalidated = true

/-- Modelled from the spec: the inline `setLayer` of `AutoSegment.h` (not in the sources):
the segment is relocated on the layer, its depth is the depth of that layer in the
gauge. -/
def AutoSegment.setLayer (db : Db) (p : Nat) (layer : Nat) : Db :=
  db.modifySegment p (fun seg =>
    { seg with layer := layer, depth := db.routingGauge.layerDepth layer })

/-- The function `AutoContact::invalidate` (not in the sources), recorded as an event. -/
def AutoContact.invalidate (db : Db) (c : Nat) : Db :=
  { db with events := db.events ++ [Event.invalidateContact c] }

/-- The function `AutoSegment::_changeDepth` up to its test of `KbWithNeighbors` (lines
1282-1291), which is all of it when called without that flag, as it calls itself on the
neighbours: the segment is invalidated, takes `SegInvalidatedLayer`,
`SegInvalidatedSource` and `SegInvalidatedTarget`, and when the routing layer of the depth
is not its layer, is set on that layer and its two contacts are invalidated. -/
def AutoSegment._changeDepthAlone (st : Session × Db) (p : Nat) (depth : Nat) :
    Session × Db :=
  let st1 := AutoSegment.invalidate st p KbFlags.none
  let db2 := st1.2.modifySegment p (fun seg =>
    { seg with segInvalidatedLayer := true, segInvalidatedSource := true
             , segInvalidatedTarget := true })
  let newLayer := db2.routingGauge.routingLayer depth
  if (db2.segment p).layer ≠ newLayer then
    let db3 := AutoSegment.setLayer db2 p newLayer
    let db4 := AutoContact.invalidate db3 (db3.segment p).source
    (st1.1, AutoContact.invalidate db4 (db4.segment p).target)
  else (st1.1, db2)

/-- Body of the loops of `_changeDepth` on the segments cached on a contact (lines
1298-1318): the segment itself, global and terminal segments are skipped (`isTerminal()`
reads `SegStrongTerminal`); a segment of the same direction goes to the depth, a
perpendicular one to the depth below (`unsigned int`, modulo 2^32). -/
def changeDepthNeighbor (p depth : Nat) (st : Session × Db) (q : Nat) : Session × Db :=
  if q = p then st
  else if (st.2.segment q).segGlobal then st
  else if (st.2.segment q).segStrongTerminal then st
  else if (st.2.segment q).segHorizontal = (st.2.segment p).segHorizontal then
    AutoSegment._changeDepthAlone st q depth
  else AutoSegment._changeDepthAlone st q ((depth + (2 ^ 32 - 1)) % 2 ^ 32)

/-- The function `AutoSegment::_changeDepth(depth, flags)` (lines 1278-1326): without
`KbWithNeighbors` the segment alone; with it, also the segments cached on its source and
target contacts, then the gcells of the segment are invalidated. -/
def AutoSegment._changeDepth (st : Session × Db) (p : Nat) (depth : Nat) (flags : KbFlags) :
    Session × Db :=
  let st1 := AutoSegment._changeDepthAlone st p depth
  if !flags.withNeighbors then st1
  else
    let st2 := (st1.2.cachedOnSource p).foldl (changeDepthNeighbor p depth) st1
    let st3 := (st2.2.cachedOnTarget p).foldl (changeDepthNeighbor p depth) st2
    (st3.1, { st3.2 with
      events := st3.2.events ++ (st3.2.gcellsOf p).map Event.invalidateGCell })

/-- The function `AutoSegment::changeDepth(depth, flags)` (lines 1261-1275): the net of the
segment is invalidated in the session, the segment changes depth, and with `KbPropagate`
on a segment that is aligned, so does every segment of `getAligneds(KbNoCheckLayer)`. -/
def AutoSegment.changeDepth (st : Session × Db) (p : Nat) (depth : Nat) (flags : KbFlags) :
    Session × Db :=
  let s1 := ((StaticOp.invalidateNet (st.2.segment p).net).body st.1).2.1
  let st1 := AutoSegment._changeDepth (s1, st.2) p depth { flags with propagate := false }
  if flags.propagate && !(st1.2.segment p).isNotAligned then
    (st1.2.alignedsNoCheckLayer p).foldl
      (fun s q => AutoSegment._changeDepth s q depth { flags with propagate := false }) st1
  else st1

/-- The function `AutoSegment::moveUp(flags)` (lines 1578-1584): `changeDepth` to the depth
of the layer of the segment plus 2 (`unsigned int`, modulo 2^32), with `flags&KbPropagate`;
returns true. The test of `canMoveUp` is commented out. -/
def AutoSegment.moveUp (st : Session × Db) (p : Nat) (flags : KbFlags) :
    Bool × Session × Db :=
  (true, AutoSegment.changeDepth st p
    ((st.2.routingGauge.layerDepth (st.2.segment p).layer + 2) % 2 ^ 32)
    { KbFlags.none with propagate := flags.propagate })

/-- The function `AutoSegment::moveDown(flags)` (lines 1587-1593): `changeDepth` to the
depth of the layer of the segment minus 2 (`unsigned int`, modulo 2^32), with
`flags&KbPropagate`; returns true. The test of `canPivotDown` is commented out. -/
def AutoSegment.moveDown (st : Session × Db) (p : Nat) (flags : KbFlags) :
    Bool × Session × Db :=
  (true, AutoSegment.changeDepth st p
    ((st.2.routingGauge.layerDepth (st.2.segment p).layer + (2 ^ 32 - 2)) % 2 ^ 32)
    { KbFlags.none with propagate := flags.propagate })

/-- Scenario E on a gauge of five layers: segments 0 and 1, aligned with each other, on
layer 2. -/
def fiveLayerDb : Db :=
  { scenarioEDb with
      segment := fun q => { scenarioEDb.segment q with layer := 2, depth := 2 }
    , alignedsNoCheckLayer := scenarioEDb.aligneds
    , routingGauge := { threeLayerGauge with depth := 5 } }

/-- The flags `KbPropagate`. -/
def KbFlags.propagateOnly : KbFlags :=
  { KbFlags.none with propagate := true }

/-- A session of engine 1 with nothing pending. -/
def idleSession : Session :=
  Session.create false 1

/-- The segments `getAligneds(KbNoCheckLayer)` is walked for by `changeDepth`: none when
the segment says it is not aligned. -/
def Db.alignedsNoCheckLayerOf (db : Db) (p : Nat) : List Nat :=
  if (db.segment p).isNotAligned then [] else db.alignedsNoCheckLayer p

/-- From `d` to `e` the gauge, the collections `getAligneds(KbNoCheckLayer)` and the
alignment flags have not changed, and the layers have changed on the segments of `l`
at most. -/
def LayerFrame (d e : Db) (l : List Nat) : Prop :=
  e.routingGauge = d.routingGauge ∧
  e.alignedsNoCheckLayer = d.alignedsNoCheckLayer ∧
  (∀ q, (e.segment q).isNotAligned = (d.segment q).isNotAligned) ∧
  ∀ q, q ∉ l → (e.segment q).layer = (d.segment q).layer

/-! ## `AttractorsMap` -/

/-- The class `AttractorsMap` (lines 169-179): the `std::map` from position to count, as
the list of its entries in increasing order of position (the order of its iterators), and
the number of attractors. -/
structure AttractorsMap where
  attractors : List (Int × Nat)
  attractorsCount : Nat
deriving DecidableEq, Repr

/-- The constructor of `AttractorsMap` (lines 182-184). -/
def AttractorsMap.empty : AttractorsMap :=
  { attractors := [], attractorsCount := 0 }

/-- The statement `_attractors[position]++` on the entries of a `std::map`: the count of
the entry of that position is incremented, a missing entry is first inserted at its place
with count 0. -/
def mapIncrement : List (Int × Nat) → Int → List (Int × Nat)
  | [], position => [(position, 1)]
  | (k, c) :: rest, position =>
    if position < k then (position, 1) :: (k, c) :: rest
    else if position = k then (k, c + 1) :: rest
    else (k, c) :: mapIncrement rest position

/-- The function `AttractorsMap::addAttractor` (lines 193-200). -/
def AttractorsMap.addAttractor (m : AttractorsMap) (position : Int) : AttractorsMap :=
  { attractors := mapIncrement m.attractors position
  , attractorsCount := m.attractorsCount + 1 }

/-- The loop of `getLowerMedian` (lines 208-212) from an iterator and the sum so far: the
position where the sum reaches the median, or nothing when the iterator reaches `end()`
(where the source goes on to read `it->first`). -/
def scanLower (median : Nat) : List (Int × Nat) → Nat → Option Int
  | [], _ => none
  | (k, c) :: rest, lower =>
    if lower + c ≥ median then some k else scanLower median rest (lower + c)

/-- The loop of `getUpperMedian` (lines 223-227): as `scanLower`, the sum has to exceed the
median. -/
def scanUpper (median : Nat) : List (Int × Nat) → Nat → Option Int
  | [], _ => none
  | (k, c) :: rest, upper =>
    if upper + c > median then some k else scanUpper median rest (upper + c)

/-- The function `AttractorsMap::getLowerMedian` (lines 203-215). -/
def AttractorsMap.getLowerMedian (m : AttractorsMap) : Option Int :=
  scanLower (m.attractorsCount / 2 + m.attractorsCount % 2) m.attractors 0

/-- The function `AttractorsMap::getUpperMedian` (lines 218-230). -/
def AttractorsMap.getUpperMedian (m : AttractorsMap) : Option Int :=
  scanUpper (m.attractorsCount / 2) m.attractors 0

/-- The map after `addAttractor` on the positions of a list, in order, from the empty
map. -/
def AttractorsMap.ofList (positions : List Int) : AttractorsMap :=
  positions.foldl AttractorsMap.addAttractor AttractorsMap.empty

/-- The positions of the entries of a map, each as many times as its count, in the order of
the map. -/
def expand : List (Int × Nat) → List Int
  | [] => []
  | (k, c) :: rest => List.replicate c k ++ expand rest

end Katabatic -- definitions

namespace Kite

/-- The function `Kite::Session::get(message)`: `dynamic_cast<Kite::Session*>` of the Katabatic one, null
for a session that is not a Kite session. -/
def Session.get (w : Katabatic.World) (message : Option String) :
    Except Katabatic.Error (Option Katabatic.Session) :=
  match Katabatic.Session.get w message with
  | Except.error e => Except.error e
  | Except.ok none => Except.ok none
  | Except.ok (some s) => if s.isKite then Except.ok (some s) else Except.ok none

/-- The function `Kite::Session::open(kite)`: looks for the open session through `Session::get()`. -/
def Session.open (w : Katabatic.World) (kite : Nat) :
    Except Katabatic.Error (Katabatic.Session × Katabatic.World) :=
  match Session.get w none with
  | Except.error e => Except.error e
  | Except.ok (some session) =>
    if session.katabatic ≠ kite then
      Except.error (Katabatic.Error.reopenSession session.katabatic)
    else Except.ok (session, w)
  | Except.ok none =>
    let session := Katabatic.Session.create true kite
    Except.ok (session,
      Katabatic.Session._postCreate
        { w with trace := w.trace ++ [Katabatic.Call.newSession kite true] } session)

/-- A Kite session of engine 1 with a sort event pending on track 3, on the initial
world. -/
def pendingSortWorld : Katabatic.World :=
  { Katabatic.World.init with
      session := some { Katabatic.Session.create true 1 with sortEvents := [3] } }

/-! ## The reduce and raise loop of `Kite::Session::_revalidate` -/

/-- What the last loop of `Kite::Session::_revalidate` does, in order: `reduce()` and
`raise()` on a segment, and the calls on its track element (`_addRemoveEvent`,
`reschedule(0)`), which this model does not carry. -/
inductive Step where
  | reduce (segment : Nat)
  | addRemoveEvent (segment : Nat)
  | raise (segment : Nat)
  | reschedule (segment : Nat)
deriving DecidableEq, Repr

/-- Body of the loop "Looking for reduced/raised segments" of `Kite::Session::_revalidate`
(lines 234-245) for one revalidated segment: reduced when `canReduce()`, with a removal
event when its track element has a track (`hasTrack`, asked of code outside the sources);
then raised and rescheduled when `mustRaise()`. -/
def reduceOrRaise (hasTrack : Nat → Bool) (st : Katabatic.Db × List Step) (p : Nat) :
    Katabatic.Db × List Step :=
  let st1 : Katabatic.Db × List Step :=
    if Katabatic.AutoSegment.canReduce st.1 p then
      ((Katabatic.AutoSegment.reduce st.1 p).2,
       st.2 ++ [Step.reduce p] ++ (if hasTrack p then [Step.addRemoveEvent p] else []))
    else st
  if Katabatic.AutoSegment.mustRaise st1.1 p then
    ((Katabatic.AutoSegment.raise st1.1 p).2, st1.2 ++ [Step.raise p, Step.reschedule p])
  else st1

/-- The loop "Looking for reduced/raised segments" of `Kite::Session::_revalidate` (lines
233-246) over the revalidated segments, the only place of the pass where `reduce()` and
`raise()` are called; returns the database and the steps taken, in order. -/
def Session.reduceRaiseLoop (hasTrack : Nat → Bool) (db : Katabatic.Db)
    (revalidateds : List Nat) : Katabatic.Db × List Step :=
  revalidateds.foldl (reduceOrRaise hasTrack) (db, [])

/-! ## `PowerRailsPlanes::Rail::merge` -/

/-- Modelled from the spec: the constructor `Interval(v1, v2)` of Hurricane (not in the
sources): the closed interval between the two values, given in any order. -/
def Interval.ofBounds (v1 v2 : Int) : Katabatic.Interval :=
  { vMin := min v1 v2, vMax := max v1 v2 }

/-- Modelled from the spec: `Interval::merge` of Hurricane (not in the sources): the
interval becomes the smallest one that holds both; an empty argument changes nothing. -/
def Interval.merge (i j : Katabatic.Interval) : Katabatic.Interval :=
  if j.isEmpty then i else { vMin := min i.vMin j.vMin, vMax := max i.vMax j.vMax }

/-- The loop of `Rail::merge` once `imerge` is set (lines 599-606), on the chunks from
`ichunk` on: a chunk starting at or before the end of `chunkToMerge` is merged into
`imerge` and erased; the loop stops at the first chunk starting after it. Returns the
chunks from `imerge` on. -/
def Rail.absorb (chunkToMerge : Katabatic.Interval) (imerge : Katabatic.Interval) :
    List Katabatic.Interval → List Katabatic.Interval
  | [] => [imerge]
  | ichunk :: rest =>
    if chunkToMerge.vMax ≥ ichunk.vMin then
      Rail.absorb chunkToMerge (Interval.merge imerge ichunk) rest
    else imerge :: ichunk :: rest

/-- The loop of `Rail::merge` while `imerge` is `end()` (lines 586-598), on the chunks
from `ichunk` on, and the insertion at the end (lines 622-626): `chunkToMerge` is inserted
before the first chunk that starts after its end; a chunk that intersects it becomes
`imerge` and is merged with it; any other chunk is passed. -/
def Rail.scan (chunkToMerge : Katabatic.Interval) :
    List Katabatic.Interval → List Katabatic.Interval
  | [] => [chunkToMerge]
  | ichunk :: rest =>
    if chunkToMerge.vMax < ichunk.vMin then chunkToMerge :: ichunk :: rest
    else if chunkToMerge.intersect ichunk then
      Rail.absorb chunkToMerge (Interval.merge ichunk chunkToMerge) rest
    else ichunk :: Rail.scan chunkToMerge rest

/-- The function `PowerRailsPlanes::Rail::merge(source, target)` (lines 574-628) on the
list `_chunks` of the rail. -/
def Rail.merge (chunks : List Katabatic.Interval) (source target : Int) :
    List Katabatic.Interval :=
  Rail.scan (Interval.ofBounds source target) chunks

/-- The chunks of a rail, empty at first (constructor, line 556), after a sequence of
calls `merge(source, target)`. -/
def Rail.mergeAll (calls : List (Int × Int)) : List Katabatic.Interval :=
  calls.foldl (fun chunks c => Rail.merge chunks c.1 c.2) []

/-- The point `x` lies in the closed interval. -/
def Interval.hasPoint (i : Katabatic.Interval) (x : ℚ) : Prop :=
  (i.vMin : ℚ) ≤ x ∧ x ≤ (i.vMax : ℚ)

/-- The point `x` lies in one of the chunks. -/
def covers (chunks : List Katabatic.Interval) (x : ℚ) : Prop :=
  ∃ a ∈ chunks, Interval.hasPoint a x

/-- The invariant of the chunks of a rail: no chunk is empty, and every chunk ends before
the start of the chunks that follow it. -/
def Separated (chunks : List Katabatic.Interval) : Prop :=
  (∀ a ∈ chunks, a.vMin ≤ a.vMax) ∧ chunks.Pairwise (fun a b => a.vMax < b.vMin)

end Kite -- definitions

/-! # Properties of the extractor -/

namespace Tramontana

/-! ## Basic facts on heap updates -/

@[simp] theorem modifyTile_tile (s : State) (t u : Nat) (f : Tile → Tile) :
    (s.modifyTile t f).tile u = if u = t then f (s.tile u) else s.tile u := rfl

@[simp] theorem modifyTile_equi (s : State) (t : Nat) (f : Tile → Tile) :
    (s.modifyTile t f).equi = s.equi := rfl

@[simp] theorem modifyTile_time (s : State) (t : Nat) (f : Tile → Tile) :
    (s.modifyTile t f).time = s.time := rfl

@[simp] theorem modifyTile_idCounter (s : State) (t : Nat) (f : Tile → Tile) :
    (s.modifyTile t f).idCounter = s.idCounter := rfl

@[simp] theorem modifyTile_equiCount (s : State) (t : Nat) (f : Tile → Tile) :
    (s.modifyTile t f).equiCount = s.equiCount := rfl

@[simp] theorem modifyEqui_tile (s : State) (e : Nat) (f : Equipotential → Equipotential) :
    (s.modifyEqui e f).tile = s.tile := rfl

@[simp] theorem modifyEqui_equi (s : State) (e u : Nat) (f : Equipotential → Equipotential) :
    (s.modifyEqui e f).equi u = if u = e then f (s.equi u) else s.equi u := rfl

@[simp] theorem modifyEqui_time (s : State) (e : Nat) (f : Equipotential → Equipotential) :
    (s.modifyEqui e f).time = s.time := rfl

@[simp] theorem modifyEqui_idCounter (s : State) (e : Nat) (f : Equipotential → Equipotential) :
    (s.modifyEqui e f).idCounter = s.idCounter := rfl

@[simp] theorem modifyEqui_equiCount (s : State) (e : Nat) (f : Equipotential → Equipotential) :
    (s.modifyEqui e f).equiCount = s.equiCount := rfl

theorem setParent_parent (s : State) (t u : Nat) (p : Option Nat) :
    (s.setParent t p).parent u = if u = t then p else s.parent u := by
  unfold State.setParent State.parent
  by_cases h : u = t <;> simp [h]

/-! ## Roots -/

theorem rootAt_isRoot {par : Nat → Option Nat} {n t r : Nat} (h : RootAt par n t r) :
    par r = none := by
  induction h with
  | root h0 => exact h0
  | step _ _ ih => exact ih

theorem rootAt_unique {par : Nat → Option Nat} {n t r : Nat} (h : RootAt par n t r) :
    ∀ {m r' : Nat}, RootAt par m t r' → r = r' ∧ n = m := by
  induction h with
  | root h0 =>
    intro m r' h'
    cases h' with
    | root _ => exact ⟨rfl, rfl⟩
    | step hp _ => rw [h0] at hp; cases hp
  | step hp _ ih =>
    intro m r' h'
    cases h' with
    | root h0 => rw [h0] at hp; cases hp
    | step hp' hr' =>
      rw [hp] at hp'
      cases hp'
      obtain ⟨h1, h2⟩ := ih hr'
      exact ⟨h1, by omega⟩

theorem hasRoot_isRoot {par : Nat → Option Nat} {t r : Nat} (h : HasRoot par t r) :
    par r = none := by
  obtain ⟨n, hn⟩ := h
  exact rootAt_isRoot hn

theorem hasRoot_unique {par : Nat → Option Nat} {t r r' : Nat} (h : HasRoot par t r)
    (h' : HasRoot par t r') : r = r' := by
  obtain ⟨n, hn⟩ := h
  obtain ⟨m, hm⟩ := h'
  exact (rootAt_unique hn hm).1

theorem hasRoot_self {par : Nat → Option Nat} {r : Nat} (h : par r = none) : HasRoot par r r :=
  ⟨0, RootAt.root h⟩

theorem hasRoot_step {par : Nat → Option Nat} {t p r : Nat} (hp : par t = some p)
    (h : HasRoot par p r) : HasRoot par t r := by
  obtain ⟨n, hn⟩ := h
  exact ⟨n + 1, RootAt.step hp hn⟩

theorem hasRoot_root_self {par : Nat → Option Nat} {t r : Nat} (h : HasRoot par t r) :
    HasRoot par r r := hasRoot_self (hasRoot_isRoot h)

/-- An ancestor of `t` lies on the way to the root of `t`, no farther from it than `t`. -/
theorem rootAt_of_ancestor {par : Nat → Option Nat} {t a : Nat} (ha : Ancestor par t a) :
    ∀ {n r : Nat}, RootAt par n t r → ∃ m, m ≤ n ∧ RootAt par m a r := by
  induction ha using Relation.ReflTransGen.head_induction_on with
  | refl => intro n r h; exact ⟨n, le_refl n, h⟩
  | head hxy _ ih =>
    intro n r h
    cases h with
    | root h0 => rw [h0] at hxy; cases hxy
    | step hp hr =>
      rw [hp] at hxy
      cases hxy
      obtain ⟨m, hm, hm'⟩ := ih hr
      exact ⟨m, by omega, hm'⟩

theorem hasRoot_of_ancestor {par : Nat → Option Nat} {t a r : Nat} (ha : Ancestor par t a)
    (h : HasRoot par t r) : HasRoot par a r := by
  obtain ⟨n, hn⟩ := h
  obtain ⟨m, _, hm⟩ := rootAt_of_ancestor ha hn
  exact ⟨m, hm⟩

theorem rootAt_ancestor {par : Nat → Option Nat} {n t r : Nat} (h : RootAt par n t r) :
    Ancestor par t r := by
  induction h with
  | root _ => exact Relation.ReflTransGen.refl
  | step hp _ ih => exact Relation.ReflTransGen.head hp ih

theorem hasRoot_ancestor {par : Nat → Option Nat} {t r : Nat} (h : HasRoot par t r) :
    Ancestor par t r := by
  obtain ⟨n, hn⟩ := h
  exact rootAt_ancestor hn

/-- A parentless ancestor is the root. -/
theorem hasRoot_ancestor_unique {par : Nat → Option Nat} {t r a : Nat} (h : HasRoot par t r)
    (ha : Ancestor par t a) (h0 : par a = none) : a = r :=
  hasRoot_unique (hasRoot_self h0) (hasRoot_of_ancestor ha h)

/-- No cycle below a root: a tile is not an ancestor of its own parent. -/
theorem rootAt_not_ancestor_parent {par : Nat → Option Nat} {n t p r : Nat}
    (h : RootAt par n t r) (hp : par t = some p) : ¬ Ancestor par p t := by
  intro ha
  cases h with
  | root h0 => rw [h0] at hp; cases hp
  | step hp' hr =>
    rw [hp] at hp'
    cases hp'
    obtain ⟨m, hm, hm'⟩ := rootAt_of_ancestor ha hr
    have h2 := rootAt_unique (RootAt.step hp hr) hm'
    omega

/-- The root of a tile only depends on the parent pointers of its ancestors. -/
theorem rootAt_congr {par par' : Nat → Option Nat} {n t r : Nat} (h : RootAt par n t r)
    (hagree : ∀ u, Ancestor par t u → par' u = par u) : RootAt par' n t r := by
  induction h with
  | root h0 =>
    exact RootAt.root (by rw [hagree _ Relation.ReflTransGen.refl]; exact h0)
  | step hp _ ih =>
    refine RootAt.step (by rw [hagree _ Relation.ReflTransGen.refl]; exact hp) (ih ?_)
    intro u hu
    exact hagree u (Relation.ReflTransGen.head hp hu)

theorem ancestor_congr {par par' : Nat → Option Nat} {t a : Nat} (ha : Ancestor par t a)
    (hagree : ∀ u, Ancestor par t u → par' u = par u) : Ancestor par' t a := by
  induction ha using Relation.ReflTransGen.head_induction_on with
  | refl => exact Relation.ReflTransGen.refl
  | head hxy hrest ih =>
    refine Relation.ReflTransGen.head ?_ (ih ?_)
    · show par' _ = some _
      rw [hagree _ Relation.ReflTransGen.refl]; exact hxy
    · intro u hu
      refine hagree u ?_
      exact Relation.ReflTransGen.head hxy hu

theorem ancestor_congr_back {par par' : Nat → Option Nat} {t a : Nat}
    (hagree : ∀ u, Ancestor par t u → par' u = par u) (ha : Ancestor par' t a) :
    Ancestor par t a := by
  induction ha with
  | refl => exact Relation.ReflTransGen.refl
  | tail _ hbc ih =>
    refine Relation.ReflTransGen.tail ih ?_
    show par _ = some _
    rw [← hagree _ ih]; exact hbc

theorem climb_of_rootAt {par : Nat → Option Nat} {n t r : Nat} (h : RootAt par n t r) :
    ∀ fuel, n + 1 ≤ fuel → climb par fuel t = some r := by
  induction h with
  | root h0 =>
    intro fuel hf
    obtain ⟨k, rfl⟩ : ∃ k, fuel = k + 1 := ⟨fuel - 1, by omega⟩
    simp [climb, h0]
  | step hp _ ih =>
    intro fuel hf
    obtain ⟨k, rfl⟩ : ∃ k, fuel = k + 1 := ⟨fuel - 1, by omega⟩
    simp only [climb, hp]
    exact ih k (by omega)

/-- Redirecting tiles to their own root keeps every root: if each tile either keeps its
parent or gets its own root as parent, every tile has the root it had. -/
theorem hasRoot_preserved {par par' : Nat → Option Nat}
    (hstep : ∀ u, par' u = par u ∨ ∃ x, HasRoot par u x ∧ x ≠ u ∧ par' u = some x)
    {t r : Nat} (h : HasRoot par t r) : HasRoot par' t r := by
  have hroot : ∀ x, par x = none → par' x = none := by
    intro x hx
    rcases hstep x with h1 | ⟨y, hy, hne, _⟩
    · rw [h1]; exact hx
    · exact absurd (hasRoot_unique hy (hasRoot_self hx)) hne
  obtain ⟨n, hn⟩ := h
  induction hn with
  | root h0 => exact hasRoot_self (hroot _ h0)
  | @step n t p r hp hr ih =>
    rcases hstep t with h1 | ⟨y, hy, _, hy'⟩
    · exact hasRoot_step (by rw [h1]; exact hp) ih
    · have : y = r := hasRoot_unique hy ⟨n + 1, RootAt.step hp hr⟩
      subst this
      exact hasRoot_step hy' (hasRoot_self (hroot _ (rootAt_isRoot hr)))

/-- Shortcuts to the root can be expanded again: if every link of `par'` is a link of `par`
or leads a tile to its own root, a root under `par'` is the root under `par`. -/
theorem hasRoot_reflected {par par' : Nat → Option Nat}
    (hlinks : ∀ u p, par' u = some p → par u = some p ∨ HasRoot par u p)
    (hroots : ∀ u, par' u = none → par u = none)
    {t r : Nat} (h : HasRoot par' t r) : HasRoot par t r := by
  obtain ⟨n, hn⟩ := h
  induction hn with
  | root h0 => exact hasRoot_self (hroots _ h0)
  | step hp _ ih =>
    rcases hlinks _ _ hp with h1 | h1
    · exact hasRoot_step h1 ih
    · have := hasRoot_unique ih (hasRoot_root_self h1)
      subst this
      exact h1

/-- Attaching the root `r2` under another root `r1`: tiles of `r2` now have root `r1`,
all other tiles keep their root. -/
theorem hasRoot_link {par par' : Nat → Option Nat} {r1 r2 : Nat}
    (h1 : par r1 = none) (h2 : par r2 = none) (hne : r1 ≠ r2)
    (hpar' : ∀ u, par' u = if u = r2 then some r1 else par u)
    {t r : Nat} (h : HasRoot par t r) : HasRoot par' t (if r = r2 then r1 else r) := by
  have hr1 : HasRoot par' r1 r1 := hasRoot_self (by rw [hpar', if_neg hne]; exact h1)
  obtain ⟨n, hn⟩ := h
  induction hn with
  | @root t h0 =>
    by_cases ht : t = r2
    · subst ht
      rw [if_pos rfl]
      exact hasRoot_step (by rw [hpar', if_pos rfl]) hr1
    · rw [if_neg ht]
      exact hasRoot_self (by rw [hpar', if_neg ht]; exact h0)
  | @step n t p r hp hr ih =>
    have ht : t ≠ r2 := by
      intro ht
      subst ht
      rw [h2] at hp
      cases hp
    exact hasRoot_step (by rw [hpar', if_neg ht]; exact hp) ih

theorem tileFrame_refl (s : State) : TileFrame s s :=
  ⟨rfl, rfl, fun _ => ⟨rfl, rfl, rfl, rfl, rfl⟩⟩

theorem tileFrame_trans {s1 s2 s3 : State} (h1 : TileFrame s1 s2) (h2 : TileFrame s2 s3) :
    TileFrame s1 s3 := by
  obtain ⟨a1, b1, c1⟩ := h1
  obtain ⟨a2, b2, c2⟩ := h2
  refine ⟨a2.trans a1, b2.trans b1, fun u => ?_⟩
  obtain ⟨p1, p2, p3, p4, p5⟩ := c1 u
  obtain ⟨q1, q2, q3, q4, q5⟩ := c2 u
  exact ⟨q1.trans p1, q2.trans p2, q3.trans p3, q4.trans p4, q5.trans p5⟩

theorem tileFrame_parent_eq {s s' : State} (h : TileFrame s s') : s'.parent = s.parent := by
  funext u
  exact (h.2.2 u).1

theorem tileFrame_modifyEqui (s : State) (e : Nat) (f : Equipotential → Equipotential) :
    TileFrame s (s.modifyEqui e f) :=
  ⟨rfl, rfl, fun _ => ⟨rfl, rfl, rfl, rfl, rfl⟩⟩

theorem tileFrame_modifyTile (s : State) (t : Nat) (f : Tile → Tile)
    (hf : ∀ x : Tile, (f x).parent = x.parent ∧ (f x).rank = x.rank ∧
      (f x).occurrence = x.occurrence ∧ (f x).layer = x.layer ∧
      (f x).boundingBox = x.boundingBox) :
    TileFrame s (s.modifyTile t f) := by
  refine ⟨rfl, rfl, fun u => ?_⟩
  by_cases h : u = t
  · simp only [modifyTile_tile, if_pos h]; exact hf _
  · simp only [modifyTile_tile, if_neg h, and_self]

theorem newEquipotential_frame (s : State) (t : Nat) : TileFrame s (newEquipotential s t).2 := by
  unfold newEquipotential
  split
  · exact tileFrame_refl s
  · refine ⟨rfl, rfl, fun u => ?_⟩
    by_cases h : u = t
    · simp [State.modifyTile, State.modifyEqui, h]
    · simp [State.modifyTile, State.modifyEqui, h]

theorem mergeVisit_frame (self re : Nat) (s : State) (c : Nat) :
    TileFrame s (mergeVisit self re s c) := by
  unfold mergeVisit
  split
  · exact tileFrame_refl s
  · have h2 : ∀ s2 : State, TileFrame s2 ((s2.setOccMerged c true).syncTime c) := by
      intro s2
      refine ⟨rfl, rfl, fun u => ?_⟩
      by_cases h : u = c
      · simp [State.setOccMerged, State.syncTime, h]
      · simp [State.setOccMerged, State.syncTime, h]
    refine tileFrame_trans ?_ (h2 _)
    split
    · split
      · exact tileFrame_trans (tileFrame_modifyEqui _ _ _) (tileFrame_modifyEqui _ _ _)
      · exact tileFrame_refl s
    · exact tileFrame_modifyEqui _ _ _

theorem mergeLoop_frame (self root re : Nat) :
    ∀ (fuel : Nat) (s : State) (c : Option Nat) (s' : State),
      mergeLoop self root re fuel s c = some s' → TileFrame s s' := by
  intro fuel
  induction fuel with
  | zero => intro s c s' h; simp [mergeLoop] at h
  | succ k ih =>
    intro s c s' h
    cases c with
    | none => simp only [mergeLoop, Option.some.injEq] at h; subst h; exact tileFrame_refl s
    | some c =>
      simp only [mergeLoop] at h
      split at h
      · simp only [Option.some.injEq] at h; subst h; exact tileFrame_refl s
      · split at h
        · simp only [Option.some.injEq] at h; subst h; exact tileFrame_refl s
        · exact tileFrame_trans (mergeVisit_frame self re s c) (ih _ _ _ h)

/-- The `MergeEqui` loop terminates on a tile that has a root. -/
theorem mergeLoop_terminates (self root re : Nat) :
    ∀ (n : Nat) (s : State) (c : Nat), RootAt s.parent n c root →
      ∀ fuel, n + 1 ≤ fuel → ∃ s', mergeLoop self root re fuel s (some c) = some s' := by
  intro n
  induction n with
  | zero =>
    intro s c h fuel hf
    obtain ⟨k, rfl⟩ : ∃ k, fuel = k + 1 := ⟨fuel - 1, by omega⟩
    cases h
    exact ⟨s, by simp [mergeLoop]⟩
  | succ n ih =>
    intro s c h fuel hf
    obtain ⟨k, rfl⟩ : ∃ k, fuel = k + 1 := ⟨fuel - 1, by omega⟩
    cases h with
    | step hp hr =>
      simp only [mergeLoop]
      split
      · exact ⟨s, rfl⟩
      · split
        · exact ⟨s, rfl⟩
        · have hpar := tileFrame_parent_eq (mergeVisit_frame self re s c)
          rw [hpar, hp]
          exact ih _ _ (by rw [hpar]; exact hr) k (by omega)

theorem parentFrame_refl (s : State) : ParentFrame s s := ⟨rfl, rfl, rfl, rfl, fun _ => rfl⟩

theorem parentFrame_trans {s1 s2 s3 : State} (h1 : ParentFrame s1 s2) (h2 : ParentFrame s2 s3) :
    ParentFrame s1 s3 := by
  obtain ⟨a1, b1, c1, d1, e1⟩ := h1
  obtain ⟨a2, b2, c2, d2, e2⟩ := h2
  exact ⟨a2.trans a1, b2.trans b1, c2.trans c1, d2.trans d1, fun u => (e2 u).trans (e1 u)⟩

theorem parentFrame_setParent (s : State) (t : Nat) (p : Option Nat) :
    ParentFrame s (s.setParent t p) := by
  refine ⟨rfl, rfl, rfl, rfl, fun u => ?_⟩
  unfold State.setParent
  by_cases h : u = t
  · simp only [modifyTile_tile, if_pos h]
  · simp only [modifyTile_tile, if_neg h]

/-- The `Compress` loop, on a tile `c` with root `r`: it terminates, gives `r` as parent to
every tile on the way from `c` to `r`, and changes nothing else. -/
theorem compressLoop_spec (r : Nat) :
    ∀ (n : Nat) (s : State) (c : Nat), RootAt s.parent n c r →
      ∀ fuel, n + 1 ≤ fuel → ∃ s', compressLoop r fuel s (some c) = some s' ∧
        ParentFrame s s' ∧
        (∀ u, Ancestor s.parent c u → u ≠ r → s'.parent u = some r) ∧
        (∀ u, ¬ (Ancestor s.parent c u ∧ u ≠ r) → s'.parent u = s.parent u) := by
  intro n
  induction n with
  | zero =>
    intro s c h fuel hf
    obtain ⟨k, rfl⟩ : ∃ k, fuel = k + 1 := ⟨fuel - 1, by omega⟩
    cases h with
    | root h0 =>
      refine ⟨s, by simp [compressLoop], parentFrame_refl s, ?_, fun _ _ => rfl⟩
      intro u hu hne
      exact absurd (hasRoot_ancestor_unique (hasRoot_self h0) hu (by
        cases hu using Relation.ReflTransGen.head_induction_on with
        | refl => exact h0
        | head hxy _ => rw [h0] at hxy; cases hxy)) hne
  | succ n ih =>
    intro s c h fuel hf
    obtain ⟨k, rfl⟩ : ∃ k, fuel = k + 1 := ⟨fuel - 1, by omega⟩
    have hfull := h
    cases h with
    | @step _ _ p _ hp hr =>
      have hcr : c ≠ r := by
        intro hc
        subst hc
        rw [rootAt_isRoot hr] at hp
        cases hp
      have hagree : ∀ u, Ancestor s.parent p u → (s.setParent c (some r)).parent u = s.parent u := by
        intro u hu
        rw [setParent_parent, if_neg]
        intro huc
        subst huc
        exact rootAt_not_ancestor_parent hfull hp hu
      have hr' : RootAt (s.setParent c (some r)).parent n p r := rootAt_congr hr hagree
      obtain ⟨s', hs', hfr, hon, hoff⟩ := ih _ _ hr' k (by omega)
      have hcnot : ¬ Ancestor (s.setParent c (some r)).parent p c := fun hc =>
        rootAt_not_ancestor_parent hfull hp (ancestor_congr_back hagree hc)
      refine ⟨s', ?_, ?_, ?_, ?_⟩
      · simp only [compressLoop, if_neg hcr, hp]
        exact hs'
      · exact parentFrame_trans (parentFrame_setParent s c (some r)) hfr
      · intro u hu hne
        rcases Relation.ReflTransGen.cases_head hu with h1 | ⟨q, hq, hqu⟩
        · subst h1
          rw [hoff c (fun hcon => hcnot hcon.1), setParent_parent, if_pos rfl]
        · have hqp : q = p := by
            have : s.parent c = some q := hq
            rw [hp] at this
            exact (Option.some.inj this).symm
          subst hqp
          exact hon u (ancestor_congr hqu hagree) hne
      · intro u hu
        have huc : u ≠ c := by
          intro huc
          subst huc
          exact hu ⟨Relation.ReflTransGen.refl, hcr⟩
        rw [hoff u, setParent_parent, if_neg huc]
        intro hcon
        exact hu ⟨Relation.ReflTransGen.head hp (ancestor_congr_back hagree hcon.1), hcon.2⟩

theorem dataFrame_refl (s : State) : DataFrame s s := ⟨rfl, fun _ => ⟨rfl, rfl, rfl, rfl⟩⟩

theorem dataFrame_trans {s1 s2 s3 : State} (h1 : DataFrame s1 s2) (h2 : DataFrame s2 s3) :
    DataFrame s1 s3 := by
  obtain ⟨a1, c1⟩ := h1
  obtain ⟨a2, c2⟩ := h2
  refine ⟨a2.trans a1, fun u => ?_⟩
  obtain ⟨p2, p3, p4, p5⟩ := c1 u
  obtain ⟨q2, q3, q4, q5⟩ := c2 u
  exact ⟨q2.trans p2, q3.trans p3, q4.trans p4, q5.trans p5⟩

theorem tileFrame_data {s s' : State} (h : TileFrame s s') : DataFrame s s' :=
  ⟨h.1, fun u => (h.2.2 u).2⟩

theorem parentFrame_data {s s' : State} (h : ParentFrame s s') : DataFrame s s' := by
  obtain ⟨a, _, _, _, e⟩ := h
  refine ⟨a, fun u => ?_⟩
  have := e u
  rw [Tile.mk.injEq] at this
  obtain ⟨h1, h2, h3, _, _, _, h7, _⟩ := this
  exact ⟨h7, h1, h2, h3⟩

theorem ancestor_of_root {par : Nat → Option Nat} {r u : Nat} (h0 : par r = none)
    (h : Ancestor par r u) : u = r := by
  rcases Relation.ReflTransGen.cases_head h with h1 | ⟨q, hq, _⟩
  · exact h1.symm
  · have : par r = some q := hq
    rw [h0] at this
    cases this

theorem climb_hasRoot {par : Nat → Option Nat} :
    ∀ (fuel t r : Nat), climb par fuel t = some r → HasRoot par t r := by
  intro fuel
  induction fuel with
  | zero => intro t r h; simp [climb] at h
  | succ k ih =>
    intro t r h
    simp only [climb] at h
    split at h
    · next h0 =>
      simp only [Option.some.injEq] at h
      subst h
      exact hasRoot_self h0
    · next p hp => exact hasRoot_step hp (ih _ _ h)

/-- The function `Tile::getRoot` on a tile `t` that has a root `r`, at distance `n`: with fuel above
`n` it returns `r`. -/
theorem getRoot_ok (s : State) (t r n : Nat) (h : RootAt s.parent n t r) (flags : Flags) :
    ∀ fuel, n + 1 ≤ fuel → ∃ s', getRoot fuel s t flags = some (r, s') ∧
      GetRootPost s t r flags s' := by
  intro fuel hf
  cases h with
  | root h0 =>
    have hpost : ∀ s', TileFrame s s' → GetRootPost s t t flags s' := by
      intro s' hfr
      have hpar := tileFrame_parent_eq hfr
      refine ⟨tileFrame_data hfr, hfr.2.1, ?_, ?_, fun _ => hpar, ?_, ?_, ?_⟩
      · intro _ u hu hne
        exact absurd (ancestor_of_root h0 hu) hne
      · intro _ u _
        rw [hpar]
      · intro u x hx
        rw [hpar]; exact hx
      · intro u p hu
        rw [hpar] at hu; exact Or.inl hu
      · intro u hu
        rw [hpar] at hu; exact hu
    unfold getRoot
    simp only [h0]
    split
    · exact ⟨_, rfl, hpost _ (newEquipotential_frame s t)⟩
    · exact ⟨_, rfl, hpost _ (tileFrame_refl s)⟩
  | @step n _ p _ hp hr =>
    have hfull : RootAt s.parent (n + 1) t r := RootAt.step hp hr
    have hclimb := climb_of_rootAt hfull fuel hf
    -- the MergeEqui phase
    have hmerged : ∃ s1, (if flags.mergeEqui then
          mergeLoop t r (newEquipotential s r).1 fuel (newEquipotential s r).2 (some t)
        else some s) = some s1 ∧ TileFrame s s1 := by
      split
      · have hfr0 := newEquipotential_frame s r
        have hr0 : RootAt (newEquipotential s r).2.parent (n + 1) t r := by
          rw [tileFrame_parent_eq hfr0]; exact hfull
        obtain ⟨s1, hs1⟩ := mergeLoop_terminates t r (newEquipotential s r).1 _ _ _ hr0 fuel hf
        exact ⟨s1, hs1, tileFrame_trans hfr0 (mergeLoop_frame _ _ _ _ _ _ _ hs1)⟩
      · exact ⟨s, rfl, tileFrame_refl s⟩
    obtain ⟨s1, hs1, hfr1⟩ := hmerged
    have hpar1 := tileFrame_parent_eq hfr1
    unfold getRoot
    simp only [hp, hclimb, hs1]
    by_cases hc : flags.compress = true
    · have hr1 : RootAt s1.parent (n + 1) t r := by rw [hpar1]; exact hfull
      obtain ⟨s2, hs2, hfr2, hon, hoff⟩ := compressLoop_spec r _ _ _ hr1 fuel hf
      rw [hpar1] at hon hoff
      refine ⟨s2, by simp only [hc, if_true, hs2], dataFrame_trans (tileFrame_data hfr1) (parentFrame_data hfr2),
        hfr2.2.1.trans hfr1.2.1, fun _ => hon, fun _ => hoff, ?_, ?_, ?_, ?_⟩
      · intro hc'; rw [hc] at hc'; cases hc'
      · intro u x hx
        refine hasRoot_preserved ?_ hx
        intro v
        by_cases hv : Ancestor s.parent t v ∧ v ≠ r
        · right
          exact ⟨r, hasRoot_of_ancestor hv.1 ⟨_, hfull⟩, fun e => hv.2 e.symm, hon v hv.1 hv.2⟩
        · left
          exact hoff v hv
      · intro u q hu
        by_cases hv : Ancestor s.parent t u ∧ u ≠ r
        · rw [hon u hv.1 hv.2] at hu
          cases hu
          exact Or.inr (hasRoot_of_ancestor hv.1 ⟨_, hfull⟩)
        · rw [hoff u hv] at hu
          exact Or.inl hu
      · intro u hu
        by_cases hv : Ancestor s.parent t u ∧ u ≠ r
        · rw [hon u hv.1 hv.2] at hu
          cases hu
        · rw [hoff u hv] at hu
          exact hu
    · have hc' : flags.compress = false := by
        cases hfc : flags.compress
        · rfl
        · exact absurd hfc hc
      refine ⟨s1, by simp only [hc', Bool.false_eq_true, if_false], tileFrame_data hfr1, hfr1.2.1,
        ?_, ?_, fun _ => hpar1, ?_, ?_, ?_⟩
      · intro h1; rw [hc'] at h1; cases h1
      · intro h1; rw [hc'] at h1; cases h1
      · intro u x hx
        rw [hpar1]; exact hx
      · intro u q hu
        rw [hpar1] at hu; exact Or.inl hu
      · intro u hu
        rw [hpar1] at hu; exact hu

/-! ## More fuel never changes a result -/

theorem fuel_mono {α : Type} (f : Nat → Option α)
    (h : ∀ n x, f n = some x → f (n + 1) = some x) :
    ∀ n m x, n ≤ m → f n = some x → f m = some x := by
  intro n m x hnm hn
  induction m with
  | zero =>
    have : n = 0 := by omega
    subst this; exact hn
  | succ k ih =>
    by_cases hk : n ≤ k
    · exact h k x (ih hk)
    · have : n = k + 1 := by omega
      subst this; exact hn

theorem climb_succ (par : Nat → Option Nat) :
    ∀ (fuel t r : Nat), climb par fuel t = some r → climb par (fuel + 1) t = some r := by
  intro fuel
  induction fuel with
  | zero => intro t r h; simp [climb] at h
  | succ k ih =>
    intro t r h
    rw [climb] at h
    rw [climb]
    split
    · next h0 => rw [h0] at h; exact h
    · next p hp => rw [hp] at h; exact ih _ _ h

theorem mergeLoop_succ (self root re : Nat) :
    ∀ (fuel : Nat) (s : State) (c : Option Nat) (s' : State),
      mergeLoop self root re fuel s c = some s' →
      mergeLoop self root re (fuel + 1) s c = some s' := by
  intro fuel
  induction fuel with
  | zero => intro s c s' h; simp [mergeLoop] at h
  | succ k ih =>
    intro s c s' h
    cases c with
    | none => simp only [mergeLoop] at h ⊢; exact h
    | some c =>
      rw [mergeLoop] at h
      rw [mergeLoop]
      split
      · next hc => rw [if_pos hc] at h; exact h
      · next hc =>
        rw [if_neg hc] at h
        split
        · next hu => rw [if_pos hu] at h; exact h
        · next hu => rw [if_neg hu] at h; exact ih _ _ _ h

theorem compressLoop_succ (root : Nat) :
    ∀ (fuel : Nat) (s : State) (c : Option Nat) (s' : State),
      compressLoop root fuel s c = some s' → compressLoop root (fuel + 1) s c = some s' := by
  intro fuel
  induction fuel with
  | zero => intro s c s' h; simp [compressLoop] at h
  | succ k ih =>
    intro s c s' h
    cases c with
    | none => simp [compressLoop] at h
    | some c =>
      rw [compressLoop] at h
      rw [compressLoop]
      split
      · next hc => rw [if_pos hc] at h; exact h
      · next hc => rw [if_neg hc] at h; exact ih _ _ _ h

theorem getRoot_succ (s : State) (t : Nat) (flags : Flags) (fuel : Nat) (x : Nat × State)
    (h : getRoot fuel s t flags = some x) : getRoot (fuel + 1) s t flags = some x := by
  unfold getRoot at h ⊢
  cases hp : s.parent t with
  | none => simp only [hp] at h ⊢; exact h
  | some p =>
    simp only [hp] at h ⊢
    cases hc : climb s.parent fuel t with
    | none => simp [hc] at h
    | some root =>
      simp only [hc] at h
      simp only [climb_succ _ _ _ _ hc]
      by_cases hm : flags.mergeEqui = true
      · simp only [hm, if_true] at h ⊢
        cases hl : mergeLoop t root (newEquipotential s root).1 fuel (newEquipotential s root).2
            (some t) with
        | none => simp [hl] at h
        | some s1 =>
          simp only [hl] at h
          simp only [mergeLoop_succ _ _ _ _ _ _ _ hl]
          by_cases hcp : flags.compress = true
          · simp only [hcp, if_true] at h ⊢
            cases hcl : compressLoop root fuel s1 (some t) with
            | none => simp [hcl] at h
            | some s2 =>
              simp only [hcl] at h
              simp only [compressLoop_succ _ _ _ _ _ hcl]
              exact h
          · simp only [hcp, if_false] at h ⊢
            exact h
      · simp only [hm, Bool.false_eq_true, if_false] at h ⊢
        by_cases hcp : flags.compress = true
        · simp only [hcp, if_true] at h ⊢
          cases hcl : compressLoop root fuel s (some t) with
          | none => simp [hcl] at h
          | some s2 =>
            simp only [hcl] at h
            simp only [compressLoop_succ _ _ _ _ _ hcl]
            exact h
        · simp only [hcp, if_false] at h ⊢
          exact h

theorem getRoot_mono (s : State) (t : Nat) (flags : Flags) {n m : Nat} {x : Nat × State}
    (hnm : n ≤ m) (h : getRoot n s t flags = some x) : getRoot m s t flags = some x :=
  fuel_mono (fun k => getRoot k s t flags) (fun k y hy => getRoot_succ s t flags k y hy) n m x
    hnm h

theorem merge_succ (s : State) (a b : Nat) (fuel : Nat) (x : Nat × State)
    (h : merge fuel s a b = some x) : merge (fuel + 1) s a b = some x := by
  unfold merge at h ⊢
  cases h1 : getRoot fuel s a
      { compress := true, mergeEqui := true, makeLeafEqui := false, forceLayer := false } with
  | none => simp [h1] at h
  | some y1 =>
    obtain ⟨root1, s1⟩ := y1
    simp only [h1] at h
    simp only [getRoot_succ _ _ _ _ _ h1]
    cases h2 : getRoot fuel s1 b
        { compress := true, mergeEqui := true, makeLeafEqui := false, forceLayer := false } with
    | none => simp [h2] at h
    | some y2 =>
      obtain ⟨root2, s2⟩ := y2
      simp only [h2] at h
      simp only [getRoot_succ _ _ _ _ _ h2]
      exact h

theorem merge_mono (s : State) (a b : Nat) {n m : Nat} {x : Nat × State}
    (hnm : n ≤ m) (h : merge n s a b = some x) : merge m s a b = some x :=
  fuel_mono (fun k => merge k s a b) (fun k y hy => merge_succ s a b k y hy) n m x hnm h

/-- A heap whose tiles all reach a parentless tile within `n` links is a forest. -/
theorem acyclic_of_climb (s : State) (n : Nat)
    (h1 : ∀ t, t < n → (climb s.parent n t).isSome = true)
    (h2 : ∀ t, n ≤ t → s.parent t = none) : Acyclic s := by
  intro t
  by_cases ht : t < n
  · obtain ⟨r, hr⟩ := Option.isSome_iff_exists.mp (h1 t ht)
    exact ⟨r, climb_hasRoot _ _ _ hr⟩
  · exact ⟨t, hasRoot_self (h2 t (by omega))⟩

theorem chainHeap_acyclic : Acyclic chainHeap := by
  refine acyclic_of_climb chainHeap 3 (by decide) ?_
  intro t ht
  have h0 : t ≠ 0 := by omega
  have h1 : t ≠ 1 := by omega
  have h2 : t ≠ 2 := by omega
  simp [chainHeap, State.newTile, State.empty, State.parent, h0, h1, h2, Tile.blank]

/-- C2. In an acyclic parent forest, for every tile `t` and every flag set, `Tile::getRoot`
returns (given enough fuel for its loops) the unique ancestor `r` of `t` that has no parent;
with `Compress` set, every tile that was on the parent path from `t` up to (excluding) the
root then has the root as direct parent and no tile off that path has its parent changed;
and every tile has the same root as before the call. -/
theorem getRoot_returns_unique_root (s : State) (hac : Acyclic s) (t : Nat) (flags : Flags) :
    ∃ r, Ancestor s.parent t r ∧ s.parent r = none ∧
      (∀ a, Ancestor s.parent t a → s.parent a = none → a = r) ∧
      ∃ N, ∀ fuel, N ≤ fuel → ∃ s', getRoot fuel s t flags = some (r, s') ∧
        (flags.compress = true →
          (∀ u, Ancestor s.parent t u → u ≠ r → s'.parent u = some r) ∧
          (∀ u, ¬ (Ancestor s.parent t u ∧ u ≠ r) → s'.parent u = s.parent u)) ∧
        (∀ u x, HasRoot s'.parent u x ↔ HasRoot s.parent u x) := by
  obtain ⟨r, n, hn⟩ := hac t
  refine ⟨r, rootAt_ancestor hn, rootAt_isRoot hn, fun a ha h0 => hasRoot_ancestor_unique ⟨n, hn⟩ ha h0,
    n + 1, fun fuel hf => ?_⟩
  obtain ⟨s', hs', hpost⟩ := getRoot_ok s t r n hn flags fuel hf
  refine ⟨s', hs', fun hc => ⟨hpost.onPath hc, hpost.offPath hc⟩, fun u x => ⟨fun hx => ?_,
    hpost.roots u x⟩⟩
  obtain ⟨y, hy⟩ := hac u
  have := hasRoot_unique (hpost.roots u y hy) hx
  subst this
  exact hy

/-- C2 at the chain 2 → 1 → 0 with `Compress`. -/
theorem getRoot_returns_unique_root_witness :
    Acyclic chainHeap ∧
    ∃ r, Ancestor chainHeap.parent 2 r ∧ chainHeap.parent r = none ∧
      (∀ a, Ancestor chainHeap.parent 2 a → chainHeap.parent a = none → a = r) ∧
      ∃ N, ∀ fuel, N ≤ fuel → ∃ s', getRoot fuel chainHeap 2 Flags.onlyCompress = some (r, s') ∧
        (Flags.onlyCompress.compress = true →
          (∀ u, Ancestor chainHeap.parent 2 u → u ≠ r → s'.parent u = some r) ∧
          (∀ u, ¬ (Ancestor chainHeap.parent 2 u ∧ u ≠ r) → s'.parent u = chainHeap.parent u)) ∧
        (∀ u x, HasRoot s'.parent u x ↔ HasRoot chainHeap.parent u x) :=
  ⟨chainHeap_acyclic, getRoot_returns_unique_root chainHeap chainHeap_acyclic 2 Flags.onlyCompress⟩

/-! ## `Tile::merge` -/

theorem incRank_parent (s : State) (t : Nat) : (s.incRank t).parent = s.parent := by
  funext u
  unfold State.incRank State.parent
  by_cases h : u = t <;> simp [h]

theorem incRank_rank (s : State) (t u : Nat) :
    (s.incRank t).rank u = if u = t then s.rank u + 1 else s.rank u := by
  unfold State.incRank State.rank
  by_cases h : u = t <;> simp [h]

theorem setParent_rank (s : State) (t u : Nat) (p : Option Nat) :
    (s.setParent t p).rank u = s.rank u := by
  unfold State.setParent State.rank
  by_cases h : u = t <;> simp [h]

theorem setParent_fixed (s : State) (t : Nat) (p : Option Nat) (u : Nat) :
    ((s.setParent t p).tile u).occurrence = (s.tile u).occurrence ∧
    ((s.setParent t p).tile u).layer = (s.tile u).layer ∧
    ((s.setParent t p).tile u).boundingBox = (s.tile u).boundingBox := by
  unfold State.setParent
  by_cases h : u = t <;> simp [h]

theorem incRank_fixed (s : State) (t : Nat) (u : Nat) :
    ((s.incRank t).tile u).occurrence = (s.tile u).occurrence ∧
    ((s.incRank t).tile u).layer = (s.tile u).layer ∧
    ((s.incRank t).tile u).boundingBox = (s.tile u).boundingBox := by
  unfold State.incRank
  by_cases h : u = t <;> simp [h]

/-- The last step of `Tile::merge`: root `r2` goes under root `r1`. -/
theorem link_post (s2 s3 : State) (r1 r2 : Nat) (h1 : s2.parent r1 = none)
    (h2 : s2.parent r2 = none) (hne : r1 ≠ r2) (hs3 : s3.parent = s2.parent) :
    (s3.setParent r2 (some r1)).parent r1 = none ∧
    (s3.setParent r2 (some r1)).parent r2 = some r1 ∧
    (∀ u x, HasRoot s2.parent u x →
      HasRoot (s3.setParent r2 (some r1)).parent u (if x = r2 then r1 else x)) ∧
    (∀ u p, (s3.setParent r2 (some r1)).parent u = some p →
      s2.parent u = some p ∨ (u = r2 ∧ p = r1)) := by
  have hpar : ∀ u, (s3.setParent r2 (some r1)).parent u
      = if u = r2 then some r1 else s2.parent u := by
    intro u
    rw [setParent_parent, hs3]
  refine ⟨?_, ?_, ?_, ?_⟩
  · rw [hpar, if_neg hne]; exact h1
  · rw [hpar, if_pos rfl]
  · intro u x hx
    exact hasRoot_link h1 h2 hne hpar hx
  · intro u p hu
    rw [hpar] at hu
    by_cases h : u = r2
    · rw [if_pos h] at hu
      cases hu
      exact Or.inr ⟨h, rfl⟩
    · rw [if_neg h] at hu
      exact Or.inl hu

/-- The function `Tile::merge(a, b)` on two tiles that have roots: there is a result, the same for
every sufficient amount of fuel, and it is a union by rank. -/
theorem merge_ok (s : State) (a b ra rb : Nat) (ha : HasRoot s.parent a ra)
    (hb : HasRoot s.parent b rb) :
    ∃ r s', (∃ N, ∀ fuel, N ≤ fuel → merge fuel s a b = some (r, s')) ∧
      MergePost s ra rb r s' := by
  obtain ⟨n, hn⟩ := ha
  obtain ⟨s1, hs1, post1⟩ := getRoot_ok s a ra n hn Flags.forMerge (n + 1) (le_refl _)
  obtain ⟨m, hm⟩ := post1.roots b rb hb
  obtain ⟨s2, hs2, post2⟩ := getRoot_ok s1 b rb m hm Flags.forMerge (m + 1) (le_refl _)
  have hrun : ∀ fuel, max (n + 1) (m + 1) ≤ fuel →
      getRoot fuel s a Flags.forMerge = some (ra, s1) ∧
      getRoot fuel s1 b Flags.forMerge = some (rb, s2) := fun fuel hf =>
    ⟨getRoot_mono s a _ (le_trans (le_max_left _ _) hf) hs1,
     getRoot_mono s1 b _ (le_trans (le_max_right _ _) hf) hs2⟩
  have hrank : ∀ u, s2.rank u = s.rank u := fun u =>
    ((post2.data.2 u).1).trans (post1.data.2 u).1
  have hfixed : ∀ u, (s2.tile u).occurrence = (s.tile u).occurrence ∧
      (s2.tile u).layer = (s.tile u).layer ∧ (s2.tile u).boundingBox = (s.tile u).boundingBox :=
    fun u => (dataFrame_trans post1.data post2.data).2 u |>.2
  have hroots : ∀ u x, HasRoot s.parent u x → HasRoot s2.parent u x := fun u x hx =>
    post2.roots u x (post1.roots u x hx)
  have hlinks : ∀ u p, s2.parent u = some p → s.parent u = some p ∨ HasRoot s.parent u p := by
    intro u p hu
    rcases post2.links u p hu with h | h
    · exact post1.links u p h
    · exact Or.inr (hasRoot_reflected post1.links post1.rootsBack h)
  have hra : s2.parent ra = none := hasRoot_isRoot (hroots a ra ⟨n, hn⟩)
  have hrb : s2.parent rb = none := hasRoot_isRoot (hroots b rb hb)
  by_cases heq : ra = rb
  · subst heq
    refine ⟨ra, s2, ⟨max (n + 1) (m + 1), fun fuel hf => ?_⟩, ?_⟩
    · obtain ⟨e1, e2⟩ := hrun fuel hf
      unfold merge
      simp only [Flags.forMerge] at e1 e2
      simp only [e1, e2, if_true]
    · refine ⟨post2.data.1.trans post1.data.1, post2.time.trans post1.time, hfixed,
        by rw [if_pos rfl], hra, fun h => absurd rfl h, ?_, ?_, ?_⟩
      · intro u
        rw [if_neg (fun h => h.1 rfl)]
        exact hrank u
      · intro u x hx
        have := hroots u x hx
        by_cases hx' : x = ra
        · rw [if_pos (Or.inl hx')]; rw [hx'] at this; exact this
        · rw [if_neg (by intro h; rcases h with h | h <;> exact hx' h)]; exact this
      · intro u p hu
        rcases hlinks u p hu with h | h
        · exact Or.inl h
        · exact Or.inr (Or.inl h)
  · by_cases hlt : s.rank ra < s.rank rb
    · -- the roots are swapped: `ra` goes under `rb`
      have hne' : s2.rank rb ≠ s2.rank ra := by rw [hrank, hrank]; omega
      obtain ⟨l1, l2, l3, l4⟩ := link_post s2 s2 rb ra hrb hra (fun h => heq h.symm) rfl
      refine ⟨rb, s2.setParent ra (some rb), ⟨max (n + 1) (m + 1), fun fuel hf => ?_⟩, ?_⟩
      · obtain ⟨e1, e2⟩ := hrun fuel hf
        unfold merge
        simp only [Flags.forMerge] at e1 e2
        simp only [e1, e2, if_neg heq, hrank, if_pos hlt]
        rw [if_neg (by omega)]
      · refine ⟨post2.data.1.trans post1.data.1, post2.time.trans post1.time,
          fun u => ?_, by rw [if_neg heq, if_pos hlt], l1, fun _ => by rw [if_pos hlt]; exact l2,
          ?_, ?_, ?_⟩
        · obtain ⟨f1, f2, f3⟩ := setParent_fixed s2 ra (some rb) u
          obtain ⟨g1, g2, g3⟩ := hfixed u
          exact ⟨f1.trans g1, f2.trans g2, f3.trans g3⟩
        · intro u
          rw [setParent_rank, hrank, if_neg (fun h => by omega)]
        · intro u x hx
          have := l3 u x (hroots u x hx)
          by_cases hxa : x = ra
          · rw [if_pos (Or.inl hxa)]; rw [if_pos hxa] at this; exact this
          · rw [if_neg hxa] at this
            by_cases hxb : x = rb
            · rw [if_pos (Or.inr hxb)]; rw [hxb] at this; exact this
            · rw [if_neg (by intro h; rcases h with h | h; exact hxa h; exact hxb h)]
              exact this
        · intro u p hu
          rcases l4 u p hu with h | ⟨h1, h2⟩
          · rcases hlinks u p h with h | h
            · exact Or.inl h
            · exact Or.inr (Or.inl h)
          · exact Or.inr (Or.inr (Or.inl ⟨h1, h2⟩))
    · by_cases hrk : s.rank ra = s.rank rb
      · -- equal ranks: `rb` goes under `ra`, whose rank goes up
        obtain ⟨l1, l2, l3, l4⟩ := link_post s2 (s2.incRank ra) ra rb hra hrb heq
          (incRank_parent s2 ra)
        refine ⟨ra, (s2.incRank ra).setParent rb (some ra), ⟨max (n + 1) (m + 1), fun fuel hf => ?_⟩, ?_⟩
        · obtain ⟨e1, e2⟩ := hrun fuel hf
          unfold merge
          simp only [Flags.forMerge] at e1 e2
          simp only [e1, e2, if_neg heq, hrank, if_neg hlt]
          rw [if_pos hrk]
        · refine ⟨post2.data.1.trans post1.data.1, post2.time.trans post1.time,
            fun u => ?_, by rw [if_neg heq, if_neg hlt], l1,
            fun _ => by rw [if_neg hlt]; exact l2, ?_, ?_, ?_⟩
          · obtain ⟨f1, f2, f3⟩ := setParent_fixed (s2.incRank ra) rb (some ra) u
            obtain ⟨g1, g2, g3⟩ := incRank_fixed s2 ra u
            obtain ⟨k1, k2, k3⟩ := hfixed u
            exact ⟨(f1.trans g1).trans k1, (f2.trans g2).trans k2, (f3.trans g3).trans k3⟩
          · intro u
            rw [setParent_rank, incRank_rank, hrank]
            by_cases hu : u = ra
            · rw [if_pos hu, if_pos ⟨heq, hu, hrk⟩]
            · rw [if_neg hu, if_neg (fun h => hu h.2.1)]
          · intro u x hx
            have := l3 u x (hroots u x hx)
            by_cases hxb : x = rb
            · rw [if_pos (Or.inr hxb)]; rw [if_pos hxb] at this; exact this
            · rw [if_neg hxb] at this
              by_cases hxa : x = ra
              · rw [if_pos (Or.inl hxa)]; rw [hxa] at this; exact this
              · rw [if_neg (by intro h; rcases h with h | h; exact hxa h; exact hxb h)]
                exact this
          · intro u p hu
            rcases l4 u p hu with h | ⟨h1, h2⟩
            · rcases hlinks u p h with h | h
              · exact Or.inl h
              · exact Or.inr (Or.inl h)
            · exact Or.inr (Or.inr (Or.inr ⟨h1, h2⟩))
      · -- `ra` has the larger rank: `rb` goes under `ra`
        obtain ⟨l1, l2, l3, l4⟩ := link_post s2 s2 ra rb hra hrb heq rfl
        refine ⟨ra, s2.setParent rb (some ra), ⟨max (n + 1) (m + 1), fun fuel hf => ?_⟩, ?_⟩
        · obtain ⟨e1, e2⟩ := hrun fuel hf
          unfold merge
          simp only [Flags.forMerge] at e1 e2
          simp only [e1, e2, if_neg heq, hrank, if_neg hlt]
          rw [if_neg hrk]
        · refine ⟨post2.data.1.trans post1.data.1, post2.time.trans post1.time,
            fun u => ?_, by rw [if_neg heq, if_neg hlt], l1,
            fun _ => by rw [if_neg hlt]; exact l2, ?_, ?_, ?_⟩
          · obtain ⟨f1, f2, f3⟩ := setParent_fixed s2 rb (some ra) u
            obtain ⟨g1, g2, g3⟩ := hfixed u
            exact ⟨f1.trans g1, f2.trans g2, f3.trans g3⟩
          · intro u
            rw [setParent_rank, hrank, if_neg (fun h => hrk h.2.2)]
          · intro u x hx
            have := l3 u x (hroots u x hx)
            by_cases hxb : x = rb
            · rw [if_pos (Or.inr hxb)]; rw [if_pos hxb] at this; exact this
            · rw [if_neg hxb] at this
              by_cases hxa : x = ra
              · rw [if_pos (Or.inl hxa)]; rw [hxa] at this; exact this
              · rw [if_neg (by intro h; rcases h with h | h; exact hxa h; exact hxb h)]
                exact this
          · intro u p hu
            rcases l4 u p hu with h | ⟨h1, h2⟩
            · rcases hlinks u p h with h | h
              · exact Or.inl h
              · exact Or.inr (Or.inl h)
            · exact Or.inr (Or.inr (Or.inr ⟨h1, h2⟩))

/-- C1. `Tile::merge(a, b)` is a union by rank. With `ra`, `rb` the roots of `a`, `b`:
when they differ, the root of smaller rank is attached under the root of larger rank (on
equal ranks `rb` goes under `ra` and the rank of `ra` goes up by exactly one; otherwise no
rank changes), the surviving root is returned, and afterwards `a` and `b` have the same
root; when `ra = rb` that root is returned, every tile keeps its root and every rank is
unchanged. The call returns for every sufficient amount of fuel. -/
theorem merge_is_union_by_rank (s : State) (a b ra rb : Nat)
    (ha : HasRoot s.parent a ra) (hb : HasRoot s.parent b rb) :
    ∃ r s', (∃ N, ∀ fuel, N ≤ fuel → merge fuel s a b = some (r, s')) ∧
      (ra ≠ rb →
        (s.rank ra < s.rank rb →
          r = rb ∧ s'.parent ra = some rb ∧ ∀ u, s'.rank u = s.rank u) ∧
        (s.rank rb < s.rank ra →
          r = ra ∧ s'.parent rb = some ra ∧ ∀ u, s'.rank u = s.rank u) ∧
        (s.rank ra = s.rank rb →
          r = ra ∧ s'.parent rb = some ra ∧ s'.rank ra = s.rank ra + 1 ∧
          ∀ u, u ≠ ra → s'.rank u = s.rank u) ∧
        s'.parent r = none ∧ HasRoot s'.parent a r ∧ HasRoot s'.parent b r) ∧
      (ra = rb →
        r = ra ∧ (∀ u x, HasRoot s.parent u x → HasRoot s'.parent u x) ∧
        ∀ u, s'.rank u = s.rank u) := by
  obtain ⟨r, s', hrun, post⟩ := merge_ok s a b ra rb ha hb
  refine ⟨r, s', hrun, fun hne => ⟨fun hlt => ?_, fun hgt => ?_, fun heq => ?_, post.rootR, ?_, ?_⟩,
    fun heq => ?_⟩
  · have hw := post.winner
    rw [if_neg hne, if_pos hlt] at hw
    have hl := post.loser hne
    rw [if_pos hlt, hw] at hl
    refine ⟨hw, hl, fun u => ?_⟩
    rw [post.rank u, if_neg (fun h => by omega)]
  · have hw := post.winner
    rw [if_neg hne, if_neg (by omega)] at hw
    have hl := post.loser hne
    rw [if_neg (by omega), hw] at hl
    refine ⟨hw, hl, fun u => ?_⟩
    rw [post.rank u, if_neg (fun h => by omega)]
  · have hw := post.winner
    rw [if_neg hne, if_neg (by omega)] at hw
    have hl := post.loser hne
    rw [if_neg (by omega), hw] at hl
    refine ⟨hw, hl, ?_, fun u hu => ?_⟩
    · rw [post.rank ra, if_pos ⟨hne, rfl, heq⟩]
    · rw [post.rank u, if_neg (fun h => hu h.2.1)]
  · have := post.roots a ra ha
    rw [if_pos (Or.inl rfl)] at this
    exact this
  · have := post.roots b rb hb
    rw [if_pos (Or.inr rfl)] at this
    exact this
  · have hw := post.winner
    rw [if_pos heq] at hw
    refine ⟨hw, fun u x hx => ?_, fun u => ?_⟩
    · have := post.roots u x hx
      by_cases hx' : x = ra ∨ x = rb
      · rw [if_pos hx', hw] at this
        rcases hx' with h | h
        · rw [h]; exact this
        · rw [h, ← heq]; exact this
      · rw [if_neg hx'] at this; exact this
    · rw [post.rank u, if_neg (fun h => h.1 heq)]

/-- C1 at two parentless tiles of equal rank. -/
theorem merge_is_union_by_rank_witness :
    HasRoot pairHeap.parent 0 0 ∧ HasRoot pairHeap.parent 1 1 ∧
    ∃ r s', (∃ N, ∀ fuel, N ≤ fuel → merge fuel pairHeap 0 1 = some (r, s')) ∧
      ((0 : Nat) ≠ 1 →
        (pairHeap.rank 0 < pairHeap.rank 1 →
          r = 1 ∧ s'.parent 0 = some 1 ∧ ∀ u, s'.rank u = pairHeap.rank u) ∧
        (pairHeap.rank 1 < pairHeap.rank 0 →
          r = 0 ∧ s'.parent 1 = some 0 ∧ ∀ u, s'.rank u = pairHeap.rank u) ∧
        (pairHeap.rank 0 = pairHeap.rank 1 →
          r = 0 ∧ s'.parent 1 = some 0 ∧ s'.rank 0 = pairHeap.rank 0 + 1 ∧
          ∀ u, u ≠ 0 → s'.rank u = pairHeap.rank u) ∧
        s'.parent r = none ∧ HasRoot s'.parent 0 r ∧ HasRoot s'.parent 1 r) ∧
      ((0 : Nat) = 1 →
        r = 0 ∧ (∀ u x, HasRoot pairHeap.parent u x → HasRoot s'.parent u x) ∧
        ∀ u, s'.rank u = pairHeap.rank u) :=
  ⟨hasRoot_self (by decide), hasRoot_self (by decide),
   merge_is_union_by_rank pairHeap 0 1 0 1 (hasRoot_self (by decide)) (hasRoot_self (by decide))⟩

/-! ## `MergeEqui` and `MakeLeafEqui` -/

/-- C3 (the code at the failing input). `getRoot(MergeEqui)` on tile 2 of the chain
2 → 1 → 0: the climb visits tile 1, adds its occurrence 11 to the root equipotential and
flags it occurrence-merged, but the box folded in with it is the box of tile 2, the tile the
call started on (`_boundingBox` in the loop body): the equipotential box ends as
`(0,0)-(6,6)`, which does not contain the box `(50,50)-(60,60)` of tile 1.
The same happens in a whole `SweepLine::run` over five rectangles of one layer: the sweep
leaves tile 2 under tile 3 under the root 1, tile 3 without equipotential;
`mergeEquipotentials` visits tile 2 first and folds tile 3 in with the box of tile 2, so
the single equipotential holds the five occurrences but its box `(0,0)-(20,60)` does not
contain the box `(5,50)-(15,70)` of tile 3. -/
theorem getRoot_mergeEqui_folds_box_of_start_tile :
    ((getRoot 5 foldHeap 2 Flags.onlyMergeEqui).map
        (fun x => (x.1, (x.2.tile 0).equipotential, (x.2.equi 0).components,
                   (x.2.equi 0).boundingBox, (x.2.tile 1).occMerged))
      = some (0, some 0, [11, 12, 10], some ⟨0, 0, 6, 6⟩, true) ∧
     (foldHeap.tile 1).boundingBox = ⟨50, 50, 60, 60⟩ ∧
     ¬ (foldHeap.tile 1).boundingBox.inside ⟨0, 0, 6, 6⟩) ∧
    ((sweepLoop 6 fiveSweepLine.tiles (fiveHeap, fiveSweepLine.intervalTrees)).map
        (fun st => (st.1.parent 2, st.1.parent 3, st.1.parent 1, (st.1.tile 3).equipotential))
      = some (some 3, some 1, none, none) ∧
     (SweepLine.run 6 fiveHeap fiveSweepLine).map
        (fun s => ((s.tile 1).equipotential, (s.equi 0).components, (s.equi 0).boundingBox))
      = some (some 0, [14, 13, 12, 10, 11], some ⟨0, 0, 20, 60⟩) ∧
     (fiveHeap.tile 3).boundingBox = ⟨5, 50, 15, 70⟩ ∧
     ¬ (fiveHeap.tile 3).boundingBox.inside ⟨0, 0, 20, 60⟩) := by
  refine ⟨⟨by decide, by decide, by decide⟩, by decide, by decide, by decide, by decide⟩

theorem mergeVisit_equipotential (self re : Nat) (s : State) (c u : Nat) :
    ((mergeVisit self re s c).tile u).equipotential = (s.tile u).equipotential := by
  unfold mergeVisit
  split
  · rfl
  · by_cases h : u = c
    · simp only [State.syncTime, State.setOccMerged, modifyTile_tile, if_pos h]
      split
      · split <;> rfl
      · rfl
    · simp only [State.syncTime, State.setOccMerged, modifyTile_tile, if_neg h]
      split
      · split <;> rfl
      · rfl

theorem mergeLoop_equipotential (self root re : Nat) :
    ∀ (fuel : Nat) (s : State) (c : Option Nat) (s' : State),
      mergeLoop self root re fuel s c = some s' →
      ∀ u, (s'.tile u).equipotential = (s.tile u).equipotential := by
  intro fuel
  induction fuel with
  | zero => intro s c s' h; simp [mergeLoop] at h
  | succ k ih =>
    intro s c s' h u
    cases c with
    | none => simp only [mergeLoop, Option.some.injEq] at h; subst h; rfl
    | some c =>
      simp only [mergeLoop] at h
      split at h
      · simp only [Option.some.injEq] at h; subst h; rfl
      · split at h
        · simp only [Option.some.injEq] at h; subst h; rfl
        · rw [ih _ _ _ h u, mergeVisit_equipotential]

theorem compressLoop_frame (root : Nat) :
    ∀ (fuel : Nat) (s : State) (c : Option Nat) (s' : State),
      compressLoop root fuel s c = some s' → ParentFrame s s' := by
  intro fuel
  induction fuel with
  | zero => intro s c s' h; simp [compressLoop] at h
  | succ k ih =>
    intro s c s' h
    cases c with
    | none => simp [compressLoop] at h
    | some c =>
      simp only [compressLoop] at h
      split at h
      · simp only [Option.some.injEq] at h; subst h; exact parentFrame_refl s
      · exact parentFrame_trans (parentFrame_setParent s c (some root)) (ih _ _ _ h)

theorem parentFrame_equipotential {s s' : State} (h : ParentFrame s s') (u : Nat) :
    (s'.tile u).equipotential = (s.tile u).equipotential := by
  have := h.2.2.2.2 u
  rw [Tile.mk.injEq] at this
  exact this.2.2.2.1

theorem newEquipotential_owns (s : State) (t : Nat) :
    ((newEquipotential s t).2.tile t).equipotential ≠ none := by
  unfold newEquipotential
  split
  · next e he => rw [he]; exact Option.some_ne_none e
  · simp

/-- C4 (counterexample). `getRoot(MakeLeafEqui)` on the non-root tile 1 of the chain
2 → 1 → 0 returns the root 0, and afterwards the root still owns no equipotential. -/
theorem getRoot_makeLeafEqui_nonroot_allocates_nothing :
    chainHeap.parent 1 = some 0 ∧ (chainHeap.tile 0).equipotential = none ∧
    (getRoot 5 chainHeap 1 Flags.onlyMakeLeafEqui).map
        (fun x => (x.1, (x.2.tile 0).equipotential, x.2.equiCount)) = some (0, none, 0) := by
  refine ⟨by decide, by decide, by decide⟩

/-- C4 (amended). After `getRoot(flags)` with `MakeLeafEqui` on a tile that is itself a
root, that tile owns an equipotential. On a non-root tile the root owns an equipotential
after the call when `MergeEqui` is set; when `MergeEqui` is not set, no equipotential
pointer changes and none is created, whatever `MakeLeafEqui` says. -/
theorem getRoot_root_equipotential (s : State) (t r : Nat) (flags : Flags)
    (hr : HasRoot s.parent t r) :
    ∃ N, ∀ fuel, N ≤ fuel → ∃ s', getRoot fuel s t flags = some (r, s') ∧
      (s.parent t = none → flags.makeLeafEqui = true → (s'.tile t).equipotential ≠ none) ∧
      (s.parent t ≠ none → flags.mergeEqui = true → (s'.tile r).equipotential ≠ none) ∧
      (s.parent t ≠ none → flags.mergeEqui = false →
        s'.equiCount = s.equiCount ∧
        ∀ u, (s'.tile u).equipotential = (s.tile u).equipotential) := by
  obtain ⟨n, hn⟩ := hr
  refine ⟨n + 1, fun fuel hf => ?_⟩
  obtain ⟨s', hs', _⟩ := getRoot_ok s t r n hn flags fuel hf
  refine ⟨s', hs', ?_, ?_, ?_⟩
  · intro h0 hmk
    unfold getRoot at hs'
    simp only [h0, hmk, true_and] at hs'
    split at hs'
    · simp only [Option.some.injEq, Prod.mk.injEq] at hs'
      rw [← hs'.2]
      exact newEquipotential_owns s t
    · next hne =>
      simp only [Option.some.injEq, Prod.mk.injEq] at hs'
      rw [← hs'.2]
      exact hne
  · intro h0 hmg
    obtain ⟨p, hp⟩ := Option.ne_none_iff_exists'.mp h0
    unfold getRoot at hs'
    simp only [hp, climb_of_rootAt hn fuel hf, hmg, if_true] at hs'
    cases hl : mergeLoop t r (newEquipotential s r).1 fuel (newEquipotential s r).2 (some t) with
    | none => simp [hl] at hs'
    | some s1 =>
      simp only [hl] at hs'
      have h1 : (s1.tile r).equipotential ≠ none := by
        rw [mergeLoop_equipotential _ _ _ _ _ _ _ hl r]
        exact newEquipotential_owns s r
      split at hs'
      · cases hcl : compressLoop r fuel s1 (some t) with
        | none => simp [hcl] at hs'
        | some s2 =>
          simp only [hcl, Option.some.injEq, Prod.mk.injEq, true_and] at hs'
          rw [← hs', parentFrame_equipotential (compressLoop_frame _ _ _ _ _ hcl) r]
          exact h1
      · simp only [Option.some.injEq, Prod.mk.injEq, true_and] at hs'
        rw [← hs']
        exact h1
  · intro h0 hmg
    obtain ⟨p, hp⟩ := Option.ne_none_iff_exists'.mp h0
    unfold getRoot at hs'
    simp only [hp, climb_of_rootAt hn fuel hf, hmg, Bool.false_eq_true, if_false] at hs'
    split at hs'
    · cases hcl : compressLoop r fuel s (some t) with
      | none => simp [hcl] at hs'
      | some s2 =>
        simp only [hcl, Option.some.injEq, Prod.mk.injEq, true_and] at hs'
        rw [← hs']
        have hf := compressLoop_frame _ _ _ _ _ hcl
        exact ⟨hf.2.2.2.1, fun u => parentFrame_equipotential hf u⟩
    · simp only [Option.some.injEq, Prod.mk.injEq, true_and] at hs'
      rw [← hs']
      exact ⟨rfl, fun _ => rfl⟩

/-- C4 (amended) at the chain 2 → 1 → 0, tile 1, flag set `MakeLeafEqui`. -/
theorem getRoot_root_equipotential_witness :
    HasRoot chainHeap.parent 1 0 ∧
    ∃ N, ∀ fuel, N ≤ fuel → ∃ s', getRoot fuel chainHeap 1 Flags.onlyMakeLeafEqui = some (0, s') ∧
      (chainHeap.parent 1 = none → Flags.onlyMakeLeafEqui.makeLeafEqui = true →
        (s'.tile 1).equipotential ≠ none) ∧
      (chainHeap.parent 1 ≠ none → Flags.onlyMakeLeafEqui.mergeEqui = true →
        (s'.tile 0).equipotential ≠ none) ∧
      (chainHeap.parent 1 ≠ none → Flags.onlyMakeLeafEqui.mergeEqui = false →
        s'.equiCount = chainHeap.equiCount ∧
        ∀ u, (s'.tile u).equipotential = (chainHeap.tile u).equipotential) :=
  ⟨climb_hasRoot 2 1 0 (by decide),
   getRoot_root_equipotential chainHeap 1 0 Flags.onlyMakeLeafEqui
     (climb_hasRoot 2 1 0 (by decide))⟩

/-! ## `Tile::create` -/

theorem eventsOf_succ (first count : Nat) :
    eventsOf first (count + 1) = eventsOf first count ++
      [⟨first + count, true⟩, ⟨first + count, false⟩] := by
  unfold eventsOf
  rw [List.range'_concat, List.flatMap_append]
  simp

theorem eventsOf_cons (first count : Nat) :
    eventsOf first (count + 1) =
      [⟨first, true⟩, ⟨first, false⟩] ++ eventsOf (first + 1) count := by
  unfold eventsOf
  rw [List.range'_succ, List.flatMap_cons]

theorem createRectangles_spec (occ layer : Nat) (tr : Box → Box) :
    ∀ (boxes : List Box) (s : State) (sl : SweepLine) (rootTile : Option Nat),
      let r := createRectangles occ layer tr boxes s sl rootTile
      r.2.1.idCounter = s.idCounter + boxes.length ∧
      r.2.2.tiles = sl.tiles ++ eventsOf s.idCounter boxes.length ∧
      r.2.2.intervalTrees = sl.intervalTrees ∧
      (∀ u, u < s.idCounter → r.2.1.tile u = s.tile u) ∧
      (r.1 = none ↔ boxes = [] ∧ rootTile = none) := by
  intro boxes
  induction boxes with
  | nil =>
    intro s sl rootTile
    simp [createRectangles, eventsOf]
  | cons bb rest ih =>
    intro s sl rootTile
    obtain ⟨h1, h2, h3, h4, h5⟩ := ih (s.newTile occ layer (tr bb) rootTile).2
      (sl.add (s.newTile occ layer (tr bb) rootTile).1)
      (match rootTile with
       | none => some (s.newTile occ layer (tr bb) rootTile).1
       | some t => some t)
    simp only [createRectangles]
    refine ⟨?_, ?_, ?_, ?_, ?_⟩
    · rw [h1]; simp only [State.newTile, List.length_cons]; omega
    · rw [h2, List.length_cons, eventsOf_cons]
      simp only [SweepLine.add, State.newTile, List.append_assoc]
    · rw [h3]; rfl
    · intro u hu
      rw [h4 u (by simp only [State.newTile]; omega)]
      simp only [State.newTile]
      rw [if_neg (by omega)]
    · rw [h5]
      constructor
      · intro h
        cases rootTile <;> simp at h
      · intro h
        simp at h

/-- C8 (counterexample). A Manhattan `Rectilinear` on the requested layer is none of the
refused shapes, yet `Tile::create` called without `rootTile` returns no tile for it when
its decomposition delivers no rectangle. -/
theorem create_empty_rectilinear_returns_null :
    unsupported degenerateRectilinear 1 Flags.none = false ∧
    (Tile.create State.empty SweepLine.start degenerateRectilinear 1 none Flags.none).1 = none := by
  refine ⟨by decide, by decide⟩

/-- C8 (amended). `Tile::create` refuses the unsupported shapes: it returns no tile,
allocates nothing and adds nothing to the sweep line when the entity is not a component,
is a `Polygon`, a `Diagonal`, a `Rectilinear` with a non-Manhattan edge, or when
`ForceLayer` is not set and the layer of the component does not contain the requested
basic layer. In every other case each tile it allocates is added to the sweep line (both
edges, in allocation order), and it returns a tile, except for a `Rectilinear` without any
rectangle called without `rootTile`. -/
theorem create_refuses_or_loads (s : State) (sl : SweepLine) (occurrence : Occurrence)
    (layer : Nat) (rootTile : Option Nat) (flags : Flags) :
    (unsupported occurrence layer flags = true →
      Tile.create s sl occurrence layer rootTile flags = (none, s, sl)) ∧
    (unsupported occurrence layer flags = false →
      (Tile.create s sl occurrence layer rootTile flags).2.2.tiles
        = sl.tiles ++ eventsOf s.idCounter
            ((Tile.create s sl occurrence layer rootTile flags).2.1.idCounter - s.idCounter) ∧
      s.idCounter ≤ (Tile.create s sl occurrence layer rootTile flags).2.1.idCounter ∧
      (Tile.create s sl occurrence layer rootTile flags).2.2.intervalTrees = sl.intervalTrees ∧
      ((Tile.create s sl occurrence layer rootTile flags).1 = none ↔
        emptyRectilinear occurrence = true ∧ rootTile = none)) := by
  unfold unsupported Tile.create emptyRectilinear
  cases hent : occurrence.entity with
  | notComponent => simp
  | component c =>
    simp only []
    by_cases hl : (!flags.forceLayer && !c.layerContains layer) = true
    · simp [hl]
    · simp only [hl, Bool.false_or, if_false]
      cases hsh : c.shape with
      | polygon => simp
      | diagonal => simp
      | plain =>
        simp [State.newTile, SweepLine.add, eventsOf]
      | rectilinear isRect boxes =>
        cases isRect with
        | false => simp
        | true =>
          simp only [Bool.not_true, Bool.false_eq_true, if_false, false_implies, true_and,
            forall_const]
          obtain ⟨h1, h2, h3, _, h5⟩ := createRectangles_spec
            (if occurrence.pathIsEmpty then occurrence.id else occurrence.childEqui) layer
            occurrence.transformation boxes s sl rootTile
          refine ⟨?_, ?_, h3, ?_⟩
          · rw [h2, h1]; simp
          · rw [h1]; omega
          · rw [h5]; simp [List.isEmpty_iff]

/-- C8 (amended) on a horizontal wire of layer 1 loaded in the empty heap: one tile is
allocated and returned, its two edges are the events of the sweep line. -/
theorem create_refuses_or_loads_witness :
    unsupported wireOccurrence 1 Flags.none = false ∧
    (Tile.create State.empty SweepLine.start wireOccurrence 1 none Flags.none).2.2.tiles
      = [⟨0, true⟩, ⟨0, false⟩] ∧
    (Tile.create State.empty SweepLine.start wireOccurrence 1 none Flags.none).1 ≠ none := by
  have h := (create_refuses_or_loads State.empty SweepLine.start wireOccurrence 1 none
    Flags.none).2 (by decide)
  refine ⟨by decide, ?_, ?_⟩
  · rw [h.1]; decide
  · intro hn
    have := (h.2.2.2.mp hn).1
    revert this
    decide

/-! ## The sweep -/

theorem sameTiles_refl (s : State) : SameTiles s s := ⟨rfl, fun _ => ⟨rfl, rfl, rfl⟩⟩

theorem sameTiles_trans {s1 s2 s3 : State} (h1 : SameTiles s1 s2) (h2 : SameTiles s2 s3) :
    SameTiles s1 s3 := by
  refine ⟨h2.1.trans h1.1, fun u => ?_⟩
  obtain ⟨a1, a2, a3⟩ := h1.2 u
  obtain ⟨b1, b2, b3⟩ := h2.2 u
  exact ⟨b1.trans a1, b2.trans a2, b3.trans a3⟩

theorem mergePost_sameTiles {s s' : State} {ra rb r : Nat} (h : MergePost s ra rb r s') :
    SameTiles s s' := ⟨h.idCounter, h.fixed⟩

theorem mergePost_acyclic {s s' : State} {ra rb r : Nat} (h : MergePost s ra rb r s')
    (hac : Acyclic s) : Acyclic s' := by
  intro t
  obtain ⟨x, hx⟩ := hac t
  exact ⟨_, h.roots t x hx⟩

theorem mergePost_sameRoot {s s' : State} {ra rb r : Nat} (h : MergePost s ra rb r s')
    {u v : Nat} (huv : SameRoot s u v) : SameRoot s' u v := by
  obtain ⟨x, hu, hv⟩ := huv
  exact ⟨_, h.roots u x hu, h.roots v x hv⟩

theorem mergePost_joined {s s' : State} {a b ra rb r : Nat} (h : MergePost s ra rb r s')
    (ha : HasRoot s.parent a ra) (hb : HasRoot s.parent b rb) : SameRoot s' a b := by
  have h1 := h.roots a ra ha
  have h2 := h.roots b rb hb
  rw [if_pos (Or.inl rfl)] at h1
  rw [if_pos (Or.inr rfl)] at h2
  exact ⟨r, h1, h2⟩

theorem sameRoot_refl {s : State} (hac : Acyclic s) (a : Nat) : SameRoot s a a := by
  obtain ⟨r, hr⟩ := hac a
  exact ⟨r, hr, hr⟩

theorem sameRoot_symm {s : State} {a b : Nat} (h : SameRoot s a b) : SameRoot s b a := by
  obtain ⟨r, h1, h2⟩ := h
  exact ⟨r, h2, h1⟩

/-- When every parent link stays within an equivalence `R`, a tile and its root are
related by `R`. -/
theorem linksWithin_root {R : Nat → Nat → Prop} (hR : Equivalence R) {s : State}
    (hJ : LinksWithin R s) {t r : Nat} (h : HasRoot s.parent t r) : R t r := by
  obtain ⟨n, hn⟩ := h
  induction hn with
  | root _ => exact hR.refl _
  | step hp _ ih => exact hR.trans (hJ _ _ hp) ih

theorem mergePost_linksWithin {R : Nat → Nat → Prop} (hR : Equivalence R) {s s' : State}
    {a b ra rb r : Nat} (h : MergePost s ra rb r s') (ha : HasRoot s.parent a ra)
    (hb : HasRoot s.parent b rb) (hab : R a b) (hJ : LinksWithin R s) : LinksWithin R s' := by
  intro u p hu
  have hra := linksWithin_root hR hJ ha
  have hrb := linksWithin_root hR hJ hb
  rcases h.links u p hu with h1 | h1 | ⟨h1, h2⟩ | ⟨h1, h2⟩
  · exact hJ u p h1
  · exact linksWithin_root hR hJ h1
  · subst h1; subst h2
    exact hR.trans (hR.symm hra) (hR.trans hab hrb)
  · subst h1; subst h2
    exact hR.trans (hR.symm hrb) (hR.trans (hR.symm hab) hra)

/-- The merges of one left edge: they return (the same heap for every sufficient fuel),
keep the forest a forest, keep tiles together that were together, join the tile with every
overlap, and keep the parent links within any equivalence that relates the tile to each
overlap. -/
theorem mergeOverlaps_ok (R : Nat → Nat → Prop) (hR : Equivalence R) (tile : Nat) :
    ∀ (ovs : List TileIntv) (s : State), Acyclic s → LinksWithin R s →
      (∀ ov, ov ∈ ovs → R tile ov.tile) →
      ∃ s', (∃ N, ∀ fuel, N ≤ fuel → mergeOverlaps fuel tile ovs s = some s') ∧
        Acyclic s' ∧ SameTiles s s' ∧ s'.time = s.time ∧ LinksWithin R s' ∧
        (∀ u v, SameRoot s u v → SameRoot s' u v) ∧
        (∀ ov, ov ∈ ovs → SameRoot s' tile ov.tile) := by
  intro ovs
  induction ovs with
  | nil =>
    intro s hac hJ _
    exact ⟨s, ⟨0, fun _ _ => rfl⟩, hac, sameTiles_refl s, rfl, hJ, fun _ _ h => h,
      fun ov hov => absurd hov (List.not_mem_nil ov)⟩
  | cons ov rest ih =>
    intro s hac hJ hrel
    obtain ⟨ra, hra⟩ := hac tile
    obtain ⟨rb, hrb⟩ := hac ov.tile
    obtain ⟨r, s1, ⟨N1, hN1⟩, post⟩ := merge_ok s tile ov.tile ra rb hra hrb
    have hac1 := mergePost_acyclic post hac
    have hJ1 := mergePost_linksWithin hR post hra hrb (hrel ov (List.mem_cons_self _ _)) hJ
    obtain ⟨s', ⟨N2, hN2⟩, hac', hst, htime, hJ', hmono, hjoin⟩ := ih s1 hac1 hJ1
      (fun o ho => hrel o (List.mem_cons_of_mem _ ho))
    refine ⟨s', ⟨max N1 N2, fun fuel hf => ?_⟩, hac', sameTiles_trans (mergePost_sameTiles post) hst,
      htime.trans post.time, hJ', fun u v h => hmono u v (mergePost_sameRoot post h), ?_⟩
    · simp only [mergeOverlaps, hN1 fuel (le_trans (le_max_left _ _) hf)]
      exact hN2 fuel (le_trans (le_max_right _ _) hf)
    · intro o ho
      rcases List.mem_cons.mp ho with h | h
      · subst h
        exact hmono _ _ (mergePost_joined post hra hrb)
      · exact hjoin o h

theorem touch_symm {s : State} {a b : Nat} (h : Touch s a b) : Touch s b a := by
  obtain ⟨h1, h2, h3, h4, h5⟩ := h
  exact ⟨h1.symm, h3, h2, h5, h4⟩

theorem setTree_same (trees : Nat → Option (List TileIntv)) (m : Nat) (tree : List TileIntv) :
    setTree trees m tree m = some tree := by
  unfold setTree
  rw [if_pos rfl]

theorem setTree_other (trees : Nat → Option (List TileIntv)) {m m' : Nat} (tree : List TileIntv)
    (h : m' ≠ m) : setTree trees m tree m' = trees m' := by
  unfold setTree
  rw [if_neg h]

/-- In a sorted event list, the right edge of a tile that touches tile `b` does not come
before the left edge of `b`. -/
theorem right_not_before_left {s0 : State} {pre post : List Element} {a b : Nat}
    (hsorted : (pre ++ (⟨b, true⟩ : Element) :: post).Pairwise (Element.mayPrecede s0))
    (htouch : Touch s0 a b) : (⟨a, false⟩ : Element) ∉ pre := by
  intro hmem
  have hp := (List.pairwise_append.mp hsorted).2.2 _ hmem _ (List.mem_cons_self _ _)
  obtain ⟨_, _, h3, _, _⟩ := htouch
  unfold Element.mayPrecede Element.getX at hp
  simp only [Bool.false_eq_true, if_false, if_true] at hp
  rcases hp with hp | ⟨_, hp | hp⟩
  · omega
  · exact hp
  · cases hp

/-- One event of the sweep keeps the invariant. -/
theorem sweepStep_join (s0 : State) (trees0 : Nat → Option (List TileIntv))
    (pre post : List Element) (e : Element)
    (hsorted : (pre ++ e :: post).Pairwise (Element.mayPrecede s0))
    (s : State) (trees : Nat → Option (List TileIntv))
    (inv : JoinInv s0 trees0 pre s trees) :
    ∃ s' trees', (∃ N, ∀ fuel, N ≤ fuel → sweepStep fuel s trees e = some (s', trees')) ∧
      JoinInv s0 trees0 (pre ++ [e]) s' trees' := by
  obtain ⟨b, isLeft⟩ := e
  have hlayer : (s.tile b).layer = (s0.tile b).layer := (inv.tiles.2 b).2.1
  have hbox : (s.tile b).boundingBox = (s0.tile b).boundingBox := (inv.tiles.2 b).2.2
  cases htree : trees (s0.tile b).layer with
  | none =>
    refine ⟨s, trees, ⟨0, fun fuel _ => ?_⟩, inv.acyclic, inv.tiles, inv.present, ?_, ?_⟩
    · unfold sweepStep
      simp only [hlayer, htree]
    · intro t hl hr tree ht
      have hr' : (⟨t, false⟩ : Element) ∉ pre := fun h => hr (List.mem_append_left _ h)
      rcases List.mem_append.mp hl with h | h
      · exact inv.stored t h hr' tree ht
      · simp only [List.mem_singleton, Element.mk.injEq] at h
        obtain ⟨h1, _⟩ := h
        subst h1
        rw [htree] at ht
        cases ht
    · intro a c ha hc hta htouch
      have hnone : trees0 (s0.tile b).layer = none := (inv.present _).mp htree
      rcases List.mem_append.mp ha with h1 | h1
      · rcases List.mem_append.mp hc with h2 | h2
        · exact inv.joined a c h1 h2 hta htouch
        · simp only [List.mem_singleton, Element.mk.injEq] at h2
          obtain ⟨h2, _⟩ := h2
          subst h2
          rw [htouch.1] at hta
          exact absurd hnone hta
      · simp only [List.mem_singleton, Element.mk.injEq] at h1
        obtain ⟨h1, _⟩ := h1
        subst h1
        exact absurd hnone hta
  | some tree =>
    cases isLeft with
    | true =>
      obtain ⟨s', ⟨N, hN⟩, hac', hst, _, _, hmono, hjoin⟩ :=
        mergeOverlaps_ok (fun _ _ => True) ⟨fun _ => trivial, fun _ => trivial,
          fun _ _ => trivial⟩ b
          (getOverlaps tree (s0.tile b).boundingBox.yMin (s0.tile b).boundingBox.yMax) s
          inv.acyclic (fun _ _ _ => trivial) (fun _ _ => trivial)
      refine ⟨s', setTree trees (s0.tile b).layer (tree ++ [entryOf s0 b]),
        ⟨N, fun fuel hf => ?_⟩, hac', sameTiles_trans inv.tiles hst, ?_, ?_, ?_⟩
      · unfold sweepStep
        simp only [hlayer, htree, hbox, if_true, hN fuel hf]
        rfl
      · intro m
        by_cases hm : m = (s0.tile b).layer
        · subst hm
          rw [setTree_same]
          constructor
          · intro h; cases h
          · intro h
            rw [(inv.present _).mpr h] at htree
            cases htree
        · rw [setTree_other _ _ hm]
          exact inv.present m
      · intro t hl hr tree' ht
        have hr' : (⟨t, false⟩ : Element) ∉ pre := fun h => hr (List.mem_append_left _ h)
        by_cases hm : (s0.tile t).layer = (s0.tile b).layer
        · rw [hm, setTree_same] at ht
          cases ht
          rcases List.mem_append.mp hl with h | h
          · exact List.mem_append_left _ (inv.stored t h hr' tree (by rw [hm]; exact htree))
          · simp only [List.mem_singleton, Element.mk.injEq] at h
            obtain ⟨h1, _⟩ := h
            subst h1
            exact List.mem_append_right _ (List.mem_singleton_self _)
        · rw [setTree_other _ _ hm] at ht
          rcases List.mem_append.mp hl with h | h
          · exact inv.stored t h hr' tree' ht
          · simp only [List.mem_singleton, Element.mk.injEq] at h
            obtain ⟨h1, _⟩ := h
            subst h1
            exact absurd rfl hm
      · -- a tile `a` stored earlier that touches `b` is among the overlaps
        have hkey : ∀ a, (⟨a, true⟩ : Element) ∈ pre → Touch s0 a b → SameRoot s' b a := by
          intro a ha htouch
          have hnr : (⟨a, false⟩ : Element) ∉ pre := right_not_before_left hsorted htouch
          have hin : entryOf s0 a ∈ tree :=
            inv.stored a ha hnr tree (by rw [htouch.1]; exact htree)
          have hov : entryOf s0 a ∈ getOverlaps tree (s0.tile b).boundingBox.yMin
              (s0.tile b).boundingBox.yMax := by
            unfold getOverlaps
            rw [List.mem_filter]
            refine ⟨hin, ?_⟩
            obtain ⟨_, _, _, h4, h5⟩ := htouch
            simp only [TileIntv.intersects, entryOf, decide_eq_true_eq]
            exact ⟨h4, h5⟩
          exact hjoin _ hov
        intro a c ha hc hta htouch
        rcases List.mem_append.mp ha with h1 | h1
        · rcases List.mem_append.mp hc with h2 | h2
          · exact hmono _ _ (inv.joined a c h1 h2 hta htouch)
          · simp only [List.mem_singleton, Element.mk.injEq] at h2
            obtain ⟨h2, _⟩ := h2
            subst h2
            exact sameRoot_symm (hkey a h1 htouch)
        · simp only [List.mem_singleton, Element.mk.injEq] at h1
          obtain ⟨h1, _⟩ := h1
          subst h1
          rcases List.mem_append.mp hc with h2 | h2
          · exact hkey c h2 (touch_symm htouch)
          · simp only [List.mem_singleton, Element.mk.injEq] at h2
            obtain ⟨h2, _⟩ := h2
            subst h2
            exact sameRoot_refl hac' _
    | false =>
      have hnotleft : ∀ t, (⟨t, true⟩ : Element) ∈ pre ++ [(⟨b, false⟩ : Element)] →
          (⟨t, true⟩ : Element) ∈ pre := by
        intro t h
        rcases List.mem_append.mp h with h | h
        · exact h
        · simp at h
      refine ⟨s, setTree trees (s0.tile b).layer (tree.erase (entryOf s0 b)),
        ⟨0, fun fuel _ => ?_⟩, inv.acyclic, inv.tiles, ?_, ?_, ?_⟩
      · unfold sweepStep
        simp only [hlayer, htree, hbox, Bool.false_eq_true, if_false]
        rfl
      · intro m
        by_cases hm : m = (s0.tile b).layer
        · subst hm
          rw [setTree_same]
          constructor
          · intro h; cases h
          · intro h
            rw [(inv.present _).mpr h] at htree
            cases htree
        · rw [setTree_other _ _ hm]
          exact inv.present m
      · intro t hl hr tree' ht
        have hl' := hnotleft t hl
        have hr' : (⟨t, false⟩ : Element) ∉ pre := fun h => hr (List.mem_append_left _ h)
        have htb : t ≠ b := by
          intro h
          subst h
          exact hr (List.mem_append_right _ (List.mem_singleton_self _))
        by_cases hm : (s0.tile t).layer = (s0.tile b).layer
        · rw [hm, setTree_same] at ht
          cases ht
          have hne : entryOf s0 t ≠ entryOf s0 b := by
            intro h
            unfold entryOf at h
            rw [TileIntv.mk.injEq] at h
            exact htb h.1
          exact (List.mem_erase_of_ne hne).mpr
            (inv.stored t hl' hr' tree (by rw [hm]; exact htree))
        · rw [setTree_other _ _ hm] at ht
          exact inv.stored t hl' hr' tree' ht
      · intro a c ha hc hta htouch
        exact inv.joined a c (hnotleft a ha) (hnotleft c hc) hta htouch

/-- The loop of the sweep keeps the invariant up to the end of the event list. -/
theorem sweepLoop_join (s0 : State) (trees0 : Nat → Option (List TileIntv)) :
    ∀ (post pre : List Element), (pre ++ post).Pairwise (Element.mayPrecede s0) →
      ∀ (s : State) (trees : Nat → Option (List TileIntv)), JoinInv s0 trees0 pre s trees →
      ∃ s' trees', (∃ N, ∀ fuel, N ≤ fuel → sweepLoop fuel post (s, trees) = some (s', trees')) ∧
        JoinInv s0 trees0 (pre ++ post) s' trees' := by
  intro post
  induction post with
  | nil =>
    intro pre _ s trees inv
    exact ⟨s, trees, ⟨0, fun _ _ => rfl⟩, by rw [List.append_nil]; exact inv⟩
  | cons e rest ih =>
    intro pre hsorted s trees inv
    obtain ⟨s1, trees1, ⟨N1, hN1⟩, inv1⟩ := sweepStep_join s0 trees0 pre rest e hsorted s trees inv
    have hsorted' : ((pre ++ [e]) ++ rest).Pairwise (Element.mayPrecede s0) := by
      rw [List.append_assoc]; exact hsorted
    obtain ⟨s', trees', ⟨N2, hN2⟩, inv'⟩ := ih (pre ++ [e]) hsorted' s1 trees1 inv1
    refine ⟨s', trees', ⟨max N1 N2, fun fuel hf => ?_⟩, ?_⟩
    · simp only [sweepLoop, hN1 fuel (le_trans (le_max_left _ _) hf)]
      exact hN2 fuel (le_trans (le_max_right _ _) hf)
    · have : pre ++ e :: rest = (pre ++ [e]) ++ rest := by rw [List.append_assoc]; rfl
      rw [this]
      exact inv'

/-! ## The equipotential merge -/

theorem equiInv_root_iff {s0 s : State} {f : Option Nat} (inv : EquiInv s0 f s) (r : Nat) :
    s.parent r = none ↔ s0.parent r = none := by
  constructor
  · intro h
    exact hasRoot_isRoot ((inv.roots r r).mp (hasRoot_self h))
  · intro h
    exact hasRoot_isRoot ((inv.roots r r).mpr (hasRoot_self h))

/-- The function `newEquipotential` on a root keeps the invariant, and the root then owns the returned
equipotential. -/
theorem newEquipotential_inv {s0 s : State} {f : Option Nat} (inv : EquiInv s0 f s) (r : Nat)
    (hr : s0.parent r = none) :
    EquiInv s0 f (newEquipotential s r).2 ∧
    ((newEquipotential s r).2.tile r).equipotential = some (newEquipotential s r).1 ∧
    (newEquipotential s r).2.time = s.time := by
  unfold newEquipotential
  cases he : (s.tile r).equipotential with
  | some e => exact ⟨inv, he, rfl⟩
  | none =>
    have hnd : (s.tile r).occMerged = false := by
      cases h : (s.tile r).occMerged
      · rfl
      · exact absurd hr (inv.doneNonRoot r h)
    have hfr := newEquipotential_frame s r
    unfold newEquipotential at hfr
    simp only [he] at hfr
    refine ⟨⟨?_, ?_, ?_, ?_, ?_, ?_, ?_, ?_, ?_, ?_⟩, ?_, rfl⟩
    · intro u x
      rw [tileFrame_parent_eq hfr]
      exact inv.roots u x
    · intro t
      rw [(hfr.2.2 t).2.2.1]
      exact inv.occs t
    · intro c
      by_cases hc : c = r
      · subst hc
        simp only [State.modifyEqui, State.modifyTile, if_true]
        exact inv.stamp c
      · simp only [State.modifyEqui, State.modifyTile, if_neg hc]
        exact inv.stamp c
    · intro c e hc
      by_cases hcr : c = r
      · subst hcr
        simp only [State.modifyEqui, State.modifyTile, if_true, Option.some.injEq] at hc
        simp only [State.modifyEqui, State.modifyTile]
        omega
      · simp only [State.modifyEqui, State.modifyTile, if_neg hcr] at hc
        have := inv.valid c e hc
        simp only [State.modifyEqui, State.modifyTile]
        omega
    · intro c c' e hc hc'
      by_cases hcr : c = r
      · by_cases hcr' : c' = r
        · rw [hcr, hcr']
        · subst hcr
          simp only [State.modifyEqui, State.modifyTile, if_true, Option.some.injEq] at hc
          simp only [State.modifyEqui, State.modifyTile, if_neg hcr'] at hc'
          have := inv.valid c' e hc'
          omega
      · simp only [State.modifyEqui, State.modifyTile, if_neg hcr] at hc
        by_cases hcr' : c' = r
        · subst hcr'
          simp only [State.modifyEqui, State.modifyTile, if_true, Option.some.injEq] at hc'
          have := inv.valid c e hc
          omega
        · simp only [State.modifyEqui, State.modifyTile, if_neg hcr'] at hc'
          exact inv.inj c c' e hc hc'
    · intro c p hp hd hnr
      rw [tileFrame_parent_eq hfr] at hp
      have hd' : (s.tile c).occMerged = true := by
        by_cases hc : c = r
        · subst hc; simpa [State.modifyEqui, State.modifyTile] using hd
        · simpa [State.modifyEqui, State.modifyTile, hc] using hd
      rcases inv.doneUp c p hp hd' hnr with h | h
      · left
        by_cases hpr : p = r
        · subst hpr; simpa [State.modifyEqui, State.modifyTile] using h
        · simpa [State.modifyEqui, State.modifyTile, hpr] using h
      · exact Or.inr h
    · intro c hd
      have hd' : (s.tile c).occMerged = true := by
        by_cases hc : c = r
        · subst hc; simpa [State.modifyEqui, State.modifyTile] using hd
        · simpa [State.modifyEqui, State.modifyTile, hc] using hd
      exact inv.doneNonRoot c hd'
    · intro c rc hd hrc
      have hd' : (s.tile c).occMerged = true := by
        by_cases hc : c = r
        · subst hc; simpa [State.modifyEqui, State.modifyTile] using hd
        · simpa [State.modifyEqui, State.modifyTile, hc] using hd
      obtain ⟨e, he1, he2⟩ := inv.doneIn c rc hd' hrc
      have hrc' : rc ≠ r := by
        intro h
        subst h
        rw [he] at he1
        cases he1
      have hev := inv.valid rc e he1
      refine ⟨e, ?_, ?_⟩
      · simpa [State.modifyEqui, State.modifyTile, hrc'] using he1
      · have hne : e ≠ s.equiCount := by omega
        simpa [State.modifyEqui, State.modifyTile, hne] using he2
    · intro c e hc hd
      by_cases hcr : c = r
      · subst hcr
        simp only [State.modifyEqui, State.modifyTile, if_true, Option.some.injEq] at hc
        subst hc
        simp [State.modifyEqui, State.modifyTile, Equipotential.add, Equipotential.create,
          inv.occs c]
      · simp only [State.modifyEqui, State.modifyTile, if_neg hcr] at hc hd
        have hev := inv.valid c e hc
        have hne : e ≠ s.equiCount := by omega
        have := inv.own c e hc hd
        simpa [State.modifyEqui, State.modifyTile, hne] using this
    · intro c e hc hd o ho
      by_cases hcr : c = r
      · subst hcr
        simp only [State.modifyEqui, State.modifyTile, if_true, Option.some.injEq] at hc
        subst hc
        simp [State.modifyEqui, State.modifyTile, Equipotential.add, Equipotential.create,
          inv.occs c] at ho
        exact ⟨c, c, ho.symm, hasRoot_self hr, hasRoot_self hr⟩
      · simp only [State.modifyEqui, State.modifyTile, if_neg hcr] at hc hd
        have hev := inv.valid c e hc
        have hne : e ≠ s.equiCount := by omega
        simp only [State.modifyEqui, State.modifyTile, if_neg hne] at ho
        exact inv.only c e hc hd o ho
    · simp [State.modifyEqui, State.modifyTile]

theorem mem_add_components (q : Equipotential) (occ : Nat) (bb : Box) (o : Nat) :
    o ∈ (q.add occ bb).components ↔ o = occ ∨ o ∈ q.components := by
  unfold Equipotential.add
  by_cases h : occ ∈ q.components
  · simp only [if_pos h]
    constructor
    · exact Or.inr
    · rintro (h1 | h1)
      · rw [h1]; exact h
      · exact h1
  · simp only [if_neg h, List.mem_cons]

theorem mem_absorb_components (q q2 : Equipotential) (o : Nat) :
    o ∈ (q.absorb q2).components ↔ o ∈ q.components ∨ o ∈ q2.components := by
  unfold Equipotential.absorb
  simp only [List.mem_append, List.mem_filter, decide_eq_true_eq]
  constructor
  · rintro (h | ⟨h, _⟩)
    · exact Or.inl h
    · exact Or.inr h
  · rintro (h | h)
    · exact Or.inl h
    · by_cases h' : o ∈ q.components
      · exact Or.inl h'
      · exact Or.inr ⟨h, h'⟩

theorem mergeVisit_tile (self re : Nat) (s : State) (c u : Nat)
    (hc : (s.tile c).occMerged = false) :
    (mergeVisit self re s c).tile u =
      if u = c then { s.tile c with occMerged := true, timeStamp := s.time } else s.tile u := by
  unfold mergeVisit
  simp only [hc, Bool.false_eq_true, if_false]
  by_cases h : u = c
  · subst h
    simp only [State.syncTime, State.setOccMerged, modifyTile_tile, if_true, modifyTile_time]
    split
    · split <;> rfl
    · rfl
  · simp only [State.syncTime, State.setOccMerged, modifyTile_tile, if_neg h]
    split
    · split <;> rfl
    · rfl

theorem mergeVisit_counts (self re : Nat) (s : State) (c : Nat) :
    (mergeVisit self re s c).equiCount = s.equiCount ∧
    (mergeVisit self re s c).time = s.time := by
  unfold mergeVisit
  split
  · exact ⟨rfl, rfl⟩
  · split
    · split <;> exact ⟨rfl, rfl⟩
    · exact ⟨rfl, rfl⟩

/-- The equipotentials after a visit of a tile that owns none: its occurrence is added to
the root equipotential with the box of the tile the climb started on. -/
theorem mergeVisit_equi_add (self re : Nat) (s : State) (c x : Nat)
    (hc : (s.tile c).occMerged = false) (he : (s.tile c).equipotential = none) :
    (mergeVisit self re s c).equi x =
      if x = re then (s.equi re).add (s.tile c).occurrence (s.tile self).boundingBox
      else s.equi x := by
  unfold mergeVisit
  simp only [hc, Bool.false_eq_true, if_false, he, State.syncTime, State.setOccMerged,
    modifyTile_equi, modifyEqui_equi]
  by_cases h : x = re
  · subst h; simp only [if_true]
  · simp only [if_neg h]

/-- The equipotentials after a visit of a tile that owns one (other than the root
equipotential): it is absorbed by the root equipotential and emptied. -/
theorem mergeVisit_equi_absorb (self re : Nat) (s : State) (c x e : Nat)
    (hc : (s.tile c).occMerged = false) (he : (s.tile c).equipotential = some e)
    (hne : e ≠ re) :
    (mergeVisit self re s c).equi x =
      if x = e then Equipotential.drained (s.equi e)
      else if x = re then (s.equi re).absorb (s.equi e) else s.equi x := by
  unfold mergeVisit
  simp only [hc, Bool.false_eq_true, if_false, he, ne_eq, hne, not_false_eq_true, if_true,
    State.syncTime, State.setOccMerged, modifyTile_equi, modifyEqui_equi]
  by_cases h : x = e
  · subst h
    simp only [if_true, if_neg hne]
  · simp only [if_neg h]
    by_cases h2 : x = re
    · subst h2; simp only [if_true]
    · simp only [if_neg h2]

/-- What a visit of the `MergeEqui` climb does to the equipotentials, whichever branch
it takes: the root equipotential keeps what it had and gains the occurrence of the visited
tile, it gains only occurrences of the class of that tile, and no equipotential other than
the root one and that of the visited tile changes. -/
theorem mergeVisit_equi_summary {s0 s : State} (inv : EquiInv s0 (some c) s)
    (self re r : Nat) (hcr : HasRoot s0.parent c r) (hnr : s0.parent c ≠ none)
    (hre : (s.tile r).equipotential = some re) (hc : (s.tile c).occMerged = false) :
    (∀ o, o ∈ (s.equi re).components → o ∈ ((mergeVisit self re s c).equi re).components) ∧
    (s0.tile c).occurrence ∈ ((mergeVisit self re s c).equi re).components ∧
    (∀ o, o ∈ ((mergeVisit self re s c).equi re).components →
      o ∈ (s.equi re).components ∨
      ∃ t rr, (s0.tile t).occurrence = o ∧ HasRoot s0.parent t rr ∧ HasRoot s0.parent c rr) ∧
    (∀ x, x ≠ re → (s.tile c).equipotential ≠ some x →
      (mergeVisit self re s c).equi x = s.equi x) := by
  have hne_cr : c ≠ r := by
    intro h
    subst h
    exact hnr (hasRoot_isRoot hcr)
  cases he : (s.tile c).equipotential with
  | none =>
    refine ⟨?_, ?_, ?_, ?_⟩
    · intro o ho
      rw [mergeVisit_equi_add self re s c re hc he, if_pos rfl, mem_add_components]
      exact Or.inr ho
    · rw [mergeVisit_equi_add self re s c re hc he, if_pos rfl, mem_add_components, inv.occs c]
      exact Or.inl rfl
    · intro o ho
      rw [mergeVisit_equi_add self re s c re hc he, if_pos rfl, mem_add_components,
        inv.occs c] at ho
      rcases ho with h | h
      · exact Or.inr ⟨c, r, h.symm, hcr, hcr⟩
      · exact Or.inl h
    · intro x hx _
      rw [mergeVisit_equi_add self re s c x hc he, if_neg hx]
  | some e =>
    have hne : e ≠ re := by
      intro h
      subst h
      exact hne_cr (inv.inj c r e he hre)
    have hne' : re ≠ e := fun h => hne h.symm
    refine ⟨?_, ?_, ?_, ?_⟩
    · intro o ho
      rw [mergeVisit_equi_absorb self re s c re e hc he hne, if_neg hne', if_pos rfl,
        mem_absorb_components]
      exact Or.inl ho
    · rw [mergeVisit_equi_absorb self re s c re e hc he hne, if_neg hne', if_pos rfl,
        mem_absorb_components]
      exact Or.inr (inv.own c e he hc)
    · intro o ho
      rw [mergeVisit_equi_absorb self re s c re e hc he hne, if_neg hne', if_pos rfl,
        mem_absorb_components] at ho
      rcases ho with h | h
      · exact Or.inl h
      · obtain ⟨t, rr, h1, h2, h3⟩ := inv.only c e he hc o h
        exact Or.inr ⟨t, rr, h1, h2, h3⟩
    · intro x hx hxe
      have hxe' : x ≠ e := fun h => hxe (by rw [h])
      rw [mergeVisit_equi_absorb self re s c x e hc he hne, if_neg hxe', if_neg hx]

/-- One visit of the `MergeEqui` climb keeps the invariant, the frontier moving to the
parent of the visited tile, which is now done. -/
theorem mergeVisit_inv {s0 s : State} {c : Nat} (inv : EquiInv s0 (some c) s)
    (self re r : Nat) (hcr : HasRoot s0.parent c r) (hnr : s0.parent c ≠ none)
    (hre : (s.tile r).equipotential = some re) (hc : (s.tile c).occMerged = false) :
    EquiInv s0 (s.parent c) (mergeVisit self re s c) ∧
    ((mergeVisit self re s c).tile r).equipotential = some re ∧
    ((mergeVisit self re s c).tile c).occMerged = true := by
  obtain ⟨E1, E2, E3, E4⟩ := mergeVisit_equi_summary inv self re r hcr hnr hre hc
  have hfr := mergeVisit_frame self re s c
  have hpar := tileFrame_parent_eq hfr
  have hcnt := mergeVisit_counts self re s c
  have hptr : ∀ u, ((mergeVisit self re s c).tile u).equipotential = (s.tile u).equipotential :=
    fun u => mergeVisit_equipotential self re s c u
  have hdone : ∀ u, ((mergeVisit self re s c).tile u).occMerged = true ↔
      u = c ∨ (s.tile u).occMerged = true := by
    intro u
    rw [mergeVisit_tile self re s c u hc]
    by_cases h : u = c
    · simp [h]
    · simp [h]
  have hne_cr : c ≠ r := by
    intro h
    subst h
    exact hnr (hasRoot_isRoot hcr)
  have hnotdone : ∀ u, ((mergeVisit self re s c).tile u).occMerged = false →
      u ≠ c ∧ (s.tile u).occMerged = false := by
    intro u hu
    have h1 := hdone u
    rw [hu] at h1
    constructor
    · intro h; exact absurd (h1.mpr (Or.inl h)) (by simp)
    · cases h2 : (s.tile u).occMerged
      · rfl
      · exact absurd (h1.mpr (Or.inr h2)) (by simp)
  -- membership is kept in every equipotential owned by a tile other than `c`
  have hkeep : ∀ u e1, u ≠ c → (s.tile u).equipotential = some e1 →
      ∀ o, o ∈ (s.equi e1).components → o ∈ ((mergeVisit self re s c).equi e1).components := by
    intro u e1 huc hu o ho
    by_cases h1 : e1 = re
    · subst h1; exact E1 o ho
    · rw [E4 e1 h1 (fun h => huc (inv.inj u c e1 hu h))]
      exact ho
  refine ⟨⟨?_, ?_, ?_, ?_, ?_, ?_, ?_, ?_, ?_, ?_⟩, ?_, ?_⟩
  · intro u x
    rw [hpar]
    exact inv.roots u x
  · intro t
    rw [(hfr.2.2 t).2.2.1]
    exact inv.occs t
  · intro u
    rw [hcnt.2, mergeVisit_tile self re s c u hc]
    by_cases h : u = c
    · simp [h]
    · simp only [if_neg h]
      exact inv.stamp u
  · intro u e hu
    rw [hptr] at hu
    rw [hcnt.1]
    exact inv.valid u e hu
  · intro u u' e hu hu'
    rw [hptr] at hu hu'
    exact inv.inj u u' e hu hu'
  · intro u p hp hd hpn
    rw [hpar] at hp
    rcases (hdone u).mp hd with h | h
    · subst h
      exact Or.inr hp
    · rcases inv.doneUp u p hp h hpn with h1 | h1
      · exact Or.inl ((hdone p).mpr (Or.inr h1))
      · simp only [Option.some.injEq] at h1
        exact Or.inl ((hdone p).mpr (Or.inl h1.symm))
  · intro u hd
    rcases (hdone u).mp hd with h | h
    · subst h; exact hnr
    · exact inv.doneNonRoot u h
  · intro u ru hd hru
    rcases (hdone u).mp hd with h | h
    · subst h
      have := hasRoot_unique hru hcr
      subst this
      exact ⟨re, by rw [hptr]; exact hre, E2⟩
    · obtain ⟨e1, h1, h2⟩ := inv.doneIn u ru h hru
      have hruc : ru ≠ c := by
        intro hh
        subst hh
        exact hnr (hasRoot_isRoot hru)
      exact ⟨e1, by rw [hptr]; exact h1, hkeep ru e1 hruc h1 _ h2⟩
  · intro u e1 hu hd
    rw [hptr] at hu
    obtain ⟨huc, hd'⟩ := hnotdone u hd
    exact hkeep u e1 huc hu _ (inv.own u e1 hu hd')
  · intro u e1 hu hd o ho
    rw [hptr] at hu
    obtain ⟨huc, hd'⟩ := hnotdone u hd
    by_cases h1 : e1 = re
    · subst h1
      have hur : u = r := inv.inj u r e1 hu hre
      subst hur
      rcases E3 o ho with h | ⟨t, rr, h2, h3, h4⟩
      · exact inv.only u e1 hu hd' o h
      · have := hasRoot_unique h4 hcr
        subst this
        exact ⟨t, rr, h2, h3, hasRoot_self (hasRoot_isRoot hcr)⟩
    · rw [E4 e1 h1 (fun h => huc (inv.inj u c e1 hu h))] at ho
      exact inv.only u e1 hu hd' o ho
  · rw [hptr]; exact hre
  · exact (hdone c).mpr (Or.inl rfl)

/-- The frontier can be dropped once the tile at the frontier is a root or is done. -/
theorem equiInv_close {s0 s : State} {f : Option Nat} (inv : EquiInv s0 f s)
    (hf : ∀ p, f = some p → s0.parent p = none ∨ (s.tile p).occMerged = true) :
    EquiInv s0 none s := by
  refine ⟨inv.roots, inv.occs, inv.stamp, inv.valid, inv.inj, ?_, inv.doneNonRoot, inv.doneIn,
    inv.own, inv.only⟩
  intro c p hp hd hpn
  rcases inv.doneUp c p hp hd hpn with h | h
  · exact Or.inl h
  · rcases hf p h with h1 | h1
    · exact absurd h1 hpn
    · exact Or.inl h1

/-- The frontier can be set anywhere when the invariant holds without frontier. -/
theorem equiInv_open {s0 s : State} (inv : EquiInv s0 none s) (f : Option Nat) :
    EquiInv s0 f s := by
  refine ⟨inv.roots, inv.occs, inv.stamp, inv.valid, inv.inj, ?_, inv.doneNonRoot, inv.doneIn,
    inv.own, inv.only⟩
  intro c p hp hd hpn
  rcases inv.doneUp c p hp hd hpn with h | h
  · exact Or.inl h
  · cases h

/-- The `MergeEqui` climb keeps the invariant; the tile it starts on is done afterwards,
done tiles stay done, and no equipotential pointer moves. -/
theorem mergeLoop_inv (s0 : State) (self r re : Nat) (hr0 : s0.parent r = none) :
    ∀ (fuel : Nat) (s : State) (cur : Option Nat) (s' : State),
      mergeLoop self r re fuel s cur = some s' →
      EquiInv s0 cur s → (∀ c, cur = some c → HasRoot s0.parent c r) →
      (s.tile r).equipotential = some re →
      EquiInv s0 none s' ∧ (s'.tile r).equipotential = some re ∧
      (∀ c, cur = some c → c ≠ r → (s'.tile c).occMerged = true) ∧
      (∀ u, (s.tile u).occMerged = true → (s'.tile u).occMerged = true) := by
  intro fuel
  induction fuel with
  | zero => intro s cur s' h; simp [mergeLoop] at h
  | succ k ih =>
    intro s cur s' h inv hcur hre
    cases cur with
    | none =>
      simp only [mergeLoop, Option.some.injEq] at h
      subst h
      exact ⟨inv, hre, fun c hc _ => Option.noConfusion hc, fun _ hu => hu⟩
    | some c =>
      have hcr := hcur c rfl
      simp only [mergeLoop] at h
      split at h
      · next hceq =>
        simp only [Option.some.injEq] at h
        subst h
        subst hceq
        refine ⟨equiInv_close inv ?_, hre, fun c' hc' hne => ?_, fun _ hu => hu⟩
        · intro p hp
          simp only [Option.some.injEq] at hp
          subst hp
          exact Or.inl hr0
        · simp only [Option.some.injEq] at hc'
          exact absurd hc'.symm hne
      · next hcne =>
        have hnr : s0.parent c ≠ none := by
          intro h0
          exact hcne (hasRoot_unique (hasRoot_self h0) hcr)
        split at h
        · next hup =>
          simp only [Option.some.injEq] at h
          subst h
          have hd : (s.tile c).occMerged = true := by
            rw [inv.stamp c]
            simpa [State.isUpToDate] using hup
          refine ⟨equiInv_close inv ?_, hre, fun c' hc' _ => ?_, fun _ hu => hu⟩
          · intro p hp
            simp only [Option.some.injEq] at hp
            subst hp
            exact Or.inr hd
          · simp only [Option.some.injEq] at hc'
            subst hc'
            exact hd
        · next hup =>
          have hd : (s.tile c).occMerged = false := by
            cases hh : (s.tile c).occMerged
            · rfl
            · exfalso
              apply hup
              have := (inv.stamp c).mp hh
              simpa [State.isUpToDate] using this
          obtain ⟨inv1, hre1, hdc⟩ := mergeVisit_inv inv self re r hcr hnr hre hd
          have hpar := tileFrame_parent_eq (mergeVisit_frame self re s c)
          rw [hpar] at h
          have hnext : ∀ p, s.parent c = some p → HasRoot s0.parent p r := by
            intro p hp
            have h1 : HasRoot s.parent c r := (inv.roots c r).mpr hcr
            obtain ⟨n, hn⟩ := h1
            cases hn with
            | root h0 => rw [h0] at hp; cases hp
            | step hp' hrest =>
              rw [hp] at hp'
              cases hp'
              exact (inv.roots _ r).mp ⟨_, hrest⟩
          obtain ⟨inv', hre', _, hmono⟩ := ih _ _ _ h inv1 hnext hre1
          refine ⟨inv', hre', fun c' hc' _ => ?_, fun u hu => ?_⟩
          · simp only [Option.some.injEq] at hc'
            subst hc'
            exact hmono _ hdc
          · apply hmono
            rw [mergeVisit_tile self re s c u hd]
            by_cases huc : u = c
            · simp [huc]
            · simp only [if_neg huc]; exact hu

/-- Redirecting tiles to their root (the `Compress` loop) keeps the invariant. -/
theorem equiInv_compress {s0 s1 s2 : State} (inv : EquiInv s0 none s1)
    (hfr : ParentFrame s1 s2)
    (hroots : ∀ u x, HasRoot s2.parent u x ↔ HasRoot s1.parent u x)
    (hlinks : ∀ u p, s2.parent u = some p → s1.parent u = some p ∨ s1.parent p = none) :
    EquiInv s0 none s2 := by
  have htile : ∀ u, (s2.tile u).occurrence = (s1.tile u).occurrence ∧
      (s2.tile u).equipotential = (s1.tile u).equipotential ∧
      (s2.tile u).occMerged = (s1.tile u).occMerged ∧
      (s2.tile u).timeStamp = (s1.tile u).timeStamp := by
    intro u
    have := hfr.2.2.2.2 u
    rw [Tile.mk.injEq] at this
    exact ⟨this.1, this.2.2.2.1, this.2.2.2.2.1, this.2.2.2.2.2.2.2⟩
  have hequi : s2.equi = s1.equi := hfr.2.2.1
  refine ⟨?_, ?_, ?_, ?_, ?_, ?_, ?_, ?_, ?_, ?_⟩
  · intro u x
    rw [hroots]
    exact inv.roots u x
  · intro t
    rw [(htile t).1]
    exact inv.occs t
  · intro c
    rw [(htile c).2.2.1, (htile c).2.2.2, hfr.2.1]
    exact inv.stamp c
  · intro c e hc
    rw [(htile c).2.1] at hc
    rw [hfr.2.2.2.1]
    exact inv.valid c e hc
  · intro c c' e hc hc'
    rw [(htile c).2.1] at hc
    rw [(htile c').2.1] at hc'
    exact inv.inj c c' e hc hc'
  · intro c p hp hd hpn
    rw [(htile c).2.2.1] at hd
    rw [(htile p).2.2.1]
    rcases hlinks c p hp with h | h
    · exact inv.doneUp c p h hd hpn
    · exact absurd ((equiInv_root_iff inv p).mp h) hpn
  · intro c hd
    rw [(htile c).2.2.1] at hd
    exact inv.doneNonRoot c hd
  · intro c r hd hr
    rw [(htile c).2.2.1] at hd
    obtain ⟨e, h1, h2⟩ := inv.doneIn c r hd hr
    exact ⟨e, by rw [(htile r).2.1]; exact h1, by rw [hequi]; exact h2⟩
  · intro c e hc hd
    rw [(htile c).2.1] at hc
    rw [(htile c).2.2.1] at hd
    rw [hequi]
    exact inv.own c e hc hd
  · intro c e hc hd o ho
    rw [(htile c).2.1] at hc
    rw [(htile c).2.2.1] at hd
    rw [hequi] at ho
    exact inv.only c e hc hd o ho

/-- A result of `getRoot` obtained with some fuel is the result described by
`getRoot_ok`. -/
theorem getRoot_post_of_eq {s : State} {t r : Nat} (hr : HasRoot s.parent t r) (flags : Flags)
    {fuel : Nat} {x : Nat × State} (h : getRoot fuel s t flags = some x) :
    x.1 = r ∧ GetRootPost s t r flags x.2 := by
  obtain ⟨n, hn⟩ := hr
  obtain ⟨s', hs', post⟩ := getRoot_ok s t r n hn flags (n + 1) (le_refl _)
  have h1 := getRoot_mono s t flags (le_max_left fuel (n + 1)) h
  have h2 := getRoot_mono s t flags (le_max_right fuel (n + 1)) hs'
  rw [h1] at h2
  simp only [Option.some.injEq] at h2
  subst h2
  exact ⟨rfl, post⟩

theorem newEquipotential_pointer_mono (s : State) (t u : Nat)
    (h : (s.tile u).equipotential ≠ none) :
    ((newEquipotential s t).2.tile u).equipotential ≠ none := by
  unfold newEquipotential
  split
  · exact h
  · by_cases hu : u = t
    · simp [State.modifyEqui, State.modifyTile, hu]
    · simpa [State.modifyEqui, State.modifyTile, hu] using h

theorem newEquipotential_occMerged (s : State) (t u : Nat) :
    ((newEquipotential s t).2.tile u).occMerged = (s.tile u).occMerged := by
  unfold newEquipotential
  split
  · rfl
  · by_cases hu : u = t
    · simp [State.modifyEqui, State.modifyTile, hu]
    · simp [State.modifyEqui, State.modifyTile, hu]

theorem parentFrame_occMerged {s s' : State} (h : ParentFrame s s') (u : Nat) :
    (s'.tile u).occMerged = (s.tile u).occMerged := by
  have := h.2.2.2.2 u
  rw [Tile.mk.injEq] at this
  exact this.2.2.2.2.1

/-- One call `getRoot(Compress|MergeEqui|MakeLeafEqui)` of the equipotential merge keeps
the invariant; afterwards the tile, if a root, owns an equipotential, and is done
otherwise. -/
theorem getRoot_equiInv {s0 s : State} (inv : EquiInv s0 none s) (t r : Nat)
    (hr : HasRoot s0.parent t r) {fuel : Nat} {x : Nat × State}
    (h : getRoot fuel s t Flags.forEquipotentials = some x) :
    EquiInv s0 none x.2 ∧ x.2.idCounter = s.idCounter ∧
    (s0.parent t = none → (x.2.tile t).equipotential ≠ none) ∧
    (s0.parent t ≠ none → (x.2.tile t).occMerged = true) ∧
    (∀ u, (s.tile u).occMerged = true → (x.2.tile u).occMerged = true) ∧
    (∀ u, (s.tile u).equipotential ≠ none → (x.2.tile u).equipotential ≠ none) := by
  have hrs : HasRoot s.parent t r := (inv.roots t r).mpr hr
  obtain ⟨hx1, post⟩ := getRoot_post_of_eq hrs Flags.forEquipotentials h
  have hr0 : s0.parent r = none := hasRoot_isRoot hr
  obtain ⟨xr, s'⟩ := x
  simp only at hx1 post ⊢
  subst hx1
  unfold getRoot at h
  cases hp : s.parent t with
  | none =>
    have ht0 : s0.parent t = none := (equiInv_root_iff inv t).mp hp
    simp only [hp, Flags.forEquipotentials, true_and] at h
    split at h
    · simp only [Option.some.injEq, Prod.mk.injEq] at h
      obtain ⟨_, h⟩ := h
      subst h
      obtain ⟨inv', _, _⟩ := newEquipotential_inv inv t ht0
      refine ⟨inv', (newEquipotential_frame s t).1, fun _ => newEquipotential_owns s t,
        fun hn => absurd ht0 hn, fun u hu => ?_, fun u hu => ?_⟩
      · rw [newEquipotential_occMerged]; exact hu
      · exact newEquipotential_pointer_mono s t u hu
    · next hne =>
      simp only [Option.some.injEq, Prod.mk.injEq] at h
      obtain ⟨_, h⟩ := h
      subst h
      exact ⟨inv, rfl, fun _ => hne, fun hn => absurd ht0 hn, fun _ hu => hu, fun _ hu => hu⟩
  | some p =>
    have htn : s0.parent t ≠ none := by
      intro h0
      rw [(equiInv_root_iff inv t).mpr h0] at hp
      cases hp
    have htr : t ≠ xr := by
      intro hh
      subst hh
      exact htn hr0
    simp only [hp, Flags.forEquipotentials, if_true] at h
    cases hcl : climb s.parent fuel t with
    | none => simp [hcl] at h
    | some root =>
      have hroot : root = xr := hasRoot_unique (climb_hasRoot _ _ _ hcl) hrs
      subst hroot
      simp only [hcl] at h
      cases hl : mergeLoop t root (newEquipotential s root).1 fuel (newEquipotential s root).2
          (some t) with
      | none => simp [hl] at h
      | some s1 =>
        simp only [hl] at h
        cases hc : compressLoop root fuel s1 (some t) with
        | none => simp [hc] at h
        | some s2 =>
          simp only [hc, Option.some.injEq, Prod.mk.injEq, true_and] at h
          subst h
          obtain ⟨inva, hown, _⟩ := newEquipotential_inv inv root hr0
          obtain ⟨inv1, _, hdone, hmono⟩ := mergeLoop_inv s0 t root (newEquipotential s root).1 hr0
            fuel _ _ _ hl (equiInv_open inva (some t))
            (fun c hc => by
              simp only [Option.some.injEq] at hc
              subst hc
              exact hr) hown
          have hfr2 := compressLoop_frame _ _ _ _ _ hc
          have hpar1 : s1.parent = s.parent := by
            rw [tileFrame_parent_eq (mergeLoop_frame _ _ _ _ _ _ _ hl),
              tileFrame_parent_eq (newEquipotential_frame s root)]
          have inv2 : EquiInv s0 none s2 := by
            refine equiInv_compress inv1 hfr2 ?_ ?_
            · intro u y
              rw [hpar1]
              exact ⟨fun hy => hasRoot_reflected post.links post.rootsBack hy, post.roots u y⟩
            · intro u q hu
              rw [hpar1]
              rcases post.links u q hu with h1 | h1
              · exact Or.inl h1
              · exact Or.inr (hasRoot_isRoot h1)
          refine ⟨inv2, post.data.1, fun h0 => absurd h0 htn, fun _ => ?_, fun u hu => ?_,
            fun u hu => ?_⟩
          · rw [parentFrame_occMerged hfr2]
            exact hdone t rfl htr
          · rw [parentFrame_occMerged hfr2]
            apply hmono
            rw [newEquipotential_occMerged]
            exact hu
          · rw [parentFrame_equipotential hfr2, mergeLoop_equipotential _ _ _ _ _ _ _ hl u]
            exact newEquipotential_pointer_mono s root u hu

/-- The loop of `mergeEquipotentials` returns on a forest (the same heap for every
sufficient fuel) and every tile keeps its root. -/
theorem mergeEquipotentialsFrom_terminates :
    ∀ (ts : List Nat) (s : State), Acyclic s →
      ∃ s', (∃ N, ∀ fuel, N ≤ fuel → mergeEquipotentialsFrom fuel ts s = some s') ∧
        (∀ u x, HasRoot s'.parent u x ↔ HasRoot s.parent u x) ∧ SameTiles s s' := by
  intro ts
  induction ts with
  | nil =>
    intro s _
    exact ⟨s, ⟨0, fun _ _ => rfl⟩, fun _ _ => Iff.rfl, sameTiles_refl s⟩
  | cons t rest ih =>
    intro s hac
    obtain ⟨r, n, hn⟩ := hac t
    obtain ⟨s1, hs1, post⟩ := getRoot_ok s t r n hn Flags.forEquipotentials (n + 1) (le_refl _)
    have hiff : ∀ u x, HasRoot s1.parent u x ↔ HasRoot s.parent u x := fun u x =>
      ⟨fun hx => hasRoot_reflected post.links post.rootsBack hx, post.roots u x⟩
    have hac1 : Acyclic s1 := by
      intro u
      obtain ⟨x, hx⟩ := hac u
      exact ⟨x, post.roots u x hx⟩
    obtain ⟨s', ⟨N2, hN2⟩, hroots, hst⟩ := ih s1 hac1
    refine ⟨s', ⟨max (n + 1) N2, fun fuel hf => ?_⟩, fun u x => ?_, ?_⟩
    · simp only [mergeEquipotentialsFrom,
        getRoot_mono s t _ (le_trans (le_max_left _ _) hf) hs1]
      exact hN2 fuel (le_trans (le_max_right _ _) hf)
    · rw [hroots, hiff]
    · exact sameTiles_trans ⟨post.data.1, fun u => (post.data.2 u).2⟩ hst

/-- The loop of `mergeEquipotentials` keeps the invariant; every tile it has visited owns
an equipotential if it is a root and is done otherwise. -/
theorem mergeEquipotentialsFrom_inv (s0 : State) (hac0 : Acyclic s0) :
    ∀ (ts : List Nat) (fuel : Nat) (s s' : State),
      mergeEquipotentialsFrom fuel ts s = some s' → EquiInv s0 none s →
      EquiInv s0 none s' ∧
      (∀ u, (s.tile u).occMerged = true → (s'.tile u).occMerged = true) ∧
      (∀ u, (s.tile u).equipotential ≠ none → (s'.tile u).equipotential ≠ none) ∧
      (∀ t, t ∈ ts →
        (s0.parent t = none → (s'.tile t).equipotential ≠ none) ∧
        (s0.parent t ≠ none → (s'.tile t).occMerged = true)) := by
  intro ts
  induction ts with
  | nil =>
    intro fuel s s' h inv
    simp only [mergeEquipotentialsFrom, Option.some.injEq] at h
    subst h
    exact ⟨inv, fun _ hu => hu, fun _ hu => hu, fun t ht => absurd ht (List.not_mem_nil t)⟩
  | cons t rest ih =>
    intro fuel s s' h inv
    simp only [mergeEquipotentialsFrom] at h
    cases hg : getRoot fuel s t Flags.forEquipotentials with
    | none => simp [hg] at h
    | some x =>
      simp only [hg] at h
      obtain ⟨r, hr⟩ := hac0 t
      obtain ⟨inv1, _, hroot, hnon, hm1, hm2⟩ := getRoot_equiInv inv t r hr hg
      obtain ⟨inv', hd, hp, hall⟩ := ih fuel x.2 s' h inv1
      refine ⟨inv', fun u hu => hd u (hm1 u hu), fun u hu => hp u (hm2 u hu), fun t' ht' => ?_⟩
      rcases List.mem_cons.mp ht' with h1 | h1
      · subst h1
        exact ⟨fun h0 => hp _ (hroot h0), fun h0 => hd _ (hnon h0)⟩
      · exact hall t' h1

/-- After the tick that opens `mergeEquipotentials`, the heap the sweep left satisfies the
invariant. -/
theorem swept_equiInv {s : State} (hsw : Swept s) : EquiInv s.timeTick none s.timeTick := by
  have hnd : ∀ c, (s.timeTick.tile c).occMerged = true → False := by
    intro c hc
    have := (hsw.fresh c).1
    simp only [State.timeTick] at hc
    rw [this] at hc
    cases hc
  refine ⟨fun _ _ => Iff.rfl, fun _ => rfl, ?_, hsw.valid, hsw.inj, ?_, ?_, ?_, ?_, ?_⟩
  · intro c
    constructor
    · intro h; exact absurd h (fun h => hnd c h)
    · intro h
      have := (hsw.fresh c).2
      simp only [State.timeTick] at h
      omega
  · intro c p _ hd; exact absurd hd (fun h => hnd c h)
  · intro c hd; exact absurd hd (fun h => hnd c h)
  · intro c r hd; exact absurd hd (fun h => hnd c h)
  · intro c e hc _
    exact hsw.own c e hc
  · intro c e hc _ o ho
    obtain ⟨t, h1, r, h2, h3⟩ := hsw.only c e hc o ho
    exact ⟨t, r, h1, h2, h3⟩

/-- The function `mergeEquipotentials` on the heap the sweep left: it returns; afterwards the root of
every allocated tile owns an equipotential that holds the occurrence of the tile, and the
equipotential of a root holds only occurrences of tiles of that root. -/
theorem mergeEquipotentials_ok (s : State) (hac : Acyclic s) (hsw : Swept s) :
    ∃ s', (∃ N, ∀ fuel, N ≤ fuel → mergeEquipotentials fuel s = some s') ∧
      SameTiles s s' ∧ (∀ u x, HasRoot s'.parent u x ↔ HasRoot s.parent u x) ∧
      (∀ t, t < s.idCounter → ∃ r e, HasRoot s'.parent t r ∧
        (s'.tile r).equipotential = some e ∧ (s'.tile t).occurrence ∈ (s'.equi e).components) ∧
      (∀ r e o, s'.parent r = none → (s'.tile r).equipotential = some e →
        o ∈ (s'.equi e).components → ∃ t, (s'.tile t).occurrence = o ∧ HasRoot s'.parent t r) := by
  have hac1 : Acyclic s.timeTick := hac
  obtain ⟨s', ⟨N, hN⟩, hroots, hst⟩ :=
    mergeEquipotentialsFrom_terminates (List.range s.idCounter) s.timeTick hac1
  obtain ⟨inv, _, _, hall⟩ := mergeEquipotentialsFrom_inv s.timeTick hac1 _ N _ _
    (hN N (le_refl _)) (swept_equiInv hsw)
  have hnotdone : ∀ r, s.timeTick.parent r = none → (s'.tile r).occMerged = false := by
    intro r hr
    cases h : (s'.tile r).occMerged
    · rfl
    · exact absurd hr (inv.doneNonRoot r h)
  refine ⟨s', ⟨N, fun fuel hf => hN fuel hf⟩, hst, hroots, ?_, ?_⟩
  · intro t ht
    obtain ⟨r, hr⟩ := hac1 t
    obtain ⟨hroot, hnon⟩ := hall t (List.mem_range.mpr ht)
    by_cases h0 : s.timeTick.parent t = none
    · have htr : t = r := hasRoot_unique (hasRoot_self h0) hr
      subst htr
      obtain ⟨e, he⟩ := Option.ne_none_iff_exists'.mp (hroot h0)
      refine ⟨t, e, (hroots t t).mpr hr, he, ?_⟩
      rw [inv.occs t]
      exact inv.own t e he (hnotdone t h0)
    · obtain ⟨e, he, hmem⟩ := inv.doneIn t r (hnon h0) hr
      refine ⟨r, e, (hroots t r).mpr hr, he, ?_⟩
      rw [inv.occs t]
      exact hmem
  · intro r e o hr he ho
    have hr0 : s.timeTick.parent r = none :=
      hasRoot_isRoot ((hroots r r).mp (hasRoot_self hr))
    obtain ⟨t, rr, h1, h2, h3⟩ := inv.only r e he (hnotdone r hr0) o ho
    have := hasRoot_unique h3 (hasRoot_self hr0)
    subst this
    exact ⟨t, by rw [inv.occs t]; exact h1, (hroots t rr).mpr h2⟩

/-! ## The sweep leaves the equipotentials ready for the merge -/

theorem equiFrame_refl (s : State) : EquiFrame s s := ⟨rfl, rfl, rfl, fun _ => ⟨rfl, rfl, rfl, rfl⟩⟩

theorem equiFrame_trans {s1 s2 s3 : State} (h1 : EquiFrame s1 s2) (h2 : EquiFrame s2 s3) :
    EquiFrame s1 s3 := by
  obtain ⟨a1, b1, c1, d1⟩ := h1
  obtain ⟨a2, b2, c2, d2⟩ := h2
  refine ⟨a2.trans a1, b2.trans b1, c2.trans c1, fun u => ?_⟩
  obtain ⟨p1, p2, p3, p4⟩ := d1 u
  obtain ⟨q1, q2, q3, q4⟩ := d2 u
  exact ⟨q1.trans p1, q2.trans p2, q3.trans p3, q4.trans p4⟩

theorem parentFrame_equiFrame {s s' : State} (h : ParentFrame s s') : EquiFrame s s' := by
  obtain ⟨_, a, b, c, d⟩ := h
  refine ⟨a, b, c, fun u => ?_⟩
  have := d u
  rw [Tile.mk.injEq] at this
  exact ⟨this.1, this.2.2.2.1, this.2.2.2.2.1, this.2.2.2.2.2.2.2⟩

theorem incRank_equiFrame (s : State) (t : Nat) : EquiFrame s (s.incRank t) := by
  refine ⟨rfl, rfl, rfl, fun u => ?_⟩
  unfold State.incRank
  by_cases h : u = t <;> simp [h]

/-- A heap with the same equipotential side and coarser (or equal) classes is still as the
sweep leaves it. -/
theorem quiet_of_frame {s s' : State} (hq : Quiet s) (hfr : EquiFrame s s')
    (hmono : ∀ t c, SameRoot s t c → SameRoot s' t c) : Quiet s' := by
  obtain ⟨ht, he, hc, htile⟩ := hfr
  refine ⟨⟨?_, ?_, ?_, ?_, ?_⟩, ?_⟩
  · intro c
    rw [(htile c).2.2.1, (htile c).2.2.2, ht]
    exact hq.swept.fresh c
  · intro c e h
    rw [(htile c).2.1] at h
    rw [hc]
    exact hq.swept.valid c e h
  · intro c c' e h h'
    rw [(htile c).2.1] at h
    rw [(htile c').2.1] at h'
    exact hq.swept.inj c c' e h h'
  · intro c e h
    rw [(htile c).2.1] at h
    rw [(htile c).1, he]
    exact hq.swept.own c e h
  · intro c e h o ho
    rw [(htile c).2.1] at h
    rw [he] at ho
    obtain ⟨t, h1, h2⟩ := hq.swept.only c e h o ho
    exact ⟨t, by rw [(htile t).1]; exact h1, hmono t c h2⟩
  · intro c
    rw [(htile c).2.2.2, ht]
    exact hq.upToDate c

/-- The function `newEquipotential` on a tile keeps the heap as the sweep leaves it. -/
theorem newEquipotential_quiet {s : State} (hq : Quiet s) (hac : Acyclic s) (r : Nat) :
    Quiet (newEquipotential s r).2 := by
  unfold newEquipotential
  cases he : (s.tile r).equipotential with
  | some e => exact hq
  | none =>
    have hfr := newEquipotential_frame s r
    unfold newEquipotential at hfr
    simp only [he] at hfr
    have hpar := tileFrame_parent_eq hfr
    refine ⟨⟨?_, ?_, ?_, ?_, ?_⟩, ?_⟩
    · intro c
      by_cases hc : c = r
      · subst hc
        simpa [State.modifyEqui, State.modifyTile] using hq.swept.fresh c
      · simpa [State.modifyEqui, State.modifyTile, hc] using hq.swept.fresh c
    · intro c e hc
      by_cases hcr : c = r
      · subst hcr
        simp only [State.modifyEqui, State.modifyTile, if_true, Option.some.injEq] at hc
        simp only [State.modifyEqui, State.modifyTile]
        omega
      · simp only [State.modifyEqui, State.modifyTile, if_neg hcr] at hc
        have := hq.swept.valid c e hc
        simp only [State.modifyEqui, State.modifyTile]
        omega
    · intro c c' e hc hc'
      by_cases hcr : c = r
      · by_cases hcr' : c' = r
        · rw [hcr, hcr']
        · subst hcr
          simp only [State.modifyEqui, State.modifyTile, if_true, Option.some.injEq] at hc
          simp only [State.modifyEqui, State.modifyTile, if_neg hcr'] at hc'
          have := hq.swept.valid c' e hc'
          omega
      · simp only [State.modifyEqui, State.modifyTile, if_neg hcr] at hc
        by_cases hcr' : c' = r
        · subst hcr'
          simp only [State.modifyEqui, State.modifyTile, if_true, Option.some.injEq] at hc'
          have := hq.swept.valid c e hc
          omega
        · simp only [State.modifyEqui, State.modifyTile, if_neg hcr'] at hc'
          exact hq.swept.inj c c' e hc hc'
    · intro c e hc
      by_cases hcr : c = r
      · subst hcr
        simp only [State.modifyEqui, State.modifyTile, if_true, Option.some.injEq] at hc
        subst hc
        simp [State.modifyEqui, State.modifyTile, Equipotential.add, Equipotential.create]
      · simp only [State.modifyEqui, State.modifyTile, if_neg hcr] at hc
        have hev := hq.swept.valid c e hc
        have hne : e ≠ s.equiCount := by omega
        have := hq.swept.own c e hc
        simpa [State.modifyEqui, State.modifyTile, hne, hcr] using this
    · intro c e hc o ho
      have hsame : ∀ t c', SameRoot s t c' → SameRoot
          ((({ s with equiCount := s.equiCount + 1
                    , equi := fun u => if u = s.equiCount then Equipotential.create
                                       else s.equi u } : State).modifyTile r
              (fun x => { x with equipotential := some s.equiCount })).modifyEqui s.equiCount
            (fun q => q.add (s.tile r).occurrence (s.tile r).boundingBox)) t c' := by
        intro t c' h
        unfold SameRoot
        rw [hpar]
        exact h
      by_cases hcr : c = r
      · subst hcr
        simp only [State.modifyEqui, State.modifyTile, if_true, Option.some.injEq] at hc
        subst hc
        simp [State.modifyEqui, State.modifyTile, Equipotential.add, Equipotential.create] at ho
        refine ⟨c, ?_, hsame c c (sameRoot_refl hac c)⟩
        simp [State.modifyEqui, State.modifyTile, ho]
      · simp only [State.modifyEqui, State.modifyTile, if_neg hcr] at hc
        have hev := hq.swept.valid c e hc
        have hne : e ≠ s.equiCount := by omega
        simp only [State.modifyEqui, State.modifyTile, if_neg hne] at ho
        obtain ⟨t, h1, h2⟩ := hq.swept.only c e hc o ho
        refine ⟨t, ?_, hsame t c h2⟩
        by_cases htr : t = r
        · subst htr; simpa [State.modifyEqui, State.modifyTile] using h1
        · simpa [State.modifyEqui, State.modifyTile, htr] using h1
    · intro c
      by_cases hc : c = r
      · subst hc
        simpa [State.modifyEqui, State.modifyTile] using hq.upToDate c
      · simpa [State.modifyEqui, State.modifyTile, hc] using hq.upToDate c

theorem setParent_equiFrame (s : State) (t : Nat) (p : Option Nat) :
    EquiFrame s (s.setParent t p) := parentFrame_equiFrame (parentFrame_setParent s t p)

/-- On a tile that is up to date the `MergeEqui` climb stops at once. -/
theorem mergeLoop_upToDate (self root re : Nat) (k : Nat) (s : State) (t : Nat)
    (h : s.isUpToDate t = true) : mergeLoop self root re (k + 1) s (some t) = some s := by
  simp only [mergeLoop, h, if_true]
  split <;> rfl

/-- A call `getRoot(Compress|MergeEqui)` of the sweep keeps the heap as the sweep leaves
it. -/
theorem getRoot_quiet {s : State} (hq : Quiet s) (hac : Acyclic s) (t : Nat) {fuel : Nat}
    {x : Nat × State} (h : getRoot fuel s t Flags.forMerge = some x) :
    Quiet x.2 ∧ Acyclic x.2 ∧ ∀ u y, HasRoot x.2.parent u y ↔ HasRoot s.parent u y := by
  obtain ⟨r, hr⟩ := hac t
  obtain ⟨hx1, post⟩ := getRoot_post_of_eq hr Flags.forMerge h
  have hiff : ∀ u y, HasRoot x.2.parent u y ↔ HasRoot s.parent u y := fun u y =>
    ⟨fun hy => hasRoot_reflected post.links post.rootsBack hy, post.roots u y⟩
  have hac' : Acyclic x.2 := by
    intro u
    obtain ⟨y, hy⟩ := hac u
    exact ⟨y, post.roots u y hy⟩
  refine ⟨?_, hac', hiff⟩
  obtain ⟨xr, s'⟩ := x
  simp only at hx1 post hiff ⊢
  unfold getRoot at h
  cases hp : s.parent t with
  | none =>
    simp only [hp, Flags.forMerge, Bool.false_eq_true, false_and, if_false, Option.some.injEq,
      Prod.mk.injEq] at h
    rw [← h.2]
    exact hq
  | some p =>
    simp only [hp, Flags.forMerge, if_true] at h
    cases hcl : climb s.parent fuel t with
    | none => simp [hcl] at h
    | some root =>
      simp only [hcl] at h
      obtain ⟨k, rfl⟩ : ∃ k, fuel = k + 1 := by
        cases fuel with
        | zero => simp [climb] at hcl
        | succ k => exact ⟨k, rfl⟩
      have hqa := newEquipotential_quiet hq hac root
      have hup : (newEquipotential s root).2.isUpToDate t = true := by
        simpa [State.isUpToDate] using hqa.upToDate t
      rw [mergeLoop_upToDate t root _ k _ t hup] at h
      simp only at h
      cases hc : compressLoop root (k + 1) (newEquipotential s root).2 (some t) with
      | none => simp [hc] at h
      | some s2 =>
        simp only [hc, Option.some.injEq, Prod.mk.injEq] at h
        obtain ⟨_, h⟩ := h
        subst h
        refine quiet_of_frame hqa (parentFrame_equiFrame (compressLoop_frame _ _ _ _ _ hc)) ?_
        intro u c hsr
        unfold SameRoot at hsr ⊢
        rw [tileFrame_parent_eq (newEquipotential_frame s root)] at hsr
        obtain ⟨y, h1, h2⟩ := hsr
        exact ⟨y, post.roots u y h1, post.roots c y h2⟩

/-- A result of `merge` obtained with some fuel is the result described by `merge_ok`. -/
theorem merge_post_of_eq {s : State} {a b ra rb : Nat} (ha : HasRoot s.parent a ra)
    (hb : HasRoot s.parent b rb) {fuel : Nat} {x : Nat × State}
    (h : merge fuel s a b = some x) : MergePost s ra rb x.1 x.2 := by
  obtain ⟨r, s', ⟨N, hN⟩, post⟩ := merge_ok s a b ra rb ha hb
  have h1 := merge_mono s a b (le_max_left fuel N) h
  have h2 := hN (max fuel N) (le_max_right fuel N)
  rw [h1] at h2
  simp only [Option.some.injEq] at h2
  subst h2
  exact post

/-- The function `Tile::merge` keeps the heap as the sweep leaves it. -/
theorem merge_quiet {s : State} (hq : Quiet s) (hac : Acyclic s) (a b : Nat) {fuel : Nat}
    {x : Nat × State} (h : merge fuel s a b = some x) : Acyclic x.2 ∧ Quiet x.2 := by
  obtain ⟨ra, hra⟩ := hac a
  obtain ⟨rb, hrb⟩ := hac b
  have post := merge_post_of_eq hra hrb h
  refine ⟨mergePost_acyclic post hac, ?_⟩
  unfold merge at h
  cases h1 : getRoot fuel s a Flags.forMerge with
  | none => simp only [Flags.forMerge] at h1; simp [h1] at h
  | some y1 =>
    obtain ⟨root1, s1⟩ := y1
    obtain ⟨hq1, hac1, hiff1⟩ := getRoot_quiet hq hac a h1
    simp only [Flags.forMerge] at h1
    simp only [h1] at h
    cases h2 : getRoot fuel s1 b Flags.forMerge with
    | none => simp only [Flags.forMerge] at h2; simp [h2] at h
    | some y2 =>
      obtain ⟨root2, s2⟩ := y2
      obtain ⟨hq2, hac2, hiff2⟩ := getRoot_quiet hq1 hac1 b h2
      simp only [Flags.forMerge] at h2
      simp only [h2] at h
      simp only at hq2 hiff2 hiff1
      have hmono : ∀ u c, SameRoot s2 u c → SameRoot x.2 u c := by
        intro u c hsr
        obtain ⟨y, hu, hc⟩ := hsr
        have hu' : HasRoot s.parent u y := (hiff1 u y).mp ((hiff2 u y).mp hu)
        have hc' : HasRoot s.parent c y := (hiff1 c y).mp ((hiff2 c y).mp hc)
        exact mergePost_sameRoot post ⟨y, hu', hc'⟩
      split at h
      · simp only [Option.some.injEq] at h
        rw [← h]
        exact hq2
      · simp only [Option.some.injEq] at h
        rw [← h] at hmono ⊢
        refine quiet_of_frame hq2 ?_ hmono
        have key : ∀ r1 r2 : Nat, EquiFrame s2
            ((if s2.rank r1 = s2.rank r2 then s2.incRank r1 else s2).setParent r2 (some r1)) := by
          intro r1 r2
          split
          · exact equiFrame_trans (incRank_equiFrame _ _) (setParent_equiFrame _ _ _)
          · exact setParent_equiFrame _ _ _
        exact key _ _

/-- A property of the heap that every `merge` keeps is kept by the merges of a left
edge. -/
theorem mergeOverlaps_preserves (P : State → Prop)
    (hP : ∀ (fuel : Nat) (s : State) (a b : Nat) (x : Nat × State),
      P s → merge fuel s a b = some x → P x.2) (fuel tile : Nat) :
    ∀ (ovs : List TileIntv) (s s' : State), mergeOverlaps fuel tile ovs s = some s' →
      P s → P s' := by
  intro ovs
  induction ovs with
  | nil =>
    intro s s' h hs
    simp only [mergeOverlaps, Option.some.injEq] at h
    subst h
    exact hs
  | cons ov rest ih =>
    intro s s' h hs
    simp only [mergeOverlaps] at h
    cases hm : merge fuel s tile ov.tile with
    | none => simp [hm] at h
    | some x =>
      simp only [hm] at h
      exact ih x.2 s' h (hP fuel s tile ov.tile x hs hm)

/-- A property of the heap that every `merge` keeps is kept by the whole sweep. -/
theorem sweepLoop_preserves (P : State → Prop)
    (hP : ∀ (fuel : Nat) (s : State) (a b : Nat) (x : Nat × State),
      P s → merge fuel s a b = some x → P x.2) (fuel : Nat) :
    ∀ (evs : List Element) (st st' : State × (Nat → Option (List TileIntv))),
      sweepLoop fuel evs st = some st' → P st.1 → P st'.1 := by
  intro evs
  induction evs with
  | nil =>
    intro st st' h hs
    simp only [sweepLoop, Option.some.injEq] at h
    subst h
    exact hs
  | cons e rest ih =>
    intro st st' h hs
    simp only [sweepLoop] at h
    cases hstep : sweepStep fuel st.1 st.2 e with
    | none => simp [hstep] at h
    | some st1 =>
      simp only [hstep] at h
      refine ih st1 st' h ?_
      unfold sweepStep at hstep
      simp only at hstep
      split at hstep
      · simp only [Option.some.injEq] at hstep
        rw [← hstep]; exact hs
      · split at hstep
        · split at hstep
          · cases hstep
          · next s' hmo =>
            simp only [Option.some.injEq] at hstep
            rw [← hstep]
            exact mergeOverlaps_preserves P hP fuel _ _ _ _ hmo hs
        · simp only [Option.some.injEq] at hstep
          rw [← hstep]; exact hs

/-- The sweep returns on every forest, whatever the order of the events (the same result
for every sufficient fuel). -/
theorem sweepLoop_terminates :
    ∀ (evs : List Element) (s : State) (trees : Nat → Option (List TileIntv)), Acyclic s →
      ∃ st', (∃ N, ∀ fuel, N ≤ fuel → sweepLoop fuel evs (s, trees) = some st') ∧
        Acyclic st'.1 ∧ SameTiles s st'.1 := by
  intro evs
  induction evs with
  | nil =>
    intro s trees hac
    exact ⟨(s, trees), ⟨0, fun _ _ => rfl⟩, hac, sameTiles_refl s⟩
  | cons e rest ih =>
    intro s trees hac
    have hstep : ∃ st1, (∃ N, ∀ fuel, N ≤ fuel → sweepStep fuel s trees e = some st1) ∧
        Acyclic st1.1 ∧ SameTiles s st1.1 := by
      cases htree : trees (s.tile e.tile).layer with
      | none =>
        refine ⟨(s, trees), ⟨0, fun _ _ => ?_⟩, hac, sameTiles_refl s⟩
        unfold sweepStep
        simp only [htree]
      | some tree =>
        cases hl : e.isLeftEdge with
        | false =>
          refine ⟨(s, setTree trees (s.tile e.tile).layer (tree.erase
            ⟨e.tile, (s.tile e.tile).boundingBox.yMin, (s.tile e.tile).boundingBox.yMax⟩)),
            ⟨0, fun _ _ => ?_⟩, hac, sameTiles_refl s⟩
          unfold sweepStep
          simp only [htree, hl, Bool.false_eq_true, if_false]
        | true =>
          obtain ⟨s', ⟨N, hN⟩, hac', hst, _⟩ :=
            mergeOverlaps_ok (fun _ _ => True) ⟨fun _ => trivial, fun _ => trivial,
              fun _ _ => trivial⟩ e.tile
              (getOverlaps tree (s.tile e.tile).boundingBox.yMin
                (s.tile e.tile).boundingBox.yMax) s hac (fun _ _ _ => trivial)
              (fun _ _ => trivial)
          refine ⟨(s', setTree trees (s.tile e.tile).layer (tree ++
            [⟨e.tile, (s.tile e.tile).boundingBox.yMin, (s.tile e.tile).boundingBox.yMax⟩])),
            ⟨N, fun fuel hf => ?_⟩, hac', hst⟩
          unfold sweepStep
          simp only [htree, hl, if_true, hN fuel hf]
    obtain ⟨st1, ⟨N1, hN1⟩, hac1, hst1⟩ := hstep
    obtain ⟨st', ⟨N2, hN2⟩, hac', hst'⟩ := ih st1.1 st1.2 hac1
    refine ⟨st', ⟨max N1 N2, fun fuel hf => ?_⟩, hac', sameTiles_trans hst1 hst'⟩
    simp only [sweepLoop, hN1 fuel (le_trans (le_max_left _ _) hf)]
    exact hN2 fuel (le_trans (le_max_right _ _) hf)

/-! ## Results on the whole run -/

theorem loaded_quiet {s : State} (h : Loaded s) : Quiet s := by
  refine ⟨⟨?_, ?_, ?_, ?_, ?_⟩, ?_⟩
  · intro c
    obtain ⟨_, h2, h3⟩ := h.blank c
    exact ⟨h2, by rw [h3]; exact Nat.zero_le _⟩
  · intro c e hc
    rw [(h.blank c).1] at hc
    cases hc
  · intro c c' e hc
    rw [(h.blank c).1] at hc
    cases hc
  · intro c e hc
    rw [(h.blank c).1] at hc
    cases hc
  · intro c e hc
    rw [(h.blank c).1] at hc
    cases hc
  · intro c
    rw [h.time]
    exact Nat.zero_le _

theorem pairHeap_acyclic : Acyclic pairHeap := by
  refine acyclic_of_climb pairHeap 2 (by decide) ?_
  intro t ht
  have h0 : t ≠ 0 := by omega
  have h1 : t ≠ 1 := by omega
  simp [pairHeap, State.newTile, State.empty, State.parent, h0, h1, Tile.blank]

theorem pairHeap_loaded : Loaded pairHeap := by
  refine ⟨rfl, fun c => ?_⟩
  simp only [pairHeap, State.newTile, State.empty, Tile.blank]
  split_ifs <;> exact ⟨rfl, rfl, rfl⟩

theorem joinInv_start (s0 : State) (trees0 : Nat → Option (List TileIntv)) (hac : Acyclic s0) :
    JoinInv s0 trees0 [] s0 trees0 :=
  ⟨hac, sameTiles_refl s0, fun _ => Iff.rfl,
   fun _ h => absurd h (List.not_mem_nil _), fun _ _ h => absurd h (List.not_mem_nil _)⟩

/-- C5. The tiles form a forest, the event list is sorted by x with the left edge before
the right edge at equal x, and the interval trees return exactly the stored intervals that
intersect the query. Then the loop of `SweepLine::run` over the whole event list returns,
and any two loaded tiles `a`, `b` on the same basic layer (a layer that has its interval
tree) whose bounding boxes overlap on both axes have the same union-find root, after the
loop and still at the end of `run`. -/
theorem run_joins_overlapping_tiles (s0 : State) (sl : SweepLine) (hac : Acyclic s0)
    (hsorted : sl.tiles.Pairwise (Element.mayPrecede s0))
    (a b : Nat) (ha : (⟨a, true⟩ : Element) ∈ sl.tiles) (hb : (⟨b, true⟩ : Element) ∈ sl.tiles)
    (htree : sl.intervalTrees (s0.tile a).layer ≠ none) (htouch : Touch s0 a b) :
    (∃ st, (∃ N, ∀ fuel, N ≤ fuel → sweepLoop fuel sl.tiles (s0, sl.intervalTrees) = some st) ∧
      SameRoot st.1 a b) ∧
    (∃ s', (∃ N, ∀ fuel, N ≤ fuel → SweepLine.run fuel s0 sl = some s') ∧ SameRoot s' a b) := by
  obtain ⟨s1, trees1, ⟨N1, hN1⟩, inv⟩ := sweepLoop_join s0 sl.intervalTrees sl.tiles []
    (by simpa using hsorted) s0 sl.intervalTrees (joinInv_start s0 sl.intervalTrees hac)
  simp only [List.nil_append] at inv
  have hsame : SameRoot s1 a b := inv.joined a b ha hb htree htouch
  refine ⟨⟨(s1, trees1), ⟨N1, hN1⟩, hsame⟩, ?_⟩
  obtain ⟨s', ⟨N2, hN2⟩, hroots, _⟩ :=
    mergeEquipotentialsFrom_terminates (List.range s1.idCounter) s1.timeTick inv.acyclic
  refine ⟨s', ⟨max N1 N2, fun fuel hf => ?_⟩, ?_⟩
  · unfold SweepLine.run mergeEquipotentials
    simp only [hN1 fuel (le_trans (le_max_left _ _) hf)]
    exact hN2 fuel (le_trans (le_max_right _ _) hf)
  · obtain ⟨r, h1, h2⟩ := hsame
    exact ⟨r, (hroots a r).mpr h1, (hroots b r).mpr h2⟩

/-- C5 on two overlapping wires of layer 1 (scenario A of the specification). -/
theorem run_joins_overlapping_tiles_witness :
    Acyclic pairHeap ∧ pairSweepLine.tiles.Pairwise (Element.mayPrecede pairHeap) ∧
    Touch pairHeap 0 1 ∧
    (∃ st, (∃ N, ∀ fuel, N ≤ fuel →
        sweepLoop fuel pairSweepLine.tiles (pairHeap, pairSweepLine.intervalTrees) = some st) ∧
      SameRoot st.1 0 1) ∧
    (∃ s', (∃ N, ∀ fuel, N ≤ fuel → SweepLine.run fuel pairHeap pairSweepLine = some s') ∧
      SameRoot s' 0 1) := by
  have hs : pairSweepLine.tiles.Pairwise (Element.mayPrecede pairHeap) := by
    unfold pairSweepLine Element.mayPrecede
    simp only [List.pairwise_cons, List.mem_cons, List.mem_singleton, List.not_mem_nil,
      forall_eq_or_imp, forall_eq, false_implies, implies_true, List.Pairwise.nil, and_true]
    decide
  have ht : Touch pairHeap 0 1 := by
    unfold Touch
    decide
  exact ⟨pairHeap_acyclic, hs, ht,
    run_joins_overlapping_tiles pairHeap pairSweepLine pairHeap_acyclic hs 0 1
      (by decide) (by decide) (by decide) ht⟩

/-! ## Only touching tiles are merged -/

theorem linked_equivalence (s0 : State) : Equivalence (Linked s0) :=
  Relation.EqvGen.is_equivalence _

theorem linked_of_touch {s0 : State} {a b : Nat} (h : Touch s0 a b) : Linked s0 a b :=
  Relation.EqvGen.rel _ _ (Or.inl h)

/-- The merges of one left edge keep the parent links within an equivalence that relates
the tile to each overlap. -/
theorem mergeOverlaps_links (R : Nat → Nat → Prop) (hR : Equivalence R) (fuel tile : Nat) :
    ∀ (ovs : List TileIntv) (s s' : State), mergeOverlaps fuel tile ovs s = some s' →
      Acyclic s → LinksWithin R s → (∀ ov, ov ∈ ovs → R tile ov.tile) →
      Acyclic s' ∧ LinksWithin R s' ∧ SameTiles s s' := by
  intro ovs
  induction ovs with
  | nil =>
    intro s s' h hac hJ _
    simp only [mergeOverlaps, Option.some.injEq] at h
    subst h
    exact ⟨hac, hJ, sameTiles_refl s⟩
  | cons ov rest ih =>
    intro s s' h hac hJ hrel
    simp only [mergeOverlaps] at h
    cases hm : merge fuel s tile ov.tile with
    | none => simp [hm] at h
    | some x =>
      simp only [hm] at h
      obtain ⟨ra, hra⟩ := hac tile
      obtain ⟨rb, hrb⟩ := hac ov.tile
      have post := merge_post_of_eq hra hrb hm
      obtain ⟨h1, h2, h3⟩ := ih x.2 s' h (mergePost_acyclic post hac)
        (mergePost_linksWithin hR post hra hrb (hrel ov (List.mem_cons_self _ _)) hJ)
        (fun o ho => hrel o (List.mem_cons_of_mem _ ho))
      exact ⟨h1, h2, sameTiles_trans (mergePost_sameTiles post) h3⟩

/-- One event of the sweep keeps the link invariant. -/
theorem sweepStep_link (s0 : State) (pre post : List Element) (e : Element)
    (hev : SortedEvents s0 (pre ++ e :: post)) (fuel : Nat)
    (s : State) (trees : Nat → Option (List TileIntv))
    (st' : State × (Nat → Option (List TileIntv)))
    (hstep : sweepStep fuel s trees e = some st') (inv : LinkInv s0 pre s trees) :
    LinkInv s0 (pre ++ [e]) st'.1 st'.2 := by
  obtain ⟨b, isLeft⟩ := e
  obtain ⟨s1, trees1⟩ := st'
  show LinkInv s0 (pre ++ [(⟨b, isLeft⟩ : Element)]) s1 trees1
  have hlayer : (s.tile b).layer = (s0.tile b).layer := (inv.tiles.2 b).2.1
  have hbox : (s.tile b).boundingBox = (s0.tile b).boundingBox := (inv.tiles.2 b).2.2
  have hpw := List.pairwise_append.mp hev.sorted
  have hnd := List.nodup_append.mp hev.nodup
  -- entries of the old trees stay valid for the longer prefix, the one of `b` apart
  have hkeep : ∀ t, (⟨t, true⟩ : Element) ∈ pre → (⟨t, false⟩ : Element) ∉ pre →
      (isLeft = false → t ≠ b) →
      (⟨t, true⟩ : Element) ∈ pre ++ [(⟨b, isLeft⟩ : Element)] ∧
      (⟨t, false⟩ : Element) ∉ pre ++ [(⟨b, isLeft⟩ : Element)] := by
    intro t h1 h2 h3
    refine ⟨List.mem_append_left _ h1, fun h => ?_⟩
    rcases List.mem_append.mp h with h | h
    · exact h2 h
    · simp only [List.mem_singleton, Element.mk.injEq] at h
      exact h3 h.2.symm h.1
  unfold sweepStep at hstep
  simp only [hlayer, hbox] at hstep
  cases htree : trees (s0.tile b).layer with
  | none =>
    simp only [htree, Option.some.injEq, Prod.mk.injEq] at hstep
    obtain ⟨hs1, ht1⟩ := hstep
    subst hs1
    subst ht1
    refine ⟨inv.acyclic, inv.tiles, inv.nodup, ?_, inv.links⟩
    intro m tree hm x hx
    obtain ⟨h1, h2, h3, h4⟩ := inv.mem m tree hm x hx
    have hne : isLeft = false → x.tile ≠ b := by
      intro _ hxb
      rw [hxb] at h2
      rw [h2, hm] at htree
      cases htree
    exact ⟨h1, h2, hkeep x.tile h3 h4 hne⟩
  | some tree =>
    simp only [htree] at hstep
    cases isLeft with
    | true =>
      simp only [if_true] at hstep
      cases hmo : mergeOverlaps fuel b
          (getOverlaps tree (s0.tile b).boundingBox.yMin (s0.tile b).boundingBox.yMax) s with
      | none => simp [hmo] at hstep
      | some s' =>
        simp only [hmo, Option.some.injEq, Prod.mk.injEq] at hstep
        obtain ⟨hs1, ht1⟩ := hstep
        subst hs1
        subst ht1
        have hbmem : (⟨b, true⟩ : Element) ∈ pre ++ (⟨b, true⟩ : Element) :: post :=
          List.mem_append_right _ (List.mem_cons_self _ _)
        have hbb := hev.boxes b hbmem
        -- every overlap touches `b`
        have htouch : ∀ ov, ov ∈ getOverlaps tree (s0.tile b).boundingBox.yMin
            (s0.tile b).boundingBox.yMax → Linked s0 b ov.tile := by
          intro ov hov
          unfold getOverlaps at hov
          rw [List.mem_filter] at hov
          obtain ⟨hin, hint⟩ := hov
          obtain ⟨h1, h2, h3, h4⟩ := inv.mem _ tree htree ov hin
          have hL := hpw.2.2 _ h3 _ (List.mem_cons_self _ _)
          have hRin : (⟨ov.tile, false⟩ : Element) ∈ post := by
            have := hev.paired ov.tile (List.mem_append_left _ h3)
            rcases List.mem_append.mp this with h | h
            · exact absurd h h4
            · rcases List.mem_cons.mp h with h | h
              · simp at h
              · exact h
          have hR := (List.pairwise_cons.mp hpw.2.1).1 _ hRin
          rw [h1] at hint
          simp only [TileIntv.intersects, entryOf, decide_eq_true_eq] at hint
          unfold Element.mayPrecede Element.getX at hL hR
          simp only [Bool.false_eq_true, if_false, if_true] at hL hR
          refine linked_of_touch ⟨h2.symm, ?_, ?_, ?_, ?_⟩
          · rcases hR with h | h <;> omega
          · rcases hL with h | h <;> omega
          · exact hint.2
          · exact hint.1
        obtain ⟨hac', hJ', hst⟩ := mergeOverlaps_links (Linked s0) (linked_equivalence s0) fuel b
          _ s s' hmo inv.acyclic inv.links htouch
        have hbnew : entryOf s0 b ∉ tree := by
          intro hin
          obtain ⟨_, _, h3, _⟩ := inv.mem _ tree htree _ hin
          exact hnd.2.2 h3 (List.mem_cons_self _ _)
        have hbright : (⟨b, false⟩ : Element) ∉ pre := by
          intro hin
          have hp := hpw.2.2 _ hin _ (List.mem_cons_self _ _)
          unfold Element.mayPrecede Element.getX at hp
          simp only [Bool.false_eq_true, if_false, if_true] at hp
          rcases hp with h | ⟨_, h | h⟩
          · omega
          · exact h
          · cases h
        refine ⟨hac', sameTiles_trans inv.tiles hst, ?_, ?_, hJ'⟩
        · intro m tree' hm
          by_cases hmb : m = (s0.tile b).layer
          · subst hmb
            rw [setTree_same] at hm
            cases hm
            refine List.nodup_append.mpr ⟨inv.nodup _ tree htree, List.nodup_singleton _, ?_⟩
            intro x hx1 hx2
            rw [List.mem_singleton] at hx2
            subst hx2
            exact hbnew hx1
          · rw [setTree_other _ _ hmb] at hm
            exact inv.nodup m tree' hm
        · intro m tree' hm x hx
          have hold : ∀ tr, trees m = some tr → x ∈ tr →
              x = entryOf s0 x.tile ∧ (s0.tile x.tile).layer = m ∧
              (⟨x.tile, true⟩ : Element) ∈ pre ++ [(⟨b, true⟩ : Element)] ∧
              (⟨x.tile, false⟩ : Element) ∉ pre ++ [(⟨b, true⟩ : Element)] := by
            intro tr htr hxtr
            obtain ⟨h1, h2, h3, h4⟩ := inv.mem m tr htr x hxtr
            exact ⟨h1, h2, hkeep x.tile h3 h4 (fun h => by cases h)⟩
          by_cases hmb : m = (s0.tile b).layer
          · subst hmb
            rw [setTree_same] at hm
            cases hm
            rcases List.mem_append.mp hx with h | h
            · exact hold tree htree h
            · rw [List.mem_singleton] at h
              subst h
              refine ⟨rfl, rfl, List.mem_append_right _ (List.mem_singleton_self _), ?_⟩
              intro hin
              rcases List.mem_append.mp hin with h | h
              · exact hbright h
              · simp [entryOf] at h
          · rw [setTree_other _ _ hmb] at hm
            exact hold tree' hm hx
    | false =>
      simp only [Bool.false_eq_true, if_false, Option.some.injEq, Prod.mk.injEq] at hstep
      obtain ⟨hs1, ht1⟩ := hstep
      subst hs1
      subst ht1
      refine ⟨inv.acyclic, inv.tiles, ?_, ?_, inv.links⟩
      · intro m tree' hm
        by_cases hmb : m = (s0.tile b).layer
        · subst hmb
          rw [setTree_same] at hm
          cases hm
          exact (inv.nodup _ tree htree).erase _
        · rw [setTree_other _ _ hmb] at hm
          exact inv.nodup m tree' hm
      · intro m tree' hm x hx
        by_cases hmb : m = (s0.tile b).layer
        · subst hmb
          rw [setTree_same] at hm
          cases hm
          have hx' := ((inv.nodup _ tree htree).mem_erase_iff).mp hx
          obtain ⟨h1, h2, h3, h4⟩ := inv.mem _ tree htree x hx'.2
          refine ⟨h1, h2, hkeep x.tile h3 h4 ?_⟩
          intro _ hxb
          apply hx'.1
          exact h1.trans (by rw [hxb]; rfl)
        · rw [setTree_other _ _ hmb] at hm
          obtain ⟨h1, h2, h3, h4⟩ := inv.mem m tree' hm x hx
          refine ⟨h1, h2, hkeep x.tile h3 h4 ?_⟩
          intro _ hxb
          apply hmb
          rw [← h2, hxb]

/-- The sweep keeps the link invariant up to the end of the event list. -/
theorem sweepLoop_link (s0 : State) (fuel : Nat) :
    ∀ (post pre : List Element), SortedEvents s0 (pre ++ post) →
      ∀ (st st' : State × (Nat → Option (List TileIntv))),
        sweepLoop fuel post st = some st' → LinkInv s0 pre st.1 st.2 →
        LinkInv s0 (pre ++ post) st'.1 st'.2 := by
  intro post
  induction post with
  | nil =>
    intro pre _ st st' h inv
    simp only [sweepLoop, Option.some.injEq] at h
    subst h
    rw [List.append_nil]
    exact inv
  | cons e rest ih =>
    intro pre hev st st' h inv
    simp only [sweepLoop] at h
    cases hstep : sweepStep fuel st.1 st.2 e with
    | none => simp [hstep] at h
    | some st1 =>
      simp only [hstep] at h
      have inv1 := sweepStep_link s0 pre rest e hev fuel st.1 st.2 st1 hstep inv
      have heq : pre ++ e :: rest = (pre ++ [e]) ++ rest := by
        rw [List.append_assoc]; rfl
      rw [heq] at hev ⊢
      exact ih (pre ++ [e]) hev st1 st' h inv1

theorem linkInv_start (s0 : State) (trees0 : Nat → Option (List TileIntv)) (hac : Acyclic s0)
    (hempty : ∀ m tree, trees0 m = some tree → tree = []) : LinkInv s0 [] s0 trees0 := by
  refine ⟨hac, sameTiles_refl s0, ?_, ?_, ?_⟩
  · intro m tree hm
    rw [hempty m tree hm]
    exact List.nodup_nil
  · intro m tree hm e he
    rw [hempty m tree hm] at he
    exact absurd he (List.not_mem_nil e)
  · intro u p hu
    exact Relation.EqvGen.rel _ _ (Or.inr hu)

theorem overlapChain_of_linked {s0 : State} (hroots : ∀ t, s0.parent t = none) {a b : Nat}
    (h : Linked s0 a b) : OverlapChain s0 a b := by
  induction h with
  | rel x y hxy =>
    rcases hxy with h1 | h1
    · exact Relation.EqvGen.rel _ _ h1
    · rw [hroots x] at h1
      cases h1
  | refl x => exact Relation.EqvGen.refl x
  | symm x y _ ih => exact Relation.EqvGen.symm _ _ ih
  | trans x y z _ _ ih1 ih2 => exact Relation.EqvGen.trans _ _ _ ih1 ih2

theorem overlapChain_layer {s0 : State} {a b : Nat} (h : OverlapChain s0 a b) :
    (s0.tile a).layer = (s0.tile b).layer := by
  induction h with
  | rel x y hxy => exact hxy.1
  | refl x => rfl
  | symm x y _ ih => exact ih.symm
  | trans x y z _ _ ih1 ih2 => exact ih1.trans ih2

/-- C6 (counterexample). A contact is loaded on layer 1 and on layer 2, the second tile
created with the first as `rootTile`. After the sweep the two tiles have the same root,
although they are on different basic layers and no chain of same-layer overlaps joins
them. -/
theorem sweep_keeps_tiles_chained_at_creation :
    (∃ st, sweepLoop 3 viaSweepLine.tiles (viaHeap, viaSweepLine.intervalTrees) = some st ∧
      SameRoot st.1 0 1) ∧
    (viaHeap.tile 0).layer ≠ (viaHeap.tile 1).layer ∧ ¬ OverlapChain viaHeap 0 1 := by
  have hlay : (viaHeap.tile 0).layer ≠ (viaHeap.tile 1).layer := by decide
  refine ⟨?_, hlay, fun h => hlay (overlapChain_layer h)⟩
  have hval : (sweepLoop 3 viaSweepLine.tiles (viaHeap, viaSweepLine.intervalTrees)).map
      (fun st => (st.1.parent 0, st.1.parent 1)) = some (none, some 0) := by decide
  cases hst : sweepLoop 3 viaSweepLine.tiles (viaHeap, viaSweepLine.intervalTrees) with
  | none => rw [hst] at hval; cases hval
  | some st =>
    rw [hst] at hval
    simp only [Option.map_some', Option.some.injEq, Prod.mk.injEq] at hval
    exact ⟨st, rfl, 0, hasRoot_self hval.1, hasRoot_step hval.2 (hasRoot_self hval.1)⟩

/-- C6 (amended). The tiles form a forest, the event list is the sorted list of the edges
of the loaded tiles, the interval trees start empty. After the sweep (and still at the end
of `run`) two tiles have the same root only if they are joined by a chain of tiles in which
each consecutive pair is on the same basic layer with bounding boxes overlapping on both
axes, or is a tile and the parent it was created with (the `rootTile` of `Tile::create`).
When no tile was created with a parent, the chain is made of overlaps only. -/
theorem sweep_same_root_only_if_linked (s0 : State) (sl : SweepLine) (hac : Acyclic s0)
    (hev : SortedEvents s0 sl.tiles)
    (hempty : ∀ m tree, sl.intervalTrees m = some tree → tree = []) :
    (∃ st, (∃ N, ∀ fuel, N ≤ fuel → sweepLoop fuel sl.tiles (s0, sl.intervalTrees) = some st) ∧
      (∀ a b, SameRoot st.1 a b → Linked s0 a b) ∧
      ((∀ t, s0.parent t = none) → ∀ a b, SameRoot st.1 a b → OverlapChain s0 a b)) ∧
    (∃ s', (∃ N, ∀ fuel, N ≤ fuel → SweepLine.run fuel s0 sl = some s') ∧
      (∀ a b, SameRoot s' a b → Linked s0 a b) ∧
      ((∀ t, s0.parent t = none) → ∀ a b, SameRoot s' a b → OverlapChain s0 a b)) := by
  obtain ⟨st, ⟨N1, hN1⟩, hac1, _⟩ := sweepLoop_terminates sl.tiles s0 sl.intervalTrees hac
  have inv := sweepLoop_link s0 N1 sl.tiles [] (by simpa using hev) (s0, sl.intervalTrees) st
    (hN1 N1 (le_refl _)) (linkInv_start s0 sl.intervalTrees hac hempty)
  have hlinked : ∀ a b, SameRoot st.1 a b → Linked s0 a b := by
    intro a b hab
    obtain ⟨r, h1, h2⟩ := hab
    have hE := linked_equivalence s0
    exact hE.trans (linksWithin_root hE inv.links h1) (hE.symm (linksWithin_root hE inv.links h2))
  refine ⟨⟨st, ⟨N1, hN1⟩, hlinked, fun hr a b hab => overlapChain_of_linked hr (hlinked a b hab)⟩,
    ?_⟩
  obtain ⟨s', ⟨N2, hN2⟩, hroots, _⟩ :=
    mergeEquipotentialsFrom_terminates (List.range st.1.idCounter) st.1.timeTick hac1
  have hlinked' : ∀ a b, SameRoot s' a b → Linked s0 a b := by
    intro a b hab
    obtain ⟨r, h1, h2⟩ := hab
    exact hlinked a b ⟨r, (hroots a r).mp h1, (hroots b r).mp h2⟩
  refine ⟨s', ⟨max N1 N2, fun fuel hf => ?_⟩, hlinked',
    fun hr a b hab => overlapChain_of_linked hr (hlinked' a b hab)⟩
  unfold SweepLine.run mergeEquipotentials
  simp only [hN1 fuel (le_trans (le_max_left _ _) hf)]
  exact hN2 fuel (le_trans (le_max_right _ _) hf)

theorem pairSweepLine_sorted : SortedEvents pairHeap pairSweepLine.tiles := by
  refine ⟨?_, by decide, ?_, ?_⟩
  · unfold pairSweepLine Element.mayPrecede
    simp only [List.pairwise_cons, List.mem_cons, List.mem_singleton, List.not_mem_nil,
      forall_eq_or_imp, forall_eq, false_implies, implies_true, List.Pairwise.nil, and_true]
    decide
  · intro t ht
    simp only [pairSweepLine, List.mem_cons, Element.mk.injEq, and_true, List.mem_singleton,
      Bool.true_eq_false, and_false, or_false, List.not_mem_nil] at ht ⊢
    rcases ht with h | h <;> simp [h]
  · intro t ht
    simp only [pairSweepLine, List.mem_cons, Element.mk.injEq, and_true, List.mem_singleton,
      Bool.true_eq_false, and_false, or_false, List.not_mem_nil] at ht
    rcases ht with h | h <;> subst h <;> decide

/-- C6 (amended) on two overlapping wires of layer 1. -/
theorem sweep_same_root_only_if_linked_witness :
    Acyclic pairHeap ∧ SortedEvents pairHeap pairSweepLine.tiles ∧
    (∃ st, (∃ N, ∀ fuel, N ≤ fuel →
        sweepLoop fuel pairSweepLine.tiles (pairHeap, pairSweepLine.intervalTrees) = some st) ∧
      (∀ a b, SameRoot st.1 a b → Linked pairHeap a b) ∧
      ((∀ t, pairHeap.parent t = none) → ∀ a b, SameRoot st.1 a b → OverlapChain pairHeap a b)) ∧
    (∃ s', (∃ N, ∀ fuel, N ≤ fuel → SweepLine.run fuel pairHeap pairSweepLine = some s') ∧
      (∀ a b, SameRoot s' a b → Linked pairHeap a b) ∧
      ((∀ t, pairHeap.parent t = none) → ∀ a b, SameRoot s' a b → OverlapChain pairHeap a b)) :=
  ⟨pairHeap_acyclic, pairSweepLine_sorted,
   sweep_same_root_only_if_linked pairHeap pairSweepLine pairHeap_acyclic pairSweepLine_sorted
     (by
       intro m tree hm
       simp only [pairSweepLine] at hm
       split at hm
       · simp only [Option.some.injEq] at hm; exact hm.symm
       · cases hm)⟩

/-! ## Who holds an equipotential pointer -/

/-- The function `newEquipotential` on `t` changes no pointer, or sets the pointer of `t`,
which was null. -/
theorem newEquipotential_pointer (s : State) (t u : Nat) :
    ((newEquipotential s t).2.tile u).equipotential = (s.tile u).equipotential ∨
    (u = t ∧ (s.tile u).equipotential = none) := by
  unfold newEquipotential
  split
  · exact Or.inl rfl
  · next h =>
    by_cases hu : u = t
    · right
      rw [hu]
      exact ⟨rfl, h⟩
    · left
      simp [State.modifyEqui, State.modifyTile, hu]

/-- A call of `getRoot` that returns, returns the root of its tile. -/
theorem getRoot_hasRoot {s : State} {t : Nat} {flags : Flags} {fuel : Nat} {x : Nat × State}
    (h : getRoot fuel s t flags = some x) : HasRoot s.parent t x.1 := by
  unfold getRoot at h
  split at h
  · next h0 =>
    split_ifs at h <;>
    · simp only [Option.some.injEq] at h
      rw [← h]
      exact hasRoot_self h0
  · next p hp =>
    split at h
    · cases h
    · next root hroot =>
      have hr := climb_hasRoot _ _ _ hroot
      simp only [] at h
      split at h
      · cases h
      · split_ifs at h
        · split at h
          · cases h
          · simp only [Option.some.injEq] at h
            rw [← h]
            exact hr
        · simp only [Option.some.injEq] at h
          rw [← h]
          exact hr

/-- A call of `getRoot` that returns has changed no equipotential pointer but, at most, a
null pointer of the root it returns. -/
theorem getRoot_pointer {s : State} {t : Nat} {flags : Flags} {fuel : Nat} {x : Nat × State}
    (h : getRoot fuel s t flags = some x) (u : Nat) :
    (x.2.tile u).equipotential = (s.tile u).equipotential ∨
    (u = x.1 ∧ (s.tile u).equipotential = none) := by
  have hroot := getRoot_hasRoot h
  unfold getRoot at h hroot
  split at h
  · split_ifs at h
    · simp only [Option.some.injEq] at h
      rw [← h]
      exact newEquipotential_pointer s t u
    · simp only [Option.some.injEq] at h
      rw [← h]
      exact Or.inl rfl
  · split at h
    · cases h
    · next root hclimb =>
      simp only [] at h
      have hmerged : ∀ s1, (if flags.mergeEqui = true then
            mergeLoop t root (newEquipotential s root).1 fuel (newEquipotential s root).2
              (some t)
          else some s) = some s1 →
          (s1.tile u).equipotential = (s.tile u).equipotential ∨
          (u = root ∧ (s.tile u).equipotential = none) := by
        intro s1 hs1
        split_ifs at hs1
        · rw [mergeLoop_equipotential _ _ _ _ _ _ _ hs1 u]
          exact newEquipotential_pointer s root u
        · simp only [Option.some.injEq] at hs1
          rw [← hs1]
          exact Or.inl rfl
      split at h
      · cases h
      · next s1 hs1 =>
        split_ifs at h
        · split at h
          · cases h
          · next s2 hs2 =>
            simp only [Option.some.injEq] at h
            rw [← h]
            simp only []
            rw [parentFrame_equipotential (compressLoop_frame _ _ _ _ _ hs2) u]
            exact hmerged s1 hs1
        · simp only [Option.some.injEq] at h
          rw [← h]
          exact hmerged s1 hs1

/-- A call of `merge` that returns has changed no equipotential pointer but, at most, null
pointers of tiles that had no parent when it was called. -/
theorem merge_pointer {s : State} {a b : Nat} {fuel : Nat} {x : Nat × State}
    (h : merge fuel s a b = some x) (u : Nat) :
    (x.2.tile u).equipotential = (s.tile u).equipotential ∨
    ((s.tile u).equipotential = none ∧ s.parent u = none) := by
  unfold merge at h
  simp only [] at h
  split at h
  · cases h
  · next root1 s1 h1 =>
    split at h
    · cases h
    · next root2 s2 h2 =>
      have hr1 := getRoot_hasRoot h1
      have hr2 := getRoot_hasRoot h2
      have post1 := (getRoot_post_of_eq hr1 _ h1).2
      have hs2 : (s2.tile u).equipotential = (s.tile u).equipotential ∨
          ((s.tile u).equipotential = none ∧ s.parent u = none) := by
        rcases getRoot_pointer h2 u with k2 | ⟨k2, k2'⟩
        · rw [k2]
          rcases getRoot_pointer h1 u with k1 | ⟨k1, k1'⟩
          · exact Or.inl k1
          · right
            refine ⟨k1', ?_⟩
            rw [k1]
            exact hasRoot_isRoot hr1
        · right
          have hu2 : s1.parent u = none := by
            rw [k2]
            exact hasRoot_isRoot hr2
          have hu : s.parent u = none := post1.rootsBack u hu2
          refine ⟨?_, hu⟩
          rcases getRoot_pointer h1 u with k1 | ⟨_, k1'⟩
          · rw [← k1]
            exact k2'
          · exact k1'
      have hfr : ∀ (s3 : State) (r : Nat) (p : Option Nat),
          ((s3.setParent r p).tile u).equipotential = (s3.tile u).equipotential := by
        intro s3 r p
        simp only [State.setParent, State.modifyTile]
        split_ifs <;> rfl
      have hir : ∀ (s3 : State) (r : Nat),
          ((s3.incRank r).tile u).equipotential = (s3.tile u).equipotential := by
        intro s3 r
        simp only [State.incRank, State.modifyTile]
        split_ifs <;> rfl
      split_ifs at h
      all_goals
        simp only [Option.some.injEq] at h
        rw [← h]
        first
          | exact hs2
          | (simp only [hfr, hir]; exact hs2)

/-- C25 (counterexample). Four tiles merged in two classes with roots 0 and 2; the root 2
owns equipotential 0. Then `merge(1, 3)` attaches the root 2 under the root 0: tile 2 has
a parent and still holds its equipotential pointer. -/
theorem merge_leaves_pointer_of_attached_root :
    twoClassesHeap.map (fun s => (s.parent 0, s.parent 2, (s.tile 2).equipotential))
      = some (none, none, some 0) ∧
    (twoClassesHeap.bind (fun s => merge 5 s 1 3)).map
        (fun x => (x.1, x.2.parent 2, (x.2.tile 2).equipotential))
      = some (0, some 0, some 0) := by
  refine ⟨by decide, by decide⟩

/-- C25 (amended). Equipotentials are given to root tiles only, and pointers are never
taken back: the constructor leaves the pointer of the new tile null; a call of `getRoot`
changes no pointer but, at most, the null pointer of the root it returns; a call of
`Tile::merge` changes no pointer but those, null before, of tiles that had no parent when
it was called. So a root that owned an equipotential still holds the pointer once
`Tile::merge` has attached it under another root. -/
theorem equipotential_given_to_roots_only (s : State) (fuel : Nat) :
    (∀ occ layer bb parent,
      (((s.newTile occ layer bb parent).2.tile s.idCounter).equipotential = none) ∧
      ∀ u, u ≠ s.idCounter →
        ((s.newTile occ layer bb parent).2.tile u).equipotential
          = (s.tile u).equipotential) ∧
    (∀ t flags x, getRoot fuel s t flags = some x → ∀ u,
      (x.2.tile u).equipotential = (s.tile u).equipotential ∨
      (u = x.1 ∧ (s.tile u).equipotential = none ∧ s.parent u = none ∧
        x.2.parent u = none)) ∧
    (∀ a b x, merge fuel s a b = some x → ∀ u,
      ((x.2.tile u).equipotential = (s.tile u).equipotential ∨
        ((s.tile u).equipotential = none ∧ s.parent u = none)) ∧
      ((s.tile u).equipotential ≠ none →
        (x.2.tile u).equipotential = (s.tile u).equipotential)) := by
  refine ⟨?_, ?_, ?_⟩
  · intro occ layer bb parent
    refine ⟨by simp [State.newTile], fun u hu => by simp [State.newTile, hu]⟩
  · intro t flags x h u
    rcases getRoot_pointer h u with k | ⟨k, k'⟩
    · exact Or.inl k
    · right
      have hr := getRoot_hasRoot h
      have post := (getRoot_post_of_eq hr flags h).2
      have h0 : s.parent u = none := by
        rw [k]
        exact hasRoot_isRoot hr
      exact ⟨k, k', h0, hasRoot_isRoot (post.roots u u (hasRoot_self h0))⟩
  · intro a b x h u
    refine ⟨merge_pointer h u, fun hne => ?_⟩
    rcases merge_pointer h u with k | ⟨k, _⟩
    · exact k
    · exact absurd k hne

/-- C25 (amended) on the call of the counterexample: `merge(1, 3)` on the two classes
returns, and tile 2, which owned equipotential 0, holds the same pointer afterwards. -/
theorem equipotential_given_to_roots_only_witness :
    ∃ s x, twoClassesHeap = some s ∧ merge 5 s 1 3 = some x ∧
      (s.tile 2).equipotential ≠ none ∧
      (x.2.tile 2).equipotential = (s.tile 2).equipotential := by
  have h1 : twoClassesHeap.isSome = true := by decide
  obtain ⟨s, hs⟩ := Option.isSome_iff_exists.mp h1
  have h2 : (twoClassesHeap.bind (fun s => merge 5 s 1 3)).isSome = true := by decide
  obtain ⟨x, hx⟩ := Option.isSome_iff_exists.mp h2
  rw [hs] at hx
  have h3 : twoClassesHeap.map (fun s => (s.tile 2).equipotential) = some (some 0) := by
    decide
  rw [hs] at h3
  simp only [Option.map_some', Option.some.injEq] at h3
  have hne : (s.tile 2).equipotential ≠ none := by
    rw [h3]
    exact Option.some_ne_none 0
  exact ⟨s, x, hs, hx, hne,
    ((equipotential_given_to_roots_only s 5).2.2 1 3 x hx 2).2 hne⟩

/-! ## The parent links of built heaps -/

/-- When parents are below `n`, so are the proper ancestors of a tile. -/
theorem ancestor_allocated {par : Nat → Option Nat} {n : Nat}
    (hlinks : ∀ u p, par u = some p → p < n) {t a : Nat} (ha : Ancestor par t a) :
    a = t ∨ a < n := by
  rcases Relation.ReflTransGen.cases_tail ha with h | ⟨b, _, hb⟩
  · exact Or.inl h
  · exact Or.inr (hlinks b a hb)

/-- When parents are below `n`, so is the root of a tile below `n`. -/
theorem root_allocated {par : Nat → Option Nat} {n : Nat}
    (hlinks : ∀ u p, par u = some p → p < n) {t r : Nat} (h : HasRoot par t r)
    (ht : t < n) : r < n := by
  rcases ancestor_allocated hlinks (hasRoot_ancestor h) with h1 | h1
  · rw [h1]
    exact ht
  · exact h1

/-- The empty heap is a forest. -/
theorem forest_empty : Forest State.empty :=
  ⟨fun t => ⟨t, hasRoot_self rfl⟩, fun _ _ => rfl, fun u p h => by cases h⟩

/-- The constructor keeps the forest, when the parent it is given is null or an allocated
tile. -/
theorem forest_newTile {s : State} (h : Forest s) (occ layer : Nat) (bb : Box)
    (parent : Option Nat) (hp : ∀ p, parent = some p → p < s.idCounter) :
    Forest (s.newTile occ layer bb parent).2 := by
  obtain ⟨hac, hfree, hlinks⟩ := h
  have hpar : ∀ u, (s.newTile occ layer bb parent).2.parent u
      = if u = s.idCounter then parent else s.parent u := by
    intro u
    simp only [State.newTile, State.parent]
    split_ifs <;> rfl
  have hold : ∀ t r, t ≠ s.idCounter → HasRoot s.parent t r →
      HasRoot (s.newTile occ layer bb parent).2.parent t r := by
    intro t r ht hr
    obtain ⟨n, hn⟩ := hr
    refine ⟨n, rootAt_congr hn (fun u hu => ?_)⟩
    rw [hpar]
    have hne : u ≠ s.idCounter := by
      rcases ancestor_allocated hlinks hu with h1 | h1
      · rw [h1]
        exact ht
      · exact Nat.ne_of_lt h1
    rw [if_neg hne]
  refine ⟨fun t => ?_, fun u hu => ?_, fun u p hup => ?_⟩
  · by_cases ht : t = s.idCounter
    · have hcases : parent = none ∨ ∃ p, parent = some p := by
        cases parent with
        | none => exact Or.inl rfl
        | some p => exact Or.inr ⟨p, rfl⟩
      rcases hcases with hparent | ⟨p, hparent⟩
      · exact ⟨t, hasRoot_self (by rw [hpar, if_pos ht, hparent])⟩
      · have hpl := hp p hparent
        obtain ⟨r, hr⟩ := hac p
        exact ⟨r, hasRoot_step (by rw [hpar, if_pos ht, hparent])
          (hold p r (Nat.ne_of_lt hpl) hr)⟩
    · obtain ⟨r, hr⟩ := hac t
      exact ⟨r, hold t r ht hr⟩
  · have hu' : s.idCounter + 1 ≤ u := hu
    rw [hpar, if_neg (by omega)]
    exact hfree u (by omega)
  · show p < s.idCounter + 1
    rw [hpar] at hup
    split_ifs at hup with h1
    · exact Nat.lt_succ_of_lt (hp p hup)
    · exact Nat.lt_succ_of_lt (hlinks u p hup)

/-- A call of `getRoot` that returns keeps the forest. -/
theorem forest_getRoot {s : State} (h : Forest s) {fuel t : Nat} {flags : Flags}
    {x : Nat × State} (hx : getRoot fuel s t flags = some x) : Forest x.2 := by
  obtain ⟨hac, hfree, hlinks⟩ := h
  have post := (getRoot_post_of_eq (getRoot_hasRoot hx) flags hx).2
  have hroots : ∀ u, s.parent u = none → x.2.parent u = none := fun u hu =>
    hasRoot_isRoot (post.roots u u (hasRoot_self hu))
  refine ⟨fun u => ?_, fun u hu => ?_, fun u p hup => ?_⟩
  · obtain ⟨r, hr⟩ := hac u
    exact ⟨r, post.roots u r hr⟩
  · rw [post.data.1] at hu
    exact hroots u (hfree u hu)
  · rw [post.data.1]
    rcases post.links u p hup with h1 | h1
    · exact hlinks u p h1
    · rcases ancestor_allocated hlinks (hasRoot_ancestor h1) with h2 | h2
      · have h0 : s.parent u = none := by
          have := hasRoot_isRoot h1
          rw [h2] at this
          exact this
        rw [hroots u h0] at hup
        cases hup
      · exact h2

/-- A call of `merge` on allocated tiles that returns keeps the forest. -/
theorem forest_merge {s : State} (h : Forest s) {fuel a b : Nat} {x : Nat × State}
    (ha : a < s.idCounter) (hb : b < s.idCounter) (hx : merge fuel s a b = some x) :
    Forest x.2 := by
  obtain ⟨hac, hfree, hlinks⟩ := h
  obtain ⟨ra, hra⟩ := hac a
  obtain ⟨rb, hrb⟩ := hac b
  have post := merge_post_of_eq hra hrb hx
  have hral := root_allocated hlinks hra ha
  have hrbl := root_allocated hlinks hrb hb
  refine ⟨mergePost_acyclic post hac, fun u hu => ?_, fun u p hup => ?_⟩
  · rw [post.idCounter] at hu
    have h1 := post.roots u u (hasRoot_self (hfree u hu))
    have hne : ¬ (u = ra ∨ u = rb) := by
      rintro (h2 | h2) <;> omega
    rw [if_neg hne] at h1
    exact hasRoot_isRoot h1
  · rw [post.idCounter]
    rcases post.links u p hup with h1 | h1 | ⟨_, h1⟩ | ⟨_, h1⟩
    · exact hlinks u p h1
    · rcases ancestor_allocated hlinks (hasRoot_ancestor h1) with h2 | h2
      · have h0 : s.parent u = none := by
          have := hasRoot_isRoot h1
          rw [h2] at this
          exact this
        by_cases hu : u < s.idCounter
        · rw [h2]
          exact hu
        · have h3 := post.roots u u (hasRoot_self h0)
          have hne : ¬ (u = ra ∨ u = rb) := by
            rintro (h4 | h4) <;> omega
          rw [if_neg hne] at h3
          rw [hasRoot_isRoot h3] at hup
          cases hup
      · exact h2
    · rw [h1]
      exact hrbl
    · rw [h1]
      exact hral

/-- A built heap is a forest. -/
theorem built_forest {s : State} (h : Built s) : Forest s := by
  induction h with
  | empty => exact forest_empty
  | newTile occ layer bb parent _ hp ih => exact forest_newTile ih occ layer bb parent hp
  | getRoot fuel t flags x _ _ hx ih => exact forest_getRoot ih hx
  | merge fuel a b x _ ha hb hx ih => exact forest_merge ih ha hb hx

/-- The chain 2 → 1 → 0 is built by three calls of the constructor. -/
theorem chainHeap_built : Built chainHeap :=
  Built.newTile 12 1 _ (some 1)
    (Built.newTile 11 1 _ (some 0)
      (Built.newTile 10 1 _ none Built.empty (fun p h => by cases h))
      (fun p h => by
        simp only [Option.some.injEq] at h
        rw [← h]
        decide))
    (fun p h => by
      simp only [Option.some.injEq] at h
      rw [← h]
      decide)

/-- C27. In every heap built from the empty heap by the constructor (parent null or an
allocated tile) and by calls of `getRoot`, with any flags, and `merge` that have returned,
the parent links form a forest: every tile reaches a parentless tile, no tile is an
ancestor of its own parent; so the parent climb of `getRoot` ends for every tile, and every
further call of `getRoot` (with any flags) or `merge` returns, for every sufficient amount
of fuel, with a heap that is built again. -/
theorem parent_links_stay_a_forest (s : State) (h : Built s) :
    Acyclic s ∧
    (∀ t p, s.parent t = some p → ¬ Ancestor s.parent p t) ∧
    (∀ t, ∃ N r, ∀ fuel, N ≤ fuel → climb s.parent fuel t = some r) ∧
    (∀ t flags, ∃ N x, ∀ fuel, N ≤ fuel → getRoot fuel s t flags = some x) ∧
    (∀ a b, ∃ N x, ∀ fuel, N ≤ fuel → merge fuel s a b = some x) ∧
    (∀ fuel t flags x, t < s.idCounter → getRoot fuel s t flags = some x → Built x.2) ∧
    (∀ fuel a b x, a < s.idCounter → b < s.idCounter → merge fuel s a b = some x →
      Built x.2) := by
  obtain ⟨hac, _, _⟩ := built_forest h
  refine ⟨hac, ?_, ?_, ?_, ?_, ?_, ?_⟩
  · intro t p hp
    obtain ⟨r, n, hn⟩ := hac t
    exact rootAt_not_ancestor_parent hn hp
  · intro t
    obtain ⟨r, n, hn⟩ := hac t
    exact ⟨n + 1, r, climb_of_rootAt hn⟩
  · intro t flags
    obtain ⟨r, n, hn⟩ := hac t
    obtain ⟨s', hs', _⟩ := getRoot_ok s t r n hn flags (n + 1) (le_refl _)
    exact ⟨n + 1, (r, s'), fun fuel hf => getRoot_mono s t flags hf hs'⟩
  · intro a b
    obtain ⟨ra, hra⟩ := hac a
    obtain ⟨rb, hrb⟩ := hac b
    obtain ⟨r, s', ⟨N, hN⟩, _⟩ := merge_ok s a b ra rb hra hrb
    exact ⟨N, (r, s'), hN⟩
  · intro fuel t flags x ht hx
    exact Built.getRoot fuel t flags x h ht hx
  · intro fuel a b x ha hb hx
    exact Built.merge fuel a b x h ha hb hx

/-- C27 on the chain 2 → 1 → 0, built by the constructor. -/
theorem parent_links_stay_a_forest_witness :
    Built chainHeap ∧ Acyclic chainHeap ∧
    (∀ t, ∃ N r, ∀ fuel, N ≤ fuel → climb chainHeap.parent fuel t = some r) :=
  ⟨chainHeap_built, (parent_links_stay_a_forest chainHeap chainHeap_built).1,
   (parent_links_stay_a_forest chainHeap chainHeap_built).2.2.1⟩

/-! ## The books of the equipotentials through the sweep and the merge -/

/-- The second run on two overlapping wires, evaluated: the sweep (epoch 1) attaches
tile 0 to tile 1; after `mergeEquipotentials` the root 1 owns the equipotential 0, which
holds both occurrences, and tile 0 is flagged and owns none. -/
theorem secondRun_evaluated :
    (SweepLine.run 5 secondRunHeap pairSweepLine).map
      (fun s => (s.time, s.parent 0, s.parent 1, (s.tile 0).equipotential,
        (s.tile 1).equipotential, (s.tile 0).occMerged, (s.tile 1).occMerged,
        (s.equi 0).components))
      = some (2, some 1, none, none, some 0, true, false, [10, 11]) := by
  rfl

end Tramontana -- extractor

/-! # Properties of the sessions -/

namespace Katabatic

/-- The function `Katabatic::Session::open(e2)` while a session of another engine is open: the
session-reopen error, and nothing has changed (the world is the argument of the failed
call). -/
theorem open_other_engine_fails (w : World) (s : Session) (e2 : Nat)
    (hs : w.session = some s) (hne : s.katabatic ≠ e2) :
    Session.open w e2 = Except.error (Error.reopenSession s.katabatic) := by
  unfold Session.open
  rw [hs]
  simp only [if_pos hne]

/-- C9 (the code at the failing input). A plain Katabatic session of engine 1 is open
with a pending invalidated net; `Kite::Session::open(2)` does not fail: its
`Session::get()` casts the open session to `Kite::Session*`, gets null, and a second
session is created for engine 2 that replaces `_session`, the pending net with it. The
sibling `Katabatic::Session::open(2)` fails with the reopen error on the same world. -/
theorem kite_open_over_katabatic_session :
    katabaticSessionWorld.session.map (fun x => (x.isKite, x.katabatic, x.netInvalidateds))
      = some (false, 1, [5]) ∧
    errorOf (Kite.Session.open katabaticSessionWorld 2) = none ∧
    (worldOf katabaticSessionWorld (Kite.Session.open katabaticSessionWorld 2)).session.map
        (fun x => (x.isKite, x.katabatic, x.netInvalidateds)) = some (true, 2, []) ∧
    katabaticSessionWorld.sessionsCreated = 1 ∧
    (worldOf katabaticSessionWorld (Kite.Session.open katabaticSessionWorld 2)).sessionsCreated
      = 2 ∧
    errorOf (Session.open katabaticSessionWorld 2) = some (Error.reopenSession 1) := by
  refine ⟨by decide, by decide, by decide, by decide, by decide, by decide⟩

/-- C10 (counterexample). After `open(1)`, `open(1)`, `close()` no session is open, and a
second `close()` fails with the session-not-opened error. -/
theorem open_open_close_leaves_no_session :
    (match Session.open World.init 1 with
     | Except.ok (_, w1) =>
       (match Session.open w1 1 with
        | Except.ok (_, w2) =>
          (match Session.close w2 with
           | Except.ok w3 => some (w3.session, errorOf (Session.close w3))
           | Except.error _ => none)
        | Except.error _ => none)
     | Except.error _ => none)
      = some (none, some (Error.openSessionError "Session::Close()")) := by
  decide

/-- C10 (amended). With no session open, `open(e)` creates the session; a second `open(e)`
joins it (it returns the same session and changes nothing, there is no nesting count); the
first `close()` then tears the session down, and a second `close()` fails with the
session-not-opened error. -/
theorem open_joins_first_close_releases (w : World) (e : Nat) (h : w.session = none) :
    ∃ s1 w1 w3, Session.open w e = Except.ok (s1, w1) ∧ w1.session = some s1 ∧
      Session.open w1 e = Except.ok (s1, w1) ∧
      Session.close w1 = Except.ok w3 ∧ w3.session = none ∧
      Session.close w3 = Except.error (Error.openSessionError "Session::Close()") := by
  refine ⟨Session.create false e,
    Session._postCreate { w with trace := w.trace ++ [Call.newSession e false] }
      (Session.create false e), _, ?_, rfl, ?_, rfl, rfl, ?_⟩
  · unfold Session.open
    rw [h]
  · unfold Session.open
    simp [Session._postCreate, Session.create]
  · unfold Session.close
    simp

/-- C10 (amended) on the initial world with engine 1. -/
theorem open_joins_first_close_releases_witness :
    World.init.session = none ∧
    ∃ s1 w1 w3, Session.open World.init 1 = Except.ok (s1, w1) ∧ w1.session = some s1 ∧
      Session.open w1 1 = Except.ok (s1, w1) ∧
      Session.close w1 = Except.ok w3 ∧ w3.session = none ∧
      Session.close w3 = Except.error (Error.openSessionError "Session::Close()") :=
  ⟨rfl, open_joins_first_close_releases World.init 1 rfl⟩

/-! ## Static operations and `close` -/

/-- With no session open, `get` with a message throws the session-not-opened error. -/
theorem get_message_without_session (w : World) (h : w.session = none) (m : String) :
    Session.get w (some m) = Except.error (Error.openSessionError m) := by
  unfold Session.get
  rw [h]

/-- C11. With no session open, every static operation of `Session` that works on the
session (`close`, `lookup`, `link`, `unlink`, `invalidate`, `revalidate`, `destroyRequest`,
`dogleg`, `getRoutingGauge` and all the other accessors of `Session.h`) ends with the
session-not-opened error, carrying the message of the `get` it reached, and the process
state is the one before the call; `get` with a message fails the same way, and only `get`
without a message answers: it returns null. -/
theorem static_operation_without_session_fails (w : World) (h : w.session = none) :
    (∀ op : StaticOp,
      Session.static w op = Except.error (Error.openSessionError op.message) ∧
      worldOf w (Session.static w op) = w) ∧
    (∀ m : String, Session.get w (some m) = Except.error (Error.openSessionError m)) ∧
    Session.get w none = Except.ok none := by
  have key : ∀ op : StaticOp,
      Session.static w op = Except.error (Error.openSessionError op.message) := by
    intro op
    cases op <;>
      simp [Session.static, Session.close, get_message_without_session w h, h,
        StaticOp.message]
  refine ⟨fun op => ⟨key op, ?_⟩, get_message_without_session w h, ?_⟩
  · rw [key op]
    rfl
  · unfold Session.get
    rw [h]

/-- C11 on the initial world. -/
theorem static_operation_without_session_fails_witness :
    World.init.session = none ∧
    (∀ op : StaticOp,
      Session.static World.init op = Except.error (Error.openSessionError op.message) ∧
      worldOf World.init (Session.static World.init op) = World.init) ∧
    (∀ m : String,
      Session.get World.init (some m) = Except.error (Error.openSessionError m)) ∧
    Session.get World.init none = Except.ok none :=
  ⟨rfl, static_operation_without_session_fails World.init rfl⟩

/-- Counting the revalidation passes of a trace that grows. -/
theorem revalidations_append (w : World) (l : List Call) :
    ({ w with trace := w.trace ++ l } : World).revalidations
      = w.revalidations + (l.filter (fun c => match c with
          | Call.revalidate _ _ => true
          | _ => false)).length := by
  simp [World.revalidations, List.filter_append]

/-- C12 (counterexample). A session with an invalidated segment, its engine past
`EngineActive`: `close()` releases the session and no revalidation pass has run. -/
theorem close_past_active_skips_revalidation :
    (match Session.close lateEngineWorld with
     | Except.ok w => some (w.session, w.revalidations, w.trace)
     | Except.error _ => none)
      = some (none, 0, [Call.updateSessionClose, Call.deleteSession 1]) := by
  decide

/-- C12 (amended). Closing the open session `s` succeeds and releases it. When the state of
its engine is at most `EngineActive`, exactly one revalidation pass is run, before
`UpdateSession::close()` and the deletion of the session; when the engine is past
`EngineActive`, no revalidation pass is run at all. -/
theorem close_revalidates_once_while_active (w : World) (s : Session)
    (h : w.session = some s) :
    ∃ w1, Session.close w = Except.ok w1 ∧ w1.session = none ∧
      w1.trace = w.trace
        ++ (if s.isKite then [Call.isEmpty s._isEmpty] else [])
        ++ (if w.atMostActive s.katabatic then
              [Call.revalidate s.katabatic s._revalidate.1]
                ++ (if w.hasGCellGrid s.katabatic then [Call.updateDensity s.katabatic] else [])
            else [])
        ++ [Call.updateSessionClose, Call.deleteSession s.katabatic] ∧
      w1.revalidations
        = w.revalidations + (if w.atMostActive s.katabatic then 1 else 0) := by
  refine ⟨_, by unfold Session.close; rw [h], rfl, ?_, ?_⟩
  · cases hk : s.isKite <;> cases ha : w.atMostActive s.katabatic <;>
      cases hg : w.hasGCellGrid s.katabatic <;>
      simp [Session._preDestroy, Session.katabaticPreDestroy, hk, ha, hg]
  · cases hk : s.isKite <;> cases ha : w.atMostActive s.katabatic <;>
      cases hg : w.hasGCellGrid s.katabatic <;>
      simp [Session._preDestroy, Session.katabaticPreDestroy, hk, ha, hg,
        World.revalidations, List.filter_append, List.filter_cons]

/-- C12 (amended) on a session opened on the initial world: one pass is run. -/
theorem close_revalidates_once_while_active_witness :
    katabaticSessionWorld.session = some pendingNetSession ∧
    ∃ w1, Session.close katabaticSessionWorld = Except.ok w1 ∧ w1.session = none ∧
      w1.trace = katabaticSessionWorld.trace
        ++ (if pendingNetSession.isKite then [Call.isEmpty pendingNetSession._isEmpty] else [])
        ++ (if katabaticSessionWorld.atMostActive pendingNetSession.katabatic then
              [Call.revalidate pendingNetSession.katabatic pendingNetSession._revalidate.1]
                ++ (if katabaticSessionWorld.hasGCellGrid pendingNetSession.katabatic then
                      [Call.updateDensity pendingNetSession.katabatic]
                    else [])
            else [])
        ++ [Call.updateSessionClose, Call.deleteSession pendingNetSession.katabatic] ∧
      w1.revalidations
        = katabaticSessionWorld.revalidations
          + (if katabaticSessionWorld.atMostActive pendingNetSession.katabatic then 1 else 0) :=
  ⟨by decide,
   close_revalidates_once_while_active katabaticSessionWorld pendingNetSession (by decide)⟩

/-! ## The comparison functor -/

/-- The specified order is strict: never both ways. -/
theorem lexicographicBefore_asymm (rg : RoutingGauge) (lhs rhs : AutoSegment)
    (h : AutoSegment.lexicographicBefore rg lhs rhs = true) :
    AutoSegment.lexicographicBefore rg rhs lhs = false := by
  simp only [AutoSegment.lexicographicBefore, Bool.or_eq_true, Bool.and_eq_true,
    decide_eq_true_eq] at h
  simp only [AutoSegment.lexicographicBefore, Bool.or_eq_false_iff, Bool.and_eq_false_iff,
    decide_eq_false_iff_not]
  omega

/-- The function `CompareByDepthLength` is the specified order on every pair but those of equal depth and
source-u where `lhs` is the shorter one (the second test on the length difference, line
259, answers `true` where the order needs `false`). -/
theorem compareByDepthLength_eq_unless_shorter (rg : RoutingGauge) (lhs rhs : AutoSegment)
    (h : ¬ (rg.layerDepth lhs.layer = rg.layerDepth rhs.layer ∧ lhs.sourceU = rhs.sourceU ∧
            lhs.length < rhs.length)) :
    AutoSegment.CompareByDepthLength rg lhs rhs = AutoSegment.lexicographicBefore rg lhs rhs := by
  unfold AutoSegment.CompareByDepthLength
  simp only []
  have hb : ∀ b : Bool, (b = AutoSegment.lexicographicBefore rg lhs rhs) ↔
      (b = true ↔ AutoSegment.lexicographicBefore rg lhs rhs = true) := by
    intro b
    cases b <;> cases AutoSegment.lexicographicBefore rg lhs rhs <;> simp
  rw [hb]
  simp only [AutoSegment.lexicographicBefore, Bool.or_eq_true, Bool.and_eq_true,
    decide_eq_true_eq]
  split_ifs <;> simp <;> omega

/-- C16 (the code at the failing input). Two segments on the same layer with the same
source-u, one of length 10 and one of length 20: `CompareByDepthLength` answers `true` in
both directions, where the specified order puts only the longer one first. -/
theorem compareByDepthLength_true_both_ways :
    AutoSegment.CompareByDepthLength threeLayerGauge shortSegment longSegment = true ∧
    AutoSegment.CompareByDepthLength threeLayerGauge longSegment shortSegment = true ∧
    AutoSegment.lexicographicBefore threeLayerGauge shortSegment longSegment = false ∧
    AutoSegment.lexicographicBefore threeLayerGauge longSegment shortSegment = true := by
  decide

/-! ## `canReduce` -/

/-- The function `canReduce` is the specified condition on every segment whose depth is a depth of the
gauge and which, when its spin is bottom, is not on the lowest layer and is not spin top
as well. -/
theorem canReduce_eq_condition (db : Db) (p : Nat)
    (hdepth : (db.segment p).depth < db.routingGauge.depth)
    (hgauge : db.routingGauge.depth < 2 ^ 32 - 1)
    (hbottom : (db.segment p).isSpinBottom = true → 0 < (db.segment p).depth) :
    AutoSegment.canReduce db p = AutoSegment.reduceCondition db p := by
  have h32 : (2 : Nat) ^ 32 = 4294967296 := by norm_num
  unfold AutoSegment.canReduce AutoSegment.reduceCondition AutoSegment.perpandicularDepth
    AutoSegment.isSpinTopOrBottom
  simp only []
  rw [h32] at hgauge ⊢
  cases hg : (db.segment p).segGlobal <;> cases ht : (db.segment p).isSpinTop <;>
    cases hb : (db.segment p).isSpinBottom <;>
    cases hs : (db.contact (db.segment p).source).isTurn <;>
    cases hq : (db.contact (db.segment p).target).isTurn <;>
    simp [hb] at hbottom ⊢
  · have e1 : ((db.segment p).depth + 4294967295) % 4294967296 = (db.segment p).depth - 1 := by
      omega
    rw [e1, Bool.eq_iff_iff]
    simp only [Bool.and_eq_true, decide_eq_true_eq, Bool.not_eq_true', decide_eq_false_iff_not]
    constructor
    · rintro ⟨h1, h2⟩
      exact ⟨⟨⟨h1, by omega⟩, by omega⟩, by omega⟩
    · rintro ⟨⟨⟨h1, _⟩, _⟩, h2⟩
      exact ⟨h1, by omega⟩
  · have e1 : ((db.segment p).depth + 1) % 4294967296 = (db.segment p).depth + 1 := by
      omega
    rw [e1, Bool.eq_iff_iff]
    simp only [Bool.and_eq_true, decide_eq_true_eq, Bool.not_eq_true', decide_eq_false_iff_not]
    constructor
    · rintro ⟨h1, h2, h3⟩
      exact ⟨⟨⟨h1, by omega⟩, by omega⟩, by omega⟩
    · rintro ⟨⟨⟨h1, _⟩, h2⟩, h3⟩
      exact ⟨h1, by omega, by omega⟩
  · have e1 : ((db.segment p).depth + 4294967295) % 4294967296 = (db.segment p).depth - 1 := by
      omega
    rw [e1, Bool.eq_iff_iff]
    simp only [Bool.and_eq_true, decide_eq_true_eq, Bool.not_eq_true', decide_eq_false_iff_not]
    constructor
    · rintro ⟨h1, h2⟩
      exact ⟨⟨⟨h1, by omega⟩, by omega⟩, by omega⟩
    · rintro ⟨⟨⟨h1, _⟩, _⟩, h2⟩
      exact ⟨h1, by omega⟩

/-- C20 (the code at the failing input). A local spin-bottom segment of length 0 at depth
0, between two turn contacts and with no reduced perpendicular: the perpendicular depth
`0 - 1` is no depth of the gauge, so the specified condition is false; `canReduce` makes no
test on the decremented depth (it wraps to 4294967295), compares the length with twice the
pitch the gauge answers there, and returns `true`. -/
theorem canReduce_bottom_spin_on_lowest_layer :
    (bottomSpinDb.segment 0).depth = 0 ∧
    (bottomSpinDb.segment 0).isSpinBottom = true ∧
    (bottomSpinDb.segment 0).perpandicularDepth = -1 ∧
    AutoSegment.reduceCondition bottomSpinDb 0 = false ∧
    AutoSegment.canReduce bottomSpinDb 0 = true := by
  decide

/-! ## `makeDogleg` -/

/-- The pad test of `makeDogleg` inside a session, or on a gcell that is under no pad: it
only writes its report. -/
theorem makeDogleg_unfold (w : World) (db : Db) (p g : Nat) (flags : KbFlags)
    (hs : w.session ≠ none ∨ (db.gcell g).isUnderIoPad = false) :
    AutoSegment.makeDogleg w db p g flags =
      (if (db.segment p).segFixed then
        Except.ok (KbFlags.none, w,
          { db with cerr := db.cerr ++ padReport db p g ++ [Diagnostic.doglegOnFixed p] })
      else if ((db.gcell g).getSide (db.segment p).segHorizontal).intersect
                (db.segment p).spanU then
        AutoSegment._makeDogleg w { db with cerr := db.cerr ++ padReport db p g } p g flags
      else
        match (db.alignedsWith p flags).find? (fun a =>
            ((db.gcell g).getSide (db.segment p).segHorizontal).intersect
              (db.segment a).spanU) with
        | some aligned =>
          match AutoSegment._makeDogleg w { db with cerr := db.cerr ++ padReport db p g }
              aligned g flags with
          | Except.error e => Except.error e
          | Except.ok r => Except.ok (KbFlags.none, r.2.1, r.2.2)
        | none =>
          Except.ok (KbFlags.none, w,
            { db with cerr := db.cerr ++ padReport db p g
                        ++ [Diagnostic.cannotMakeDogleg p g] })) := by
  rcases db with ⟨seg, con, gc, al, pe, lt, rg, egl, sc, cc, ev, ce, dt, an, cs, ct, go, af⟩
  simp only at hs
  unfold AutoSegment.makeDogleg padReport
  cases hpad : (gc g).isUnderIoPad
  · simp [hpad, Db.alignedsWith, Db.getAligneds]
  · rcases hs with hs | hs
    · obtain ⟨s, hs⟩ := Option.ne_none_iff_exists'.mp hs
      cases egl <;>
        simp [Session.get, hs, hpad, Db.alignedsWith, Db.getAligneds, List.append_assoc]
    · rw [hpad] at hs
      cases hs

/-- C18. Inside a session (or on a gcell under no pad, where the session is not looked
up), `makeDogleg(gcell, flags)` on a fixed segment reports the fixed-segment error on
`cerr` and returns 0: the process state and with it the dogleg list of the session are
those before the call, and in the database only `cerr` has grown; no segment and no
contact is created or changed. -/
theorem makeDogleg_on_fixed_segment (w : World) (db : Db) (p g : Nat) (flags : KbFlags)
    (hfix : (db.segment p).segFixed = true)
    (hs : w.session ≠ none ∨ (db.gcell g).isUnderIoPad = false) :
    ∃ db1, AutoSegment.makeDogleg w db p g flags = Except.ok (KbFlags.none, w, db1) ∧
      db1.cerr = db.cerr ++ padReport db p g ++ [Diagnostic.doglegOnFixed p] ∧
      db1.segment = db.segment ∧ db1.contact = db.contact ∧
      db1.segmentCount = db.segmentCount ∧ db1.contactCount = db.contactCount ∧
      db1.events = db.events ∧ db1.aligneds = db.aligneds := by
  refine ⟨{ db with cerr := db.cerr ++ padReport db p g ++ [Diagnostic.doglegOnFixed p] },
    ?_, rfl, rfl, rfl, rfl, rfl, rfl, rfl⟩
  rw [makeDogleg_unfold w db p g flags hs, if_pos hfix]

/-- C18 on scenario E with segment 0 fixed, inside a session. -/
theorem makeDogleg_on_fixed_segment_witness :
    (fixedSegmentDb.segment 0).segFixed = true ∧
    (openedWorld.session ≠ none ∨ (fixedSegmentDb.gcell 3).isUnderIoPad = false) ∧
    ∃ db1, AutoSegment.makeDogleg openedWorld fixedSegmentDb 0 3 KbFlags.none
        = Except.ok (KbFlags.none, openedWorld, db1) ∧
      db1.cerr = fixedSegmentDb.cerr ++ padReport fixedSegmentDb 0 3
        ++ [Diagnostic.doglegOnFixed 0] ∧
      db1.segment = fixedSegmentDb.segment ∧ db1.contact = fixedSegmentDb.contact ∧
      db1.segmentCount = fixedSegmentDb.segmentCount ∧
      db1.contactCount = fixedSegmentDb.contactCount ∧
      db1.events = fixedSegmentDb.events ∧ db1.aligneds = fixedSegmentDb.aligneds :=
  ⟨by decide, Or.inr (by decide),
   makeDogleg_on_fixed_segment openedWorld fixedSegmentDb 0 3 KbFlags.none (by decide)
     (Or.inr (by decide))⟩

/-- C19 (counterexample). Scenario E inside a session: segment 0 is not fixed and the side
of gcell 3 does not intersect its span, yet `makeDogleg` on segment 0 makes a dogleg, in
the aligned segment 1: two segments and two contacts are created, the dogleg list of the
session holds segment 1 and the two new segments, and nothing is reported. -/
theorem makeDogleg_outside_span_breaks_aligned :
    (scenarioEDb.segment 0).segFixed = false ∧
    ((scenarioEDb.gcell 3).getSide (scenarioEDb.segment 0).segHorizontal).intersect
      (scenarioEDb.segment 0).spanU = false ∧
    (match AutoSegment.makeDogleg openedWorld scenarioEDb 0 3 KbFlags.none with
     | Except.ok r =>
       some (r.1, r.2.1.session.map (fun s => s.doglegs), r.2.2.segmentCount,
             r.2.2.contactCount, r.2.2.cerr)
     | Except.error _ => none)
      = some (KbFlags.none, some [1, 2, 3], 4, 5, []) ∧
    openedWorld.session.map (fun s => s.doglegs) = some [] ∧
    scenarioEDb.segmentCount = 2 ∧ scenarioEDb.contactCount = 3 := by
  decide

/-- The first element of a list that passes a test. -/
theorem find_first {α : Type} (f : α → Bool) :
    ∀ (pre : List α) (a : α) (post : List α), (∀ b ∈ pre, f b = false) → f a = true →
      (pre ++ a :: post).find? f = some a := by
  intro pre
  induction pre with
  | nil =>
    intro a post _ ha
    simp [List.find?_cons, ha]
  | cons b pre ih =>
    intro a post hpre ha
    have hb : f b = false := hpre b (List.mem_cons_self _ _)
    simp only [List.cons_append, List.find?_cons, hb]
    exact ih a post (fun c hc => hpre c (List.mem_cons_of_mem _ hc)) ha

/-- C19 (amended). Inside a session (or on a gcell under no pad), on a segment that is not
fixed and whose span the side of the gcell in its direction does not intersect, with
`getAligneds(flags)` the collection of the flags given: when the side intersects the span
of no segment of the collection either, `makeDogleg` reports that no dogleg can be made
and returns 0, the process state is the one before the call and in the database only
`cerr` has grown; when the side intersects the span of a segment of the collection, and
of none before it, the dogleg is made in that segment: 0 is returned, the dogleg list of
the session grows by that segment and the two new segments, two segments and two contacts
are created, nothing but the report of the pad test is written on `cerr`, and every other
segment, the one `makeDogleg` was called on included, is left as it was. -/
theorem makeDogleg_outside_span (w : World) (db : Db) (p g : Nat) (flags : KbFlags)
    (hfix : (db.segment p).segFixed = false)
    (hs : w.session ≠ none ∨ (db.gcell g).isUnderIoPad = false)
    (hout : ((db.gcell g).getSide (db.segment p).segHorizontal).intersect
              (db.segment p).spanU = false) :
    ((∀ a ∈ db.alignedsWith p flags,
        ((db.gcell g).getSide (db.segment p).segHorizontal).intersect
          (db.segment a).spanU = false) →
      ∃ db1, AutoSegment.makeDogleg w db p g flags = Except.ok (KbFlags.none, w, db1) ∧
        db1.cerr = db.cerr ++ padReport db p g ++ [Diagnostic.cannotMakeDogleg p g] ∧
        db1.segment = db.segment ∧ db1.contact = db.contact ∧
        db1.segmentCount = db.segmentCount ∧ db1.contactCount = db.contactCount ∧
        db1.events = db.events ∧ db1.aligneds = db.aligneds) ∧
    (∀ (pre : List Nat) (a : Nat) (post : List Nat) (s : Session),
      db.alignedsWith p flags = pre ++ a :: post →
      (∀ b ∈ pre, ((db.gcell g).getSide (db.segment p).segHorizontal).intersect
          (db.segment b).spanU = false) →
      ((db.gcell g).getSide (db.segment p).segHorizontal).intersect
          (db.segment a).spanU = true →
      w.session = some s →
      ∃ db1, AutoSegment.makeDogleg w db p g flags
          = Except.ok (KbFlags.none,
              { w with session := some { s with doglegs :=
                  s.doglegs ++ [a, db.segmentCount, db.segmentCount + 1] } },
              db1) ∧
        db1.cerr = db.cerr ++ padReport db p g ∧
        db1.segmentCount = db.segmentCount + 2 ∧
        db1.contactCount = db.contactCount + 2 ∧
        (a ≠ p) ∧
        ∀ q, q ≠ a → q ≠ db.segmentCount → q ≠ db.segmentCount + 1 →
          db1.segment q = db.segment q) := by
  constructor
  · intro hnone
    refine ⟨{ db with cerr := db.cerr ++ padReport db p g
                ++ [Diagnostic.cannotMakeDogleg p g] },
      ?_, rfl, rfl, rfl, rfl, rfl, rfl, rfl⟩
    have hfind : (db.alignedsWith p flags).find? (fun a =>
        ((db.gcell g).getSide (db.segment p).segHorizontal).intersect
          (db.segment a).spanU) = none := by
      rw [List.find?_eq_none]
      intro a ha
      simp [hnone a ha]
    rw [makeDogleg_unfold w db p g flags hs, hfix, hout, hfind]
    simp
  · intro pre a post s hlist hpre ha hsess
    have hfind : (db.alignedsWith p flags).find? (fun a =>
        ((db.gcell g).getSide (db.segment p).segHorizontal).intersect
          (db.segment a).spanU) = some a := by
      rw [hlist]
      exact find_first _ pre a post hpre ha
    have hap : a ≠ p := by
      intro h
      rw [h, hout] at ha
      cases ha
    rw [makeDogleg_unfold w db p g flags hs, hfix, hout, hfind]
    simp only [Bool.false_eq_true, if_false, AutoSegment._makeDogleg, hsess]
    refine ⟨_, rfl, rfl, rfl, rfl, hap, fun q h1 h2 h3 => ?_⟩
    simp [h1, h2, h3]

/-- C19 (amended) on scenario E inside a session, where segment 1 is aligned with segment
0: for gcell 3, whose side intersects the span of segment 1, the dogleg is made in
segment 1; for gcell 4, whose side intersects neither span, the failure is reported. -/
theorem makeDogleg_outside_span_witness :
    (scenarioEDb.segment 0).segFixed = false ∧
    (openedWorld.session ≠ none ∨ (scenarioEDb.gcell 3).isUnderIoPad = false) ∧
    ((scenarioEDb.gcell 3).getSide (scenarioEDb.segment 0).segHorizontal).intersect
      (scenarioEDb.segment 0).spanU = false ∧
    scenarioEDb.alignedsWith 0 KbFlags.none = [] ++ 1 :: [] ∧
    (∃ db1, AutoSegment.makeDogleg openedWorld scenarioEDb 0 3 KbFlags.none
        = Except.ok (KbFlags.none,
            { openedWorld with session := some { idleSession with doglegs :=
                idleSession.doglegs
                  ++ [1, scenarioEDb.segmentCount, scenarioEDb.segmentCount + 1] } },
            db1) ∧
      db1.cerr = scenarioEDb.cerr ++ padReport scenarioEDb 0 3 ∧
      db1.segmentCount = scenarioEDb.segmentCount + 2 ∧
      db1.contactCount = scenarioEDb.contactCount + 2 ∧
      (1 ≠ 0) ∧
      ∀ q, q ≠ 1 → q ≠ scenarioEDb.segmentCount → q ≠ scenarioEDb.segmentCount + 1 →
        db1.segment q = scenarioEDb.segment q) ∧
    (farGCellDb.segment 0).segFixed = false ∧
    ((farGCellDb.gcell 4).getSide (farGCellDb.segment 0).segHorizontal).intersect
      (farGCellDb.segment 0).spanU = false ∧
    farGCellDb.alignedsWith 0 KbFlags.none = [1] ∧
    (∃ db1, AutoSegment.makeDogleg openedWorld farGCellDb 0 4 KbFlags.none
        = Except.ok (KbFlags.none, openedWorld, db1) ∧
      db1.cerr = farGCellDb.cerr ++ padReport farGCellDb 0 4
        ++ [Diagnostic.cannotMakeDogleg 0 4] ∧
      db1.segment = farGCellDb.segment ∧ db1.contact = farGCellDb.contact ∧
      db1.segmentCount = farGCellDb.segmentCount ∧
      db1.contactCount = farGCellDb.contactCount ∧
      db1.events = farGCellDb.events ∧ db1.aligneds = farGCellDb.aligneds) :=
  ⟨by decide, Or.inr (by decide), by decide, by decide,
   (makeDogleg_outside_span openedWorld scenarioEDb 0 3 KbFlags.none (by decide)
     (Or.inr (by decide)) (by decide)).2 [] 1 [] idleSession (by decide)
     (fun b hb => absurd hb (List.not_mem_nil b)) (by decide) rfl,
   by decide, by decide, by decide,
   (makeDogleg_outside_span openedWorld farGCellDb 0 4 KbFlags.none (by decide)
     (Or.inr (by decide)) (by decide)).1 (by decide)⟩

/-! ## Frames of the axis and canonical updates -/

/-- Reading a segment after an update. -/
theorem modifySegment_segment (db : Db) (p q : Nat) (f : AutoSegment → AutoSegment) :
    (db.modifySegment p f).segment q = if q = p then f (db.segment q) else db.segment q :=
  rfl

/-- An update of a segment leaves the alignment collections. -/
theorem modifySegment_aligneds (db : Db) (p : Nat) (f : AutoSegment → AutoSegment) :
    (db.modifySegment p f).aligneds = db.aligneds :=
  rfl

/-- Nothing changed is an axis frame. -/
theorem axisFrame_refl (d : Db) : AxisFrame d d :=
  ⟨rfl, fun _ => rfl⟩

/-- Axis frames compose. -/
theorem axisFrame_trans {d e f : Db} (h1 : AxisFrame d e) (h2 : AxisFrame e f) :
    AxisFrame d f :=
  ⟨h2.1.trans h1.1, fun q => (h2.2 q).trans (h1.2 q)⟩

/-- Nothing changed is a canonical frame. -/
theorem canonFrame_refl (d : Db) : CanonFrame d d :=
  ⟨rfl, fun _ => rfl⟩

/-- Canonical frames compose. -/
theorem canonFrame_trans {d e f : Db} (h1 : CanonFrame d e) (h2 : CanonFrame e f) :
    CanonFrame d f :=
  ⟨h2.1.trans h1.1, fun q => (h2.2 q).trans (h1.2 q)⟩

/-- A segment without its axis determines its core. -/
theorem core_of_noAxis {x y : AutoSegment} (h : x.noAxis = y.noAxis) : x.core = y.core := by
  have : x.core = x.noAxis.core := rfl
  rw [this, h]
  rfl

/-- An axis frame is a canonical frame. -/
theorem canonFrame_of_axisFrame {d e : Db} (h : AxisFrame d e) : CanonFrame d e :=
  ⟨h.1, fun q => core_of_noAxis (h.2 q)⟩

/-- An axis frame keeps the canonical flags. -/
theorem axisFrame_canonical {d e : Db} (h : AxisFrame d e) (q : Nat) :
    (e.segment q).segCanonical = (d.segment q).segCanonical := by
  have h1 := congrArg AutoSegment.segCanonical (h.2 q)
  exact h1

/-- The function `_setAxis` changes the axis of one segment and nothing else. -/
theorem setAxis_one_frame (d : Db) (p : Nat) (x : Int) :
    AxisFrame d (AutoSegment._setAxis d p x) := by
  refine ⟨rfl, fun q => ?_⟩
  unfold AutoSegment._setAxis
  rw [modifySegment_segment]
  split
  · rfl
  · rfl

/-- The axis after `_setAxis`. -/
theorem setAxis_one_axis (d : Db) (p q : Nat) (x : Int) :
    ((AutoSegment._setAxis d p x).segment q).axis = if q = p then x else (d.segment q).axis := by
  unfold AutoSegment._setAxis
  rw [modifySegment_segment]
  split <;> rfl

/-- The loop of `setAxis` on the aligned segments: all of them and the segment itself end
on the axis the segment had, the others keep theirs. -/
theorem setAxis_loop (p : Nat) (x : Int) :
    ∀ (l : List Nat) (d : Db), (d.segment p).axis = x →
      AxisFrame d (l.foldl (fun d q => AutoSegment._setAxis d q (d.segment p).axis) d) ∧
      ((l.foldl (fun d q => AutoSegment._setAxis d q (d.segment p).axis) d).segment p).axis = x ∧
      (∀ m ∈ l,
        ((l.foldl (fun d q => AutoSegment._setAxis d q (d.segment p).axis) d).segment m).axis
          = x) ∧
      (∀ q, q ∉ l →
        ((l.foldl (fun d q => AutoSegment._setAxis d q (d.segment p).axis) d).segment q).axis
          = (d.segment q).axis) := by
  intro l
  induction l with
  | nil =>
    intro d hd
    exact ⟨axisFrame_refl d, hd, fun m hm => absurd hm (List.not_mem_nil m), fun q _ => rfl⟩
  | cons a l ih =>
    intro d hd
    have hd1 : ((AutoSegment._setAxis d a (d.segment p).axis).segment p).axis = x := by
      rw [setAxis_one_axis]
      split
      · exact hd
      · exact hd
    obtain ⟨h1, h2, h3, h4⟩ := ih _ hd1
    simp only [List.foldl_cons]
    refine ⟨axisFrame_trans (setAxis_one_frame d a _) h1, h2, ?_, ?_⟩
    · intro m hm
      by_cases hml : m ∈ l
      · exact h3 m hml
      · rw [h4 m hml, setAxis_one_axis]
        have : m = a := by
          rcases List.mem_cons.mp hm with h | h
          · exact h
          · exact absurd h hml
        rw [if_pos this, hd]
    · intro q hq
      have hqa : q ≠ a := fun h => hq (h ▸ List.mem_cons_self _ _)
      have hql : q ∉ l := fun h => hq (List.mem_cons_of_mem _ h)
      rw [h4 q hql, setAxis_one_axis, if_neg hqa]

/-- The function `setAxis` on a segment that is not canonical changes nothing. -/
theorem setAxis_not_canonical (d : Db) (p : Nat) (x : Int) (f : KbFlags)
    (h : (d.segment p).segCanonical = false) : AutoSegment.setAxis d p x f = d := by
  unfold AutoSegment.setAxis
  simp [h]

/-- The function `setAxis` with the current axis and without `KbRealignate` changes nothing. -/
theorem setAxis_same_axis (d : Db) (p : Nat) (f : KbFlags)
    (h : f.realignate = false) : AutoSegment.setAxis d p (d.segment p).axis f = d := by
  unfold AutoSegment.setAxis
  simp [h]

/-- The function `setAxis` on a canonical segment, with an axis that is not the current one or with
`KbRealignate`: the loop on the aligned segments runs. -/
theorem setAxis_runs (d : Db) (p : Nat) (x : Int) (f : KbFlags)
    (hc : (d.segment p).segCanonical = true)
    (h : x ≠ (d.segment p).axis ∨ f.realignate = true) :
    AutoSegment.setAxis d p x f =
      (d.alignedsOf p).foldl (fun d q => AutoSegment._setAxis d q (d.segment p).axis)
        (AutoSegment._setAxis d p x) := by
  unfold AutoSegment.setAxis
  have h1 : ¬ (x = (d.segment p).axis ∧ (!f.realignate) = true) := by
    rintro ⟨h2, h3⟩
    rcases h with h | h
    · exact h h2
    · simp [h] at h3
  simp only [hc, Bool.not_true, Bool.false_eq_true, if_false, if_neg h1]

/-- The function `setAxis` changes axes only. -/
theorem setAxis_frame (d : Db) (p : Nat) (x : Int) (f : KbFlags) :
    AxisFrame d (AutoSegment.setAxis d p x f) := by
  by_cases hc : (d.segment p).segCanonical = true
  · by_cases h : x ≠ (d.segment p).axis ∨ f.realignate = true
    · rw [setAxis_runs d p x f hc h]
      have h1 : ((AutoSegment._setAxis d p x).segment p).axis = x := by
        rw [setAxis_one_axis, if_pos rfl]
      exact axisFrame_trans (setAxis_one_frame d p x) (setAxis_loop p x _ _ h1).1
    · have h2 : x = (d.segment p).axis := by
        by_contra h3
        exact h (Or.inl h3)
      have h3 : f.realignate = false := by
        cases hr : f.realignate
        · rfl
        · exact absurd (Or.inr hr) h
      rw [h2, setAxis_same_axis d p f h3]
      exact axisFrame_refl d
  · rw [setAxis_not_canonical d p x f (by simpa using hc)]
    exact axisFrame_refl d

/-- The function `setAxis` on a canonical segment, with an axis that is not the current one or with
`KbRealignate`: the segment and every segment aligned with it end on that axis. -/
theorem setAxis_gives_axis (d : Db) (p : Nat) (x : Int) (f : KbFlags)
    (hc : (d.segment p).segCanonical = true)
    (h : x ≠ (d.segment p).axis ∨ f.realignate = true) :
    ∀ m ∈ d.chainOf p, ((AutoSegment.setAxis d p x f).segment m).axis = x := by
  intro m hm
  rw [setAxis_runs d p x f hc h]
  have h1 : ((AutoSegment._setAxis d p x).segment p).axis = x := by
    rw [setAxis_one_axis, if_pos rfl]
  obtain ⟨_, h2, h3, _⟩ := setAxis_loop p x (d.alignedsOf p) _ h1
  rcases List.mem_cons.mp hm with h4 | h4
  · rw [h4]
    exact h2
  · exact h3 m h4

/-- The function `toOptimalAxis` is `setAxis` to some axis, or nothing. -/
theorem toOptimalAxis_is_setAxis (d : Db) (p : Nat) (f : KbFlags) :
    (AutoSegment.toOptimalAxis d p f).2 = d ∨
    ∃ x, (AutoSegment.toOptimalAxis d p f).2 = AutoSegment.setAxis d p x f := by
  unfold AutoSegment.toOptimalAxis
  simp only []
  split_ifs
  · exact Or.inl rfl
  · exact Or.inr ⟨_, rfl⟩
  · exact Or.inr ⟨_, rfl⟩
  · exact Or.inr ⟨_, rfl⟩
  · exact Or.inl rfl

/-- The function `toOptimalAxis` with `KbRealignate` on a canonical segment is `setAxis` to some
axis. -/
theorem toOptimalAxis_realignate (d : Db) (p : Nat) (f : KbFlags)
    (hc : (d.segment p).segCanonical = true) (hf : f.realignate = true) :
    ∃ x, (AutoSegment.toOptimalAxis d p f).2 = AutoSegment.setAxis d p x f := by
  unfold AutoSegment.toOptimalAxis
  simp only [hc, hf, Bool.not_true, Bool.false_eq_true, if_false, if_true]
  split_ifs
  · exact ⟨_, rfl⟩
  · exact ⟨_, rfl⟩
  · exact ⟨_, rfl⟩

/-- The function `toConstraintAxis` is `setAxis` to some axis, or nothing. -/
theorem toConstraintAxis_is_setAxis (d : Db) (p : Nat) (f : KbFlags) :
    (AutoSegment.toConstraintAxis d p f).2 = d ∨
    ∃ x, (AutoSegment.toConstraintAxis d p f).2 = AutoSegment.setAxis d p x f := by
  unfold AutoSegment.toConstraintAxis
  simp only []
  split_ifs
  all_goals first
    | exact Or.inl rfl
    | exact Or.inr ⟨_, rfl⟩

/-! ## Chains are classes -/

/-- The election loop returns a segment of the list or its start, of id at most that of
the start and of every segment of the list. -/
theorem election_loop (d : Db) :
    ∀ (l : List Nat) (c0 : Nat),
      (l.foldl (fun canonical aligned =>
          if AutoSegment.CompareId (d.segment aligned) (d.segment canonical) then aligned
          else canonical) c0)
        ∈ c0 :: l ∧
      ∀ m ∈ c0 :: l,
        (d.segment (l.foldl (fun canonical aligned =>
          if AutoSegment.CompareId (d.segment aligned) (d.segment canonical) then aligned
          else canonical)
          c0)).id ≤ (d.segment m).id := by
  simp only [AutoSegment.CompareId, decide_eq_true_eq]
  intro l
  induction l with
  | nil =>
    intro c0
    simp
  | cons a l ih =>
    intro c0
    simp only [List.foldl_cons]
    obtain ⟨h1, h2⟩ := ih (if (d.segment a).id < (d.segment c0).id then a else c0)
    constructor
    · rcases List.mem_cons.mp h1 with h | h
      · rw [h]
        split
        · exact List.mem_cons_of_mem _ (List.mem_cons_self _ _)
        · exact List.mem_cons_self _ _
      · exact List.mem_cons_of_mem _ (List.mem_cons_of_mem _ h)
    · intro m hm
      have h3 := h2 _ (List.mem_cons_self _ _)
      rcases List.mem_cons.mp hm with h | h
      · rw [h]
        refine le_trans h3 ?_
        split
        · omega
        · exact le_refl _
      · rcases List.mem_cons.mp h with h | h
        · rw [h]
          refine le_trans h3 ?_
          split
          · exact le_refl _
          · omega
        · exact h2 m (List.mem_cons_of_mem _ h)

/-- The elected segment is in the chain of the seed. -/
theorem canonicalOf_mem (d : Db) (s : Nat) : canonicalOf d s ∈ d.chainOf s :=
  (election_loop d (d.alignedsOf s) s).1

/-- One turn of the flag loop changes canonical and weak-global flags only, and the
canonical flag only of its segment: off, unless it is the elected one. -/
theorem canonizeMember_spec (c : Nat) (g : Bool) (d : Db) (a : Nat) :
    CanonFrame d (canonizeMember c g d a) ∧
    (∀ q, ((canonizeMember c g d a).segment q).axis = (d.segment q).axis) ∧
    (∀ q, q ≠ a →
      ((canonizeMember c g d a).segment q).segCanonical = (d.segment q).segCanonical) ∧
    (a ≠ c → ((canonizeMember c g d a).segment a).segCanonical = false) ∧
    (a = c → ((canonizeMember c g d a).segment a).segCanonical = (d.segment a).segCanonical) := by
  unfold canonizeMember
  simp only []
  by_cases hac : a = c
  · simp only [hac, if_true]
    refine ⟨⟨rfl, fun q => ?_⟩, fun q => ?_, fun q hq => ?_, fun h => absurd rfl h, fun _ => ?_⟩
    · rw [modifySegment_segment]
      split <;> rfl
    · rw [modifySegment_segment]
      split <;> rfl
    · rw [modifySegment_segment, if_neg hq]
    · rw [modifySegment_segment, if_pos rfl]
  · simp only [if_neg hac]
    refine ⟨⟨?_, fun q => ?_⟩, fun q => ?_, fun q hq => ?_, fun _ => ?_, fun h => absurd h hac⟩
    · split <;> rfl
    · rw [modifySegment_segment]
      split_ifs <;> simp [AutoSegment.core, modifySegment_segment, Db.modifySegment, *]
    · rw [modifySegment_segment]
      split_ifs <;> simp [modifySegment_segment, Db.modifySegment, *]
    · rw [modifySegment_segment, if_neg hq]
      split_ifs <;> simp [modifySegment_segment, Db.modifySegment, hq]
    · rw [modifySegment_segment, if_pos rfl]

/-- The flag loop of a chunk: outside the list nothing changes but weak-global flags, the
segments of the list lose the canonical flag, the elected one keeps its own. -/
theorem canonizeMember_loop (c : Nat) (g : Bool) :
    ∀ (l : List Nat) (d : Db),
      CanonFrame d (l.foldl (canonizeMember c g) d) ∧
      (∀ q, ((l.foldl (canonizeMember c g) d).segment q).axis = (d.segment q).axis) ∧
      (∀ q, q ∉ l →
        ((l.foldl (canonizeMember c g) d).segment q).segCanonical
          = (d.segment q).segCanonical) ∧
      (∀ a ∈ l, a ≠ c → ((l.foldl (canonizeMember c g) d).segment a).segCanonical = false) ∧
      ((l.foldl (canonizeMember c g) d).segment c).segCanonical
        = (d.segment c).segCanonical := by
  intro l
  induction l with
  | nil =>
    intro d
    exact ⟨canonFrame_refl d, fun _ => rfl, fun _ _ => rfl,
      fun a ha => absurd ha (List.not_mem_nil a), rfl⟩
  | cons a l ih =>
    intro d
    obtain ⟨m1, m2, m3, m4, m5⟩ := canonizeMember_spec c g d a
    obtain ⟨h1, h2, h3, h4, h5⟩ := ih (canonizeMember c g d a)
    simp only [List.foldl_cons]
    refine ⟨canonFrame_trans m1 h1, fun q => (h2 q).trans (m2 q), ?_, ?_, ?_⟩
    · intro q hq
      have hqa : q ≠ a := fun h => hq (h ▸ List.mem_cons_self _ _)
      have hql : q ∉ l := fun h => hq (List.mem_cons_of_mem _ h)
      rw [h3 q hql, m3 q hqa]
    · intro m hm hmc
      by_cases hml : m ∈ l
      · exact h4 m hml hmc
      · have hma : m = a := by
          rcases List.mem_cons.mp hm with h | h
          · exact h
          · exact absurd h hml
        rw [h3 m hml, hma]
        exact m4 (hma ▸ hmc)
    · rw [h5]
      by_cases hca : c = a
      · have e1 : ((canonizeMember c g d a).segment c).segCanonical
            = ((canonizeMember c g d a).segment a).segCanonical := by rw [hca]
        have e2 : (d.segment c).segCanonical = (d.segment a).segCanonical := by rw [hca]
        rw [e1, e2]
        exact m5 hca.symm
      · exact m3 c hca

/-- The last step of a chunk is `setAxis` on the elected segment with `KbRealignate`. -/
theorem canonizeChain_axis_step (d : Db) (c : Nat)
    (hc : (d.segment c).segCanonical = true) :
    ∃ x, (if !(d.segment c).segAxisSet then
            (AutoSegment.toOptimalAxis d c KbFlags.realignatePropagate).2
          else AutoSegment.setAxis d c (d.segment c).axis KbFlags.realignatePropagate)
      = AutoSegment.setAxis d c x KbFlags.realignatePropagate := by
  split
  · exact toOptimalAxis_realignate d c _ hc rfl
  · exact ⟨_, rfl⟩

/-- What a chunk of `_canonize` does: only axes, canonical and weak-global flags change;
in the chain of the seed the elected segment alone carries the canonical flag, outside
the chain the canonical flags stay. -/
theorem canonizeChain_flags (d : Db) (s : Nat) :
    CanonFrame d (canonizeChain d s) ∧
    ((canonizeChain d s).segment (canonicalOf d s)).segCanonical = true ∧
    (∀ m ∈ d.chainOf s, m ≠ canonicalOf d s →
      ((canonizeChain d s).segment m).segCanonical = false) ∧
    (∀ q, q ∉ d.chainOf s →
      ((canonizeChain d s).segment q).segCanonical = (d.segment q).segCanonical) := by
  obtain ⟨h1, _, h3, h4, h5⟩ := canonizeMember_loop (canonicalOf d s) (isWeakGlobalOf d s)
    (s :: d.alignedsOf s)
    (d.modifySegment (canonicalOf d s) (fun seg => { seg with segCanonical := true }))
  have hflag : (((s :: d.alignedsOf s).foldl
      (canonizeMember (canonicalOf d s) (isWeakGlobalOf d s))
      (d.modifySegment (canonicalOf d s) (fun seg => { seg with segCanonical := true }))).segment
        (canonicalOf d s)).segCanonical = true := by
    rw [h5, modifySegment_segment, if_pos rfl]
  obtain ⟨x, hx⟩ := canonizeChain_axis_step _ _ hflag
  have hframe0 : CanonFrame d
      (d.modifySegment (canonicalOf d s) (fun seg => { seg with segCanonical := true })) := by
    refine ⟨rfl, fun q => ?_⟩
    rw [modifySegment_segment]
    split <;> rfl
  have hdef : canonizeChain d s = AutoSegment.setAxis
      ((s :: d.alignedsOf s).foldl (canonizeMember (canonicalOf d s) (isWeakGlobalOf d s))
        (d.modifySegment (canonicalOf d s) (fun seg => { seg with segCanonical := true })))
      (canonicalOf d s) x KbFlags.realignatePropagate := by
    rw [← hx]
    rfl
  have hax := setAxis_frame
      ((s :: d.alignedsOf s).foldl (canonizeMember (canonicalOf d s) (isWeakGlobalOf d s))
        (d.modifySegment (canonicalOf d s) (fun seg => { seg with segCanonical := true })))
      (canonicalOf d s) x KbFlags.realignatePropagate
  rw [hdef]
  refine ⟨canonFrame_trans (canonFrame_trans hframe0 h1) (canonFrame_of_axisFrame hax), ?_, ?_, ?_⟩
  · rw [axisFrame_canonical hax]
    exact hflag
  · intro m hm hmc
    rw [axisFrame_canonical hax]
    exact h4 m hm hmc
  · intro q hq
    rw [axisFrame_canonical hax, h3 q hq, modifySegment_segment, if_neg]
    intro hqc
    exact hq (hqc ▸ canonicalOf_mem d s)

/-- The example at work: `_canonize` from the seed 1 elects segment 0, takes the flag from
segment 1 (with the message that it is no longer the canonical one) and brings both on the
axis of segment 0; `_revalidateTopology` leaves the same flags and axes and records the
passes on net 5. -/
theorem canonize_example :
    ((staleCanonicalDb._canonize invalidatedSession).segment 0).segCanonical = true ∧
    ((staleCanonicalDb._canonize invalidatedSession).segment 1).segCanonical = false ∧
    ((staleCanonicalDb._canonize invalidatedSession).segment 0).axis = 100 ∧
    ((staleCanonicalDb._canonize invalidatedSession).segment 1).axis = 100 ∧
    (staleCanonicalDb._canonize invalidatedSession).cerr = [Diagnostic.noLongerCanonical 1] ∧
    ((staleCanonicalDb._revalidateTopology invalidatedSession KbFlags.realignateOnly).2.segment
      1).axis = 100 ∧
    (staleCanonicalDb._revalidateTopology invalidatedSession KbFlags.realignateOnly).2.events
      = [Event.updateNetTopology 5, Event.computeNetConstraints 5, Event.computeNetOptimals 5,
         Event.computeNetTerminals 5] ∧
    (staleCanonicalDb._revalidateTopology invalidatedSession KbFlags.realignateOnly).1.netRevalidateds
      = [5] := by
  decide

/-- The loop of `setAxis` touches segments only. -/
theorem setAxis_loop_rest (p : Nat) :
    ∀ (l : List Nat) (d : Db),
      (l.foldl (fun d q => AutoSegment._setAxis d q (d.segment p).axis) d).rest = d.rest := by
  intro l
  induction l with
  | nil => intro d; rfl
  | cons a l ih =>
    intro d
    simp only [List.foldl_cons]
    rw [ih]
    rfl

/-- The function `setAxis` touches segments only. -/
theorem setAxis_rest (d : Db) (p : Nat) (x : Int) (f : KbFlags) :
    (AutoSegment.setAxis d p x f).rest = d.rest := by
  unfold AutoSegment.setAxis
  split_ifs
  · rfl
  · rfl
  · rw [setAxis_loop_rest]
    rfl

/-- One turn of the flag loop touches segments and messages only. -/
theorem canonizeMember_rest (c : Nat) (g : Bool) (d : Db) (a : Nat) :
    (canonizeMember c g d a).rest = d.rest := by
  unfold canonizeMember
  simp only []
  split_ifs <;> rfl

/-- The flag loop touches segments and messages only. -/
theorem canonizeMember_loop_rest (c : Nat) (g : Bool) :
    ∀ (l : List Nat) (d : Db), (l.foldl (canonizeMember c g) d).rest = d.rest := by
  intro l
  induction l with
  | nil => intro d; rfl
  | cons a l ih =>
    intro d
    simp only [List.foldl_cons]
    rw [ih, canonizeMember_rest]

/-- A chunk of `_canonize` touches segments and messages only. -/
theorem canonizeChain_rest (d : Db) (s : Nat) : (canonizeChain d s).rest = d.rest := by
  unfold canonizeChain
  simp only []
  split
  · rcases toOptimalAxis_is_setAxis
      ((s :: d.alignedsOf s).foldl (canonizeMember (canonicalOf d s) (isWeakGlobalOf d s))
        (d.modifySegment (canonicalOf d s) (fun seg => { seg with segCanonical := true })))
      (canonicalOf d s) KbFlags.realignatePropagate with h | ⟨x, h⟩
    · rw [h, canonizeMember_loop_rest]
      rfl
    · rw [h, setAxis_rest, canonizeMember_loop_rest]
      rfl
  · rw [setAxis_rest, canonizeMember_loop_rest]
    rfl

/-- The loop of `_canonize` changes axes, canonical and weak-global flags and messages,
nothing else. -/
theorem canonize_loop_frames :
    ∀ (l : List Nat) (st : CanonizeState),
      CanonFrame st.db (l.foldl canonizeSeed st).db ∧
      (l.foldl canonizeSeed st).db.rest = st.db.rest := by
  intro l
  induction l with
  | nil => intro st; exact ⟨canonFrame_refl _, rfl⟩
  | cons s l ih =>
    intro st
    simp only [List.foldl_cons]
    obtain ⟨h1, h2⟩ := ih (canonizeSeed st s)
    have h3 : CanonFrame st.db (canonizeSeed st s).db ∧
        (canonizeSeed st s).db.rest = st.db.rest := by
      unfold canonizeSeed
      split
      · exact ⟨canonFrame_refl _, rfl⟩
      · exact ⟨(canonizeChain_flags st.db s).1, canonizeChain_rest st.db s⟩
    exact ⟨canonFrame_trans h3.1 h1, h2.trans h3.2⟩

/-- The function `_canonize` changes axes, canonical and weak-global flags and messages, nothing
else. -/
theorem canonize_frames (db : Db) (this : Session) :
    CanonFrame db (db._canonize this) ∧ (db._canonize this).rest = db.rest := by
  unfold Db._canonize
  split
  · exact ⟨canonFrame_refl _, rfl⟩
  · exact canonize_loop_frames this.segmentInvalidateds { db := db, exploredSegments := [] }

/-- The loop of `_revalidateTopology` on the canonical segments changes axes only. -/
theorem axis_loop_frames (axisFlags : KbFlags) :
    ∀ (l : List Nat) (d : Db),
      CanonFrame d (l.foldl (fun d p =>
        if (d.segment p).segCanonical then
          if !(d.segment p).segAxisSet then (AutoSegment.toOptimalAxis d p axisFlags).2
          else (AutoSegment.toConstraintAxis d p axisFlags).2
        else d) d) ∧
      (l.foldl (fun d p =>
        if (d.segment p).segCanonical then
          if !(d.segment p).segAxisSet then (AutoSegment.toOptimalAxis d p axisFlags).2
          else (AutoSegment.toConstraintAxis d p axisFlags).2
        else d) d).rest = d.rest := by
  intro l
  induction l with
  | nil => intro d; exact ⟨canonFrame_refl _, rfl⟩
  | cons p l ih =>
    intro d
    simp only [List.foldl_cons]
    have hstep : (if (d.segment p).segCanonical then
          if !(d.segment p).segAxisSet then (AutoSegment.toOptimalAxis d p axisFlags).2
          else (AutoSegment.toConstraintAxis d p axisFlags).2
        else d) = d ∨
        ∃ x, (if (d.segment p).segCanonical then
          if !(d.segment p).segAxisSet then (AutoSegment.toOptimalAxis d p axisFlags).2
          else (AutoSegment.toConstraintAxis d p axisFlags).2
        else d) = AutoSegment.setAxis d p x axisFlags := by
      split
      · split
        · exact toOptimalAxis_is_setAxis d p axisFlags
        · exact toConstraintAxis_is_setAxis d p axisFlags
      · exact Or.inl rfl
    rcases hstep with h | ⟨x, h⟩
    · rw [h]
      exact ih d
    · rw [h]
      obtain ⟨h1, h2⟩ := ih (AutoSegment.setAxis d p x axisFlags)
      exact ⟨canonFrame_trans (canonFrame_of_axisFrame (setAxis_frame d p x axisFlags)) h1,
        h2.trans (setAxis_rest d p x axisFlags)⟩

/-- The function `_revalidateTopology` changes axes, canonical and weak-global flags and messages,
and records the passes on the invalidated nets; nothing else. -/
theorem revalidateTopology_frames (db : Db) (this : Session) (axisFlags : KbFlags) :
    CanonFrame db (db._revalidateTopology this axisFlags).2 ∧
    (db._revalidateTopology this axisFlags).2.rest
      = ({ db with events := db.events ++ netEvents this } : Db).rest := by
  have h0 := canonize_frames ({ db with events := db.events ++ netEvents this } : Db) this
  obtain ⟨h1, h2⟩ := axis_loop_frames axisFlags this.segmentInvalidateds
    (({ db with events := db.events ++ netEvents this } : Db)._canonize this)
  exact ⟨canonFrame_trans h0.1 h1, h2.trans h0.2⟩

/-! ## The revalidation and destruction loops -/

/-- The function `AutoSegment::revalidate` on a segment that is not invalidated changes nothing; on
an invalidated one it changes that segment only, clears its invalidated flag and notifies
once. -/
theorem revalidate_spec (d : Db) (p : Nat) :
    (∀ q, q ≠ p → ((AutoSegment.revalidate d p).segment q) = d.segment q) ∧
    (((d.segment p).segInvalidated = false ∧ AutoSegment.revalidate d p = d) ∨
     ((d.segment p).segInvalidated = true ∧
      ∃ b, (AutoSegment.revalidate d p).events = d.events ++ [Event.revalidate p b])) := by
  unfold AutoSegment.revalidate
  simp only []
  cases hinv : (d.segment p).segInvalidated
  · simp
  · simp only [Bool.not_true, Bool.false_eq_true, if_false]
    constructor
    · intro q hq
      split_ifs <;> simp [Db.modifySegment, hq]
    · right
      refine ⟨by simp, ?_⟩
      split_ifs <;> exact ⟨_, rfl⟩

/-- The revalidation loop adds revalidation events only; every segment of the list that
was invalidated is among them. -/
theorem revalidate_loop :
    ∀ (l : List Nat) (d : Db),
      ∃ revs, (l.foldl AutoSegment.revalidate d).events = d.events ++ revs ∧
        (∀ e ∈ revs, e.isRevalidate = true) ∧
        (∀ q ∈ l, (d.segment q).segInvalidated = true → ∃ b, Event.revalidate q b ∈ revs) := by
  intro l
  induction l with
  | nil =>
    intro d
    exact ⟨[], by simp, fun e he => absurd he (List.not_mem_nil e),
      fun q hq => absurd hq (List.not_mem_nil q)⟩
  | cons a l ih =>
    intro d
    simp only [List.foldl_cons]
    obtain ⟨h1, h2⟩ := revalidate_spec d a
    obtain ⟨revs, hr1, hr2, hr3⟩ := ih (AutoSegment.revalidate d a)
    rcases h2 with ⟨hinv, heq⟩ | ⟨hinv, b, hev⟩
    · refine ⟨revs, ?_, hr2, ?_⟩
      · rw [hr1, heq]
      · intro q hq hqi
        rcases List.mem_cons.mp hq with h | h
        · rw [h, hinv] at hqi
          cases hqi
        · rw [heq] at hr3
          exact hr3 q h hqi
    · refine ⟨Event.revalidate a b :: revs, ?_, ?_, ?_⟩
      · rw [hr1, hev]
        simp
      · intro e he
        rcases List.mem_cons.mp he with h | h
        · rw [h]
          rfl
        · exact hr2 e h
      · intro q hq hqi
        by_cases hqa : q = a
        · exact ⟨b, hqa ▸ List.mem_cons_self _ _⟩
        · have hql : q ∈ l := by
            rcases List.mem_cons.mp hq with h | h
            · exact absurd h hqa
            · exact h
          obtain ⟨b', hb'⟩ := hr3 q hql (by rw [h1 q hqa]; exact hqi)
          exact ⟨b', List.mem_cons_of_mem _ hb'⟩

/-- One turn of the destruction loop adds the destruction of its segment, then of contacts
at most. -/
theorem destroyQueued_events (d : Db) (p : Nat) :
    ∃ dels, (destroyQueued d p).events = d.events ++ Event.destroySegment p :: dels ∧
      ∀ e ∈ dels, e.isDestroy = true := by
  unfold destroyQueued
  simp only []
  split_ifs
  · exact ⟨[Event.destroyContact (d.segment p).source,
        Event.destroyContact (d.segment p).target], by
      simp [AutoContact.destroy, AutoSegment.destroy, Db.modifyContact], by
      intro e he
      simp at he
      rcases he with h | h <;> rw [h] <;> rfl⟩
  · exact ⟨[Event.destroyContact (d.segment p).source], by
      simp [AutoContact.destroy, AutoSegment.destroy, Db.modifyContact], by
      intro e he
      simp at he
      rw [he]
      rfl⟩
  · exact ⟨[Event.destroyContact (d.segment p).target], by
      simp [AutoContact.destroy, AutoSegment.destroy, Db.modifyContact], by
      intro e he
      simp at he
      rw [he]
      rfl⟩
  · exact ⟨[], by
      simp [AutoSegment.destroy, Db.modifyContact], by
      intro e he
      exact absurd he (List.not_mem_nil e)⟩

/-- The destruction loop adds destruction events only; every segment of the list is among
them. -/
theorem destroy_loop :
    ∀ (l : List Nat) (d : Db),
      ∃ dels, (l.foldl destroyQueued d).events = d.events ++ dels ∧
        (∀ e ∈ dels, e.isDestroy = true) ∧
        (∀ q ∈ l, Event.destroySegment q ∈ dels) ∧
        (l = [] → dels = []) := by
  intro l
  induction l with
  | nil =>
    intro d
    exact ⟨[], by simp, fun e he => absurd he (List.not_mem_nil e),
      fun q hq => absurd hq (List.not_mem_nil q), fun _ => rfl⟩
  | cons a l ih =>
    intro d
    simp only [List.foldl_cons]
    obtain ⟨dels1, h1, h2⟩ := destroyQueued_events d a
    obtain ⟨dels, h3, h4, h5, _⟩ := ih (destroyQueued d a)
    refine ⟨Event.destroySegment a :: dels1 ++ dels, ?_, ?_, ?_, fun h => by cases h⟩
    · rw [h3, h1]
      simp
    · intro e he
      rcases List.mem_append.mp he with h | h
      · rcases List.mem_cons.mp h with h | h
        · rw [h]
          rfl
        · exact h2 e h
      · exact h4 e h
    · intro q hq
      rcases List.mem_cons.mp hq with h | h
      · rw [h]
        exact List.mem_append_left _ (List.mem_cons_self _ _)
      · exact List.mem_append_right _ (h5 q h)

/-! ## `Session::_revalidate` -/

/-- On the collections of the session, `Db._revalidate` is `Session._revalidate`. -/
theorem revalidate_collections (db : Db) (this : Session) (axisFlags : KbFlags) :
    (db._revalidate this axisFlags).1 = this._revalidate.1 ∧
    (db._revalidate this axisFlags).2.1 = this._revalidate.2 := by
  unfold Db._revalidate Session._revalidate Db._revalidateTopology
  by_cases h : this.netInvalidateds = []
  · simp [h]
  · simp [h]

/-- The database when the loops of `_revalidate` start: the invalidated flags are those
before the call, the events are those of the passes on the nets, if any. -/
theorem revalidate_topology_part (db : Db) (this : Session) (axisFlags : KbFlags) :
    (∀ q, ((if this.netInvalidateds ≠ [] then db._revalidateTopology this axisFlags
            else (this, db)).2.segment q).segInvalidated = (db.segment q).segInvalidated) ∧
    (if this.netInvalidateds ≠ [] then db._revalidateTopology this axisFlags
      else (this, db)).2.events
      = db.events ++ (if this.netInvalidateds ≠ [] then netEvents this else []) ∧
    (if this.netInvalidateds ≠ [] then db._revalidateTopology this axisFlags
      else (this, db)).1.segmentInvalidateds = this.segmentInvalidateds ∧
    (if this.netInvalidateds ≠ [] then db._revalidateTopology this axisFlags
      else (this, db)).1.destroyedSegments = this.destroyedSegments ∧
    (if this.netInvalidateds ≠ [] then db._revalidateTopology this axisFlags
      else (this, db)).1.autoContacts = this.autoContacts := by
  by_cases h : this.netInvalidateds ≠ []
  · simp only [if_pos h]
    obtain ⟨h1, h2⟩ := revalidateTopology_frames db this axisFlags
    refine ⟨fun q => ?_, ?_, rfl, rfl, rfl⟩
    · have h3 := congrArg AutoSegment.segInvalidated (h1.2 q)
      exact h3
    · have h3 := congrArg Db.events h2
      exact h3
  · rw [if_neg h, if_neg h]
    exact ⟨fun _ => rfl, by simp, rfl, rfl, rfl⟩

/-- The events of the passes on the nets are no revalidation and no destruction. -/
theorem netEvents_kind (this : Session) :
    ∀ e ∈ netEvents this, e.isDestroy = false ∧ e.isRevalidate = false := by
  intro e he
  unfold netEvents at he
  simp only [List.mem_flatten, List.mem_map] at he
  obtain ⟨l, ⟨net, _, hl⟩, hel⟩ := he
  rw [← hl] at hel
  simp only [List.mem_cons, List.mem_singleton, List.not_mem_nil, or_false] at hel
  rcases hel with h | h | h | h <;> rw [h] <;> exact ⟨rfl, rfl⟩

/-- C13. `Session::destroyRequest(s)` only inserts `s` in the destroy queue of the session:
the call acts on the session alone, nothing is destroyed. In `Session::_revalidate`, the
events are, after those of the topology and geometry passes, first the revalidation of
the invalidated segments, queued ones included (every segment of the list that carries the
invalidated flag is revalidated), then the destructions, of every queued segment; when it
returns, the destroy queue and the invalidated list are empty and the revalidated list is
the invalidated list without the queued segments, in the same order. -/
theorem revalidate_destroys_queued_last (db : Db) (this : Session) (axisFlags : KbFlags) :
    (∀ (w : World) (s : Session) (p : Nat), w.session = some s →
      (Session.static w (StaticOp.destroyRequest p)).map
          (fun r => (r.1, r.2.session, r.2.trace))
        = Except.ok (Answer.unit,
            some { s with destroyedSegments := setInsert s.destroyedSegments p }, w.trace)) ∧
    (db._revalidate this axisFlags).2.1.destroyedSegments = [] ∧
    (db._revalidate this axisFlags).2.1.segmentInvalidateds = [] ∧
    (db._revalidate this axisFlags).2.1.segmentRevalidateds =
      this.segmentInvalidateds.filter (fun x => decide (x ∉ this.destroyedSegments)) ∧
    ∃ before revs dels,
      (db._revalidate this axisFlags).2.2.events = db.events ++ before ++ revs ++ dels ∧
      (∀ e ∈ before, e.isDestroy = false ∧ e.isRevalidate = false) ∧
      (∀ e ∈ revs, e.isRevalidate = true) ∧
      (∀ e ∈ dels, e.isDestroy = true) ∧
      (∀ q ∈ this.segmentInvalidateds, (db.segment q).segInvalidated = true →
        ∃ b, Event.revalidate q b ∈ revs) ∧
      (∀ q ∈ this.destroyedSegments, Event.destroySegment q ∈ dels) := by
  obtain ⟨t1, t2, t3, t4, t5⟩ := revalidate_topology_part db this axisFlags
  refine ⟨?_, rfl, rfl, ?_, ?_⟩
  · intro w s p hs
    simp [Session.static, Session.get, hs, StaticOp.body, Except.map]
  · show List.filter _ _ = _
    rw [t3, t4]
  · obtain ⟨revs, hr1, hr2, hr3⟩ := revalidate_loop
      (if this.netInvalidateds ≠ [] then db._revalidateTopology this axisFlags
        else (this, db)).1.segmentInvalidateds
      { (if this.netInvalidateds ≠ [] then db._revalidateTopology this axisFlags
          else (this, db)).2 with
        events := (if this.netInvalidateds ≠ [] then db._revalidateTopology this axisFlags
            else (this, db)).2.events
          ++ (if this.netInvalidateds ≠ [] then db._revalidateTopology this axisFlags
            else (this, db)).1.autoContacts.map Event.updateGeometry }
    obtain ⟨dels, hd1, hd2, hd3, _⟩ := destroy_loop
      (if this.netInvalidateds ≠ [] then db._revalidateTopology this axisFlags
        else (this, db)).1.destroyedSegments
      ((if this.netInvalidateds ≠ [] then db._revalidateTopology this axisFlags
          else (this, db)).1.segmentInvalidateds.foldl AutoSegment.revalidate
        { (if this.netInvalidateds ≠ [] then db._revalidateTopology this axisFlags
            else (this, db)).2 with
          events := (if this.netInvalidateds ≠ [] then db._revalidateTopology this axisFlags
              else (this, db)).2.events
            ++ (if this.netInvalidateds ≠ [] then db._revalidateTopology this axisFlags
              else (this, db)).1.autoContacts.map Event.updateGeometry })
    refine ⟨(if this.netInvalidateds ≠ [] then netEvents this else [])
        ++ this.autoContacts.map Event.updateGeometry, revs, dels, ?_, ?_, hr2, hd2, ?_, ?_⟩
    · show (List.foldl destroyQueued _ _).events = _
      rw [hd1, hr1]
      simp only [t2, t5, List.append_assoc]
    · intro e he
      rcases List.mem_append.mp he with h | h
      · split at h
        · exact netEvents_kind this e h
        · exact absurd h (List.not_mem_nil e)
      · obtain ⟨c, _, hc⟩ := List.mem_map.mp h
        rw [← hc]
        exact ⟨rfl, rfl⟩
    · intro q hq hqi
      exact hr3 q (t3 ▸ hq) (by rw [← t1 q] at hqi; exact hqi)
    · intro q hq
      exact hd3 q (t4 ▸ hq)

/-- After `_revalidate` the pending collections of the session are empty. -/
theorem revalidate_leaves_nothing_pending (db : Db) (this : Session) (axisFlags : KbFlags) :
    (db._revalidate this axisFlags).2.1.autoContacts = [] ∧
    (db._revalidate this axisFlags).2.1.segmentInvalidateds = [] ∧
    (db._revalidate this axisFlags).2.1.netInvalidateds = [] ∧
    (db._revalidate this axisFlags).2.1.destroyedSegments = [] := by
  refine ⟨rfl, rfl, ?_, rfl⟩
  show (if this.netInvalidateds ≠ [] then db._revalidateTopology this axisFlags
    else (this, db)).1.netInvalidateds = []
  by_cases h : this.netInvalidateds = []
  · simp [h]
  · simp [h, Db._revalidateTopology, Session._revalidateTopology]

/-- The function `_revalidate` on a session with nothing pending: nothing is processed, the database
is left as it is, and the session too but for the revalidated list, which is emptied. -/
theorem revalidate_nothing_pending (db : Db) (this : Session) (axisFlags : KbFlags)
    (h1 : this.autoContacts = []) (h2 : this.segmentInvalidateds = [])
    (h3 : this.netInvalidateds = []) (h4 : this.destroyedSegments = []) :
    (db._revalidate this axisFlags).1 = 0 ∧
    (db._revalidate this axisFlags).2.2 = db ∧
    (db._revalidate this axisFlags).2.1 = { this with segmentRevalidateds := [] } := by
  cases db
  cases this
  simp only at h1 h2 h3 h4
  subst h1 h2 h3 h4
  simp [Db._revalidate]

/-- C14 (counterexample). Segment 1 is pending: the first `revalidate()` processes it and
leaves it in the revalidated list; the second one, with no mutation in between, returns 0
and empties the revalidated list: that collection is not as the first call left it. -/
theorem revalidate_twice_empties_revalidated :
    (match Session.static pendingSegmentWorld StaticOp.revalidate with
     | Except.ok (a1, w1) =>
       (match Session.static w1 StaticOp.revalidate with
        | Except.ok (a2, w2) =>
          some (a1, w1.session.map (fun s => s.segmentRevalidateds),
                a2, w2.session.map (fun s => s.segmentRevalidateds))
        | Except.error _ => none)
     | Except.error _ => none)
      = some (Answer.size 1, some [1], Answer.size 0, some []) ∧
    (pendingSegmentDb._revalidate pendingSegmentSession KbFlags.realignateOnly).1 = 1 ∧
    (pendingSegmentDb._revalidate pendingSegmentSession
      KbFlags.realignateOnly).2.1.segmentRevalidateds = [1] ∧
    ((pendingSegmentDb._revalidate pendingSegmentSession KbFlags.realignateOnly).2.2._revalidate
      (pendingSegmentDb._revalidate pendingSegmentSession KbFlags.realignateOnly).2.1
      KbFlags.realignateOnly).2.1.segmentRevalidateds = [] := by
  decide

/-- C14 (amended). When `_revalidate` is run twice in a row, the second run processes
nothing and returns 0; it leaves the database as the first run left it, and the session
too (invalidated contacts, segments and nets and the destroy queue are empty, the
revalidated nets are kept) except for the list of revalidated segments, which it
empties. -/
theorem revalidate_twice_processes_nothing (db : Db) (this : Session) (axisFlags : KbFlags) :
    ((db._revalidate this axisFlags).2.2._revalidate (db._revalidate this axisFlags).2.1
      axisFlags).1 = 0 ∧
    ((db._revalidate this axisFlags).2.2._revalidate (db._revalidate this axisFlags).2.1
      axisFlags).2.2 = (db._revalidate this axisFlags).2.2 ∧
    ((db._revalidate this axisFlags).2.2._revalidate (db._revalidate this axisFlags).2.1
      axisFlags).2.1
      = { (db._revalidate this axisFlags).2.1 with segmentRevalidateds := [] } ∧
    (db._revalidate this axisFlags).2.1.autoContacts = [] ∧
    (db._revalidate this axisFlags).2.1.segmentInvalidateds = [] ∧
    (db._revalidate this axisFlags).2.1.netInvalidateds = [] ∧
    (db._revalidate this axisFlags).2.1.destroyedSegments = [] := by
  obtain ⟨h1, h2, h3, h4⟩ := revalidate_leaves_nothing_pending db this axisFlags
  obtain ⟨k1, k2, k3⟩ := revalidate_nothing_pending (db._revalidate this axisFlags).2.2
    (db._revalidate this axisFlags).2.1 axisFlags h1 h2 h3 h4
  exact ⟨k1, k2, k3, h1, h2, h3, h4⟩

/-- C24 (counterexample). A Kite session with a sort event pending on a track is closed:
the check of the pending track events is the first call made, before the revalidation pass
of the close, and that pass is the Katabatic one. -/
theorem kite_close_checks_before_revalidation :
    (match Session.close Kite.pendingSortWorld with
     | Except.ok w => some (w.session, w.trace)
     | Except.error _ => none)
      = some (none, [Call.isEmpty false, Call.revalidate 1 0, Call.updateDensity 1,
                     Call.updateSessionClose, Call.deleteSession 1]) := by
  decide

/-- C24 (amended). When a Kite session `s` is closed, the order is: the check that the
pending insert, remove and sort track events are empty, made on the events as they are
before any revalidation; then the revalidation pass of Katabatic (with the density update)
while the engine state is at most `EngineActive`; then the release. -/
theorem kite_close_checks_then_revalidates (w : World) (s : Session)
    (h : w.session = some s) (hk : s.isKite = true) :
    ∃ w1, Session.close w = Except.ok w1 ∧ w1.session = none ∧
      w1.trace = w.trace ++ [Call.isEmpty s._isEmpty]
        ++ (if w.atMostActive s.katabatic then
              [Call.revalidate s.katabatic s._revalidate.1]
                ++ (if w.hasGCellGrid s.katabatic then [Call.updateDensity s.katabatic] else [])
            else [])
        ++ [Call.updateSessionClose, Call.deleteSession s.katabatic] := by
  refine ⟨_, by unfold Session.close; rw [h], rfl, ?_⟩
  cases ha : w.atMostActive s.katabatic <;> cases hg : w.hasGCellGrid s.katabatic <;>
    simp [Session._preDestroy, Session.katabaticPreDestroy, hk, ha, hg]

/-- C24 (amended) on the Kite session with a pending sort event. -/
theorem kite_close_checks_then_revalidates_witness :
    Kite.pendingSortWorld.session
      = some { Session.create true 1 with sortEvents := [3] } ∧
    ({ Session.create true 1 with sortEvents := [3] } : Session).isKite = true ∧
    ∃ w1, Session.close Kite.pendingSortWorld = Except.ok w1 ∧ w1.session = none ∧
      w1.trace = Kite.pendingSortWorld.trace
        ++ [Call.isEmpty ({ Session.create true 1 with sortEvents := [3] } : Session)._isEmpty]
        ++ (if Kite.pendingSortWorld.atMostActive
                ({ Session.create true 1 with sortEvents := [3] } : Session).katabatic then
              [Call.revalidate ({ Session.create true 1 with sortEvents := [3] } : Session).katabatic
                ({ Session.create true 1 with sortEvents := [3] } : Session)._revalidate.1]
                ++ (if Kite.pendingSortWorld.hasGCellGrid
                      ({ Session.create true 1 with sortEvents := [3] } : Session).katabatic then
                      [Call.updateDensity
                        ({ Session.create true 1 with sortEvents := [3] } : Session).katabatic]
                    else [])
            else [])
        ++ [Call.updateSessionClose,
            Call.deleteSession
              ({ Session.create true 1 with sortEvents := [3] } : Session).katabatic] :=
  ⟨rfl, rfl, kite_close_checks_then_revalidates Kite.pendingSortWorld _ rfl rfl⟩

/-! ## Canonisation inside `_revalidate` -/

/-- The axis of a canonical segment after `setAxis` is the axis given. -/
theorem setAxis_own_axis (d : Db) (p : Nat) (x : Int) (f : KbFlags)
    (hc : (d.segment p).segCanonical = true) :
    ((AutoSegment.setAxis d p x f).segment p).axis = x := by
  by_cases h : x ≠ (d.segment p).axis ∨ f.realignate = true
  · exact setAxis_gives_axis d p x f hc h p (List.mem_cons_self _ _)
  · have h2 : x = (d.segment p).axis := by
      by_contra h3
      exact h (Or.inl h3)
    have h3 : f.realignate = false := by
      cases hr : f.realignate
      · rfl
      · exact absurd (Or.inr hr) h
    rw [h2, setAxis_same_axis d p f h3]

/-- C26. On a canonical segment that is no dogleg and whose constraint interval
[cmin, cmax] is not empty: after `toConstraintAxis` the axis is the old axis clamped to
[cmin, cmax]; after `toOptimalAxis` the axis lies in [cmin, cmax], whatever the optimal
interval; each of the two returns true exactly when the axis of the segment has changed.
On a segment that is not canonical both return false and change nothing; on an empty
constraint interval `toConstraintAxis` returns false and changes nothing. -/
theorem axis_functions_stay_in_constraints (d : Db) (p : Nat) (f : KbFlags) :
    ((d.segment p).segCanonical = true → (d.segment p).segDogleg = false →
      (d.segment p).constraintMin ≤ (d.segment p).constraintMax →
      (((AutoSegment.toConstraintAxis d p f).2.segment p).axis
          = max (d.segment p).constraintMin (min (d.segment p).axis (d.segment p).constraintMax)) ∧
      ((d.segment p).constraintMin ≤ ((AutoSegment.toOptimalAxis d p f).2.segment p).axis ∧
        ((AutoSegment.toOptimalAxis d p f).2.segment p).axis ≤ (d.segment p).constraintMax) ∧
      ((AutoSegment.toConstraintAxis d p f).1 = true ↔
        ((AutoSegment.toConstraintAxis d p f).2.segment p).axis ≠ (d.segment p).axis) ∧
      ((AutoSegment.toOptimalAxis d p f).1 = true ↔
        ((AutoSegment.toOptimalAxis d p f).2.segment p).axis ≠ (d.segment p).axis)) ∧
    ((d.segment p).segCanonical = false →
      AutoSegment.toConstraintAxis d p f = (false, d) ∧
      AutoSegment.toOptimalAxis d p f = (false, d)) ∧
    ((d.segment p).constraintMin > (d.segment p).constraintMax →
      AutoSegment.toConstraintAxis d p f = (false, d)) := by
  refine ⟨?_, ?_, ?_⟩
  · intro hc hd hle
    have hc' : ¬ (d.segment p).constraintMin > (d.segment p).constraintMax := not_lt.mpr hle
    refine ⟨?_, ?_, ?_, ?_⟩
    · unfold AutoSegment.toConstraintAxis
      simp only [hc, hd, Bool.not_true, Bool.false_eq_true, if_false, if_neg hc', sub_zero,
        add_zero]
      split_ifs with h1 h2
      · rw [setAxis_own_axis d p _ f hc]
        rw [min_eq_left (le_of_lt (lt_of_lt_of_le h1 hle)), max_eq_left (le_of_lt h1)]
      · rw [setAxis_own_axis d p _ f hc]
        rw [min_eq_right (le_of_lt h2), max_eq_right hle]
      · rw [min_eq_left (not_lt.mp h2), max_eq_right (not_lt.mp h1)]
    · unfold AutoSegment.toOptimalAxis
      simp only [hc, Bool.not_true, Bool.false_eq_true, if_false]
      split_ifs with h1 h2 h3
      · rw [setAxis_own_axis d p _ f hc]
        exact ⟨le_max_right _ _, max_le (le_trans (min_le_right _ _) le_rfl) hle⟩
      · rw [setAxis_own_axis d p _ f hc]
        exact ⟨le_min (le_max_right _ _) hle, min_le_right _ _⟩
      · rw [setAxis_own_axis d p _ f hc]
        exact ⟨le_trans (le_max_right _ _) (not_lt.mp h1),
          le_trans (not_lt.mp h2) (min_le_right _ _)⟩
      · exact ⟨le_trans (le_max_right _ _) (not_lt.mp h1),
          le_trans (not_lt.mp h2) (min_le_right _ _)⟩
    · unfold AutoSegment.toConstraintAxis
      simp only [hc, hd, Bool.not_true, Bool.false_eq_true, if_false, if_neg hc', sub_zero,
        add_zero]
      split_ifs with h1 h2
      · rw [setAxis_own_axis d p _ f hc]
        simp only [true_iff]
        exact ne_of_gt h1
      · rw [setAxis_own_axis d p _ f hc]
        simp only [true_iff]
        exact ne_of_lt h2
      · simp
    · unfold AutoSegment.toOptimalAxis
      simp only [hc, Bool.not_true, Bool.false_eq_true, if_false]
      split_ifs with h1 h2 h3
      · rw [setAxis_own_axis d p _ f hc]
        simp only [true_iff]
        exact ne_of_gt h1
      · rw [setAxis_own_axis d p _ f hc]
        simp only [true_iff]
        exact ne_of_lt h2
      · rw [setAxis_own_axis d p _ f hc]
        simp
      · simp
  · intro hc
    unfold AutoSegment.toConstraintAxis AutoSegment.toOptimalAxis
    simp [hc]
  · intro hgt
    unfold AutoSegment.toConstraintAxis
    simp only [if_pos hgt]
    split_ifs <;> rfl

/-- C26 on a canonical segment on axis 5 with constraints [10, 20]: both functions bring it
to axis 10 and return true. -/
theorem axis_functions_stay_in_constraints_witness :
    (constrainedDb.segment 0).segCanonical = true ∧
    (constrainedDb.segment 0).segDogleg = false ∧
    (constrainedDb.segment 0).constraintMin ≤ (constrainedDb.segment 0).constraintMax ∧
    ((AutoSegment.toConstraintAxis constrainedDb 0 KbFlags.none).2.segment 0).axis
      = max (constrainedDb.segment 0).constraintMin
          (min (constrainedDb.segment 0).axis (constrainedDb.segment 0).constraintMax) ∧
    ((constrainedDb.segment 0).constraintMin
        ≤ ((AutoSegment.toOptimalAxis constrainedDb 0 KbFlags.none).2.segment 0).axis ∧
      ((AutoSegment.toOptimalAxis constrainedDb 0 KbFlags.none).2.segment 0).axis
        ≤ (constrainedDb.segment 0).constraintMax) ∧
    ((AutoSegment.toConstraintAxis constrainedDb 0 KbFlags.none).1 = true ↔
      ((AutoSegment.toConstraintAxis constrainedDb 0 KbFlags.none).2.segment 0).axis
        ≠ (constrainedDb.segment 0).axis) ∧
    ((AutoSegment.toOptimalAxis constrainedDb 0 KbFlags.none).1 = true ↔
      ((AutoSegment.toOptimalAxis constrainedDb 0 KbFlags.none).2.segment 0).axis
        ≠ (constrainedDb.segment 0).axis) :=
  ⟨rfl, rfl, by decide,
   (axis_functions_stay_in_constraints constrainedDb 0 KbFlags.none).1 rfl rfl (by decide)⟩

/-! ## Reduce and raise -/

/-- A segment that can be reduced fails the length test of `mustRaise`. -/
theorem canReduce_not_raiseCondition (d : Db) (p : Nat)
    (h : AutoSegment.canReduce d p = true) : AutoSegment.raiseCondition d p = false := by
  unfold AutoSegment.canReduce at h
  unfold AutoSegment.raiseCondition
  simp only [] at h ⊢
  split_ifs at h ⊢ <;> simp_all

/-- The length test of `mustRaise` after `incReduceds`. -/
theorem incReduceds_raiseCondition (d : Db) (a q : Nat) :
    AutoSegment.raiseCondition (AutoSegment.incReduceds d a) q
      = AutoSegment.raiseCondition d q := by
  unfold AutoSegment.raiseCondition AutoSegment.incReduceds Db.modifySegment
    AutoSegment.isSpinBottom AutoSegment.isSpinTop
  by_cases h : q = a <;> simp [h]

/-- The length test of `mustRaise` after `decReduceds`. -/
theorem decReduceds_raiseCondition (d : Db) (a q : Nat) :
    AutoSegment.raiseCondition (AutoSegment.decReduceds d a) q
      = AutoSegment.raiseCondition d q := by
  unfold AutoSegment.raiseCondition AutoSegment.decReduceds Db.modifySegment
    AutoSegment.isSpinBottom AutoSegment.isSpinTop
  by_cases h : q = a <;> simp [h]

/-- The length test of `mustRaise` after a change of `SegIsReduced`. -/
theorem setReduced_raiseCondition (d : Db) (a q : Nat) (b : Bool) :
    AutoSegment.raiseCondition
        (d.modifySegment a (fun seg => { seg with segIsReduced := b })) q
      = AutoSegment.raiseCondition d q := by
  unfold AutoSegment.raiseCondition Db.modifySegment
    AutoSegment.isSpinBottom AutoSegment.isSpinTop
  by_cases h : q = a <;> simp [h]

/-- The function `reduce` leaves the length test of `mustRaise` of every segment. -/
theorem reduce_raiseCondition (d : Db) (p q : Nat) :
    AutoSegment.raiseCondition (AutoSegment.reduce d p).2 q
      = AutoSegment.raiseCondition d q := by
  unfold AutoSegment.reduce
  split_ifs
  · rfl
  · simp only [incReduceds_raiseCondition, setReduced_raiseCondition]

/-- The function `raise` leaves the length test of `mustRaise` of every segment. -/
theorem raise_raiseCondition (d : Db) (p q : Nat) :
    AutoSegment.raiseCondition (AutoSegment.raise d p).2 q
      = AutoSegment.raiseCondition d q := by
  unfold AutoSegment.raise
  split_ifs
  · rfl
  · simp only [decReduceds_raiseCondition, setReduced_raiseCondition]

/-- A segment that must be raised passes the length test. -/
theorem mustRaise_raiseCondition (d : Db) (p : Nat)
    (h : AutoSegment.mustRaise d p = true) : AutoSegment.raiseCondition d p = true := by
  unfold AutoSegment.mustRaise at h
  split_ifs at h
  exact h

/-- One turn of the reduce and raise loop: the length tests stay, a segment is reduced only
if it fails the test and raised only if it passes it. -/
theorem reduceOrRaise_invariant (hasTrack : Nat → Bool) (db : Db)
    (st : Db × List Kite.Step) (p : Nat)
    (h1 : ∀ q, AutoSegment.raiseCondition st.1 q = AutoSegment.raiseCondition db q)
    (h2 : ∀ q, Kite.Step.reduce q ∈ st.2 → AutoSegment.raiseCondition db q = false)
    (h3 : ∀ q, Kite.Step.raise q ∈ st.2 → AutoSegment.raiseCondition db q = true) :
    (∀ q, AutoSegment.raiseCondition (Kite.reduceOrRaise hasTrack st p).1 q
        = AutoSegment.raiseCondition db q) ∧
    (∀ q, Kite.Step.reduce q ∈ (Kite.reduceOrRaise hasTrack st p).2 →
        AutoSegment.raiseCondition db q = false) ∧
    (∀ q, Kite.Step.raise q ∈ (Kite.reduceOrRaise hasTrack st p).2 →
        AutoSegment.raiseCondition db q = true) := by
  have key : ∀ st1 : Db × List Kite.Step,
      (∀ q, AutoSegment.raiseCondition st1.1 q = AutoSegment.raiseCondition db q) →
      (∀ q, Kite.Step.reduce q ∈ st1.2 → AutoSegment.raiseCondition db q = false) →
      (∀ q, Kite.Step.raise q ∈ st1.2 → AutoSegment.raiseCondition db q = true) →
      (∀ q, AutoSegment.raiseCondition
          (if AutoSegment.mustRaise st1.1 p = true then
            ((AutoSegment.raise st1.1 p).2, st1.2 ++ [Kite.Step.raise p, Kite.Step.reschedule p])
          else st1).1 q = AutoSegment.raiseCondition db q) ∧
      (∀ q, Kite.Step.reduce q ∈
          (if AutoSegment.mustRaise st1.1 p = true then
            ((AutoSegment.raise st1.1 p).2, st1.2 ++ [Kite.Step.raise p, Kite.Step.reschedule p])
          else st1).2 → AutoSegment.raiseCondition db q = false) ∧
      (∀ q, Kite.Step.raise q ∈
          (if AutoSegment.mustRaise st1.1 p = true then
            ((AutoSegment.raise st1.1 p).2, st1.2 ++ [Kite.Step.raise p, Kite.Step.reschedule p])
          else st1).2 → AutoSegment.raiseCondition db q = true) := by
    intro st1 k1 k2 k3
    by_cases hm : AutoSegment.mustRaise st1.1 p = true
    · simp only [if_pos hm]
      refine ⟨fun q => ?_, fun q hq => ?_, fun q hq => ?_⟩
      · rw [raise_raiseCondition]
        exact k1 q
      · simp only [List.mem_append, List.mem_cons, List.mem_singleton, List.not_mem_nil,
          or_false, reduceCtorEq] at hq
        exact k2 q hq
      · simp only [List.mem_append, List.mem_cons, List.mem_singleton, List.not_mem_nil,
          or_false, reduceCtorEq, Kite.Step.raise.injEq] at hq
        rcases hq with hq | hq
        · exact k3 q hq
        · rw [hq, ← k1 p]
          exact mustRaise_raiseCondition _ _ hm
    · simp only [if_neg hm]
      exact ⟨k1, k2, k3⟩
  unfold Kite.reduceOrRaise
  simp only []
  apply key
  · intro q
    by_cases hc : AutoSegment.canReduce st.1 p = true
    · rw [if_pos hc]
      show AutoSegment.raiseCondition (AutoSegment.reduce st.1 p).2 q = _
      rw [reduce_raiseCondition]
      exact h1 q
    · rw [if_neg hc]
      exact h1 q
  · intro q hq
    by_cases hc : AutoSegment.canReduce st.1 p = true
    · rw [if_pos hc] at hq
      have hq' : Kite.Step.reduce q ∈ st.2 ∨ q = p := by
        simp only [List.mem_append, List.mem_singleton, Kite.Step.reduce.injEq] at hq
        rcases hq with (hq | hq) | hq
        · exact Or.inl hq
        · exact Or.inr hq
        · split_ifs at hq <;> simp at hq
      rcases hq' with hq' | hq'
      · exact h2 q hq'
      · rw [hq', ← h1 p]
        exact canReduce_not_raiseCondition _ _ hc
    · rw [if_neg hc] at hq
      exact h2 q hq
  · intro q hq
    by_cases hc : AutoSegment.canReduce st.1 p = true
    · rw [if_pos hc] at hq
      have hq' : Kite.Step.raise q ∈ st.2 := by
        simp only [List.mem_append, List.mem_singleton, reduceCtorEq, or_false] at hq
        rcases hq with hq | hq
        · exact hq
        · split_ifs at hq <;> simp at hq
      exact h3 q hq'
    · rw [if_neg hc] at hq
      exact h3 q hq

/-- The reduce and raise loop from any state: the invariant of one turn holds at the end. -/
theorem reduceRaise_fold (hasTrack : Nat → Bool) (db : Db) :
    ∀ (l : List Nat) (st : Db × List Kite.Step),
      (∀ q, AutoSegment.raiseCondition st.1 q = AutoSegment.raiseCondition db q) →
      (∀ q, Kite.Step.reduce q ∈ st.2 → AutoSegment.raiseCondition db q = false) →
      (∀ q, Kite.Step.raise q ∈ st.2 → AutoSegment.raiseCondition db q = true) →
      (∀ q, Kite.Step.reduce q ∈ (l.foldl (Kite.reduceOrRaise hasTrack) st).2 →
          AutoSegment.raiseCondition db q = false) ∧
      (∀ q, Kite.Step.raise q ∈ (l.foldl (Kite.reduceOrRaise hasTrack) st).2 →
          AutoSegment.raiseCondition db q = true) := by
  intro l
  induction l with
  | nil => intro st _ h2 h3; exact ⟨h2, h3⟩
  | cons a l ih =>
    intro st h1 h2 h3
    simp only [List.foldl_cons]
    obtain ⟨k1, k2, k3⟩ := reduceOrRaise_invariant hasTrack db st a h1 h2 h3
    exact ih _ k1 k2 k3

/-- C28. For no state of a segment are `canReduce()` and `mustRaise()` both true; after a
`reduce()` that succeeded, `mustRaise()` is false on the segment; and in the loop of
`Kite::Session::_revalidate` that reduces and raises the revalidated segments, no segment
is both reduced and raised, whatever the list of revalidated segments (with repetitions or
not) and the database. -/
theorem canReduce_excludes_mustRaise (db : Db) (p : Nat) (hasTrack : Nat → Bool)
    (revalidateds : List Nat) :
    ¬ (AutoSegment.canReduce db p = true ∧ AutoSegment.mustRaise db p = true) ∧
    ((AutoSegment.reduce db p).1 = true →
      ((AutoSegment.reduce db p).2.segment p).segIsReduced = true ∧
      AutoSegment.mustRaise (AutoSegment.reduce db p).2 p = false) ∧
    (∀ q, Kite.Step.reduce q ∈ (Kite.Session.reduceRaiseLoop hasTrack db revalidateds).2 →
      Kite.Step.raise q ∉ (Kite.Session.reduceRaiseLoop hasTrack db revalidateds).2) := by
  refine ⟨?_, ?_, ?_⟩
  · rintro ⟨hc, hm⟩
    have h1 := canReduce_not_raiseCondition db p hc
    have h2 := mustRaise_raiseCondition db p hm
    rw [h1] at h2
    cases h2
  · intro hr
    have hc : AutoSegment.canReduce db p = true := by
      unfold AutoSegment.reduce at hr
      split_ifs at hr with h
      simpa using h
    constructor
    · unfold AutoSegment.reduce
      simp only [hc, Bool.not_true, Bool.false_eq_true, if_false]
      unfold AutoSegment.incReduceds Db.modifySegment
      simp only []
      split_ifs <;> simp
    · unfold AutoSegment.mustRaise
      rw [reduce_raiseCondition, canReduce_not_raiseCondition db p hc]
      split_ifs <;> rfl
  · intro q hq hr
    obtain ⟨k2, k3⟩ := reduceRaise_fold hasTrack db revalidateds (db, [])
      (fun _ => rfl) (fun q h => absurd h (List.not_mem_nil _))
      (fun q h => absurd h (List.not_mem_nil _))
    have h1 := k2 q hq
    have h2 := k3 q hr
    rw [h1] at h2
    cases h2

/-- C28 on a spin-top segment of length 0 at depth 1, revalidated twice in the pass: it can
be reduced, `reduce()` succeeds and sets `SegIsReduced`, the loop reduces it (twice) and
does not raise it. -/
theorem canReduce_excludes_mustRaise_witness :
    AutoSegment.canReduce topSpinDb 0 = true ∧
    (AutoSegment.reduce topSpinDb 0).1 = true ∧
    (Kite.Session.reduceRaiseLoop (fun _ => true) topSpinDb [0, 0]).2
      = [Kite.Step.reduce 0, Kite.Step.addRemoveEvent 0,
         Kite.Step.reduce 0, Kite.Step.addRemoveEvent 0] ∧
    (((AutoSegment.reduce topSpinDb 0).2.segment 0).segIsReduced = true ∧
      AutoSegment.mustRaise (AutoSegment.reduce topSpinDb 0).2 0 = false) ∧
    (∀ q, Kite.Step.reduce q ∈
        (Kite.Session.reduceRaiseLoop (fun _ => true) topSpinDb [0, 0]).2 →
      Kite.Step.raise q ∉
        (Kite.Session.reduceRaiseLoop (fun _ => true) topSpinDb [0, 0]).2) :=
  ⟨by decide, by decide, by decide,
   (canReduce_excludes_mustRaise topSpinDb 0 (fun _ => true) [0, 0]).2.1 (by decide),
   (canReduce_excludes_mustRaise topSpinDb 0 (fun _ => true) [0, 0]).2.2⟩

/-! ## `AutoSegment::invalidate` -/

/-- What `_invalidate` does: the invalidated nets stay, the segment is pushed on the
pending list unless it carries the flag, and it carries the flag afterwards; the flags of
the other segments stay. -/
theorem invalidate_one (st : Session × Db) (p : Nat) :
    (AutoSegment._invalidate st p).1.netInvalidateds = st.1.netInvalidateds ∧
    (AutoSegment._invalidate st p).1.segmentInvalidateds
      = (if (st.2.segment p).segInvalidated then st.1.segmentInvalidateds
         else st.1.segmentInvalidateds ++ [p]) ∧
    (∀ q, ((AutoSegment._invalidate st p).2.segment q).segInvalidated
      = ((st.2.segment q).segInvalidated || decide (q = p))) := by
  unfold AutoSegment._invalidate
  by_cases h : (st.2.segment p).segInvalidated = true
  · rw [if_pos h, if_pos h]
    refine ⟨rfl, rfl, fun q => ?_⟩
    by_cases hq : q = p
    · rw [hq, h]
      rfl
    · simp [hq]
  · rw [if_neg h, if_neg h]
    refine ⟨by simp [StaticOp.body], by simp [StaticOp.body], fun q => ?_⟩
    by_cases hq : q = p
    · simp [Db.modifySegment, hq]
    · simp [Db.modifySegment, hq]

/-- The function `_invalidate` keeps the pending list in agreement with the flags. -/
theorem invalidate_one_pendingOk (st : Session × Db) (p : Nat) (h : PendingOk st) :
    PendingOk (AutoSegment._invalidate st p) := by
  obtain ⟨_, h2, h3⟩ := invalidate_one st p
  unfold PendingOk
  rw [h2]
  by_cases hp : (st.2.segment p).segInvalidated = true
  · rw [if_pos hp]
    refine ⟨h.1, fun q hq => ?_⟩
    rw [h3, h.2 q hq]
    rfl
  · rw [if_neg hp]
    have hnot : p ∉ st.1.segmentInvalidateds := fun hm => hp (h.2 p hm)
    refine ⟨?_, fun q hq => ?_⟩
    · rw [List.nodup_append]
      refine ⟨h.1, List.nodup_singleton p, ?_⟩
      intro a ha hb
      rw [List.mem_singleton] at hb
      exact hnot (hb ▸ ha)
    · rw [h3]
      rcases List.mem_append.mp hq with hq | hq
      · rw [h.2 q hq]
        rfl
      · rw [List.mem_singleton] at hq
        simp [hq]

/-- The loop of `invalidate` on the aligned segments: the invalidated nets stay, segments
without the flag are pushed on the pending list, flags are only set, and the pending list
stays in agreement with the flags. -/
theorem invalidate_loop :
    ∀ (l : List Nat) (st : Session × Db),
      (l.foldl AutoSegment._invalidate st).1.netInvalidateds = st.1.netInvalidateds ∧
      (∃ others, (l.foldl AutoSegment._invalidate st).1.segmentInvalidateds
          = st.1.segmentInvalidateds ++ others ∧
        ∀ q ∈ others, (st.2.segment q).segInvalidated = false) ∧
      (∀ q, (st.2.segment q).segInvalidated = true →
        ((l.foldl AutoSegment._invalidate st).2.segment q).segInvalidated = true) ∧
      (PendingOk st → PendingOk (l.foldl AutoSegment._invalidate st)) := by
  intro l
  induction l with
  | nil =>
    intro st
    exact ⟨rfl, ⟨[], by simp, fun q hq => absurd hq (List.not_mem_nil q)⟩,
      fun _ h => h, fun h => h⟩
  | cons a l ih =>
    intro st
    simp only [List.foldl_cons]
    obtain ⟨h1, h2, h3⟩ := invalidate_one st a
    obtain ⟨k1, ⟨others, k2, k2'⟩, k3, k4⟩ := ih (AutoSegment._invalidate st a)
    have hmono : ∀ q, (st.2.segment q).segInvalidated = true →
        ((AutoSegment._invalidate st a).2.segment q).segInvalidated = true := by
      intro q hq
      rw [h3, hq]
      rfl
    have hback : ∀ q, ((AutoSegment._invalidate st a).2.segment q).segInvalidated = false →
        (st.2.segment q).segInvalidated = false := by
      intro q hq
      cases hs : (st.2.segment q).segInvalidated
      · rfl
      · rw [hmono q hs] at hq
        cases hq
    refine ⟨k1.trans h1, ?_, fun q hq => k3 q (hmono q hq),
      fun h => k4 (invalidate_one_pendingOk st a h)⟩
    by_cases ha : (st.2.segment a).segInvalidated = true
    · refine ⟨others, ?_, fun q hq => hback q (k2' q hq)⟩
      rw [k2, h2]
      simp [ha]
    · refine ⟨a :: others, ?_, ?_⟩
      · rw [k2, h2]
        simp [ha]
      · intro q hq
        rcases List.mem_cons.mp hq with hq | hq
        · rw [hq]
          simpa using ha
        · exact hback q (k2' q hq)

/-- Lines 419-420 of `invalidate` change no layer and no `SegInvalidated` flag. -/
theorem invalidateEnds_frame (db : Db) (p : Nat) (flags : KbFlags) :
    LayerFrame db (invalidateEnds db p flags) [] ∧
    ∀ q, ((invalidateEnds db p flags).segment q).segInvalidated
      = (db.segment q).segInvalidated := by
  unfold invalidateEnds
  refine ⟨⟨?_, ?_, fun q => ?_, fun q _ => ?_⟩, fun q => ?_⟩
  · split_ifs <;> rfl
  · split_ifs <;> rfl
  · split_ifs <;> simp only [Db.modifySegment] <;> split_ifs <;> rfl
  · split_ifs <;> simp only [Db.modifySegment] <;> split_ifs <;> rfl
  · split_ifs <;> simp only [Db.modifySegment] <;> split_ifs <;> rfl

/-- C22 (counterexample). In scenario E with a session where nothing is pending, segment 0
(of net 0, not invalidated) is invalidated with `KbPropagate`: it takes the flag and is
pushed on the pending list, with segment 1 aligned with it, and no net is invalidated in
the session. -/
theorem invalidate_leaves_net_alone :
    scenarioEDb.doDestroyTool = false ∧
    (scenarioEDb.segment 0).segInvalidated = false ∧
    (scenarioEDb.segment 0).net = 0 ∧
    ((AutoSegment.invalidate (idleSession, scenarioEDb) 0 KbFlags.propagateOnly).2.segment 0).segInvalidated = true ∧
    (AutoSegment.invalidate (idleSession, scenarioEDb) 0 KbFlags.propagateOnly).1.segmentInvalidateds = [0, 1] ∧
    (AutoSegment.invalidate (idleSession, scenarioEDb) 0 KbFlags.propagateOnly).1.netInvalidateds = [] := by
  decide

/-- C22 (amended). Outside tool destruction, `invalidate(flags)` on a segment that is not
invalidated sets its `SegInvalidated` flag and pushes it exactly once on the pending list
of the session, followed (with `KbPropagate`) by aligned segments that were not
invalidated, and by nothing without `KbPropagate`; on an invalidated segment it leaves the
session as it is; in both cases the invalidated nets of the session stay as they are; and
a pending list where every segment carries the flag and appears once stays so. -/
theorem invalidate_appends_once (st : Session × Db) (p : Nat) (flags : KbFlags)
    (htool : st.2.doDestroyTool = false) :
    ((st.2.segment p).segInvalidated = false →
      ((AutoSegment.invalidate st p flags).2.segment p).segInvalidated = true ∧
      ∃ others, (AutoSegment.invalidate st p flags).1.segmentInvalidateds
          = st.1.segmentInvalidateds ++ p :: others ∧
        p ∉ others ∧ (flags.propagate = false → others = [])) ∧
    ((st.2.segment p).segInvalidated = true →
      (AutoSegment.invalidate st p flags).1 = st.1) ∧
    (AutoSegment.invalidate st p flags).1.netInvalidateds = st.1.netInvalidateds ∧
    (PendingOk st → PendingOk (AutoSegment.invalidate st p flags)) := by
  obtain ⟨db2, hflag, hform⟩ : ∃ db2 : Db,
      (∀ q, (db2.segment q).segInvalidated = (st.2.segment q).segInvalidated) ∧
      AutoSegment.invalidate st p flags =
        if (db2.segment p).segInvalidated then (st.1, db2)
        else if (flags.propagate && !((AutoSegment._invalidate (st.1, db2) p).2.segment
            p).isNotAligned) = true then
          ((AutoSegment._invalidate (st.1, db2) p).2.aligneds p).foldl
            AutoSegment._invalidate (AutoSegment._invalidate (st.1, db2) p)
        else AutoSegment._invalidate (st.1, db2) p := by
    refine ⟨invalidateEnds st.2 p flags, (invalidateEnds_frame st.2 p flags).2, ?_⟩
    unfold AutoSegment.invalidate
    simp only [htool, Bool.false_eq_true, if_false]
  have hok2 : PendingOk st → PendingOk (st.1, db2) := by
    intro h
    exact ⟨h.1, fun q hq => (hflag q).trans (h.2 q hq)⟩
  obtain ⟨o1, o2, o3⟩ := invalidate_one (st.1, db2) p
  obtain ⟨l1, ⟨others, l2, l2'⟩, l3, l4⟩ := invalidate_loop
    ((AutoSegment._invalidate (st.1, db2) p).2.aligneds p)
    (AutoSegment._invalidate (st.1, db2) p)
  have hp1 : ((AutoSegment._invalidate (st.1, db2) p).2.segment p).segInvalidated = true := by
    rw [o3]
    simp
  rw [hform]
  refine ⟨?_, ?_, ?_, ?_⟩
  · intro hinv
    have h2 : (db2.segment p).segInvalidated = false := (hflag p).trans hinv
    have o2' : (AutoSegment._invalidate (st.1, db2) p).1.segmentInvalidateds
        = st.1.segmentInvalidateds ++ [p] := by
      rw [o2]
      simp [h2]
    simp only [h2, Bool.false_eq_true, if_false]
    split_ifs with hprop
    · refine ⟨l3 p hp1, others, ?_, ?_, ?_⟩
      · rw [l2, o2']
        simp
      · intro hm
        have := l2' p hm
        rw [hp1] at this
        cases this
      · intro hf
        simp [hf] at hprop
    · exact ⟨hp1, [], by rw [o2'], List.not_mem_nil p, fun _ => rfl⟩
  · intro hinv
    have h2 : (db2.segment p).segInvalidated = true := (hflag p).trans hinv
    simp only [h2, if_true]
  · split_ifs
    · rfl
    · rw [l1, o1]
    · rw [o1]
  · intro hok
    split_ifs
    · exact hok2 hok
    · exact l4 (invalidate_one_pendingOk _ p (hok2 hok))
    · exact invalidate_one_pendingOk _ p (hok2 hok)

/-- C22 (amended) on scenario E: segment 0, not invalidated, with `KbPropagate`. -/
theorem invalidate_appends_once_witness :
    scenarioEDb.doDestroyTool = false ∧
    (scenarioEDb.segment 0).segInvalidated = false ∧
    ((AutoSegment.invalidate (idleSession, scenarioEDb) 0 KbFlags.propagateOnly).2.segment 0).segInvalidated = true ∧
    ∃ others, (AutoSegment.invalidate (idleSession, scenarioEDb) 0
          KbFlags.propagateOnly).1.segmentInvalidateds
        = idleSession.segmentInvalidateds ++ 0 :: others ∧
      0 ∉ others ∧ (KbFlags.propagateOnly.propagate = false → others = []) :=
  ⟨rfl, rfl,
   (invalidate_appends_once (idleSession, scenarioEDb) 0 KbFlags.propagateOnly rfl).1 rfl⟩

/-! ## `AutoSegment::moveUp` and `moveDown` -/

/-- Two frames in a row. -/
theorem layerFrame_trans {d e f : Db} {l : List Nat} (h1 : LayerFrame d e l)
    (h2 : LayerFrame e f l) : LayerFrame d f l :=
  ⟨h2.1.trans h1.1, h2.2.1.trans h1.2.1, fun q => (h2.2.2.1 q).trans (h1.2.2.1 q),
   fun q hq => (h2.2.2.2 q hq).trans (h1.2.2.2 q hq)⟩

/-- A frame on fewer segments is a frame on more. -/
theorem layerFrame_mono {d e : Db} {l m : List Nat} (h : LayerFrame d e l)
    (hlm : ∀ q, q ∈ l → q ∈ m) : LayerFrame d e m :=
  ⟨h.1, h.2.1, h.2.2.1, fun q hq => h.2.2.2 q (fun hl => hq (hlm q hl))⟩

/-- The function `_invalidate` changes no layer. -/
theorem invalidate_one_layerFrame (st : Session × Db) (p : Nat) :
    LayerFrame st.2 (AutoSegment._invalidate st p).2 [] := by
  unfold AutoSegment._invalidate
  split_ifs
  · exact ⟨rfl, rfl, fun _ => rfl, fun _ _ => rfl⟩
  · refine ⟨rfl, rfl, fun q => ?_, fun q _ => ?_⟩
    · simp only [Db.modifySegment]
      split_ifs <;> rfl
    · simp only [Db.modifySegment]
      split_ifs <;> rfl

/-- The loop of `invalidate` changes no layer. -/
theorem invalidate_loop_layerFrame :
    ∀ (l : List Nat) (st : Session × Db),
      LayerFrame st.2 (l.foldl AutoSegment._invalidate st).2 [] := by
  intro l
  induction l with
  | nil => intro st; exact ⟨rfl, rfl, fun _ => rfl, fun _ _ => rfl⟩
  | cons a l ih =>
    intro st
    simp only [List.foldl_cons]
    exact layerFrame_trans (invalidate_one_layerFrame st a) (ih _)

/-- The function `invalidate` changes no layer. -/
theorem invalidate_layerFrame (st : Session × Db) (p : Nat) (flags : KbFlags) :
    LayerFrame st.2 (AutoSegment.invalidate st p flags).2 [] := by
  have hpre := (invalidateEnds_frame st.2 p flags).1
  unfold AutoSegment.invalidate
  simp only []
  split_ifs with h1 h2 h3
  · exact ⟨rfl, rfl, fun _ => rfl, fun _ _ => rfl⟩
  · exact hpre
  · exact layerFrame_trans hpre
      (layerFrame_trans (invalidate_one_layerFrame (st.1, _) p)
        (invalidate_loop_layerFrame _ _))
  · exact layerFrame_trans hpre (invalidate_one_layerFrame (st.1, _) p)

/-- The function `_changeDepth` without `KbWithNeighbors` puts the segment on the routing
layer of the depth and changes no other layer. -/
theorem changeDepthAlone_layer (st : Session × Db) (p depth : Nat) :
    LayerFrame st.2 (AutoSegment._changeDepthAlone st p depth).2 [p] ∧
    ((AutoSegment._changeDepthAlone st p depth).2.segment p).layer
      = st.2.routingGauge.routingLayer depth := by
  obtain ⟨i1, i2, i3, i4⟩ := invalidate_layerFrame st p KbFlags.none
  unfold AutoSegment._changeDepthAlone
  simp only []
  split_ifs with h
  · refine ⟨⟨?_, ?_, fun q => ?_, fun q hq => ?_⟩, ?_⟩
    · exact i1
    · exact i2
    · rw [← i3 q]
      simp only [AutoContact.invalidate, AutoSegment.setLayer, Db.modifySegment]
      split_ifs <;> rfl
    · rw [← i4 q (List.not_mem_nil q)]
      have hqp : q ≠ p := fun h => hq (h ▸ List.mem_cons_self _ _)
      simp [AutoContact.invalidate, AutoSegment.setLayer, Db.modifySegment, hqp]
    · rw [← i1]
      simp [AutoContact.invalidate, AutoSegment.setLayer, Db.modifySegment]
  · refine ⟨⟨?_, ?_, fun q => ?_, fun q hq => ?_⟩, ?_⟩
    · exact i1
    · exact i2
    · rw [← i3 q]
      simp only [Db.modifySegment]
      split_ifs <;> rfl
    · rw [← i4 q (List.not_mem_nil q)]
      have hqp : q ≠ p := fun h => hq (h ▸ List.mem_cons_self _ _)
      simp [Db.modifySegment, hqp]
    · rw [← i1]
      have h' := not_not.mp h
      rw [h']
      rfl

/-- The loop of `changeDepth` on the aligned segments, without `KbWithNeighbors`: every
segment of the list ends on the routing layer of the depth, a segment that was on it stays
on it, and no other layer changes. -/
theorem changeDepth_loop (depth : Nat) (flags : KbFlags) (hf : flags.withNeighbors = false) :
    ∀ (l : List Nat) (st : Session × Db),
      LayerFrame st.2
        (l.foldl (fun s q => AutoSegment._changeDepth s q depth flags) st).2 l ∧
      (∀ q, (q ∈ l ∨ (st.2.segment q).layer = st.2.routingGauge.routingLayer depth) →
        ((l.foldl (fun s q => AutoSegment._changeDepth s q depth flags) st).2.segment q).layer
          = st.2.routingGauge.routingLayer depth) := by
  intro l
  induction l with
  | nil =>
    intro st
    refine ⟨⟨rfl, rfl, fun _ => rfl, fun _ _ => rfl⟩, fun q hq => ?_⟩
    rcases hq with hq | hq
    · exact absurd hq (List.not_mem_nil q)
    · exact hq
  | cons a l ih =>
    intro st
    simp only [List.foldl_cons]
    have hone : AutoSegment._changeDepth st a depth flags
        = AutoSegment._changeDepthAlone st a depth := by
      unfold AutoSegment._changeDepth
      simp [hf]
    rw [hone]
    obtain ⟨f1, f2⟩ := changeDepthAlone_layer st a depth
    obtain ⟨g1, g2⟩ := ih (AutoSegment._changeDepthAlone st a depth)
    rw [f1.1] at g2
    refine ⟨layerFrame_trans
        (layerFrame_mono f1 (fun q hq => by
          rw [List.mem_singleton] at hq
          exact hq ▸ List.mem_cons_self _ _))
        (layerFrame_mono g1 (fun q hq => List.mem_cons_of_mem _ hq)), fun q hq => ?_⟩
    apply g2
    by_cases hqa : q = a
    · right
      rw [hqa]
      exact f2
    · rcases hq with hq | hq
      · rcases List.mem_cons.mp hq with h | h
        · exact absurd h hqa
        · exact Or.inl h
      · right
        rw [f1.2.2.2 q (by simpa using hqa)]
        exact hq

/-- The function `changeDepth` without `KbWithNeighbors`: the segment ends on the routing
layer of the depth; with `KbPropagate` so does every segment aligned with it; without
`KbPropagate` no other segment changes layer. -/
theorem changeDepth_layer (st : Session × Db) (p depth : Nat) (flags : KbFlags)
    (hf : flags.withNeighbors = false) :
    ((AutoSegment.changeDepth st p depth flags).2.segment p).layer
      = st.2.routingGauge.routingLayer depth ∧
    (flags.propagate = true → ∀ q ∈ st.2.alignedsNoCheckLayerOf p,
      ((AutoSegment.changeDepth st p depth flags).2.segment q).layer
        = st.2.routingGauge.routingLayer depth) ∧
    (flags.propagate = false → ∀ q, q ≠ p →
      ((AutoSegment.changeDepth st p depth flags).2.segment q).layer
        = (st.2.segment q).layer) := by
  have hone : AutoSegment._changeDepth
      (((StaticOp.invalidateNet (st.2.segment p).net).body st.1).2.1, st.2) p depth
        { flags with propagate := false }
      = AutoSegment._changeDepthAlone
          (((StaticOp.invalidateNet (st.2.segment p).net).body st.1).2.1, st.2) p depth := by
    unfold AutoSegment._changeDepth
    simp [hf]
  obtain ⟨f1, f2⟩ := changeDepthAlone_layer
    (((StaticOp.invalidateNet (st.2.segment p).net).body st.1).2.1, st.2) p depth
  obtain ⟨g1, g2⟩ := changeDepth_loop depth { flags with propagate := false } hf
    ((AutoSegment._changeDepthAlone
      (((StaticOp.invalidateNet (st.2.segment p).net).body st.1).2.1, st.2) p depth).2.alignedsNoCheckLayer
        p)
    (AutoSegment._changeDepthAlone
      (((StaticOp.invalidateNet (st.2.segment p).net).body st.1).2.1, st.2) p depth)
  rw [f1.1] at g2
  unfold AutoSegment.changeDepth
  simp only []
  rw [hone]
  refine ⟨?_, ?_, ?_⟩
  · split_ifs
    · exact g2 p (Or.inr f2)
    · exact f2
  · intro hprop q hq
    unfold Db.alignedsNoCheckLayerOf at hq
    by_cases hna : (st.2.segment p).isNotAligned = true
    · rw [if_pos hna] at hq
      exact absurd hq (List.not_mem_nil q)
    · rw [if_neg hna] at hq
      have hna' : ((AutoSegment._changeDepthAlone
          (((StaticOp.invalidateNet (st.2.segment p).net).body st.1).2.1, st.2) p
            depth).2.segment p).isNotAligned = false := by
        rw [f1.2.2.1 p]
        simpa using hna
      simp only [hprop, hna', Bool.not_false, Bool.and_self, if_true]
      apply g2
      left
      rw [f1.2.1]
      exact hq
  · intro hprop q hq
    simp only [hprop, Bool.false_and, Bool.false_eq_true, if_false]
    exact f1.2.2.2 q (by simpa using hq)

/-- C23 (counterexample). Segments 0 and 1 are aligned with each other on layer 2 of a
gauge of five layers. After `moveUp` and after `moveDown` without `KbPropagate` in the
flags, segment 0 is on layer 4, respectively 0, and segment 1 is still on layer 2. -/
theorem moveUp_without_propagate_leaves_aligned :
    fiveLayerDb.alignedsNoCheckLayerOf 0 = [1] ∧
    fiveLayerDb.alignedsOf 0 = [1] ∧
    (fiveLayerDb.segment 0).layer = 2 ∧ (fiveLayerDb.segment 1).layer = 2 ∧
    ((AutoSegment.moveUp (idleSession, fiveLayerDb) 0 KbFlags.none).2.2.segment 0).layer = 4 ∧
    ((AutoSegment.moveUp (idleSession, fiveLayerDb) 0 KbFlags.none).2.2.segment 1).layer = 2 ∧
    ((AutoSegment.moveDown (idleSession, fiveLayerDb) 0 KbFlags.none).2.2.segment 0).layer
      = 0 ∧
    ((AutoSegment.moveDown (idleSession, fiveLayerDb) 0 KbFlags.none).2.2.segment 1).layer
      = 2 := by
  decide

/-- C23 (amended). Both `moveUp(flags)` and `moveDown(flags)` return true and move the
segment to the routing layer at the depth of its layer plus 2, respectively minus 2
(computed on `unsigned int`: the depth minus 2 when the depth is at least 2). With
`KbPropagate` in the flags, every segment aligned with it (`getAligneds(KbNoCheckLayer)`)
is moved to that layer too; without `KbPropagate`, no other segment changes layer. -/
theorem moveUp_moves_aligned_with_propagate (st : Session × Db) (p : Nat) (flags : KbFlags) :
    (AutoSegment.moveUp st p flags).1 = true ∧
    (AutoSegment.moveDown st p flags).1 = true ∧
    ((AutoSegment.moveUp st p flags).2.2.segment p).layer
      = st.2.routingGauge.routingLayer
          ((st.2.routingGauge.layerDepth (st.2.segment p).layer + 2) % 2 ^ 32) ∧
    ((AutoSegment.moveDown st p flags).2.2.segment p).layer
      = st.2.routingGauge.routingLayer
          ((st.2.routingGauge.layerDepth (st.2.segment p).layer + (2 ^ 32 - 2)) % 2 ^ 32) ∧
    (flags.propagate = true → ∀ q ∈ st.2.alignedsNoCheckLayerOf p,
      ((AutoSegment.moveUp st p flags).2.2.segment q).layer
        = st.2.routingGauge.routingLayer
            ((st.2.routingGauge.layerDepth (st.2.segment p).layer + 2) % 2 ^ 32) ∧
      ((AutoSegment.moveDown st p flags).2.2.segment q).layer
        = st.2.routingGauge.routingLayer
            ((st.2.routingGauge.layerDepth (st.2.segment p).layer + (2 ^ 32 - 2))
              % 2 ^ 32)) ∧
    (flags.propagate = false → ∀ q, q ≠ p →
      ((AutoSegment.moveUp st p flags).2.2.segment q).layer = (st.2.segment q).layer ∧
      ((AutoSegment.moveDown st p flags).2.2.segment q).layer = (st.2.segment q).layer) ∧
    (st.2.routingGauge.layerDepth (st.2.segment p).layer + 2 < 2 ^ 32 →
      (st.2.routingGauge.layerDepth (st.2.segment p).layer + 2) % 2 ^ 32
        = st.2.routingGauge.layerDepth (st.2.segment p).layer + 2) ∧
    (2 ≤ st.2.routingGauge.layerDepth (st.2.segment p).layer →
      st.2.routingGauge.layerDepth (st.2.segment p).layer < 2 ^ 32 →
      (st.2.routingGauge.layerDepth (st.2.segment p).layer + (2 ^ 32 - 2)) % 2 ^ 32
        = st.2.routingGauge.layerDepth (st.2.segment p).layer - 2) := by
  obtain ⟨u1, u2, u3⟩ := changeDepth_layer st p
    ((st.2.routingGauge.layerDepth (st.2.segment p).layer + 2) % 2 ^ 32)
    { KbFlags.none with propagate := flags.propagate } rfl
  obtain ⟨d1, d2, d3⟩ := changeDepth_layer st p
    ((st.2.routingGauge.layerDepth (st.2.segment p).layer + (2 ^ 32 - 2)) % 2 ^ 32)
    { KbFlags.none with propagate := flags.propagate } rfl
  refine ⟨rfl, rfl, u1, d1, fun hp q hq => ⟨u2 hp q hq, d2 hp q hq⟩,
    fun hp q hq => ⟨u3 hp q hq, d3 hp q hq⟩, fun h => Nat.mod_eq_of_lt h, fun h1 h2 => ?_⟩
  omega

/-- C23 (amended) on two aligned segments on layer 2 of a gauge of five layers, with
`KbPropagate`: both end on layer 4 after `moveUp`, on layer 0 after `moveDown`. -/
theorem moveUp_moves_aligned_with_propagate_witness :
    KbFlags.propagateOnly.propagate = true ∧ 1 ∈ fiveLayerDb.alignedsNoCheckLayerOf 0 ∧
    ((AutoSegment.moveUp (idleSession, fiveLayerDb) 0 KbFlags.propagateOnly).2.2.segment
      1).layer = 4 ∧
    ((AutoSegment.moveDown (idleSession, fiveLayerDb) 0 KbFlags.propagateOnly).2.2.segment
      1).layer = 0 :=
  ⟨rfl, by decide,
   (moveUp_moves_aligned_with_propagate (idleSession, fiveLayerDb) 0
     KbFlags.propagateOnly).2.2.2.2.1 rfl 1 (by decide)⟩

/-! ## The medians of `AttractorsMap` -/

/-- A position of the expansion is a key of the map. -/
theorem mem_expand_key : ∀ (l : List (Int × Nat)) (x : Int),
    x ∈ expand l → x ∈ l.map Prod.fst := by
  intro l
  induction l with
  | nil => intro x hx; exact absurd hx (List.not_mem_nil x)
  | cons a l ih =>
    intro x hx
    obtain ⟨k, c⟩ := a
    simp only [expand, List.mem_append] at hx
    rcases hx with hx | hx
    · rw [(List.mem_replicate.mp hx).2]
      exact List.mem_cons_self _ _
    · exact List.mem_cons_of_mem _ (ih x hx)

/-- The keys after `mapIncrement`. -/
theorem mapIncrement_keys : ∀ (l : List (Int × Nat)) (x y : Int),
    y ∈ (mapIncrement l x).map Prod.fst → y = x ∨ y ∈ l.map Prod.fst := by
  intro l
  induction l with
  | nil =>
    intro x y hy
    simp only [mapIncrement, List.map_cons, List.map_nil, List.mem_singleton] at hy
    exact Or.inl hy
  | cons a l ih =>
    intro x y hy
    obtain ⟨k, c⟩ := a
    simp only [mapIncrement] at hy
    split_ifs at hy with h1 h2
    · simp only [List.map_cons, List.mem_cons] at hy ⊢
      exact hy
    · simp only [List.map_cons, List.mem_cons] at hy ⊢
      exact Or.inr hy
    · simp only [List.map_cons, List.mem_cons] at hy ⊢
      rcases hy with hy | hy
      · exact Or.inr (Or.inl hy)
      · rcases ih x y hy with h | h
        · exact Or.inl h
        · exact Or.inr (Or.inr h)

/-- The function `mapIncrement` keeps the keys in increasing order. -/
theorem mapIncrement_sorted : ∀ (l : List (Int × Nat)) (x : Int),
    (l.map Prod.fst).Pairwise (fun a b => a < b) →
    ((mapIncrement l x).map Prod.fst).Pairwise (fun a b => a < b) := by
  intro l
  induction l with
  | nil =>
    intro x _
    simp [mapIncrement]
  | cons a l ih =>
    intro x h
    obtain ⟨k, c⟩ := a
    simp only [List.map_cons, List.pairwise_cons] at h
    simp only [mapIncrement]
    split_ifs with h1 h2
    · simp only [List.map_cons, List.pairwise_cons, List.mem_cons]
      refine ⟨?_, h.1, h.2⟩
      intro y hy
      rcases hy with hy | hy
      · rw [hy]
        exact h1
      · exact lt_trans h1 (h.1 y hy)
    · simp only [List.map_cons, List.pairwise_cons]
      exact h
    · simp only [List.map_cons, List.pairwise_cons]
      refine ⟨?_, ih x h.2⟩
      intro y hy
      rcases mapIncrement_keys l x y hy with hy | hy
      · rw [hy]
        exact lt_of_le_of_ne (not_lt.mp h1) (fun e => h2 e.symm)
      · exact h.1 y hy

/-- The function `mapIncrement` adds one occurrence of the position. -/
theorem mapIncrement_expand : ∀ (l : List (Int × Nat)) (x : Int),
    (expand (mapIncrement l x)).Perm (x :: expand l) := by
  intro l
  induction l with
  | nil =>
    intro x
    simp [mapIncrement, expand]
  | cons a l ih =>
    intro x
    obtain ⟨k, c⟩ := a
    simp only [mapIncrement]
    split_ifs with h1 h2
    · simp [expand]
    · rw [h2]
      simp [expand, List.replicate_succ]
    · simp only [expand]
      refine (List.Perm.append_left _ (ih x)).trans ?_
      exact List.perm_middle

/-- The expansion of a map with increasing keys is in increasing order. -/
theorem expand_sorted : ∀ (l : List (Int × Nat)),
    (l.map Prod.fst).Pairwise (fun a b => a < b) →
    (expand l).Sorted (fun a b => a ≤ b) := by
  intro l
  induction l with
  | nil => intro _; exact List.sorted_nil
  | cons a l ih =>
    intro h
    obtain ⟨k, c⟩ := a
    simp only [List.map_cons, List.pairwise_cons] at h
    simp only [expand]
    unfold List.Sorted
    rw [List.pairwise_append]
    refine ⟨?_, ih h.2, ?_⟩
    · rw [List.pairwise_replicate]
      exact Or.inr le_rfl
    · intro x hx y hy
      rw [(List.mem_replicate.mp hx).2]
      exact le_of_lt (h.1 y (mem_expand_key l y hy))

/-- The map built from a list of positions: its keys are in increasing order, its
expansion is the list up to the order, its count is the length of the list. -/
theorem ofList_invariant (ps : List Int) :
    ((AttractorsMap.ofList ps).attractors.map Prod.fst).Pairwise (fun a b => a < b) ∧
    (expand (AttractorsMap.ofList ps).attractors).Perm ps ∧
    (AttractorsMap.ofList ps).attractorsCount = ps.length := by
  have key : ∀ (l : List Int) (m : AttractorsMap) (acc : List Int),
      (m.attractors.map Prod.fst).Pairwise (fun a b => a < b) →
      (expand m.attractors).Perm acc → m.attractorsCount = acc.length →
      ((l.foldl AttractorsMap.addAttractor m).attractors.map Prod.fst).Pairwise
        (fun a b => a < b) ∧
      (expand (l.foldl AttractorsMap.addAttractor m).attractors).Perm (acc ++ l) ∧
      (l.foldl AttractorsMap.addAttractor m).attractorsCount = (acc ++ l).length := by
    intro l
    induction l with
    | nil =>
      intro m acc h1 h2 h3
      simp only [List.foldl_nil, List.append_nil]
      exact ⟨h1, h2, h3⟩
    | cons a l ih =>
      intro m acc h1 h2 h3
      simp only [List.foldl_cons]
      have := ih (m.addAttractor a) (acc ++ [a]) (mapIncrement_sorted _ a h1)
        ((mapIncrement_expand _ a).trans
          ((List.Perm.cons a h2).trans (List.perm_append_singleton a acc).symm))
        (by simp [AttractorsMap.addAttractor, h3])
      simpa using this
  have := key ps AttractorsMap.empty [] (by simp [AttractorsMap.empty])
    (by simp [AttractorsMap.empty, expand]) rfl
  simpa using this

/-- The loop of `getLowerMedian` returns the position of rank `median` of the expansion,
counting from the sum so far. -/
theorem scanLower_rank (median : Nat) : ∀ (l : List (Int × Nat)) (lower : Nat),
    lower < median → scanLower median l lower = (expand l)[median - 1 - lower]? := by
  intro l
  induction l with
  | nil => intro lower _; rfl
  | cons a l ih =>
    intro lower h
    obtain ⟨k, c⟩ := a
    simp only [scanLower, expand]
    split_ifs with h1
    · rw [List.getElem?_append_left (by simp; omega)]
      rw [List.getElem?_replicate]
      rw [if_pos (by omega)]
    · rw [List.getElem?_append_right (by simp; omega)]
      rw [ih (lower + c) (by omega)]
      congr 1
      simp
      omega

/-- The loop of `getUpperMedian` is the loop of `getLowerMedian` for the next rank. -/
theorem scanUpper_eq_scanLower (median : Nat) : ∀ (l : List (Int × Nat)) (upper : Nat),
    scanUpper median l upper = scanLower (median + 1) l upper := by
  intro l
  induction l with
  | nil => intro _; rfl
  | cons a l ih =>
    intro upper
    obtain ⟨k, c⟩ := a
    simp only [scanUpper, scanLower]
    rw [ih]
    by_cases h : upper + c > median
    · rw [if_pos h, if_pos (by omega)]
    · rw [if_neg h, if_neg (by omega)]

/-- C29. For the map built by `addAttractor` on a non-empty list of positions (n
positions, counted with multiplicity), `getLowerMedian` and `getUpperMedian` return
positions (no scan reaches the end of the map): the elements of rank ceil(n/2) and
floor(n/2)+1 of the list sorted in ascending order (ranks from 1, so indices
(n+1)/2 - 1 and n/2); both are positions of the list, the lower median is at most the
upper one, and they are equal when n is odd. -/
theorem medians_have_claimed_ranks (ps : List Int) (h : ps ≠ []) :
    (AttractorsMap.ofList ps).attractorsCount = ps.length ∧
    ∃ lo up,
      (AttractorsMap.ofList ps).getLowerMedian = some lo ∧
      (AttractorsMap.ofList ps).getUpperMedian = some up ∧
      (ps.insertionSort (fun a b => a ≤ b))[(ps.length + 1) / 2 - 1]? = some lo ∧
      (ps.insertionSort (fun a b => a ≤ b))[ps.length / 2]? = some up ∧
      lo ∈ ps ∧ up ∈ ps ∧ lo ≤ up ∧ (ps.length % 2 = 1 → lo = up) := by
  obtain ⟨h1, h2, h3⟩ := ofList_invariant ps
  have hn : 0 < ps.length := List.length_pos.mpr h
  have hsorted : expand (AttractorsMap.ofList ps).attractors
      = ps.insertionSort (fun a b => a ≤ b) :=
    List.eq_of_perm_of_sorted (h2.trans (List.perm_insertionSort _ ps).symm)
      (expand_sorted _ h1) (List.sorted_insertionSort _ ps)
  have hlen : (ps.insertionSort (fun a b => a ≤ b)).length = ps.length :=
    List.length_insertionSort _ ps
  have hi1 : (ps.length + 1) / 2 - 1 < (ps.insertionSort (fun a b => a ≤ b)).length := by
    rw [hlen]
    omega
  have hi2 : ps.length / 2 < (ps.insertionSort (fun a b => a ≤ b)).length := by
    rw [hlen]
    omega
  have hlo : (AttractorsMap.ofList ps).getLowerMedian
      = (ps.insertionSort (fun a b => a ≤ b))[(ps.length + 1) / 2 - 1]? := by
    unfold AttractorsMap.getLowerMedian
    rw [scanLower_rank _ _ 0 (by rw [h3]; omega), hsorted, h3]
    congr 1
    omega
  have hup : (AttractorsMap.ofList ps).getUpperMedian
      = (ps.insertionSort (fun a b => a ≤ b))[ps.length / 2]? := by
    unfold AttractorsMap.getUpperMedian
    rw [scanUpper_eq_scanLower, scanLower_rank _ _ 0 (by omega), hsorted, h3]
    congr 1
  refine ⟨h3, (ps.insertionSort (fun a b => a ≤ b))[(ps.length + 1) / 2 - 1],
    (ps.insertionSort (fun a b => a ≤ b))[ps.length / 2], ?_, ?_, ?_, ?_, ?_, ?_, ?_, ?_⟩
  · rw [hlo]
    exact List.getElem?_eq_getElem hi1
  · rw [hup]
    exact List.getElem?_eq_getElem hi2
  · exact List.getElem?_eq_getElem hi1
  · exact List.getElem?_eq_getElem hi2
  · exact (List.perm_insertionSort _ ps).subset (List.getElem_mem _)
  · exact (List.perm_insertionSort _ ps).subset (List.getElem_mem _)
  · have hs := List.sorted_insertionSort (fun a b : Int => a ≤ b) ps
    by_cases he : (ps.length + 1) / 2 - 1 = ps.length / 2
    · simp only [he]
      exact le_rfl
    · exact List.pairwise_iff_getElem.mp hs _ _ hi1 hi2 (by omega)
  · intro hodd
    have he : (ps.length + 1) / 2 - 1 = ps.length / 2 := by omega
    simp only [he]

/-- C29 on the positions 30, 10, 20, 10: the lower median is 10 (rank 2) and the upper
median is 20 (rank 3). -/
theorem medians_have_claimed_ranks_witness :
    [30, 10, 20, 10] ≠ ([] : List Int) ∧
    (AttractorsMap.ofList [30, 10, 20, 10]).getLowerMedian = some 10 ∧
    (AttractorsMap.ofList [30, 10, 20, 10]).getUpperMedian = some 20 ∧
    (AttractorsMap.ofList [30, 10, 20, 10]).attractorsCount = [30, 10, 20, 10].length :=
  ⟨by decide, by decide, by decide,
   (medians_have_claimed_ranks [30, 10, 20, 10] (by decide)).1⟩

/-! ## Where the net is invalidated -/

/-- The function `invalidate` leaves the invalidated nets of the session. -/
theorem invalidate_nets (st : Session × Db) (p : Nat) (flags : KbFlags) :
    (AutoSegment.invalidate st p flags).1.netInvalidateds = st.1.netInvalidateds := by
  unfold AutoSegment.invalidate
  simp only []
  split_ifs
  · rfl
  · rfl
  · rw [(invalidate_loop _ _).1, (invalidate_one _ p).1]
  · rw [(invalidate_one _ p).1]

/-- The function `_changeDepth` without `KbWithNeighbors` leaves the invalidated nets. -/
theorem changeDepthAlone_nets (st : Session × Db) (p depth : Nat) :
    (AutoSegment._changeDepthAlone st p depth).1.netInvalidateds = st.1.netInvalidateds := by
  unfold AutoSegment._changeDepthAlone
  simp only []
  split_ifs <;> exact invalidate_nets st p KbFlags.none

/-- The loops of `_changeDepth` on the neighbours leave the invalidated nets. -/
theorem changeDepthNeighbor_nets (p depth : Nat) :
    ∀ (l : List Nat) (st : Session × Db),
      (l.foldl (changeDepthNeighbor p depth) st).1.netInvalidateds
        = st.1.netInvalidateds := by
  intro l
  induction l with
  | nil => intro st; rfl
  | cons a l ih =>
    intro st
    simp only [List.foldl_cons]
    rw [ih]
    unfold changeDepthNeighbor
    split_ifs
    · rfl
    · rfl
    · rfl
    · exact changeDepthAlone_nets st a depth
    · exact changeDepthAlone_nets st a _

/-- The function `_changeDepth` leaves the invalidated nets. -/
theorem changeDepth_one_nets (st : Session × Db) (p depth : Nat) (flags : KbFlags) :
    (AutoSegment._changeDepth st p depth flags).1.netInvalidateds
      = st.1.netInvalidateds := by
  unfold AutoSegment._changeDepth
  simp only []
  split_ifs
  · exact changeDepthAlone_nets st p depth
  · show (List.foldl (changeDepthNeighbor p depth) _ _).1.netInvalidateds = _
    rw [changeDepthNeighbor_nets, changeDepthNeighbor_nets]
    exact changeDepthAlone_nets st p depth

/-- The function `changeDepth`, and so `moveUp` and `moveDown`, invalidates the net of the
segment in the session: the nets are invalidated by the callers of `invalidate`. -/
theorem changeDepth_marks_net (st : Session × Db) (p depth : Nat) (flags : KbFlags) :
    (AutoSegment.changeDepth st p depth flags).1.netInvalidateds
      = setInsert st.1.netInvalidateds (st.2.segment p).net := by
  have hloop : ∀ (l : List Nat) (s : Session × Db),
      (l.foldl (fun s q => AutoSegment._changeDepth s q depth
        { flags with propagate := false }) s).1.netInvalidateds = s.1.netInvalidateds := by
    intro l
    induction l with
    | nil => intro s; rfl
    | cons a l ih =>
      intro s
      simp only [List.foldl_cons]
      rw [ih, changeDepth_one_nets]
  unfold AutoSegment.changeDepth
  simp only []
  split_ifs
  · rw [hloop, changeDepth_one_nets]
    simp [StaticOp.body]
  · rw [changeDepth_one_nets]
    simp [StaticOp.body]

end Katabatic -- sessions

/-! # Properties of the power rails -/

namespace Kite

open Katabatic

/-- Two closed intervals that share a point: the points of the smallest interval that holds
both are the points of the two. -/
theorem hull_hasPoint (a b : Interval) (ha : a.vMin ≤ a.vMax) (hb : b.vMin ≤ b.vMax)
    (h1 : b.vMin ≤ a.vMax) (h2 : a.vMin ≤ b.vMax) (x : ℚ) :
    Interval.hasPoint (Interval.merge a b) x ↔
      Interval.hasPoint a x ∨ Interval.hasPoint b x := by
  have hne : b.isEmpty = false := by
    unfold Katabatic.Interval.isEmpty
    simpa using hb
  unfold Interval.merge Interval.hasPoint
  simp only [hne, Bool.false_eq_true, if_false, Int.cast_min, Int.cast_max]
  have ha' : (a.vMin : ℚ) ≤ a.vMax := by exact_mod_cast ha
  have hb' : (b.vMin : ℚ) ≤ b.vMax := by exact_mod_cast hb
  have h1' : (b.vMin : ℚ) ≤ a.vMax := by exact_mod_cast h1
  have h2' : (a.vMin : ℚ) ≤ b.vMax := by exact_mod_cast h2
  constructor
  · rintro ⟨k1, k2⟩
    rcases le_or_lt x (a.vMax : ℚ) with hx | hx
    · rcases le_or_lt (a.vMin : ℚ) x with hy | hy
      · exact Or.inl ⟨hy, hx⟩
      · right
        refine ⟨?_, by linarith⟩
        rcases min_le_iff.mp k1 with k | k
        · linarith
        · exact k
    · right
      refine ⟨by linarith, ?_⟩
      rcases le_max_iff.mp k2 with k | k
      · linarith
      · exact k
  · rintro (⟨k1, k2⟩ | ⟨k1, k2⟩)
    · exact ⟨min_le_iff.mpr (Or.inl k1), le_max_iff.mpr (Or.inl k2)⟩
    · exact ⟨min_le_iff.mpr (Or.inr k1), le_max_iff.mpr (Or.inr k2)⟩

/-- The bounds of the merge of two intervals, the second one not empty. -/
theorem merge_bounds (a b : Interval) (hb : b.vMin ≤ b.vMax) :
    (Interval.merge a b).vMin = min a.vMin b.vMin ∧
    (Interval.merge a b).vMax = max a.vMax b.vMax := by
  have hne : b.isEmpty = false := by
    unfold Katabatic.Interval.isEmpty
    simpa using hb
  unfold Interval.merge
  simp [hne]

/-- The second phase of `Rail::merge`: from a merged chunk that starts before the chunks
left and exceeds their starts only as far as `chunkToMerge` does, the result is separated,
covers the merged chunk and the chunks left, and starts no earlier. -/
theorem absorb_spec (c : Interval) :
    ∀ (rest : List Interval) (im : Interval),
      Separated rest → im.vMin ≤ im.vMax → c.vMax ≤ im.vMax →
      (∀ b ∈ rest, im.vMin < b.vMin) →
      (∀ b ∈ rest, c.vMax < b.vMin → im.vMax < b.vMin) →
      Separated (Rail.absorb c im rest) ∧
      (∀ x, covers (Rail.absorb c im rest) x ↔ Interval.hasPoint im x ∨ covers rest x) ∧
      (∀ L : Int, L < im.vMin → ∀ b ∈ Rail.absorb c im rest, L < b.vMin) := by
  intro rest
  induction rest with
  | nil =>
    intro im _ him _ _ _
    refine ⟨⟨?_, List.pairwise_singleton _ _⟩, fun x => ?_, fun L hL b hb => ?_⟩
    · intro a ha
      simp only [Rail.absorb, List.mem_singleton] at ha
      rw [ha]
      exact him
    · simp [Rail.absorb, covers]
    · simp only [Rail.absorb, List.mem_singleton] at hb
      rw [hb]
      exact hL
  | cons b rest ih =>
    intro im hsep him hc hlow hP
    have hb : b.vMin ≤ b.vMax := hsep.1 b (List.mem_cons_self _ _)
    have hsep' : Separated rest :=
      ⟨fun a ha => hsep.1 a (List.mem_cons_of_mem _ ha), (List.pairwise_cons.mp hsep.2).2⟩
    have hbrest : ∀ a ∈ rest, b.vMax < a.vMin := (List.pairwise_cons.mp hsep.2).1
    have hlb : im.vMin < b.vMin := hlow b (List.mem_cons_self _ _)
    simp only [Rail.absorb]
    by_cases hge : c.vMax ≥ b.vMin
    · rw [if_pos hge]
      obtain ⟨m1, m2⟩ := merge_bounds im b hb
      have hmin : (Interval.merge im b).vMin = im.vMin := by
        rw [m1]
        exact min_eq_left (le_of_lt hlb)
      obtain ⟨r1, r2, r3⟩ := ih (Interval.merge im b) hsep'
        (by rw [hmin, m2]; exact le_trans him (le_max_left _ _))
        (by rw [m2]; exact le_trans hc (le_max_left _ _))
        (by
          intro a ha
          rw [hmin]
          exact hlow a (List.mem_cons_of_mem _ ha))
        (by
          intro a ha hca
          rw [m2]
          exact max_lt (hP a (List.mem_cons_of_mem _ ha) hca) (hbrest a ha))
      refine ⟨r1, fun x => ?_, fun L hL => r3 L (by rw [hmin]; exact hL)⟩
      rw [r2 x, hull_hasPoint im b him hb (le_trans hge hc) (le_trans (le_of_lt hlb) hb) x]
      simp only [covers, List.mem_cons, exists_eq_or_imp]
      tauto
    · rw [if_neg hge]
      have hlt : c.vMax < b.vMin := not_le.mp hge
      refine ⟨⟨?_, ?_⟩, fun x => ?_, fun L hL a ha => ?_⟩
      · intro a ha
        rcases List.mem_cons.mp ha with h | h
        · rw [h]
          exact him
        · exact hsep.1 a h
      · refine List.pairwise_cons.mpr ⟨?_, hsep.2⟩
        intro a ha
        rcases List.mem_cons.mp ha with h | h
        · rw [h]
          exact hP b (List.mem_cons_self _ _) hlt
        · exact hP a (List.mem_cons_of_mem _ h)
            (lt_trans hlt (lt_of_le_of_lt hb (hbrest a h)))
      · simp only [covers, List.mem_cons, exists_eq_or_imp]
      · rcases List.mem_cons.mp ha with h | h
        · rw [h]
          exact hL
        · exact lt_trans hL (hlow a h)

/-- The loop of `Rail::merge` on separated chunks, for a chunk to merge that is not empty:
the result is separated, covers the chunks and the chunk to merge, and starts no earlier
than both. -/
theorem scan_spec (c : Interval) (hc : c.vMin ≤ c.vMax) :
    ∀ (chunks : List Interval), Separated chunks →
      Separated (Rail.scan c chunks) ∧
      (∀ x, covers (Rail.scan c chunks) x ↔ Interval.hasPoint c x ∨ covers chunks x) ∧
      (∀ L : Int, L < c.vMin → (∀ b ∈ chunks, L < b.vMin) →
        ∀ b ∈ Rail.scan c chunks, L < b.vMin) := by
  intro chunks
  induction chunks with
  | nil =>
    intro _
    refine ⟨⟨?_, List.pairwise_singleton _ _⟩, fun x => ?_, fun L hL _ b hb => ?_⟩
    · intro a ha
      simp only [Rail.scan, List.mem_singleton] at ha
      rw [ha]
      exact hc
    · simp [Rail.scan, covers]
    · simp only [Rail.scan, List.mem_singleton] at hb
      rw [hb]
      exact hL
  | cons a rest ih =>
    intro hsep
    have ha : a.vMin ≤ a.vMax := hsep.1 a (List.mem_cons_self _ _)
    have hsep' : Separated rest :=
      ⟨fun b hb => hsep.1 b (List.mem_cons_of_mem _ hb), (List.pairwise_cons.mp hsep.2).2⟩
    have harest : ∀ b ∈ rest, a.vMax < b.vMin := (List.pairwise_cons.mp hsep.2).1
    simp only [Rail.scan]
    by_cases hlt : c.vMax < a.vMin
    · rw [if_pos hlt]
      refine ⟨⟨?_, ?_⟩, fun x => ?_, fun L hL hLs b hb => ?_⟩
      · intro b hb
        rcases List.mem_cons.mp hb with h | h
        · rw [h]
          exact hc
        · exact hsep.1 b h
      · refine List.pairwise_cons.mpr ⟨?_, hsep.2⟩
        intro b hb
        rcases List.mem_cons.mp hb with h | h
        · rw [h]
          exact hlt
        · exact lt_trans hlt (lt_of_le_of_lt ha (harest b h))
      · simp only [covers, List.mem_cons, exists_eq_or_imp]
      · rcases List.mem_cons.mp hb with h | h
        · rw [h]
          exact hL
        · exact hLs b h
    · rw [if_neg hlt]
      have hge : a.vMin ≤ c.vMax := not_lt.mp hlt
      by_cases hint : c.intersect a = true
      · rw [if_pos hint]
        have hca : c.vMin ≤ a.vMax := by
          unfold Katabatic.Interval.intersect at hint
          simp only [Bool.and_eq_true, decide_eq_true_eq] at hint
          exact hint.2
        obtain ⟨m1, m2⟩ := merge_bounds a c hc
        obtain ⟨r1, r2, r3⟩ := absorb_spec c rest (Interval.merge a c) hsep'
          (by rw [m1, m2]; exact le_trans (min_le_left _ _) (le_trans ha (le_max_left _ _)))
          (by rw [m2]; exact le_max_right _ _)
          (by
            intro b hb
            rw [m1]
            exact lt_of_le_of_lt (min_le_left _ _) (lt_of_le_of_lt ha (harest b hb)))
          (by
            intro b hb hcb
            rw [m2]
            exact max_lt (harest b hb) hcb)
        refine ⟨r1, fun x => ?_, fun L hL hLs => r3 L (by
          rw [m1]
          exact lt_min (hLs a (List.mem_cons_self _ _)) hL)⟩
        rw [r2 x, hull_hasPoint a c ha hc hca hge x]
        simp only [covers, List.mem_cons, exists_eq_or_imp]
        tauto
      · rw [if_neg hint]
        have hac : a.vMax < c.vMin := by
          by_contra hn
          apply hint
          unfold Katabatic.Interval.intersect Katabatic.Interval.isEmpty
          simp only [Bool.and_eq_true, Bool.not_eq_true', decide_eq_false_iff_not, not_lt,
            decide_eq_true_eq]
          exact ⟨⟨⟨hc, ha⟩, hge⟩, not_lt.mp hn⟩
        obtain ⟨r1, r2, r3⟩ := ih hsep'
        refine ⟨⟨?_, ?_⟩, fun x => ?_, fun L hL hLs b hb => ?_⟩
        · intro b hb
          rcases List.mem_cons.mp hb with h | h
          · rw [h]
            exact ha
          · exact r1.1 b h
        · exact List.pairwise_cons.mpr ⟨r3 a.vMax hac harest, r1.2⟩
        · simp only [covers, List.mem_cons, exists_eq_or_imp] at r2 ⊢
          rw [r2 x]
          tauto
        · rcases List.mem_cons.mp hb with h | h
          · rw [h]
            exact hLs a (List.mem_cons_self _ _)
          · exact r3 L hL (fun b hb => hLs b (List.mem_cons_of_mem _ hb)) b h

/-- The chunks after a sequence of calls from given chunks. -/
theorem mergeAll_spec :
    ∀ (calls : List (Int × Int)) (chunks : List Interval), Separated chunks →
      Separated (calls.foldl (fun chunks c => Rail.merge chunks c.1 c.2) chunks) ∧
      ∀ x, covers (calls.foldl (fun chunks c => Rail.merge chunks c.1 c.2) chunks) x ↔
        covers chunks x ∨ ∃ c ∈ calls, Interval.hasPoint (Interval.ofBounds c.1 c.2) x := by
  intro calls
  induction calls with
  | nil =>
    intro chunks h
    exact ⟨h, fun x => by simp⟩
  | cons c calls ih =>
    intro chunks h
    simp only [List.foldl_cons]
    obtain ⟨s1, s2, _⟩ := scan_spec (Interval.ofBounds c.1 c.2)
      (le_trans (min_le_left _ _) (le_max_left _ _)) chunks h
    obtain ⟨r1, r2⟩ := ih (Rail.merge chunks c.1 c.2) s1
    refine ⟨r1, fun x => ?_⟩
    rw [r2 x]
    unfold Rail.merge
    rw [s2 x]
    simp only [List.mem_cons, exists_eq_or_imp]
    tauto

/-- C30. After any sequence of calls `merge(source, target)` on a rail that was empty, the
chunks are in increasing order of lower bound, no chunk is empty, every chunk ends strictly
before the start of every later one (so no two chunks intersect, nor share an end point),
and a point lies in a chunk exactly when it lies in one of the closed intervals
`Interval(source, target)` merged so far. -/
theorem rail_merge_keeps_chunks_separated (calls : List (Int × Int)) :
    (Rail.mergeAll calls).Pairwise (fun a b => a.vMin < b.vMin) ∧
    (∀ a ∈ Rail.mergeAll calls, a.vMin ≤ a.vMax) ∧
    (Rail.mergeAll calls).Pairwise (fun a b => a.vMax < b.vMin) ∧
    (Rail.mergeAll calls).Pairwise (fun a b => a.intersect b = false) ∧
    ∀ x : ℚ, covers (Rail.mergeAll calls) x ↔
      ∃ c ∈ calls, (((min c.1 c.2 : Int) : ℚ) ≤ x ∧ x ≤ ((max c.1 c.2 : Int) : ℚ)) := by
  obtain ⟨h1, h2⟩ := mergeAll_spec calls [] ⟨fun a ha => absurd ha (List.not_mem_nil a),
    List.Pairwise.nil⟩
  have hmem : ∀ {a b : Interval}, a ∈ Rail.mergeAll calls → b ∈ Rail.mergeAll calls →
      a.vMax < b.vMin → a.vMin < b.vMin ∧ a.intersect b = false := by
    intro a b ha _ hab
    refine ⟨lt_of_le_of_lt (h1.1 a ha) hab, ?_⟩
    unfold Katabatic.Interval.intersect
    simp only [Bool.and_eq_false_imp, Bool.and_eq_true, decide_eq_true_eq,
      decide_eq_false_iff_not, not_le]
    intro hba
    exact absurd hab (not_lt.mpr hba.2)
  refine ⟨?_, h1.1, h1.2, ?_, fun x => ?_⟩
  · exact (List.Pairwise.and_mem.mp h1.2).imp (fun ⟨ha, hb, hab⟩ => (hmem ha hb hab).1)
  · exact (List.Pairwise.and_mem.mp h1.2).imp (fun ⟨ha, hb, hab⟩ => (hmem ha hb hab).2)
  · have := h2 x
    unfold Rail.mergeAll
    rw [this]
    simp [covers, Interval.hasPoint, Interval.ofBounds]

/-- Three calls that end in one chunk, three that end in three, and two intervals that share
an end point only. -/
theorem mergeAll_examples :
    Rail.mergeAll [(0, 5), (20, 30), (25, 4)] = [{ vMin := 0, vMax := 30 }] ∧
    Rail.mergeAll [(10, 20), (0, 5), (6, 8)]
      = [{ vMin := 0, vMax := 5 }, { vMin := 6, vMax := 8 }, { vMin := 10, vMax := 20 }] ∧
    Rail.mergeAll [(0, 5), (5, 9)] = [{ vMin := 0, vMax := 9 }] := by
  decide

end Kite -- rails
